import Mathlib

/-!
# goa-json

A shallow embedding of the streaming parser (`Reader.hpp`), the streaming
writer (`Writer.hpp`) and the value model (`Value.hpp`) of goa-json.

Conventions of the embedding.

* A byte is a natural number below 256.  A `StringReadStream` is the list of
  bytes that have not been consumed yet: `hasNext`, `peek` and `next` are the
  three operations of `StringReadStream.hpp`, and a `ConstIterator` is the
  unread suffix itself.
* The view of a `StringReadStream` is a `std::string_view`, which need not be
  followed by a NUL.  The parser stays inside the view except in the conversion
  of a number, where `strtol` and `strtod` read from a raw pointer: the bytes
  that follow the view in memory are the parameter `mem` of the parsing
  functions (with a NUL after them; `mem = []` is a view that a NUL follows,
  as the contents of a `std::string` or a C string).
* A handler is any object with the eleven event methods.  A deterministic
  handler answers each call from the sequence of calls it has received so far,
  so it is embedded as a function from the call log (the current call last) to
  the boolean it returns.  Every parsing function threads the call log.
* A C++ exception `Exception(err)` is the result `Res.throw err`; a failed
  `assert` or an exception nobody catches is `Res.abort`.
* Recursion and loops of the parser run on a fuel counter; `Reader.parse`
  supplies enough fuel for its input (see `Reader.parse_fuel_enough`).
-/

namespace goa.json

/-! ## Exception.hpp -/

/-- Exception.hpp:78-101, the error kinds generated from ERROR_MAP -/
inductive ParseError where
  | PARSE_OK
  | PARSE_ROOT_NOT_SINGULAR
  | PARSE_BAD_VALUE
  | PARSE_EXPECT_VALUE
  | PARSE_NUMBER_TOO_BIG
  | PARSE_BAD_STRING_CHAR
  | PARSE_BAD_STRING_ESCAPE
  | PARSE_BAD_UNICODE_HEX
  | PARSE_BAD_UNICODE_SURROGATE
  | PARSE_MISS_QUOTATION_MARK
  | PARSE_MISS_COMMA_OR_SQUARE_BRACKET
  | PARSE_MISS_KEY
  | PARSE_MISS_COLON
  | PARSE_MISS_COMMA_OR_CURLY_BRACKET
  | PARSE_USER_STOPPED
  deriving DecidableEq, Repr

/-! ## Value.hpp: tags -/

/-- Value.hpp:16-25 -/
inductive ValueType where
  | TYPE_NULL
  | TYPE_BOOL
  | TYPE_INT32
  | TYPE_INT64
  | TYPE_DOUBLE
  | TYPE_STRING
  | TYPE_ARRAY
  | TYPE_OBJECT
  deriving DecidableEq, Repr

/-- The values of the C++ type `double` (IEEE-754 binary64): a NaN, the two
infinities, and the finite values `(-1)^neg * m * 2^e`.  A finite value is kept
normalised (`Dbl.normal`), so that equality of terms is equality of doubles up
to the payload of NaN. -/
inductive Dbl where
  | nan
  | inf (neg : Bool)
  | fin (neg : Bool) (m : Nat) (e : Int)
  deriving DecidableEq, Repr

/-- One call on a handler: the method and its argument (the eleven methods of
`Writer` and `Document`). -/
inductive Event where
  | Null
  | Bool (b : Bool)
  | Int32 (i32 : Int)
  | Int64 (i64 : Int)
  | Double (d : Dbl)
  | String (s : List Nat)
  | Key (s : List Nat)
  | StartObject
  | EndObject
  | StartArray
  | EndArray
  deriving DecidableEq, Repr

/-- A handler, given by the boolean it returns for each call: the argument is
the log of all calls made on it so far, the current call last. -/
abbrev Handler := List Event → Bool

/-- The handler that accepts every event (as `Writer` and `Document` do). -/
def Handler.accept : Handler := fun _ => true

/-! ## StringReadStream.hpp -/

/-- The unread part of the input: `iter_` up to `json_.end()`. -/
abbrev StringReadStream := List Nat

namespace StringReadStream

/-- StringReadStream.hpp:19 -/
def hasNext (is : StringReadStream) : Bool :=
  match is with
  | [] => false
  | _ :: _ => true

/-- StringReadStream.hpp:20, the NUL character at the end of the input -/
def peek (is : StringReadStream) : Nat :=
  match is with
  | [] => 0
  | c :: _ => c

/-- StringReadStream.hpp:22, the byte returned -/
def next (is : StringReadStream) : Nat :=
  match is with
  | [] => 0
  | c :: _ => c

/-- StringReadStream.hpp:22, the stream after `next()` (unchanged at the end
of the input) -/
def advance (is : StringReadStream) : StringReadStream :=
  match is with
  | [] => []
  | _ :: cs => cs

end StringReadStream

open StringReadStream

/-- What a parsing function of `Reader` does: it returns normally with the
stream and the handler's call log, or leaves by `throw Exception(err)`, or the
process is aborted (failed assertion, uncaught exception); `outOfFuel` is the
embedding's own: the fuel given did not suffice. -/
inductive Res where
  | ok (is : StringReadStream) (log : List Event)
  | throw (err : ParseError) (log : List Event)
  | abort (log : List Event)
  | outOfFuel
  deriving DecidableEq, Repr

/-- Sequencing of two parsing steps: the second runs only if the first
returned normally. -/
def Res.andThen (r : Res) (k : StringReadStream → List Event → Res) : Res :=
  match r with
  | .ok is log => k is log
  | .throw err log => .throw err log
  | .abort log => .abort log
  | .outOfFuel => .outOfFuel

/-- The handler's call log when control left the parsing function. -/
def Res.log : Res → List Event
  | .ok _ log => log
  | .throw _ log => log
  | .abort log => log
  | .outOfFuel => []

/-! ## The C library's integer conversion -/

/-- The three ways `__gnu_cxx::__stoa` ends: the converted value, or
`std::out_of_range` (the conversion set ERANGE), or `std::invalid_argument`
(nothing was converted). -/
inductive Stoa (α : Type) where
  | value (a : α)
  | out_of_range
  | invalid_argument
  deriving DecidableEq, Repr

namespace Libc

/-- `isspace` in the "C" locale -/
def isspace (c : Nat) : Bool := c = 32 || (9 ≤ c && c ≤ 13)

/-- Leading white space skipped by `strtol` -/
def skipSpace : List Nat → List Nat
  | [] => []
  | c :: cs => if isspace c then skipSpace cs else c :: cs

/-- The value of a run of decimal digits read left to right, starting from the
accumulator `acc`; reading stops at the first byte that is not a digit. -/
def digitsValue : Nat → List Nat → Nat
  | acc, [] => acc
  | acc, c :: cs => if 48 ≤ c ∧ c ≤ 57 then digitsValue (acc * 10 + (c - 48)) cs else acc

/-- `strtol(s, &idx, 10)` through `__stoa` for the 64-bit `long`: optional
white space, optional sign, the longest run of decimal digits. -/
def strtol (s : List Nat) : Stoa Int :=
  let s := skipSpace s
  let neg := decide (peek s = 45)
  let s := if peek s = 45 ∨ peek s = 43 then advance s else s
  if 48 ≤ peek s ∧ peek s ≤ 57 then
    let n := digitsValue 0 s
    let v : Int := if neg then -(n : Int) else (n : Int)
    if v < -(2 : Int) ^ 63 ∨ (2 : Int) ^ 63 - 1 < v then .out_of_range else .value v
  else .invalid_argument

end Libc

/-! ## The C library's conversions between `double` and decimal text

`strtod` and `sprintf("%.17g")` are not code of the repository.  They are
modelled exactly, in integer arithmetic, from the C standard and IEEE-754
(round to nearest, ties to even). -/

/-- The number of binary digits of `n` (0 for 0), on `fuel` rounds -/
def bitLengthFuel : Nat → Nat → Nat
  | 0, _ => 0
  | fuel + 1, n => if n = 0 then 0 else bitLengthFuel fuel (n / 2) + 1

/-- The number of binary digits of `n` (0 for 0) -/
def bitLength (n : Nat) : Nat := bitLengthFuel n n

/-- The number of decimal digits of `n` (0 for 0), on `fuel` rounds -/
def decLengthFuel : Nat → Nat → Nat
  | 0, _ => 0
  | fuel + 1, n => if n = 0 then 0 else decLengthFuel fuel (n / 10) + 1

/-- The number of decimal digits of `n` (0 for 0) -/
def decLength (n : Nat) : Nat := decLengthFuel n n

/-- The decimal digits of `n` as characters, most significant first, padded
with zeros on the left to `width` digits (`width` digits exactly when
`n < 10 ^ width`) -/
def decDigits : Nat → Nat → List Nat
  | 0, _ => []
  | width + 1, n => decDigits width (n / 10) ++ [48 + n % 10]

/-- The quotient `num / den` rounded to the nearest integer, ties to even -/
def roundHalfEven (num den : Nat) : Nat :=
  let q := num / den
  let r := num % den
  if 2 * r < den then q
  else if den < 2 * r then q + 1
  else if q % 2 = 0 then q else q + 1

/-- The fraction `num / (den * b ^ e)` as a pair numerator, denominator -/
def scaleBy (b : Nat) (num den : Nat) (e : Int) : Nat × Nat :=
  if 0 ≤ e then (num, den * b ^ e.toNat) else (num * b ^ (-e).toNat, den)

/-- The floor of the base-2 logarithm of the positive fraction `num / den` -/
def floorLog2 (num den : Nat) : Int :=
  let k : Int := (bitLength num : Int) - (bitLength den : Int)
  let s := scaleBy 2 num den k
  if s.1 < s.2 then k - 1 else k

/-- The floor of the base-10 logarithm of the positive fraction `num / den` -/
def floorLog10 (num den : Nat) : Int :=
  let k : Int := (decLength num : Int) - (decLength den : Int)
  let s := scaleBy 10 num den k
  if s.1 < s.2 then k - 1 else k

/-- The finite doubles in normal form: 53 bits of mantissa, the exponent of
the last bit between -1074 and 971, a leading bit set unless the exponent is
the least one (zero and the subnormal numbers). -/
def Dbl.normal : Dbl → Bool
  | .fin _ m e => decide (m < 2 ^ 53) && decide (-1074 ≤ e) && decide (e ≤ 971) &&
      (decide (2 ^ 52 ≤ m) || decide (e = -1074))
  | _ => true

namespace Libc

/-- The double nearest to `(-1)^neg * num / den` (ties to even), or none when
the conversion reports ERANGE: the result overflows, or it is tiny (below
`2 ^ -1022` after rounding to 53 bits) and inexact. -/
def roundToDouble (neg : Bool) (num den : Nat) : Option Dbl :=
  if num = 0 then some (.fin neg 0 (-1074))
  else
    let e1 : Int := floorLog2 num den - 52
    let s1 := scaleBy 2 num den e1
    let m1 := roundHalfEven s1.1 s1.2
    let m2 := if m1 = 2 ^ 53 then 2 ^ 52 else m1
    let e2 : Int := if m1 = 2 ^ 53 then e1 + 1 else e1
    if 971 < e2 then none
    else if -1074 ≤ e2 then some (.fin neg m2 e2)
    else
      let s := scaleBy 2 num den (-1074)
      if s.1 % s.2 = 0 then some (.fin neg (s.1 / s.2) (-1074)) else none

/-- The longest run of decimal digits at the head of the text -/
def takeDigits : List Nat → List Nat
  | [] => []
  | c :: cs => if 48 ≤ c ∧ c ≤ 57 then c :: takeDigits cs else []

/-- The text after the longest run of decimal digits at its head -/
def dropDigits : List Nat → List Nat
  | [] => []
  | c :: cs => if 48 ≤ c ∧ c ≤ 57 then dropDigits cs else c :: cs

/-- The exponent part `[eE][+-]?digits` at the head of the text, 0 when there
is none -/
def exponentValue (s : List Nat) : Int :=
  if peek s = 101 ∨ peek s = 69 then
    let t := advance s
    let neg := decide (peek t = 45)
    let t := if peek t = 45 ∨ peek t = 43 then advance t else t
    if 48 ≤ peek t ∧ peek t ≤ 57 then
      if neg then -(digitsValue 0 t : Int) else (digitsValue 0 t : Int)
    else 0
  else 0

/-- `strtod(s, &idx)` through `__stoa` on a decimal floating constant
`[+-]? digits [. digits] [(e|E) [+-]? digits]` (hexadecimal constants and the
words `inf` and `nan`, which the parser never passes, are not modelled). -/
def strtod (s : List Nat) : Stoa Dbl :=
  let neg := decide (peek s = 45)
  let s := if peek s = 45 ∨ peek s = 43 then advance s else s
  let ip := takeDigits s
  let s := dropDigits s
  let fp := if peek s = 46 then takeDigits (advance s) else []
  let s := if peek s = 46 then dropDigits (advance s) else s
  if ip = [] ∧ fp = [] then .invalid_argument
  else
    let n := digitsValue 0 (ip ++ fp)
    let e : Int := exponentValue s - (fp.length : Int)
    let q := scaleBy 10 n 1 (-e)
    match roundToDouble neg q.1 q.2 with
    | some d => .value d
    | none => .out_of_range

/-- The length of the exponent part `[eE][+-]?digits` at the head of the
text, 0 when there is none -/
def exponentLength (s : List Nat) : Nat :=
  if peek s = 101 ∨ peek s = 69 then
    let t := advance s
    let sign := if peek t = 45 ∨ peek t = 43 then 1 else 0
    let t := if peek t = 45 ∨ peek t = 43 then advance t else t
    if 48 ≤ peek t ∧ peek t ≤ 57 then 1 + sign + (takeDigits t).length else 0
  else 0

/-- The `idx` that `strtod(s, &idx)` reports through `__stoa`: the number of
bytes of the longest decimal floating constant at the head of `s` -/
def strtodEnd (s : List Nat) : Nat :=
  let sign := if peek s = 45 ∨ peek s = 43 then 1 else 0
  let s := if peek s = 45 ∨ peek s = 43 then advance s else s
  let ip := takeDigits s
  let s := dropDigits s
  let point := if peek s = 46 then 1 else 0
  let fp := if peek s = 46 then takeDigits (advance s) else []
  let s := if peek s = 46 then dropDigits (advance s) else s
  sign + ip.length + point + fp.length + exponentLength s

/-- A digit string without its trailing zeros -/
def stripZeros (ds : List Nat) : List Nat :=
  (ds.reverse.dropWhile (fun c => c = 48)).reverse

/-- A fractional part as printed by `%g`: trailing zeros removed, and the
decimal point only if a digit remains -/
def fraction (ds : List Nat) : List Nat :=
  if stripZeros ds = [] then [] else 46 :: stripZeros ds

/-- `sprintf(buf, "%.17g", d)` for a finite double `(-1)^neg * m * 2^e`: the
value is rounded to 17 significant digits with decimal exponent `x`; the style
is scientific when `x < -4` or `x >= 17` (exponent of at least two digits) and
fixed otherwise; trailing zeros of the fraction are removed. -/
def sprintf17g (neg : Bool) (m : Nat) (e : Int) : List Nat :=
  let sign : List Nat := if neg then [45] else []
  if m = 0 then sign ++ [48]
  else
    let v := scaleBy 2 m 1 (-e)
    let x1 := floorLog10 v.1 v.2
    let s := scaleBy 10 v.1 v.2 (x1 - 16)
    let d1 := roundHalfEven s.1 s.2
    let d := if d1 = 10 ^ 17 then 10 ^ 16 else d1
    let x : Int := if d1 = 10 ^ 17 then x1 + 1 else x1
    let ds := decDigits 17 d
    if x < -4 ∨ 17 ≤ x then
      sign ++ ds.take 1 ++ fraction (ds.drop 1) ++ [101] ++ (if x < 0 then [45] else [43]) ++
        decDigits (max 2 (decLength x.natAbs)) x.natAbs
    else if 0 ≤ x then
      sign ++ ds.take (x.toNat + 1) ++ fraction (ds.drop (x.toNat + 1))
    else
      sign ++ [48] ++ fraction (List.replicate ((-x).toNat - 1) 48 ++ ds)

end Libc

/-- Text for examples: the bytes of an ASCII string -/
def bytes (s : String) : List Nat := s.toList.map Char.toNat

/-! ## Reader.hpp -/

namespace Reader

/-- Reader.hpp:46, the macro CALL applied to one handler call: the call is
made (and logged); if the handler answers false, PARSE_USER_STOPPED is
thrown. -/
def CALL (h : Handler) (ev : Event) (is : StringReadStream) (log : List Event) : Res :=
  if h (log ++ [ev]) then .ok is (log ++ [ev]) else .throw .PARSE_USER_STOPPED (log ++ [ev])

/-- Reader.hpp:383 -/
def isDigit (ch : Nat) : Bool := 48 ≤ ch && ch ≤ 57

/-- Reader.hpp:386 -/
def isDigit19 (ch : Nat) : Bool := 49 ≤ ch && ch ≤ 57

/-- Reader.hpp:58-63, one round of the loop of parseHex4 after `u <<= 4`: the
digit value or-ed into `u`, or none for the default case. -/
def hexDigit (u ch : Nat) : Option Nat :=
  if 48 ≤ ch ∧ ch ≤ 57 then some (u ||| (ch - 48))
  else if 97 ≤ ch ∧ ch ≤ 102 then some (u ||| (ch - 97 + 10))
  else if 65 ≤ ch ∧ ch ≤ 70 then some (u ||| (ch - 65 + 10))
  else none

/-- Reader.hpp:56-64, the loop of parseHex4 with `n` rounds left -/
def parseHex4Loop : Nat → Nat → StringReadStream → Except ParseError (Nat × StringReadStream)
  | 0, u, is => .ok (u, is)
  | n + 1, u, is =>
    match hexDigit (u <<< 4) (next is) with
    | some u1 => parseHex4Loop n u1 (advance is)
    | none => .error .PARSE_BAD_UNICODE_HEX

/-- Reader.hpp:54-66 -/
def parseHex4 (is : StringReadStream) : Except ParseError (Nat × StringReadStream) :=
  parseHex4Loop 4 0 is

/-- Reader.hpp:70-76; white space is ' ', '\t', '\r', '\n' -/
def parseWhiteSpace : StringReadStream → StringReadStream
  | [] => []
  | ch :: is => if ch = 32 ∨ ch = 9 ∨ ch = 13 ∨ ch = 10 then parseWhiteSpace is else ch :: is

/-- Reader.hpp:86-89, the loop of parseLiteral: the part of the literal not
matched and the stream where matching stopped -/
def literalLoop : List Nat → StringReadStream → List Nat × StringReadStream
  | [], is => ([], is)
  | l :: ls, is => if l = peek is then literalLoop ls (advance is) else (l :: ls, is)

/-- Reader.hpp:82-106.  `literal` is the C string without its final NUL. -/
def parseLiteral (h : Handler) (is : StringReadStream) (log : List Event)
    (literal : List Nat) (type : ValueType) : Res :=
  let ch := literal.headD 0
  let is := advance is
  let r := literalLoop literal.tail is
  if r.1 = [] then
    match type with
    | .TYPE_NULL => CALL h .Null r.2 log
    | .TYPE_BOOL => CALL h (.Bool (decide (ch = 116))) r.2 log
    | .TYPE_DOUBLE => CALL h (.Double (if ch = 78 then Dbl.nan else Dbl.inf false)) r.2 log
    | _ => .abort log
  else .throw .PARSE_BAD_VALUE log

/-- The C strings "null", "true", "false", "NaN", "Infinity" -/
def lit_null : List Nat := [110, 117, 108, 108]
/-- See lit_null -/
def lit_true : List Nat := [116, 114, 117, 101]
/-- See lit_null -/
def lit_false : List Nat := [102, 97, 108, 115, 101]
/-- See lit_null -/
def lit_NaN : List Nat := [78, 97, 78]
/-- See lit_null -/
def lit_Infinity : List Nat := [73, 110, 102, 105, 110, 105, 116, 121]

/-- Reader.hpp:136, 148, 158: `while (isDigit(is.peek())) is.next();` -/
def skipDigits : StringReadStream → StringReadStream
  | [] => []
  | ch :: is => if isDigit ch then skipDigits is else ch :: is

/-- Reader.hpp:183-231, the test `start == end`, then the conversion of the
token that starts at `start` and ends at `stop` (the stream position after the
token), and the handler call.  `strtod` and `strtol` are given the raw pointer
`&*start` and no length: they read the unread part of the view and then the
memory `mem` that follows the view.  `assert(start + idx == end)` of line 200
is the test that `strtod` stopped where the token ends. -/
def convertNumber (mem : List Nat) (h : Handler) (start stop : StringReadStream) (log : List Event)
    (expectType : ValueType) : Res :=
  if start.length = stop.length then .throw .PARSE_BAD_VALUE log
  else if expectType = .TYPE_DOUBLE then
    match Libc.strtod (start ++ mem) with
    | .value d =>
      if Libc.strtodEnd (start ++ mem) + stop.length = start.length then
        CALL h (.Double d) stop log
      else .abort log
    | .out_of_range => .throw .PARSE_NUMBER_TOO_BIG log
    | .invalid_argument => .abort log
  else
    match Libc.strtol (start ++ mem) with
    | .value i64 =>
      if expectType = .TYPE_INT64 then CALL h (.Int64 i64) stop log
      else if expectType = .TYPE_INT32 then
        if i64 > 2147483647 ∨ i64 < -2147483648 then .throw .PARSE_NUMBER_TOO_BIG log
        else CALL h (.Int32 i64) stop log
      else if i64 ≤ 2147483647 ∧ i64 ≥ -2147483648 then CALL h (.Int32 i64) stop log
      else CALL h (.Int64 i64) stop log
    | .out_of_range => .throw .PARSE_NUMBER_TOO_BIG log
    | .invalid_argument => .abort log

/-- Reader.hpp:161-181, the type suffix -/
def parseNumberSuffix (mem : List Nat) (h : Handler) (start is : StringReadStream) (log : List Event)
    (expectType : ValueType) : Res :=
  if peek is = 105 then
    let is := advance is
    if expectType = .TYPE_DOUBLE then .throw .PARSE_BAD_VALUE log
    else if next is = 51 then
      if next (advance is) ≠ 50 then .throw .PARSE_BAD_VALUE log
      else convertNumber mem h start (advance (advance is)) log .TYPE_INT32
    else if next is = 54 then
      if next (advance is) ≠ 52 then .throw .PARSE_BAD_VALUE log
      else convertNumber mem h start (advance (advance is)) log .TYPE_INT64
    else .throw .PARSE_BAD_VALUE log
  else convertNumber mem h start is log expectType

/-- Reader.hpp:151-159, the exponent -/
def parseNumberExp (mem : List Nat) (h : Handler) (start is : StringReadStream) (log : List Event)
    (expectType : ValueType) : Res :=
  if peek is = 101 ∨ peek is = 69 then
    let is := advance is
    let is := if peek is = 43 ∨ peek is = 45 then advance is else is
    if !isDigit (peek is) then .throw .PARSE_BAD_VALUE log
    else parseNumberSuffix mem h start (skipDigits (advance is)) log .TYPE_DOUBLE
  else parseNumberSuffix mem h start is log expectType

/-- Reader.hpp:141-149, the fraction; `expectType` starts as TYPE_NULL -/
def parseNumberFrac (mem : List Nat) (h : Handler) (start is : StringReadStream) (log : List Event) : Res :=
  if peek is = 46 then
    let is := advance is
    if !isDigit (peek is) then .throw .PARSE_BAD_VALUE log
    else parseNumberExp mem h start (skipDigits is) log .TYPE_DOUBLE
  else parseNumberExp mem h start is log .TYPE_NULL

/-- Reader.hpp:116-232 -/
def parseNumber (mem : List Nat) (h : Handler) (is : StringReadStream) (log : List Event) : Res :=
  if peek is = 78 then parseLiteral h is log lit_NaN .TYPE_DOUBLE
  else if peek is = 73 then parseLiteral h is log lit_Infinity .TYPE_DOUBLE
  else
    let start := is
    let is := if peek is = 45 then advance is else is
    if peek is = 48 then
      let is := advance is
      if isDigit (peek is) then .throw .PARSE_BAD_VALUE log
      else parseNumberFrac mem h start is log
    else if isDigit19 (peek is) then
      parseNumberFrac mem h start (skipDigits (advance is)) log
    else .throw .PARSE_BAD_VALUE log

/-- Reader.hpp:433-461; `push_back` keeps the low eight bits.  The result is
none when the assertion of the default case fails. -/
def encodeUtf8 (buffer : List Nat) (u : Nat) : Option (List Nat) :=
  if u ≤ 0x7F then
    some (buffer ++ [(u &&& 0xFF) % 256])
  else if u ≤ 0x7FF then
    some (buffer ++ [(0xC0 ||| ((u >>> 6) &&& 0xFF)) % 256, (0x80 ||| (u &&& 0x3F)) % 256])
  else if u ≤ 0xFFFF then
    some (buffer ++ [(0xE0 ||| ((u >>> 12) &&& 0xFF)) % 256,
      (0x80 ||| ((u >>> 6) &&& 0x3F)) % 256, (0x80 ||| (u &&& 0x3F)) % 256])
  else if u ≤ 0x10FFFF then
    some (buffer ++ [(0xF0 ||| ((u >>> 18) &&& 0xFF)) % 256,
      (0x80 ||| ((u >>> 12) &&& 0x3F)) % 256, (0x80 ||| ((u >>> 6) &&& 0x3F)) % 256,
      (0x80 ||| (u &&& 0x3F)) % 256])
  else none

/-- Reader.hpp:261-277, the escape `\u` after its two characters: the code
point to encode and the stream after the escape -/
def parseUnicode (is : StringReadStream) : Except ParseError (Nat × StringReadStream) :=
  match parseHex4 is with
  | .error err => .error err
  | .ok (u, is) =>
    if 0xD800 ≤ u ∧ u ≤ 0xDBFF then
      if next is ≠ 92 then .error .PARSE_BAD_UNICODE_SURROGATE
      else if next (advance is) ≠ 117 then .error .PARSE_BAD_UNICODE_SURROGATE
      else
        match parseHex4 (advance (advance is)) with
        | .error err => .error err
        | .ok (u2, is) =>
          if 0xDC00 ≤ u2 ∧ u2 ≤ 0xDFFF then
            .ok (0x10000 + (u - 0xD800) * 0x400 + (u2 - 0xDC00), is)
          else .error .PARSE_BAD_UNICODE_SURROGATE
    else .ok (u, is)

/-- What the switch on the character after a backslash does: the loop goes on
with a longer buffer, or an exception is thrown, or an assertion fails. -/
inductive Escape where
  | next (is : StringReadStream) (buffer : List Nat)
  | throw (err : ParseError)
  | abort
  deriving DecidableEq, Repr

/-- Reader.hpp:252-281, the switch on the character after a backslash -/
def parseEscape (is : StringReadStream) (buffer : List Nat) : Escape :=
  let ch := next is
  let is := advance is
  if ch = 34 then .next is (buffer ++ [34])
  else if ch = 92 then .next is (buffer ++ [92])
  else if ch = 47 then .next is (buffer ++ [47])
  else if ch = 98 then .next is (buffer ++ [8])
  else if ch = 102 then .next is (buffer ++ [12])
  else if ch = 110 then .next is (buffer ++ [10])
  else if ch = 114 then .next is (buffer ++ [13])
  else if ch = 116 then .next is (buffer ++ [9])
  else if ch = 117 then
    match parseUnicode is with
    | .error err => .throw err
    | .ok (u, is) =>
      match encodeUtf8 buffer u with
      | some buffer => .next is buffer
      | none => .abort
  else .throw .PARSE_BAD_STRING_ESCAPE

/-- Reader.hpp:240-286, the loop of parseString with the string built so far
in `buffer` -/
def parseStringLoop (h : Handler) (isKey : Bool) :
    Nat → StringReadStream → List Nat → List Event → Res
  | 0, _, _, _ => .outOfFuel
  | fuel + 1, is, buffer, log =>
    if !hasNext is then .throw .PARSE_MISS_QUOTATION_MARK log
    else
      let ch := next is
      let is := advance is
      if ch = 34 then
        if isKey then CALL h (.Key buffer) is log else CALL h (.String buffer) is log
      else if 1 ≤ ch ∧ ch ≤ 31 then .throw .PARSE_BAD_STRING_CHAR log
      else if ch = 92 then
        match parseEscape is buffer with
        | .next is buffer => parseStringLoop h isKey fuel is buffer log
        | .throw err => .throw err log
        | .abort => .abort log
      else parseStringLoop h isKey fuel is (buffer ++ [ch]) log

/-- Reader.hpp:237-287.  Every round of the loop consumes a byte, so the
length of the input bounds the number of rounds. -/
def parseString (h : Handler) (is : StringReadStream) (log : List Event) (isKey : Bool) : Res :=
  parseStringLoop h isKey is.length (advance is) [] log

mutual

/-- Reader.hpp:366-379 -/
def parseValue (mem : List Nat) (h : Handler) : Nat → StringReadStream → List Event → Res
  | 0, _, _ => .outOfFuel
  | fuel + 1, is, log =>
    if !hasNext is then .throw .PARSE_EXPECT_VALUE log
    else if peek is = 110 then parseLiteral h is log lit_null .TYPE_NULL
    else if peek is = 116 then parseLiteral h is log lit_true .TYPE_BOOL
    else if peek is = 102 then parseLiteral h is log lit_false .TYPE_BOOL
    else if peek is = 34 then parseString h is log false
    else if peek is = 91 then parseArray mem h fuel is log
    else if peek is = 123 then parseObject mem h fuel is log
    else parseNumber mem h is log

/-- Reader.hpp:292-317 -/
def parseArray (mem : List Nat) (h : Handler) : Nat → StringReadStream → List Event → Res
  | 0, _, _ => .outOfFuel
  | fuel + 1, is, log =>
    (CALL h .StartArray is log).andThen fun is log =>
      let is := parseWhiteSpace (advance is)
      if peek is = 93 then CALL h .EndArray (advance is) log
      else parseArrayLoop mem h fuel is log

/-- Reader.hpp:303-316, the loop `while (true)` of parseArray -/
def parseArrayLoop (mem : List Nat) (h : Handler) : Nat → StringReadStream → List Event → Res
  | 0, _, _ => .outOfFuel
  | fuel + 1, is, log =>
    (parseValue mem h fuel is log).andThen fun is log =>
      let is := parseWhiteSpace is
      if next is = 44 then parseArrayLoop mem h fuel (parseWhiteSpace (advance is)) log
      else if next is = 93 then CALL h .EndArray (advance is) log
      else .throw .PARSE_MISS_COMMA_OR_SQUARE_BRACKET log

/-- Reader.hpp:322-359 -/
def parseObject (mem : List Nat) (h : Handler) : Nat → StringReadStream → List Event → Res
  | 0, _, _ => .outOfFuel
  | fuel + 1, is, log =>
    (CALL h .StartObject is log).andThen fun is log =>
      let is := parseWhiteSpace (advance is)
      if peek is = 125 then CALL h .EndObject (advance is) log
      else parseObjectLoop mem h fuel is log

/-- Reader.hpp:333-358, the loop `while (true)` of parseObject -/
def parseObjectLoop (mem : List Nat) (h : Handler) : Nat → StringReadStream → List Event → Res
  | 0, _, _ => .outOfFuel
  | fuel + 1, is, log =>
    if peek is ≠ 34 then .throw .PARSE_MISS_KEY log
    else
      (parseString h is log true).andThen fun is log =>
        let is := parseWhiteSpace is
        if next is ≠ 58 then .throw .PARSE_MISS_COLON log
        else
          (parseValue mem h fuel (parseWhiteSpace (advance is)) log).andThen fun is log =>
            let is := parseWhiteSpace is
            if next is = 44 then parseObjectLoop mem h fuel (parseWhiteSpace (advance is)) log
            else if next is = 125 then CALL h .EndObject (advance is) log
            else .throw .PARSE_MISS_COMMA_OR_CURLY_BRACKET log

end

/-- What `Reader::parse` does: it returns an error kind, or the process is
aborted; in both cases the handler has received the calls of `log`. -/
inductive Outcome where
  | returned (err : ParseError) (log : List Event)
  | aborted (log : List Event)
  | outOfFuel
  deriving DecidableEq, Repr

/-- Reader.hpp:29-42, on `fuel` units of fuel; `mem` is the memory after the
view -/
def parseFuel (mem : List Nat) (h : Handler) (fuel : Nat) (is : StringReadStream) : Outcome :=
  match parseValue mem h fuel (parseWhiteSpace is) [] with
  | .ok is log =>
    if hasNext (parseWhiteSpace is) then .returned .PARSE_ROOT_NOT_SINGULAR log
    else .returned .PARSE_OK log
  | .throw err log => .returned err log
  | .abort log => .aborted log
  | .outOfFuel => .outOfFuel

/-- Reader.hpp:29-42.  Three units of fuel for each byte of input and one more
are enough for any input. -/
def parse (mem : List Nat) (h : Handler) (is : StringReadStream) : Outcome :=
  parseFuel mem h (3 * is.length + 1) is

end Reader

/-! ## Writer.hpp -/

/-- `__builtin_clz` and `__builtin_clzll`: the number of leading zero bits of
the `w`-bit number `n`, for `n` not zero -/
def clz (w n : Nat) : Nat := w - bitLength n

/-- Writer.hpp:21-32 -/
def powers_of_10_32 : List Nat :=
  [0, 10, 100, 1000, 10000, 100000, 1000000, 10000000, 100000000, 1000000000]

/-- Writer.hpp:48-68 -/
def powers_of_10_64 : List Nat :=
  [0, 10, 100, 1000, 10000, 100000, 1000000, 10000000, 100000000, 1000000000,
   10000000000, 100000000000, 1000000000000, 10000000000000, 100000000000000,
   1000000000000000, 10000000000000000, 100000000000000000, 1000000000000000000,
   10000000000000000000]

/-- Writer.hpp:20-44, `countDigits(unsigned)`; the arithmetic is that of
`uint32_t` -/
def countDigits32 (n : Nat) : Nat :=
  let t := (((32 - clz 32 (n ||| 1)) * 1233) % 4294967296) >>> 12
  (t + 4294967296 - (if n < powers_of_10_32.getD t 0 then 1 else 0) + 1) % 4294967296

/-- Writer.hpp:46-71, `countDigits(uint64_t)` -/
def countDigits64 (n : Nat) : Nat :=
  let t := (((64 - clz 64 (n ||| 1)) * 1233) % 4294967296) >>> 12
  (t + 4294967296 - (if n < powers_of_10_64.getD t 0 then 1 else 0) + 1) % 4294967296

/-- Writer.hpp:81-86, the table of the two-digit numbers -/
def digits : List Nat :=
  bytes ("0001020304050607080910111213141516171819" ++
    "2021222324252627282930313233343536373839" ++
    "4041424344454647484950515253545556575859" ++
    "6061626364656667686970717273747576777879" ++
    "8081828384858687888990919293949596979899")

/-- Writer.hpp:92-99, the loop of `itoa_`: the value, the index `next` and the
buffer when the loop is left.  The value loses two digits in each round. -/
def itoaLoop : Nat → Nat → Nat → List Nat → Nat × Nat × List Nat
  | 0, val, next, buf => (val, next, buf)
  | fuel + 1, val, next, buf =>
    if 100 ≤ val then
      let i := (val % 100) * 2
      itoaLoop fuel (val / 100) (next - 2)
        ((buf.set next (digits.getD (i + 1) 0)).set (next - 1) (digits.getD i 0))
    else (val, next, buf)

/-- Writer.hpp:76-113, `itoa_` for an unsigned value with digit count
`count = countDigits(val)`: the count returned and the buffer written -/
def itoa_ (count val : Nat) (buf : List Nat) : Nat × List Nat :=
  let r := itoaLoop val val (count - 1) buf
  let val := r.1
  let next := r.2.1
  let buf := r.2.2
  if val < 10 then (count, buf.set next (48 + val))
  else (count, (buf.set next (digits.getD (val * 2 + 1) 0)).set (next - 1) (digits.getD (val * 2) 0))

/-- Writer.hpp:117-126, `itoa(int32_t, char*)` -/
def itoa32 (val : Int) (buf : List Nat) : Nat × List Nat :=
  let u := (val % 4294967296).toNat
  if val < 0 then
    let u := ((4294967295 - u) + 1) % 4294967296
    let r := itoa_ (countDigits32 u) u buf.tail
    (1 + r.1, 45 :: r.2)
  else itoa_ (countDigits32 u) u buf

/-- Writer.hpp:127-136, `itoa(int64_t, char*)` -/
def itoa64 (val : Int) (buf : List Nat) : Nat × List Nat :=
  let u := (val % 18446744073709551616).toNat
  if val < 0 then
    let u := ((18446744073709551615 - u) + 1) % 18446744073709551616
    let r := itoa_ (countDigits64 u) u buf.tail
    (1 + r.1, 45 :: r.2)
  else itoa_ (countDigits64 u) u buf

/-- Writer.hpp:287-293 -/
structure Level where
  /-- Whether the open container is an array -/
  inArray : Bool
  /-- The number of events received in the container; the `int` of the source
  is a natural number here: it would overflow only after 2^31 events in one
  container -/
  valueCount : Nat
  deriving DecidableEq, Repr

/-- Writer.hpp:150-328 over a StringWriteStream: `os_` is the buffer of the
stream, and the back of the vector `stack_` is the head of the list. -/
structure Writer where
  /-- Writer.hpp:325 -/
  stack_ : List Level
  /-- Writer.hpp:326 -/
  os_ : List Nat
  /-- Writer.hpp:327 -/
  seeValue_ : Bool
  deriving DecidableEq, Repr

namespace Writer

/-- Writer.hpp:152-153 -/
def init : Writer := { stack_ := [], os_ := [], seeValue_ := false }

/-- StringWriteStream.hpp:47-50 -/
def put (w : Writer) (str : List Nat) : Writer := { w with os_ := w.os_ ++ str }

/-- Writer.hpp:297-321, `prefix`; none when an assertion fails -/
def separator (w : Writer) (type : ValueType) : Option Writer :=
  if w.seeValue_ = true ∧ w.stack_ = [] then none
  else
    let w := { w with seeValue_ := true }
    match w.stack_ with
    | [] => some w
    | top :: below =>
      if top.inArray then
        let w := if top.valueCount > 0 then w.put [44] else w
        some { w with stack_ := { top with valueCount := top.valueCount + 1 } :: below }
      else if top.valueCount % 2 = 1 then
        let w := w.put [58]
        some { w with stack_ := { top with valueCount := top.valueCount + 1 } :: below }
      else if type ≠ .TYPE_STRING then none
      else
        let w := if top.valueCount > 0 then w.put [44] else w
        some { w with stack_ := { top with valueCount := top.valueCount + 1 } :: below }

/-- Writer.hpp:155-159 -/
def Null (w : Writer) : Option Writer :=
  (w.separator .TYPE_NULL).map fun w => w.put (bytes "null")

/-- Writer.hpp:161-165 -/
def Bool (w : Writer) (b : Bool) : Option Writer :=
  (w.separator .TYPE_BOOL).map fun w => w.put (if b then bytes "true" else bytes "false")

/-- Writer.hpp:166-172 -/
def Int32 (w : Writer) (i32 : Int) : Option Writer :=
  (w.separator .TYPE_INT32).map fun w =>
    let r := itoa32 i32 (List.replicate 11 0)
    w.put (r.2.take r.1)

/-- Writer.hpp:174-180 -/
def Int64 (w : Writer) (i64 : Int) : Option Writer :=
  (w.separator .TYPE_INT64).map fun w =>
    let r := itoa64 i64 (List.replicate 20 0)
    w.put (r.2.take r.1)

/-- Writer.hpp:186-203, the text of a double -/
def doubleText (d : Dbl) : List Nat :=
  match d with
  | .inf _ => bytes "Infinity"
  | .nan => bytes "NaN"
  | .fin neg m e =>
    let buf := Libc.sprintf17g neg m e
    if buf.all (fun c => c ≠ 46) then buf ++ bytes ".0" else buf

/-- Writer.hpp:182-206 -/
def Double (w : Writer) (d : Dbl) : Option Writer :=
  (w.separator .TYPE_DOUBLE).map fun w => w.put (doubleText d)

/-- The hexadecimal digit of `%X` -/
def hexUpper (d : Nat) : Nat := if d < 10 then 48 + d else 55 + d

/-- Writer.hpp:217-235, the text written for one byte of a string -/
def escape (u : Nat) : List Nat :=
  if u = 34 then [92, 34]
  else if u = 92 then [92, 92]
  else if u = 8 then [92, 98]
  else if u = 12 then [92, 102]
  else if u = 10 then [92, 110]
  else if u = 13 then [92, 114]
  else if u = 9 then [92, 116]
  else if u < 0x20 then [92, 117, 48, 48, hexUpper (u / 16), hexUpper (u % 16)]
  else [u]

/-- Writer.hpp:212-240 -/
def String (w : Writer) (s : List Nat) : Option Writer :=
  (w.separator .TYPE_STRING).map fun w => ((w.put [34]).put (s.flatMap escape)).put [34]

/-- Writer.hpp:243-249 -/
def StartObject (w : Writer) : Option Writer :=
  (w.separator .TYPE_OBJECT).map fun w =>
    { w with stack_ := { inArray := false, valueCount := 0 } :: w.stack_ }.put [123]

/-- Writer.hpp:251-258 -/
def Key (w : Writer) (s : List Nat) : Option Writer :=
  (w.separator .TYPE_STRING).map fun w => ((w.put [34]).put s).put [34]

/-- Writer.hpp:260-267; none when an assertion fails -/
def EndObject (w : Writer) : Option Writer :=
  match w.stack_ with
  | [] => none
  | top :: below => if top.inArray then none else some ({ w with stack_ := below }.put [125])

/-- Writer.hpp:269-275 -/
def StartArray (w : Writer) : Option Writer :=
  (w.separator .TYPE_ARRAY).map fun w =>
    { w with stack_ := { inArray := true, valueCount := 0 } :: w.stack_ }.put [91]

/-- Writer.hpp:277-284; none when an assertion fails -/
def EndArray (w : Writer) : Option Writer :=
  match w.stack_ with
  | [] => none
  | top :: below => if top.inArray then some ({ w with stack_ := below }.put [93]) else none

/-- The handler method that an event calls.  Every method of Writer returns
true. -/
def handle (w : Writer) : Event → Option Writer
  | .Null => w.Null
  | .Bool b => w.Bool b
  | .Int32 i32 => w.Int32 i32
  | .Int64 i64 => w.Int64 i64
  | .Double d => w.Double d
  | .String s => w.String s
  | .Key s => w.Key s
  | .StartObject => w.StartObject
  | .EndObject => w.EndObject
  | .StartArray => w.StartArray
  | .EndArray => w.EndArray

/-- A sequence of handler calls on a writer, stopped by the first failed
assertion -/
def run : Writer → List Event → Option Writer
  | w, [] => some w
  | w, ev :: evs => (w.handle ev).bind fun w => run w evs

end Writer

/-! ## Value.hpp -/

/-- Value.hpp:46-190.  The payload of the heap variants is held by value: the
embedding does not model sharing.  A Member (Value.hpp:195-202) is the pair of
its key and its value. -/
inductive Value where
  | Null
  | Bool (b_ : Bool)
  | Int32 (i32_ : Int)
  | Int64 (i64_ : Int)
  | Double (d_ : Dbl)
  | String (s_ : List Nat)
  | Array (a_ : List Value)
  | Object (o_ : List (Value × Value))

/-- What `Value::writeTo` does: it returns a boolean, or an assertion fails;
in both cases the handler has received the calls of `log`. -/
inductive WriteRes where
  | returned (ret : Bool) (log : List Event)
  | abort (log : List Event)
  deriving DecidableEq, Repr

namespace Value

/-- Value.hpp:74 -/
def getType : Value → ValueType
  | .Null => .TYPE_NULL
  | .Bool _ => .TYPE_BOOL
  | .Int32 _ => .TYPE_INT32
  | .Int64 _ => .TYPE_INT64
  | .Double _ => .TYPE_DOUBLE
  | .String _ => .TYPE_STRING
  | .Array _ => .TYPE_ARRAY
  | .Object _ => .TYPE_OBJECT

/-- Value.hpp:99-103; none when the assertion fails -/
def getStringView : Value → Option (List Nat)
  | .String s => some s
  | _ => none

/-- Value.hpp:349, the macro CALL applied to one handler call followed by
`break` and `return true` -/
def CALL (h : Handler) (ev : Event) (log : List Event) : WriteRes :=
  .returned (h (log ++ [ev])) (log ++ [ev])

mutual

/-- Value.hpp:354-393 -/
def writeTo (h : Handler) : Value → List Event → WriteRes
  | .Null, log => CALL h .Null log
  | .Bool b, log => CALL h (.Bool b) log
  | .Int32 i32, log => CALL h (.Int32 i32) log
  | .Int64 i64, log => CALL h (.Int64 i64) log
  | .Double d, log => CALL h (.Double d) log
  | .String s, log => CALL h (.String s) log
  | .Array a, log =>
    if h (log ++ [.StartArray]) then
      match writeArray h a (log ++ [.StartArray]) with
      | .returned true log => CALL h .EndArray log
      | r => r
    else .returned false (log ++ [.StartArray])
  | .Object o, log =>
    if h (log ++ [.StartObject]) then
      match writeObject h o (log ++ [.StartObject]) with
      | .returned true log => CALL h .EndObject log
      | r => r
    else .returned false (log ++ [.StartObject])

/-- Value.hpp:377-378, the loop over the elements of an array -/
def writeArray (h : Handler) : List Value → List Event → WriteRes
  | [], log => .returned true log
  | val :: vals, log =>
    match writeTo h val log with
    | .returned true log => writeArray h vals log
    | r => r

/-- Value.hpp:383-386, the loop over the members of an object: the boolean
returned by `handler.Key` is not looked at -/
def writeObject (h : Handler) : List (Value × Value) → List Event → WriteRes
  | [], log => .returned true log
  | (key, value) :: members, log =>
    match key.getStringView with
    | none => .abort log
    | some s =>
      match writeTo h value (log ++ [.Key s]) with
      | .returned true log => writeObject h members log
      | r => r

end

end Value



/-! ## Value.hpp, the elements of an array and the members of an object -/

namespace Value

/-- Value.hpp:303-308 -/
def getSize : Value → Nat
  | .Array a => a.length
  | .Object o => o.length
  | _ => 1

/-- Value.hpp:139-143, `addValue` on an array: the array with the value at its
end; none when the assertion fails -/
def addValue : Value → Value → Option Value
  | .Array a, value => some (.Array (a ++ [value]))
  | _, _ => none

/-- Value.hpp:330-331, `std::find_if` over the members with the predicate
`m.key.getStringView() == key`.  An iterator is the index of its member, and
the number of members for the end; none when the assertion of getStringView
fails on a key that the search looks at. -/
def findIf (key : List Nat) : List (Value × Value) → Option Nat
  | [] => some 0
  | m :: members =>
    match m.1.getStringView with
    | none => none
    | some s => if s = key then some 0 else (findIf key members).map (· + 1)

/-- Value.hpp:328-332; none when an assertion fails -/
def findMember (v : Value) (key : List Nat) : Option Nat :=
  match v with
  | .Object o => findIf key o
  | _ => none

/-- Value.hpp:121; none when the assertion fails -/
def endMember : Value → Option Nat
  | .Object o => some o.length
  | _ => none

/-- Value.hpp:338-345, `addMember` on an object: the object with the member at
its end; none when an assertion fails -/
def addMember (v k value : Value) : Option Value :=
  match v with
  | .Object o =>
    match k.getStringView with
    | none => none
    | some s =>
      match v.findMember s with
      | none => none
      | some it => if some it = v.endMember then some (.Object (o ++ [(k, value)])) else none
  | _ => none

/-- Document.hpp:144-149, the value that `Level::lastValue` points to: the
last element of an array, the value of the last member of an object; none when
the assertion of getObject fails or the vector is empty -/
def lastValue : Value → Option Value
  | .Array a => a.getLast?
  | .Object o => o.getLast?.map (·.2)
  | _ => none

/-- The container after an assignment through the pointer of lastValue: its
last element, or the value of its last member, is replaced -/
def setLast : Value → Value → Option Value
  | .Array a, x =>
    match a.getLast? with
    | none => none
    | some _ => some (.Array (a.dropLast ++ [x]))
  | .Object o, x =>
    match o.getLast? with
    | none => none
    | some m => some (.Object (o.dropLast ++ [(m.1, x)]))
  | _, _ => none

/-- The value reached from `v` in `depth` steps of lastValue -/
def nodeAt : Nat → Value → Option Value
  | 0, v => some v
  | depth + 1, v => (nodeAt depth v).bind lastValue

/-- The value `v` after the assignment of `x` to the value that is reached from
it in `depth` steps of lastValue -/
def putAt : Nat → Value → Value → Option Value
  | 0, _, x => some x
  | depth + 1, v, x =>
    (nodeAt depth v).bind fun c => (c.setLast x).bind fun c1 => putAt depth v c1

end Value

/-! ## Document.hpp -/

/-- A pointer to a Value that a Document holds: the value reached in `depth`
steps of `Level::lastValue` from the document itself, or from its field `key_`
if `inKey`.  The pointers that the source keeps in `stack_` are made in this
way (Document.hpp:70-71, 87-88, 113, 122, 133), and a container gets a new
element only while it is the top of the stack, so that the value a pointer
leads to does not change while the pointer is in the stack. -/
structure Document.Ptr where
  /-- Whether the pointer leads into the field `key_` -/
  inKey : Bool
  /-- The number of steps of lastValue -/
  depth : Nat
  deriving DecidableEq, Repr

/-- Document.hpp:139-153.  The `int` of the source is a natural number here:
it would overflow only after 2^31 events in one container. -/
structure Document.Level where
  /-- Document.hpp:151 -/
  value : Document.Ptr
  /-- Document.hpp:152 -/
  valueCount : Nat
  deriving DecidableEq, Repr

/-- Document.hpp:23-159.  A Document is a Value, here its field `root`; the
back of the vector `stack_` is the head of the list. -/
structure Document where
  /-- The Value that the Document is, by inheritance -/
  root : Value
  /-- Document.hpp:156 -/
  stack_ : List Document.Level
  /-- Document.hpp:157 -/
  key_ : Value
  /-- Document.hpp:158 -/
  seeValue_ : Bool

namespace Document

/-- A Document as its constructor leaves it -/
def init : Document := { root := .Null, stack_ := [], key_ := .Null, seeValue_ := false }

/-- Document.hpp:147-148, the pointer that `Level::lastValue` returns -/
def Ptr.last (p : Ptr) : Ptr := { p with depth := p.depth + 1 }

/-- The value that a pointer leads to -/
def deref (d : Document) (p : Ptr) : Option Value :=
  Value.nodeAt p.depth (if p.inKey then d.key_ else d.root)

/-- The document after an assignment through a pointer -/
def store (d : Document) (p : Ptr) (x : Value) : Option Document :=
  if p.inKey then (Value.putAt p.depth d.key_ x).map fun k => { d with key_ := k }
  else (Value.putAt p.depth d.root x).map fun r => { d with root := r }

/-- Document.hpp:101-136: the document and the pointer returned; none when an
assertion fails.  A Value that has been moved from is null (Value.hpp:262-267). -/
def addValue (d : Document) (value : Value) : Option (Document × Ptr) :=
  if d.seeValue_ then
    match d.stack_ with
    | [] => none
    | top :: below =>
      match d.deref top.value with
      | none => none
      | some c =>
        if c.getType = .TYPE_ARRAY then
          match c.addValue value with
          | none => none
          | some c1 =>
            (d.store top.value c1).map fun d1 =>
              ({ d1 with stack_ := { top with valueCount := top.valueCount + 1 } :: below },
                top.value.last)
        else if c.getType = .TYPE_OBJECT then
          if top.valueCount % 2 = 0 then
            if value.getType = .TYPE_STRING then
              some ({ d with
                      key_ := value,
                      stack_ := { top with valueCount := top.valueCount + 1 } :: below },
                    { inKey := true, depth := 0 })
            else none
          else
            match c.addMember d.key_ value with
            | none => none
            | some c1 =>
              (store { d with key_ := .Null } top.value c1).map fun d1 =>
                ({ d1 with stack_ := { top with valueCount := top.valueCount + 1 } :: below },
                  top.value.last)
        else none
  else if d.root.getType = .TYPE_NULL then
    some ({ d with seeValue_ := true, root := value }, { inKey := false, depth := 0 })
  else none

/-- Document.hpp:69-74 and 86-90, StartObject and StartArray with the empty
container `value` -/
def start (d : Document) (value : Value) : Option Document :=
  (d.addValue value).map fun r =>
    { r.1 with stack_ := { value := r.2, valueCount := 0 } :: r.1.stack_ }

/-- Document.hpp:79-84 and 91-96, EndObject and EndArray for the type `type`
of the container -/
def finish (d : Document) (type : ValueType) : Option Document :=
  match d.stack_ with
  | [] => none
  | top :: below =>
    match d.deref top.value with
    | none => none
    | some c => if c.getType = type then some { d with stack_ := below } else none

/-- Document.hpp:44-47 -/
def Null (d : Document) : Option Document := (d.addValue .Null).map (·.1)

/-- Document.hpp:48-51 -/
def Bool (d : Document) (b : Bool) : Option Document := (d.addValue (.Bool b)).map (·.1)

/-- Document.hpp:52-55 -/
def Int32 (d : Document) (i32 : Int) : Option Document := (d.addValue (.Int32 i32)).map (·.1)

/-- Document.hpp:56-59 -/
def Int64 (d : Document) (i64 : Int) : Option Document := (d.addValue (.Int64 i64)).map (·.1)

/-- Document.hpp:60-63 -/
def Double (d : Document) (dbl : Dbl) : Option Document :=
  (d.addValue (.Double dbl)).map (·.1)

/-- Document.hpp:64-67 -/
def String (d : Document) (s : List Nat) : Option Document :=
  (d.addValue (.String s)).map (·.1)

/-- Document.hpp:69-74 -/
def StartObject (d : Document) : Option Document := d.start (.Object [])

/-- Document.hpp:75-78 -/
def Key (d : Document) (s : List Nat) : Option Document := (d.addValue (.String s)).map (·.1)

/-- Document.hpp:79-84 -/
def EndObject (d : Document) : Option Document := d.finish .TYPE_OBJECT

/-- Document.hpp:86-90 -/
def StartArray (d : Document) : Option Document := d.start (.Array [])

/-- Document.hpp:91-96 -/
def EndArray (d : Document) : Option Document := d.finish .TYPE_ARRAY

/-- The handler method that an event calls; none when an assertion fails.
Every method of Document returns true. -/
def handle (d : Document) : Event → Option Document
  | .Null => d.Null
  | .Bool b => d.Bool b
  | .Int32 i32 => d.Int32 i32
  | .Int64 i64 => d.Int64 i64
  | .Double dbl => d.Double dbl
  | .String s => d.String s
  | .Key s => d.Key s
  | .StartObject => d.StartObject
  | .EndObject => d.EndObject
  | .StartArray => d.StartArray
  | .EndArray => d.EndArray

/-- A sequence of handler calls on a document, stopped by the first failed
assertion -/
def run : Document → List Event → Option Document
  | d, [] => some d
  | d, ev :: evs => (d.handle ev).bind fun d => run d evs

/-- What `Document::parse` does: it returns an error kind and leaves the
document, or the process is aborted -/
inductive Outcome where
  | returned (err : ParseError) (doc : Document)
  | aborted
  | outOfFuel

/-- Document.hpp:25-41, `parse` on a fresh Document: `Reader::parse` with the
document as the handler, on the view `json` followed in memory by `mem`.
Every method of Document returns true, so that the calls made are those made
on a handler that accepts every event, up to the first call in which an
assertion of the Document fails. -/
def parse (mem json : List Nat) : Outcome :=
  match Reader.parse mem Handler.accept json with
  | .returned err log =>
    match run init log with
    | some d => .returned err d
    | none => .aborted
  | .aborted _ => .aborted
  | .outOfFuel => .outOfFuel

end Document

/-- Value.hpp:354-393 with a Document as the handler, `V.writeTo(document)`:
the boolean returned and the document; none when an assertion fails -/
def writeToDocument (V : Value) (d : Document) : Option (Bool × Document) :=
  match V.writeTo Handler.accept [] with
  | .returned ret log => (Document.run d log).map fun d => (ret, d)
  | .abort _ => none

/-! ## Definitions used in the statements and their proofs -/

/-- The handler's call log when `Reader::parse` is left -/
def Reader.Outcome.log : Reader.Outcome → List Event
  | .returned _ log => log
  | .aborted log => log
  | .outOfFuel => []

/-- The events of a scalar value: every event but Key and the four events that
open or close a container -/
def isScalar : Event → Prop
  | .Null | .Bool _ | .Int32 _ | .Int64 _ | .Double _ | .String _ => True
  | _ => False

mutual

/-- The event sequences of one value: a scalar event, or the events of an
array, or the events of an object -/
inductive WellNested : List Event → Prop
  | scalar (ev : Event) : isScalar ev → WellNested [ev]
  | array (es : List Event) : Elements es →
      WellNested (Event.StartArray :: es ++ [Event.EndArray])
  | object (ms : List Event) : Members ms →
      WellNested (Event.StartObject :: ms ++ [Event.EndObject])

/-- The event sequences of zero or more values one after the other -/
inductive Elements : List Event → Prop
  | nil : Elements []
  | cons (v es : List Event) : WellNested v → Elements es → Elements (v ++ es)

/-- The event sequences of zero or more members one after the other, each a
Key event followed by the events of one value -/
inductive Members : List Event → Prop
  | nil : Members []
  | cons (k : List Nat) (v ms : List Event) : WellNested v → Members ms →
      Members (Event.Key k :: v ++ ms)

end

/-- Whether every byte is a decimal digit -/
def allDigits (ds : List Nat) : Bool := ds.all Reader.isDigit

/-- The integer part of a number: the single digit `0`, or a digit from 1 to 9
followed by digits -/
def isIntPart (ip : List Nat) : Bool :=
  match ip with
  | [] => false
  | c :: cs => (c == 48 && cs.isEmpty) || (Reader.isDigit19 c && allDigits cs)

/-- The optional fraction of a number: nothing, or `.` and one digit or more -/
def isFracPart (fp : List Nat) : Bool :=
  match fp with
  | [] => true
  | c :: ds => c == 46 && !ds.isEmpty && allDigits ds

/-- The optional sign of an exponent: nothing, `+` or `-` -/
def isExpSign (sg : List Nat) : Bool := sg == [] || sg == [43] || sg == [45]

/-- The optional exponent of a number, given as its letter and sign `es` and
its digits `ed`: nothing, or `e` or `E`, an optional sign, and one digit or
more -/
def isExpPart (es ed : List Nat) : Bool :=
  match es with
  | [] => ed.isEmpty
  | c :: sg => (c == 101 || c == 69) && isExpSign sg && !ed.isEmpty && allDigits ed

/-- The integer that a run of decimal digits denotes -/
def decimalValue (ds : List Nat) : Nat := ds.foldl (fun acc c => acc * 10 + (c - 48)) 0

/-- The optional minus sign of a number -/
def signText (neg : Bool) : List Nat := if neg then [45] else []

/-- The integer that a sign and a run of decimal digits denote -/
def signedValue (neg : Bool) (ds : List Nat) : Int :=
  if neg then -(decimalValue ds : Int) else (decimalValue ds : Int)

/-- The type `expectType` after an optional part of a number (the fraction,
the exponent): TYPE_DOUBLE if the part is there -/
def typeAfter (part : List Nat) (ty : ValueType) : ValueType :=
  if part = [] then ty else .TYPE_DOUBLE

/-- Whether an integer fits the type `int32_t` -/
def fitsInt32 (v : Int) : Prop := -2147483648 ≤ v ∧ v ≤ 2147483647

/-- Whether an integer fits the type `int64_t` -/
def fitsInt64 (v : Int) : Prop := -9223372036854775808 ≤ v ∧ v ≤ 9223372036854775807

instance (v : Int) : Decidable (fitsInt32 v) := by unfold fitsInt32; infer_instance

instance (v : Int) : Decidable (fitsInt64 v) := by unfold fitsInt64; infer_instance

/-! ### The accepted grammar -/

/-- White space: space, tab, line feed, carriage return -/
def isWs (c : Nat) : Bool := c == 32 || c == 9 || c == 10 || c == 13

/-- Whether every byte is white space -/
def allWs (ws : List Nat) : Bool := ws.all isWs

/-- The optional type suffix of an integral number: nothing, `i32` or `i64` -/
def isSuffix (sfx : List Nat) : Bool := sfx == [] || sfx == [105, 51, 50] || sfx == [105, 54, 52]

/-- The event of a number token (section 4.5.3 of the specification): Double
when the token has a fraction or an exponent, else Int32 for the suffix `i32`,
Int64 for the suffix `i64`, and without suffix Int32 if the value fits 32 bits
and Int64 otherwise; none when the conversion overflows the chosen type. -/
def numberEvent (neg : Bool) (ip fp es ed sfx : List Nat) : Option Event :=
  if fp ≠ [] ∨ es ≠ [] then
    match Libc.strtod (signText neg ++ ip ++ (fp ++ (es ++ ed))) with
    | .value d => some (.Double d)
    | _ => none
  else if sfx = [105, 51, 50] then
    if fitsInt32 (signedValue neg ip) then some (.Int32 (signedValue neg ip)) else none
  else if sfx = [105, 54, 52] then
    if fitsInt64 (signedValue neg ip) then some (.Int64 (signedValue neg ip)) else none
  else if fitsInt32 (signedValue neg ip) then some (.Int32 (signedValue neg ip))
  else if fitsInt64 (signedValue neg ip) then some (.Int64 (signedValue neg ip))
  else none

/-- The byte that a two-character escape denotes -/
def simpleEscape (e : Nat) : Option Nat :=
  if e = 34 then some 34
  else if e = 92 then some 92
  else if e = 47 then some 47
  else if e = 98 then some 8
  else if e = 102 then some 12
  else if e = 110 then some 10
  else if e = 114 then some 13
  else if e = 116 then some 9
  else none

/-- The value of a hexadecimal digit, upper or lower case -/
def hexValue (c : Nat) : Option Nat :=
  if 48 ≤ c ∧ c ≤ 57 then some (c - 48)
  else if 97 ≤ c ∧ c ≤ 102 then some (c - 97 + 10)
  else if 65 ≤ c ∧ c ≤ 70 then some (c - 65 + 10)
  else none

/-- The value of four hexadecimal digits, most significant first -/
def hex4Value (a b c d : Nat) : Option Nat :=
  match hexValue a, hexValue b, hexValue c, hexValue d with
  | some x, some y, some z, some w => some (((x * 16 + y) * 16 + z) * 16 + w)
  | _, _, _, _ => none

/-- The text between the quotes of a string literal and the bytes it denotes:
raw bytes other than the quote, the backslash and 0x01 to 0x1F; two-character
escapes; `\u` escapes of a code unit that is not a high surrogate; pairs of
`\u` escapes of a high and a low surrogate.  A code point denotes the bytes
that encodeUtf8 appends for it. -/
inductive StrBody : List Nat → List Nat → Prop
  | nil : StrBody [] []
  | raw (c : Nat) (t s : List Nat) : ¬(1 ≤ c ∧ c ≤ 31) → c ≠ 34 → c ≠ 92 → StrBody t s →
      StrBody (c :: t) (c :: s)
  | escape (e b : Nat) (t s : List Nat) : simpleEscape e = some b → StrBody t s →
      StrBody (92 :: e :: t) (b :: s)
  | unicode (a b c d u : Nat) (enc t s : List Nat) : hex4Value a b c d = some u →
      ¬(0xD800 ≤ u ∧ u ≤ 0xDBFF) → Reader.encodeUtf8 [] u = some enc → StrBody t s →
      StrBody (92 :: 117 :: a :: b :: c :: d :: t) (enc ++ s)
  | surrogates (a b c d a2 b2 c2 d2 hi lo u : Nat) (enc t s : List Nat) :
      hex4Value a b c d = some hi → (0xD800 ≤ hi ∧ hi ≤ 0xDBFF) →
      hex4Value a2 b2 c2 d2 = some lo → (0xDC00 ≤ lo ∧ lo ≤ 0xDFFF) →
      u = 0x10000 + (hi - 0xD800) * 0x400 + (lo - 0xDC00) →
      Reader.encodeUtf8 [] u = some enc → StrBody t s →
      StrBody (92 :: 117 :: a :: b :: c :: d :: 92 :: 117 :: a2 :: b2 :: c2 :: d2 :: t)
        (enc ++ s)

mutual

/-- The texts of one value of the accepted grammar, without white space around
them, each with the events it denotes.  With `inRange` set, a number must
convert without range error; without it, a number that does not denotes no
event. -/
inductive ValueText (inRange : Bool) : List Nat → List Event → Prop
  | litNull : ValueText inRange Reader.lit_null [.Null]
  | litTrue : ValueText inRange Reader.lit_true [.Bool true]
  | litFalse : ValueText inRange Reader.lit_false [.Bool false]
  | litNaN : ValueText inRange Reader.lit_NaN [.Double .nan]
  | litInfinity : ValueText inRange Reader.lit_Infinity [.Double (.inf false)]
  | number (neg : Bool) (ip fp es ed sfx : List Nat) : isIntPart ip = true →
      isFracPart fp = true → isExpPart es ed = true → isSuffix sfx = true →
      (fp ≠ [] ∨ es ≠ [] → sfx = []) →
      (inRange = true → (numberEvent neg ip fp es ed sfx).isSome = true) →
      ValueText inRange (signText neg ++ ip ++ (fp ++ (es ++ ed ++ sfx)))
        (numberEvent neg ip fp es ed sfx).toList
  | string (t s : List Nat) : StrBody t s → ValueText inRange (34 :: (t ++ [34])) [.String s]
  | emptyArray (ws : List Nat) : allWs ws = true →
      ValueText inRange (91 :: (ws ++ [93])) [.StartArray, .EndArray]
  | array (ws body : List Nat) (evs : List Event) : allWs ws = true →
      ElementsText inRange body evs → ValueText inRange (91 :: (ws ++ body)) (.StartArray :: evs)
  | emptyObject (ws : List Nat) : allWs ws = true →
      ValueText inRange (123 :: (ws ++ [125])) [.StartObject, .EndObject]
  | object (ws body : List Nat) (evs : List Event) : allWs ws = true →
      MembersText inRange body evs →
      ValueText inRange (123 :: (ws ++ body)) (.StartObject :: evs)

/-- The elements of an array that is not empty, up to its closing bracket,
with their events and EndArray -/
inductive ElementsText (inRange : Bool) : List Nat → List Event → Prop
  | last (v ws : List Nat) (evs : List Event) : ValueText inRange v evs → allWs ws = true →
      ElementsText inRange (v ++ (ws ++ [93])) (evs ++ [.EndArray])
  | more (v ws1 ws2 rest : List Nat) (evs evs2 : List Event) : ValueText inRange v evs →
      allWs ws1 = true → allWs ws2 = true → ElementsText inRange rest evs2 →
      ElementsText inRange (v ++ (ws1 ++ 44 :: (ws2 ++ rest))) (evs ++ evs2)

/-- The members of an object that is not empty, up to its closing bracket,
with their events and EndObject -/
inductive MembersText (inRange : Bool) : List Nat → List Event → Prop
  | last (k ks ws1 ws2 v ws3 : List Nat) (evs : List Event) : StrBody k ks →
      allWs ws1 = true → allWs ws2 = true → ValueText inRange v evs → allWs ws3 = true →
      MembersText inRange (34 :: (k ++ 34 :: (ws1 ++ 58 :: (ws2 ++ (v ++ (ws3 ++ [125]))))))
        (.Key ks :: (evs ++ [.EndObject]))
  | more (k ks ws1 ws2 v ws3 ws4 rest : List Nat) (evs evs2 : List Event) : StrBody k ks →
      allWs ws1 = true → allWs ws2 = true → ValueText inRange v evs → allWs ws3 = true →
      allWs ws4 = true → MembersText inRange rest evs2 →
      MembersText inRange
        (34 :: (k ++ 34 :: (ws1 ++ 58 :: (ws2 ++ (v ++ (ws3 ++ 44 :: (ws4 ++ rest)))))))
        (.Key ks :: (evs ++ evs2))

end

/-- The bytes that end a number token when they follow it: any byte but a
digit, `.`, `e`, `E` and `i` (the end of the input counts as the byte 0) -/
def endsToken (rest : List Nat) : Prop :=
  Reader.isDigit (peek rest) = false ∧ peek rest ≠ 46 ∧ peek rest ≠ 101 ∧ peek rest ≠ 69 ∧
    peek rest ≠ 105

/-- The result of `strtod` on a decimal constant, from its parts: the sign, the
digits before and after the point, and the value of the exponent -/
def strtodOf (neg : Bool) (ip fd : List Nat) (x : Int) : Stoa Dbl :=
  if ip = [] ∧ fd = [] then .invalid_argument
  else
    let n := Libc.digitsValue 0 (ip ++ fd)
    let e : Int := x - (fd.length : Int)
    let q := scaleBy 10 n 1 (-e)
    match Libc.roundToDouble neg q.1 q.2 with
    | some d => .value d
    | none => .out_of_range

/-- The bytes after the view at which the conversion of a number that ends the
view stops where the token ends: any byte but a digit, `e` and `E` (a NUL
among them) -/
def endsConversion (mem : List Nat) : Prop :=
  Reader.isDigit (peek mem) = false ∧ peek mem ≠ 101 ∧ peek mem ≠ 69

/-- What follows a number token ends it: `rest` is the rest of the view and
`mem` the memory after the view, which counts when the token ends the view -/
def endsNumber (mem rest : List Nat) : Prop :=
  endsToken rest ∧ (rest = [] → endsConversion mem)

/-- Whether a text starts as a number does: with a minus sign or a digit -/
def startsNumber (v : List Nat) : Prop := peek v = 45 ∨ Reader.isDigit (peek v) = true

/-- The handler of scenario 6: it returns false from its third Int32 call and
true from every other call -/
def stopAtThirdInt32 : Handler := fun log =>
  match log.getLast? with
  | some (.Int32 _) =>
    decide ((log.filter fun ev => match ev with | .Int32 _ => true | _ => false).length ≠ 3)
  | _ => true

namespace Reader

/-- Reader.hpp:33-41, the end of `parse`: its outcome from the result of
parseValue on the input without its leading white space -/
def finish (r : Res) : Outcome :=
  match r with
  | .ok is log =>
    if hasNext (parseWhiteSpace is) then .returned .PARSE_ROOT_NOT_SINGULAR log
    else .returned .PARSE_OK log
  | .throw err log => .returned err log
  | .abort log => .aborted log
  | .outOfFuel => .outOfFuel

/-- A value position that holds the text `is` ends the parse with
PARSE_BAD_VALUE and without a handler call: so does parseValue wherever it is
called on `is` (whatever the handler, the fuel, the call log so far and the
memory after the view), and so does `parse` on `is` as the whole input. -/
def rejectsBadValue (is : StringReadStream) : Prop :=
  (∀ (mem : List Nat) (h : Handler) (fuel : Nat) (log : List Event),
    parseValue mem h (fuel + 1) is log = .throw .PARSE_BAD_VALUE log) ∧
  (∀ (mem : List Nat) (h : Handler), parse mem h is = .returned .PARSE_BAD_VALUE [])

/-- The shape of the result of a parsing function that makes at most one
handler call, as its last action: the call is of an event in `P` and leaves a
stream shorter than `n`; or an exception of a kind other than
PARSE_USER_STOPPED and PARSE_OK, or a failed assertion, leaves the log as it
was. -/
def Leaf (P : Event → Prop) (h : Handler) (n : Nat) (log : List Event) (r : Res) : Prop :=
  (∃ ev is, P ev ∧ is.length < n ∧ r = CALL h ev is log) ∨
    (∃ err, (err ≠ .PARSE_USER_STOPPED ∧ err ≠ .PARSE_OK) ∧ r = .throw err log) ∨
    r = .abort log

/-- The event that ends a string literal: Key for a key, String otherwise -/
def stringEvent (isKey : Bool) (ev : Event) : Prop :=
  if isKey then ∃ s, ev = .Key s else ∃ s, ev = .String s

/-- Every call after those of `log0` was answered true -/
def Accepted (h : Handler) (log0 log : List Event) : Prop :=
  ∀ k, log0.length < k → k ≤ log.length → h (log.take k) = true

/-- What every parsing function guarantees when it starts with the call log
`log0`: the log only grows, a normal return leaves a stream shorter than `n`,
a call answered false is the last call and throws PARSE_USER_STOPPED, which
nothing else throws, and PARSE_OK is never thrown. -/
def Inv (h : Handler) (n : Nat) (log0 : List Event) : Res → Prop
  | .ok is log => is.length < n ∧ log0 <+: log ∧ Accepted h log0 log
  | .throw err log => log0 <+: log ∧ err ≠ .PARSE_OK ∧
      ((err ≠ .PARSE_USER_STOPPED ∧ Accepted h log0 log) ∨
        (err = .PARSE_USER_STOPPED ∧ ∃ l ev, log = l ++ [ev] ∧ log0 <+: l ∧
          Accepted h log0 l ∧ h log = false))
  | .abort log => log0 <+: log ∧ Accepted h log0 log
  | .outOfFuel => True

end Reader

/-! ### Writing a value and reading it back -/

/-- The event that the parser emits for the text of an event of writeTo: the
Writer writes an Int64 without suffix, so that the parser reads a value that
fits 32 bits as an Int32; it writes `Infinity` for the infinity of either
sign, which the parser reads as the positive one; every other event is read
back as it is. -/
def narrow : Event → Event
  | .Int64 i64 => if fitsInt32 i64 then .Int32 i64 else .Int64 i64
  | .Double (.inf _) => .Double (.inf false)
  | ev => ev

/-- The keys that `Writer::Key`, which does not escape, writes as a string
literal of the grammar denoting them: no quote, no backslash, no byte from
0x01 to 0x1F -/
def plainKey (s : List Nat) : Prop := ∀ c ∈ s, ¬(1 ≤ c ∧ c ≤ 31) ∧ c ≠ 34 ∧ c ≠ 92

/-- The texts of `%.17g` in exponent form without a decimal point, to which
`Writer::Double` appends its `.0` after the exponent: they have an `e` and
no `.` -/
def exponentOnly (buf : List Nat) : Bool :=
  buf.all (fun c => c ≠ 46) && buf.any (fun c => c = 101)

/-- The values of the type `double` other than the subnormal numbers and the
numbers that `%.17g` writes in exponent form without a decimal point: NaN, the
infinities, the zeros, and the normal numbers `m * 2 ^ e` (a mantissa of 53
bits with its leading bit set, the exponent of its last bit from -1074 to 971)
whose text is not such a form. -/
def Dbl.regular : Dbl → Prop
  | .nan => True
  | .inf _ => True
  | .fin neg m e => (m = 0 ∧ e = -1074) ∨
      (2 ^ 52 ≤ m ∧ m < 2 ^ 53 ∧ -1074 ≤ e ∧ e ≤ 971 ∧
        exponentOnly (Libc.sprintf17g neg m e) = false)

mutual

/-- The values whose integers fit their declared widths, whose keys are plain
strings and whose doubles are regular -/
def Value.plain : Value → Prop
  | .Null => True
  | .Bool _ => True
  | .Int32 i32 => fitsInt32 i32
  | .Int64 i64 => fitsInt64 i64
  | .Double d => d.regular
  | .String _ => True
  | .Array a => Value.plainArray a
  | .Object o => Value.plainObject o

/-- Every element of an array is plain -/
def Value.plainArray : List Value → Prop
  | [] => True
  | val :: vals => Value.plain val ∧ Value.plainArray vals

/-- Every member of an object has a plain key and a plain value -/
def Value.plainObject : List (Value × Value) → Prop
  | [] => True
  | (key, value) :: members =>
    (∃ s, key = .String s ∧ plainKey s) ∧ Value.plain value ∧ Value.plainObject members

end

/-! ### UTF-8 -/

/-- The standard UTF-8 encoding of a code point up to 0x10FFFF, by the bit
layout of the standard: one byte 0xxxxxxx up to 0x7F, two bytes 110xxxxx
10xxxxxx up to 0x7FF, three bytes 1110xxxx 10xxxxxx 10xxxxxx up to 0xFFFF, four
bytes 11110xxx 10xxxxxx 10xxxxxx 10xxxxxx above; the bits of the code point
fill the places x, most significant first. -/
def specUtf8 (u : Nat) : List Nat :=
  if u ≤ 0x7F then [u]
  else if u ≤ 0x7FF then [0xC0 + u / 64, 0x80 + u % 64]
  else if u ≤ 0xFFFF then [0xE0 + u / 4096, 0x80 + u / 64 % 64, 0x80 + u % 64]
  else [0xF0 + u / 262144, 0x80 + u / 4096 % 64, 0x80 + u / 64 % 64, 0x80 + u % 64]

/-- Decoding by the standard UTF-8 bit layout: the code point that the places
x of a sequence of one to four bytes hold; none for a sequence that has not
one of the four layouts. -/
def specUtf8Decode : List Nat → Option Nat
  | [a] => if a < 0x80 then some a else none
  | [a, b] =>
    if 0xC0 ≤ a ∧ a < 0xE0 ∧ 0x80 ≤ b ∧ b < 0xC0 then some ((a - 0xC0) * 64 + (b - 0x80))
    else none
  | [a, b, c] =>
    if 0xE0 ≤ a ∧ a < 0xF0 ∧ 0x80 ≤ b ∧ b < 0xC0 ∧ 0x80 ≤ c ∧ c < 0xC0 then
      some ((a - 0xE0) * 4096 + (b - 0x80) * 64 + (c - 0x80))
    else none
  | [a, b, c, d] =>
    if 0xF0 ≤ a ∧ a < 0xF8 ∧ 0x80 ≤ b ∧ b < 0xC0 ∧ 0x80 ≤ c ∧ c < 0xC0 ∧ 0x80 ≤ d ∧ d < 0xC0 then
      some ((a - 0xF0) * 262144 + (b - 0x80) * 4096 + (c - 0x80) * 64 + (d - 0x80))
    else none
  | _ => none

/-! ### Unfinished texts -/

/-- The elements of an array that a comma follows, one after the other: each
is a value of the grammar, optional white space, a comma and optional white
space; with the events of the values -/
inductive ElementsDone : List Nat → List Event → Prop
  | nil : ElementsDone [] []
  | cons (v ws1 ws2 rest : List Nat) (evs evs2 : List Event) : ValueText true v evs →
      allWs ws1 = true → allWs ws2 = true → ElementsDone rest evs2 →
      ElementsDone (v ++ (ws1 ++ 44 :: (ws2 ++ rest))) (evs ++ evs2)

/-- The members of an object that a comma follows, one after the other: each
is a key, optional white space, a colon, optional white space, a value of the
grammar, optional white space, a comma and optional white space; with the Key
event and the events of the value of each -/
inductive MembersDone : List Nat → List Event → Prop
  | nil : MembersDone [] []
  | cons (k ks ws1 ws2 v ws3 ws4 rest : List Nat) (evs evs2 : List Event) : StrBody k ks →
      allWs ws1 = true → allWs ws2 = true → ValueText true v evs → allWs ws3 = true →
      allWs ws4 = true → MembersDone rest evs2 →
      MembersDone
        (34 :: (k ++ 34 :: (ws1 ++ 58 :: (ws2 ++ (v ++ (ws3 ++ 44 :: (ws4 ++ rest)))))))
        (.Key ks :: (evs ++ evs2))

/-- The beginnings of an input after which a value is required, each with the
events emitted up to there: optional white space at the start of the input;
inside an array that stands where a value is required, after `[` or after the
comma of an element, and optional white space; inside an object that stands
where a value is required, after the colon of a member and optional white
space. -/
inductive ValuePosition : List Nat → List Event → Prop
  | root (ws : List Nat) : allWs ws = true → ValuePosition ws []
  | element (p ws done : List Nat) (evs devs : List Event) : ValuePosition p evs →
      allWs ws = true → ElementsDone done devs →
      ValuePosition (p ++ 91 :: (ws ++ done)) (evs ++ .StartArray :: devs)
  | member (p ws done k ks ws1 ws2 : List Nat) (evs devs : List Event) : ValuePosition p evs →
      allWs ws = true → MembersDone done devs → StrBody k ks → allWs ws1 = true →
      allWs ws2 = true →
      ValuePosition (p ++ 123 :: (ws ++ (done ++ 34 :: (k ++ 34 :: (ws1 ++ 58 :: ws2)))))
        (evs ++ .StartObject :: (devs ++ [.Key ks]))

/-- Writer.hpp:155-258: what the method of a scalar event or of Key writes
after the separator; nothing for the four events of containers, which write a
bracket -/
def Writer.token : Event → List Nat
  | .Null => bytes "null"
  | .Bool b => if b then bytes "true" else bytes "false"
  | .Int32 i32 => (itoa32 i32 (List.replicate 11 0)).2.take (itoa32 i32 (List.replicate 11 0)).1
  | .Int64 i64 => (itoa64 i64 (List.replicate 20 0)).2.take (itoa64 i64 (List.replicate 20 0)).1
  | .Double d => Writer.doubleText d
  | .String s => 34 :: (s.flatMap Writer.escape ++ [34])
  | .Key s => 34 :: (s ++ [34])
  | _ => []

mutual

/-- The compact JSON text of the events of one value: the token of a scalar;
`[` and `]` around the elements of an array; `{` and `}` around the members
of an object; no white space -/
inductive CompactText : List Event → List Nat → Prop
  | scalar (ev : Event) : isScalar ev → CompactText [ev] (Writer.token ev)
  | emptyArray : CompactText [.StartArray, .EndArray] [91, 93]
  | array (es : List Event) (t : List Nat) : CompactElements es t →
      CompactText (.StartArray :: (es ++ [.EndArray])) (91 :: (t ++ [93]))
  | emptyObject : CompactText [.StartObject, .EndObject] [123, 125]
  | object (ms : List Event) (t : List Nat) : CompactMembers ms t →
      CompactText (.StartObject :: (ms ++ [.EndObject])) (123 :: (t ++ [125]))

/-- The compact text of one or more elements: a comma before the second and
each later element, none before the first -/
inductive CompactElements : List Event → List Nat → Prop
  | one (v : List Event) (t : List Nat) : CompactText v t → CompactElements v t
  | more (v es : List Event) (t ts : List Nat) : CompactText v t → CompactElements es ts →
      CompactElements (v ++ es) (t ++ 44 :: ts)

/-- The compact text of one or more members: the key, a colon and the value
of each, a comma before each key beyond the first -/
inductive CompactMembers : List Event → List Nat → Prop
  | one (k : List Nat) (v : List Event) (t : List Nat) : CompactText v t →
      CompactMembers (.Key k :: v) (Writer.token (.Key k) ++ 58 :: t)
  | more (k : List Nat) (v ms : List Event) (t ts : List Nat) : CompactText v t →
      CompactMembers ms ts →
      CompactMembers (.Key k :: (v ++ ms)) (Writer.token (.Key k) ++ 58 :: (t ++ 44 :: ts))

end



/-! ### Writer and Document -/

/-- The canonical decimal representation of an integer: a minus sign if it is
negative, then the decimal digits of its absolute value, most significant
first and without a leading zero; the one digit `0` for zero -/
def canonicalDecimal (v : Int) : List Nat :=
  (if v < 0 then [45] else []) ++
    (if v = 0 then [48] else (Nat.digits 10 v.natAbs).reverse.map (48 + ·))

/-- The last call of a log is a call of Key -/
def keyLast (log : List Event) : Prop := ∃ l s, log = l ++ [.Key s]

/-- Every call after those of `log0`, the calls of Key apart, was answered
true -/
def Value.Answered (h : Handler) (log0 log : List Event) : Prop :=
  ∀ k, log0.length < k → k ≤ log.length → ¬keyLast (log.take k) → h (log.take k) = true

/-- What `Value::writeTo` guarantees when it starts with the call log `log0`:
the log only grows; it returns true only if every call but those of Key was
answered true; it returns false only if its last call, not a call of Key, was
answered false, and every call before it but those of Key was answered true. -/
def Value.Stops (h : Handler) (log0 : List Event) : WriteRes → Prop
  | .returned true log => log0 <+: log ∧ Value.Answered h log0 log
  | .returned false log => ∃ l ev, log = l ++ [ev] ∧ log0 <+: l ∧ (∀ s, ev ≠ .Key s) ∧
      h log = false ∧ Value.Answered h log0 l
  | .abort log => log0 <+: log ∧ Value.Answered h log0 log

/-- The handler that answers false to every call of Key and true to every
other call -/
def rejectKeys : Handler := fun log =>
  match log.getLast? with
  | some (.Key _) => false
  | _ => true

/-! ### The tree of a Document -/

mutual

/-- The value that the events of one value denote: the scalar of a scalar
event with its payload; the array of the values that the events between
StartArray and EndArray denote, in their order; the object of the members that
the events between StartObject and EndObject denote, in their order -/
inductive Denotes : List Event → Value → Prop
  | null : Denotes [.Null] .Null
  | bool (b : Bool) : Denotes [.Bool b] (.Bool b)
  | int32 (i32 : Int) : Denotes [.Int32 i32] (.Int32 i32)
  | int64 (i64 : Int) : Denotes [.Int64 i64] (.Int64 i64)
  | double (d : Dbl) : Denotes [.Double d] (.Double d)
  | string (s : List Nat) : Denotes [.String s] (.String s)
  | array (es : List Event) (a : List Value) : DenotesElements es a →
      Denotes (.StartArray :: (es ++ [.EndArray])) (.Array a)
  | object (ms : List Event) (o : List (Value × Value)) : DenotesMembers ms o →
      Denotes (.StartObject :: (ms ++ [.EndObject])) (.Object o)

/-- The values that the events of zero or more values denote, one after the
other -/
inductive DenotesElements : List Event → List Value → Prop
  | nil : DenotesElements [] []
  | cons (v es : List Event) (x : Value) (xs : List Value) : Denotes v x →
      DenotesElements es xs → DenotesElements (v ++ es) (x :: xs)

/-- The members that the events of zero or more members denote: the key of a
member is the string of its Key event, its value is the value that the events
after the Key event denote -/
inductive DenotesMembers : List Event → List (Value × Value) → Prop
  | nil : DenotesMembers [] []
  | cons (k : List Nat) (v ms : List Event) (x : Value) (xs : List (Value × Value)) :
      Denotes v x → DenotesMembers ms xs →
      DenotesMembers (.Key k :: (v ++ ms)) ((.String k, x) :: xs)

end

mutual

/-- The events of a value, in the order of `Value::writeTo` -/
def Value.events : Value → List Event
  | .Null => [.Null]
  | .Bool b => [.Bool b]
  | .Int32 i32 => [.Int32 i32]
  | .Int64 i64 => [.Int64 i64]
  | .Double d => [.Double d]
  | .String s => [.String s]
  | .Array a => .StartArray :: (Value.eventsArray a ++ [.EndArray])
  | .Object o => .StartObject :: (Value.eventsObject o ++ [.EndObject])

/-- The events of the elements of an array -/
def Value.eventsArray : List Value → List Event
  | [] => []
  | val :: vals => Value.events val ++ Value.eventsArray vals

/-- The events of the members of an object -/
def Value.eventsObject : List (Value × Value) → List Event
  | [] => []
  | (key, value) :: members =>
    .Key (key.getStringView.getD []) :: (Value.events value ++ Value.eventsObject members)

end

mutual

/-- The values in which every key of every object is a string, as `addMember`
asserts of every key -/
def Value.stringKeys : Value → Prop
  | .Array a => Value.stringKeysArray a
  | .Object o => Value.stringKeysObject o
  | _ => True

/-- Every key in the elements of an array is a string -/
def Value.stringKeysArray : List Value → Prop
  | [] => True
  | val :: vals => Value.stringKeys val ∧ Value.stringKeysArray vals

/-- Every key in the members of an object is a string -/
def Value.stringKeysObject : List (Value × Value) → Prop
  | [] => True
  | (key, value) :: members =>
    (∃ s, key = .String s) ∧ Value.stringKeys value ∧ Value.stringKeysObject members

end

mutual

/-- The values in which the keys of every object are pairwise distinct -/
def Value.distinctKeys : Value → Prop
  | .Array a => Value.distinctArray a
  | .Object o => Value.distinctObject o
  | _ => True

/-- The keys of every object in the elements of an array are pairwise
distinct -/
def Value.distinctArray : List Value → Prop
  | [] => True
  | val :: vals => Value.distinctKeys val ∧ Value.distinctArray vals

/-- The keys of the members are pairwise distinct, and so are the keys of
every object in their values -/
def Value.distinctObject : List (Value × Value) → Prop
  | [] => True
  | (key, value) :: members =>
    (∀ m ∈ members, m.1 ≠ key) ∧ Value.distinctKeys value ∧ Value.distinctObject members

end

/-- The top of the stack of the document is a container, reached in `n` steps
of lastValue, that has received `c` values; `ok` tells whether it accepts one
more value, and `ins x` is the container once it holds the value `x` at its
end. -/
def Document.Slot (d : Document) (n c : Nat) (below : List Document.Level) (ok : Prop)
    (ins : Value → Value) : Prop :=
  d.seeValue_ = true ∧
  d.stack_ = { value := { inKey := false, depth := n }, valueCount := c } :: below ∧
  (∃ c0, Value.nodeAt n d.root = some c0) ∧
  (∀ x, Value.lastValue (ins x) = some x) ∧
  (∀ x y, Value.setLast (ins x) y = some (ins y)) ∧
  (ok → ∃ kf, ∀ x, d.addValue x = (Value.putAt n d.root (ins x)).map fun r =>
    ({ root := r,
       stack_ := { value := { inKey := false, depth := n }, valueCount := c + 1 } :: below,
       key_ := kf,
       seeValue_ := true },
     { inKey := false, depth := n + 1 })) ∧
  (¬ok → ∀ x, d.addValue x = none)

/-- The document `d1` is the document `d` after the assignment of `x` to the
value reached in `n` steps of lastValue, with the stack `st` -/
def Document.Filled (d d1 : Document) (n : Nat) (st : List Document.Level) (x : Value) : Prop :=
  ∃ r k, Value.putAt n d.root x = some r ∧
    d1 = { root := r, stack_ := st, key_ := k, seeValue_ := true }

/-! ### Safety of the handlers -/

/-- The Unicode scalar values: the code points up to 0x10FFFF that are not
surrogates -/
def isScalarValue (u : Nat) : Prop := u ≤ 0x10FFFF ∧ ¬(0xD800 ≤ u ∧ u ≤ 0xDFFF)

/-- The events of a value that is not finished: nothing yet; or StartArray, the
events of the elements that are complete and those of an element that is not
finished; or StartObject and the events of the members that are complete; or
these, the Key of one more member and the events of its value, not finished -/
inductive OpenValue : List Event → Prop
  | nothing : OpenValue []
  | array (es v : List Event) : Elements es → OpenValue v →
      OpenValue (.StartArray :: (es ++ v))
  | object (ms : List Event) : Members ms → OpenValue (.StartObject :: ms)
  | member (ms : List Event) (k : List Nat) (v : List Event) : Members ms → OpenValue v →
      OpenValue (.StartObject :: (ms ++ .Key k :: v))

/-- A parsing function was left by an exception or by a failed assertion, with
the call log `log` -/
def Reader.Stopped (r : Res) (log : List Event) : Prop :=
  (∃ err, r = .throw err log) ∨ r = .abort log

/-- Whether no Key event of an event sequence repeats a key of the same object:
the sequence is read with a stack that holds, for each container that is open,
the keys seen in it so far -/
def scanKeys : List (List (List Nat)) → List Event → Bool
  | _, [] => true
  | st, .StartObject :: evs => scanKeys ([] :: st) evs
  | st, .StartArray :: evs => scanKeys ([] :: st) evs
  | st, .EndObject :: evs => scanKeys st.tail evs
  | st, .EndArray :: evs => scanKeys st.tail evs
  | [], .Key _ :: evs => scanKeys [] evs
  | ks :: st, .Key k :: evs => decide (k ∉ ks) && scanKeys ((ks ++ [k]) :: st) evs
  | st, _ :: evs => scanKeys st evs

/-- No object of the event sequence, finished or not, has two keys that are
equal -/
def noDuplicateKeys (log : List Event) : Bool := scanKeys [] log
/-! ## Theorems

In the theorems below `mem` is the memory that follows the view of the input,
whatever it holds, unless a hypothesis says more about it. -/

variable {mem : List Nat}

/-! ## Lemmas: streams, leaves of the parser, fuel -/

/-! ## Streams -/

theorem advance_length_le (is : StringReadStream) : (advance is).length ≤ is.length := by
  cases is <;> simp [advance]

theorem advance_length_lt {is : StringReadStream} (h : hasNext is = true) :
    (advance is).length < is.length := by
  cases is <;> simp [advance, hasNext] at *

namespace Reader

theorem skipDigits_length_le (is : StringReadStream) : (skipDigits is).length ≤ is.length := by
  induction is with
  | nil => simp [skipDigits]
  | cons c cs ih =>
    simp only [skipDigits]
    split
    · exact Nat.le_succ_of_le ih
    · exact Nat.le_refl _

theorem parseWhiteSpace_length_le (is : StringReadStream) :
    (parseWhiteSpace is).length ≤ is.length := by
  induction is with
  | nil => simp [parseWhiteSpace]
  | cons c cs ih =>
    simp only [parseWhiteSpace]
    split
    · exact Nat.le_succ_of_le ih
    · exact Nat.le_refl _

theorem Leaf.mono {P Q : Event → Prop} {h n m log r} (hl : Leaf P h n log r)
    (hPQ : ∀ ev, P ev → Q ev) (hnm : n ≤ m) : Leaf Q h m log r := by
  rcases hl with ⟨ev, is, hp, hlen, rfl⟩ | h2 | h3
  · exact Or.inl ⟨ev, is, hPQ ev hp, Nat.lt_of_lt_of_le hlen hnm, rfl⟩
  · exact Or.inr (Or.inl h2)
  · exact Or.inr (Or.inr h3)

theorem leaf_call {P : Event → Prop} {h n log ev is} (hp : P ev) (hl : is.length < n) :
    Leaf P h n log (CALL h ev is log) := Or.inl ⟨ev, is, hp, hl, rfl⟩

theorem leaf_throw {P : Event → Prop} {h n log err}
    (he : err ≠ .PARSE_USER_STOPPED ∧ err ≠ .PARSE_OK) :
    Leaf P h n log (.throw err log) := Or.inr (Or.inl ⟨err, he, rfl⟩)

theorem leaf_abort {P : Event → Prop} {h n log} :
    Leaf P h n log (.abort log) := Or.inr (Or.inr rfl)

theorem literalLoop_length_le (lit : List Nat) (is : StringReadStream) :
    (literalLoop lit is).2.length ≤ is.length := by
  induction lit generalizing is with
  | nil => simp [literalLoop]
  | cons l ls ih =>
    simp only [literalLoop]
    split
    · exact Nat.le_trans (ih _) (advance_length_le _)
    · exact Nat.le_refl _

theorem parseLiteral_leaf (h : Handler) (is : StringReadStream) (log : List Event)
    (lit : List Nat) (ty : ValueType) (hn : hasNext is = true) :
    Leaf isScalar h is.length log (parseLiteral h is log lit ty) := by
  have hlen : (literalLoop lit.tail (advance is)).2.length < is.length :=
    Nat.lt_of_le_of_lt (literalLoop_length_le _ _) (advance_length_lt hn)
  unfold parseLiteral
  simp only
  split
  · cases ty <;> first
      | exact leaf_call (by simp [isScalar]) hlen
      | exact leaf_abort
  · exact leaf_throw (by decide)

theorem convertNumber_leaf (h : Handler) (start stop : StringReadStream) (log : List Event)
    (ty : ValueType) (hle : stop.length ≤ start.length) :
    Leaf isScalar h start.length log (convertNumber mem h start stop log ty) := by
  unfold convertNumber
  split
  · exact leaf_throw (by decide)
  · rename_i hne
    have hlt : stop.length < start.length := by omega
    split
    · split
      · split
        · exact leaf_call (by simp [isScalar]) hlt
        · exact leaf_abort
      · exact leaf_throw (by decide)
      · exact leaf_abort
    · split
      · split_ifs
        all_goals first
          | exact leaf_call (by simp [isScalar]) hlt
          | exact leaf_throw (by decide)
      · exact leaf_throw (by decide)
      · exact leaf_abort


theorem parseNumberSuffix_leaf (h : Handler) (start is : StringReadStream) (log : List Event)
    (ty : ValueType) (hle : is.length ≤ start.length) :
    Leaf isScalar h start.length log (parseNumberSuffix mem h start is log ty) := by
  have h1 := advance_length_le is
  have h2 := advance_length_le (advance is)
  have h3 := advance_length_le (advance (advance is))
  unfold parseNumberSuffix
  simp only
  split_ifs
  all_goals first
    | exact leaf_throw (by decide)
    | exact convertNumber_leaf _ _ _ _ _ (by omega)

theorem parseNumberExp_leaf (h : Handler) (start is : StringReadStream) (log : List Event)
    (ty : ValueType) (hle : is.length ≤ start.length) :
    Leaf isScalar h start.length log (parseNumberExp mem h start is log ty) := by
  have h1 := advance_length_le is
  have h2 := advance_length_le (advance is)
  have h3 := skipDigits_length_le (advance (advance is))
  have h4 := skipDigits_length_le (advance (advance (advance is)))
  have h5 := advance_length_le (advance (advance is))
  unfold parseNumberExp
  simp only
  split_ifs
  all_goals first
    | exact leaf_throw (by decide)
    | exact parseNumberSuffix_leaf _ _ _ _ _ (by omega)

theorem parseNumberFrac_leaf (h : Handler) (start is : StringReadStream) (log : List Event)
    (hle : is.length ≤ start.length) :
    Leaf isScalar h start.length log (parseNumberFrac mem h start is log) := by
  have h1 := advance_length_le is
  have h3 := skipDigits_length_le (advance is)
  unfold parseNumberFrac
  simp only
  split_ifs
  all_goals first
    | exact leaf_throw (by decide)
    | exact parseNumberExp_leaf _ _ _ _ _ (by omega)

theorem parseNumber_leaf (h : Handler) (is : StringReadStream) (log : List Event)
    (hn : hasNext is = true) :
    Leaf isScalar h is.length log (parseNumber mem h is log) := by
  have h1 := advance_length_le is
  have h2 := advance_length_le (advance is)
  have h3 := skipDigits_length_le (advance is)
  have h4 := skipDigits_length_le (advance (advance is))
  unfold parseNumber
  simp only
  split_ifs
  all_goals first
    | exact leaf_throw (by decide)
    | exact parseLiteral_leaf _ _ _ _ _ hn
    | exact parseNumberFrac_leaf _ _ _ _ (by omega)

theorem parseHex4Loop_length_le (n u : Nat) (is : StringReadStream) {v : Nat}
    {is1 : StringReadStream} (hp : parseHex4Loop n u is = .ok (v, is1)) :
    is1.length ≤ is.length := by
  induction n generalizing u is with
  | zero =>
    simp only [parseHex4Loop, Except.ok.injEq, Prod.mk.injEq] at hp
    rw [hp.2]
  | succ n ih =>
    simp only [parseHex4Loop] at hp
    split at hp
    · exact Nat.le_trans (ih _ _ hp) (advance_length_le _)
    · cases hp

theorem parseHex4_length_le (is : StringReadStream) {v : Nat}
    {is1 : StringReadStream} (hp : parseHex4 is = .ok (v, is1)) :
    is1.length ≤ is.length := parseHex4Loop_length_le _ _ _ hp

theorem parseUnicode_length_le (is : StringReadStream) {v : Nat}
    {is1 : StringReadStream} (hp : parseUnicode is = .ok (v, is1)) :
    is1.length ≤ is.length := by
  unfold parseUnicode at hp
  cases h1 : parseHex4 is with
  | error e => rw [h1] at hp; cases hp
  | ok p =>
    obtain ⟨u, is2⟩ := p
    have l1 := parseHex4_length_le _ h1
    rw [h1] at hp
    simp only at hp
    by_cases hs : 0xD800 ≤ u ∧ u ≤ 0xDBFF
    · rw [if_pos hs] at hp
      split_ifs at hp
      cases h2 : parseHex4 (advance (advance is2)) with
      | error e => rw [h2] at hp; cases hp
      | ok p2 =>
        obtain ⟨u2, is3⟩ := p2
        have l2 := parseHex4_length_le _ h2
        have l3 := advance_length_le is2
        have l4 := advance_length_le (advance is2)
        rw [h2] at hp
        simp only at hp
        split_ifs at hp
        simp only [Except.ok.injEq, Prod.mk.injEq] at hp
        rw [← hp.2]; omega
    · rw [if_neg hs] at hp
      simp only [Except.ok.injEq, Prod.mk.injEq] at hp
      rw [← hp.2]; exact l1

theorem parseHex4Loop_error (n u : Nat) (is : StringReadStream) {err : ParseError}
    (hp : parseHex4Loop n u is = .error err) : err = .PARSE_BAD_UNICODE_HEX := by
  induction n generalizing u is with
  | zero => simp [parseHex4Loop] at hp
  | succ n ih =>
    simp only [parseHex4Loop] at hp
    split at hp
    · exact ih _ _ hp
    · cases hp; rfl

theorem parseUnicode_error (is : StringReadStream) {err : ParseError}
    (hp : parseUnicode is = .error err) :
    err = .PARSE_BAD_UNICODE_HEX ∨ err = .PARSE_BAD_UNICODE_SURROGATE := by
  unfold parseUnicode at hp
  cases h1 : parseHex4 is with
  | error e =>
    rw [h1] at hp
    simp only [Except.error.injEq] at hp
    exact Or.inl (hp ▸ parseHex4Loop_error _ _ _ h1)
  | ok p =>
    obtain ⟨u, is2⟩ := p
    rw [h1] at hp
    simp only at hp
    split_ifs at hp
    · cases hp; exact Or.inr rfl
    · cases hp; exact Or.inr rfl
    · cases h2 : parseHex4 (advance (advance is2)) with
      | error e =>
        rw [h2] at hp
        simp only [Except.error.injEq] at hp
        exact Or.inl (hp ▸ parseHex4Loop_error _ _ _ h2)
      | ok p2 =>
        rw [h2] at hp
        simp only at hp
        split_ifs at hp
        cases hp; exact Or.inr rfl

theorem ite_or {α : Type} (c : Prop) [Decidable c] (a b : α) (P : α → Prop) (ha : c → P a)
    (hb : ¬c → P b) : P (if c then a else b) := by
  by_cases hc : c
  · rw [if_pos hc]; exact ha hc
  · rw [if_neg hc]; exact hb hc

/-- The three things the switch on the character after a backslash does -/
theorem parseEscape_cases (is : StringReadStream) (buffer : List Nat) :
    (∃ b, parseEscape is buffer = .next (advance is) (buffer ++ [b])) ∨
    parseEscape is buffer = .throw .PARSE_BAD_STRING_ESCAPE ∨
    (next is = 117 ∧ parseEscape is buffer =
      match parseUnicode (advance is) with
      | .error err => .throw err
      | .ok (u, is) =>
        match encodeUtf8 buffer u with
        | some buffer => .next is buffer
        | none => .abort) := by
  have key : ∀ r, r = parseEscape is buffer →
      (∃ b, r = .next (advance is) (buffer ++ [b])) ∨
      r = .throw .PARSE_BAD_STRING_ESCAPE ∨
      (next is = 117 ∧ r =
        match parseUnicode (advance is) with
        | .error err => .throw err
        | .ok (u, is) =>
          match encodeUtf8 buffer u with
          | some buffer => .next is buffer
          | none => .abort) := by
    intro r hr
    unfold parseEscape at hr
    simp only at hr
    by_cases h1 : next is = 34
    · rw [if_pos h1] at hr; exact Or.inl ⟨_, hr⟩
    rw [if_neg h1] at hr
    by_cases h2 : next is = 92
    · rw [if_pos h2] at hr; exact Or.inl ⟨_, hr⟩
    rw [if_neg h2] at hr
    by_cases h3 : next is = 47
    · rw [if_pos h3] at hr; exact Or.inl ⟨_, hr⟩
    rw [if_neg h3] at hr
    by_cases h4 : next is = 98
    · rw [if_pos h4] at hr; exact Or.inl ⟨_, hr⟩
    rw [if_neg h4] at hr
    by_cases h5 : next is = 102
    · rw [if_pos h5] at hr; exact Or.inl ⟨_, hr⟩
    rw [if_neg h5] at hr
    by_cases h6 : next is = 110
    · rw [if_pos h6] at hr; exact Or.inl ⟨_, hr⟩
    rw [if_neg h6] at hr
    by_cases h7 : next is = 114
    · rw [if_pos h7] at hr; exact Or.inl ⟨_, hr⟩
    rw [if_neg h7] at hr
    by_cases h8 : next is = 116
    · rw [if_pos h8] at hr; exact Or.inl ⟨_, hr⟩
    rw [if_neg h8] at hr
    by_cases h9 : next is = 117
    · rw [if_pos h9] at hr; exact Or.inr (Or.inr ⟨h9, hr⟩)
    rw [if_neg h9] at hr
    exact Or.inr (Or.inl hr)
  exact key _ rfl

theorem parseEscape_next (is : StringReadStream) (buffer : List Nat) {is1 : StringReadStream}
    {b1 : List Nat} (hp : parseEscape is buffer = .next is1 b1) : is1.length ≤ is.length := by
  have l0 := advance_length_le is
  rcases parseEscape_cases is buffer with ⟨b, hb⟩ | hb | ⟨-, hb⟩
  · rw [hb] at hp
    simp only [Escape.next.injEq] at hp
    rw [← hp.1]; exact l0
  · rw [hb] at hp; cases hp
  · rw [hb] at hp
    split at hp
    · cases hp
    · rename_i u is2 hu
      have l1 := parseUnicode_length_le _ hu
      split at hp
      · simp only [Escape.next.injEq] at hp; rw [← hp.1]; omega
      · cases hp

theorem parseEscape_throw (is : StringReadStream) (buffer : List Nat) {err : ParseError}
    (hp : parseEscape is buffer = .throw err) :
    err ≠ .PARSE_USER_STOPPED ∧ err ≠ .PARSE_OK := by
  rcases parseEscape_cases is buffer with ⟨b, hb⟩ | hb | ⟨-, hb⟩
  · rw [hb] at hp; cases hp
  · rw [hb] at hp; cases hp; decide
  · rw [hb] at hp
    split at hp
    · rename_i e he
      simp only [Escape.throw.injEq] at hp
      rcases parseUnicode_error _ he with h1 | h1 <;> (rw [← hp, h1]; decide)
    · split at hp <;> cases hp

theorem parseStringLoop_leaf (h : Handler) (isKey : Bool) (fuel : Nat) (is : StringReadStream)
    (buffer : List Nat) (log : List Event) (hf : is.length < fuel) :
    Leaf (stringEvent isKey) h is.length log (parseStringLoop h isKey fuel is buffer log) := by
  induction fuel generalizing is buffer with
  | zero => omega
  | succ fuel ih =>
    cases is with
    | nil => rw [parseStringLoop]; exact leaf_throw (by decide)
    | cons c cs =>
      rw [parseStringLoop]
      have e1 : hasNext (c :: cs) = true := rfl
      have e2 : next (c :: cs) = c := rfl
      have e3 : advance (c :: cs) = cs := rfl
      rw [e1, e2, e3]
      simp only [Bool.not_true, Bool.false_eq_true, if_false]
      simp only [List.length_cons] at hf ⊢
      split_ifs
      · exact leaf_call (by simp [stringEvent, *]) (by simp)
      · exact leaf_call (by simp [stringEvent, *]) (by simp)
      · exact leaf_throw (by decide)
      · split
        · rename_i is1 b1 he
          have := parseEscape_next _ _ he
          exact (ih is1 b1 (by omega)).mono (fun _ x => x) (by omega)
        · rename_i err he
          exact leaf_throw (parseEscape_throw _ _ he)
        · exact leaf_abort
      · exact (ih cs _ (by omega)).mono (fun _ x => x) (by omega)

theorem parseString_leaf (h : Handler) (is : StringReadStream) (log : List Event) (isKey : Bool)
    (hn : hasNext is = true) :
    Leaf (stringEvent isKey) h is.length log (parseString h is log isKey) := by
  unfold parseString
  exact (parseStringLoop_leaf h isKey _ _ _ _ (advance_length_lt hn)).mono (fun _ x => x)
    (advance_length_le _)


theorem accepted_refl (h : Handler) (log : List Event) : Accepted h log log := by
  intro k h1 h2; omega

theorem accepted_trans {h : Handler} {l0 l1 l2 : List Event} (_p1 : l0 <+: l1) (p2 : l1 <+: l2)
    (a1 : Accepted h l0 l1) (a2 : Accepted h l1 l2) : Accepted h l0 l2 := by
  intro k h1 h2
  by_cases hk : l1.length < k
  · exact a2 k hk h2
  · have hk' : k ≤ l1.length := by omega
    obtain ⟨t, rfl⟩ := p2
    rw [List.take_append_of_le_length hk']
    exact a1 k h1 hk'

theorem accepted_snoc {h : Handler} {l : List Event} {ev : Event} (hev : h (l ++ [ev]) = true) :
    Accepted h l (l ++ [ev]) := by
  intro k h1 h2
  simp only [List.length_append, List.length_singleton] at h2
  have : k = (l ++ [ev]).length := by simp; omega
  rw [this, List.take_length]
  exact hev

theorem inv_call (h : Handler) (n : Nat) (log : List Event) (ev : Event)
    (is : StringReadStream) (hl : is.length < n) : Inv h n log (CALL h ev is log) := by
  unfold CALL
  by_cases hev : h (log ++ [ev]) = true
  · rw [if_pos hev]
    exact ⟨hl, List.prefix_append _ _, accepted_snoc hev⟩
  · rw [if_neg hev]
    refine ⟨List.prefix_append _ _, by decide, Or.inr ⟨rfl, log, ev, rfl, List.prefix_refl _,
      accepted_refl _ _, ?_⟩⟩
    simpa using hev

theorem inv_throw (h : Handler) (n : Nat) (log : List Event) {err : ParseError}
    (he : err ≠ .PARSE_USER_STOPPED ∧ err ≠ .PARSE_OK) : Inv h n log (.throw err log) :=
  ⟨List.prefix_refl _, he.2, Or.inl ⟨he.1, accepted_refl _ _⟩⟩

theorem inv_of_leaf {P : Event → Prop} {h : Handler} {n : Nat} {log : List Event} {r : Res}
    (hl : Leaf P h n log r) : Inv h n log r := by
  rcases hl with ⟨ev, is, -, hlen, rfl⟩ | ⟨err, he, rfl⟩ | rfl
  · exact inv_call h n log ev is hlen
  · exact inv_throw h n log he
  · exact ⟨List.prefix_refl _, accepted_refl _ _⟩

theorem inv_mono {h : Handler} {n m : Nat} {log : List Event} {r : Res} (hi : Inv h n log r)
    (hnm : n ≤ m) : Inv h m log r := by
  cases r with
  | ok is log1 => exact ⟨Nat.lt_of_lt_of_le hi.1 hnm, hi.2⟩
  | throw err log1 => exact hi
  | abort log1 => exact hi
  | outOfFuel => trivial

theorem inv_andThen {h : Handler} {n m : Nat} {log : List Event} {r : Res}
    {k : StringReadStream → List Event → Res} (hr : Inv h n log r)
    (hk : ∀ is1 log1, r = .ok is1 log1 → is1.length < n → Inv h m log1 (k is1 log1)) :
    Inv h m log (r.andThen k) := by
  cases r with
  | ok is1 log1 =>
    obtain ⟨hl, hp, ha⟩ := hr
    have h2 := hk is1 log1 rfl hl
    simp only [Res.andThen]
    cases hres : k is1 log1 with
    | ok is2 log2 =>
      rw [hres] at h2
      obtain ⟨hl2, hp2, ha2⟩ := h2
      exact ⟨hl2, hp.trans hp2, accepted_trans hp hp2 ha ha2⟩
    | throw err log2 =>
      rw [hres] at h2
      obtain ⟨hp2, hno, h3⟩ := h2
      refine ⟨hp.trans hp2, hno, ?_⟩
      rcases h3 with ⟨he, ha2⟩ | ⟨he, l, ev, hlog, hpl, hal, hf⟩
      · exact Or.inl ⟨he, accepted_trans hp hp2 ha ha2⟩
      · exact Or.inr ⟨he, l, ev, hlog, hp.trans hpl, accepted_trans hp hpl ha hal, hf⟩
    | abort log2 =>
      rw [hres] at h2
      exact ⟨hp.trans h2.1, accepted_trans hp h2.1 ha h2.2⟩
    | outOfFuel => trivial
  | throw err log1 => exact hr
  | abort log1 => exact hr
  | outOfFuel => trivial

theorem call_eq_ok {h : Handler} {ev : Event} {is is1 : StringReadStream}
    {log log1 : List Event} (hc : CALL h ev is log = .ok is1 log1) :
    is1 = is ∧ log1 = log ++ [ev] ∧ h (log ++ [ev]) = true := by
  unfold CALL at hc
  split at hc
  · rename_i hh
    simp only [Res.ok.injEq] at hc
    exact ⟨hc.1.symm, hc.2.symm, hh⟩
  · cases hc

theorem hasNext_of_peek_ne {is : StringReadStream} (hp : peek is ≠ 0) : hasNext is = true := by
  cases is
  · simp [peek] at hp
  · rfl

/-- The dispatch of parseValue: only arrays and objects use the fuel -/
theorem parseValue_succ (h : Handler) (fuel : Nat) (is : StringReadStream) (log : List Event) :
    parseValue mem h (fuel + 1) is log =
      if peek is = 91 then parseArray mem h fuel is log
      else if peek is = 123 then parseObject mem h fuel is log
      else parseValue mem h 1 is log := by
  rw [parseValue, parseValue]
  cases is with
  | nil => rfl
  | cons c cs =>
    have e1 : hasNext (c :: cs) = true := rfl
    have e2 : peek (c :: cs) = c := rfl
    rw [e1, e2]
    by_cases h91 : c = 91
    · subst h91; rfl
    · by_cases h123 : c = 123
      · subst h123; rfl
      · simp only [if_neg h91, if_neg h123]

theorem inv_parse (h : Handler) (fuel : Nat) :
    (∀ is log, Inv h is.length log (parseValue mem h fuel is log)) ∧
    (∀ is log, hasNext is = true → Inv h is.length log (parseArray mem h fuel is log)) ∧
    (∀ is log, Inv h (is.length + 1) log (parseArrayLoop mem h fuel is log)) ∧
    (∀ is log, hasNext is = true → Inv h is.length log (parseObject mem h fuel is log)) ∧
    (∀ is log, Inv h (is.length + 1) log (parseObjectLoop mem h fuel is log)) := by
  induction fuel with
  | zero =>
    refine ⟨?_, ?_, ?_, ?_, ?_⟩ <;> intros <;> simp only [parseValue, parseArray,
      parseArrayLoop, parseObject, parseObjectLoop] <;> trivial
  | succ fuel ih =>
    obtain ⟨ihV, ihA, ihAL, ihO, ihOL⟩ := ih
    refine ⟨?_, ?_, ?_, ?_, ?_⟩
    · intro is log
      rw [parseValue]
      by_cases hn : hasNext is = true
      · simp only [hn, Bool.not_true, Bool.false_eq_true, if_false]
        split_ifs
        · exact inv_of_leaf (parseLiteral_leaf _ _ _ _ _ hn)
        · exact inv_of_leaf (parseLiteral_leaf _ _ _ _ _ hn)
        · exact inv_of_leaf (parseLiteral_leaf _ _ _ _ _ hn)
        · exact inv_of_leaf (parseString_leaf _ _ _ _ hn)
        · exact ihA _ _ hn
        · exact ihO _ _ hn
        · exact inv_of_leaf (parseNumber_leaf _ _ _ hn)
      · simp only [hn, Bool.not_false, if_true]
        exact inv_throw _ _ _ (by decide)
    · intro is log hn
      rw [parseArray]
      have l1 := advance_length_lt hn
      have l2 := parseWhiteSpace_length_le (advance is)
      have l3 := advance_length_le (parseWhiteSpace (advance is))
      refine inv_andThen (inv_call h (is.length + 1) log _ is (by omega)) ?_
      intro is1 log1 he _
      obtain ⟨rfl, -, -⟩ := call_eq_ok he
      try simp only
      split_ifs
      · exact inv_call _ _ _ _ _ (by omega)
      · exact inv_mono (ihAL _ _) (by omega)
    · intro is log
      rw [parseArrayLoop]
      refine inv_andThen (ihV is log) ?_
      intro is1 log1 _ hl
      have l2 := parseWhiteSpace_length_le is1
      have l3 := advance_length_le (parseWhiteSpace is1)
      have l4 := parseWhiteSpace_length_le (advance (parseWhiteSpace is1))
      try simp only
      split_ifs
      · exact inv_mono (ihAL _ _) (by omega)
      · exact inv_call _ _ _ _ _ (by omega)
      · exact inv_throw _ _ _ (by decide)
    · intro is log hn
      rw [parseObject]
      have l1 := advance_length_lt hn
      have l2 := parseWhiteSpace_length_le (advance is)
      have l3 := advance_length_le (parseWhiteSpace (advance is))
      refine inv_andThen (inv_call h (is.length + 1) log _ is (by omega)) ?_
      intro is1 log1 he _
      obtain ⟨rfl, -, -⟩ := call_eq_ok he
      try simp only
      split_ifs
      · exact inv_call _ _ _ _ _ (by omega)
      · exact inv_mono (ihOL _ _) (by omega)
    · intro is log
      rw [parseObjectLoop]
      split_ifs with hq
      · exact inv_throw _ _ _ (by decide)
      · have hn : hasNext is = true := hasNext_of_peek_ne (by
          intro h0; rw [h0] at hq; exact hq (by decide))
        refine inv_andThen (inv_of_leaf (parseString_leaf h is log true hn)) ?_
        intro is1 log1 _ hl1
        have l2 := parseWhiteSpace_length_le is1
        have l3 := advance_length_le (parseWhiteSpace is1)
        have l4 := parseWhiteSpace_length_le (advance (parseWhiteSpace is1))
        try simp only
        split_ifs
        · exact inv_throw _ _ _ (by decide)
        · refine inv_andThen (ihV _ _) ?_
          intro is2 log2 _ hl2
          have l5 := parseWhiteSpace_length_le is2
          have l6 := advance_length_le (parseWhiteSpace is2)
          have l7 := parseWhiteSpace_length_le (advance (parseWhiteSpace is2))
          try simp only
          split_ifs
          · exact inv_mono (ihOL _ _) (by omega)
          · exact inv_call _ _ _ _ _ (by omega)
          · exact inv_throw _ _ _ (by decide)


/-! ### Fuel -/

theorem andThen_ne_outOfFuel {r : Res} {k : StringReadStream → List Event → Res}
    (h1 : r ≠ .outOfFuel) (h2 : ∀ is log, r = .ok is log → k is log ≠ .outOfFuel) :
    r.andThen k ≠ .outOfFuel := by
  cases r with
  | ok is log => exact h2 is log rfl
  | throw err log => simp [Res.andThen]
  | abort log => simp [Res.andThen]
  | outOfFuel => exact absurd rfl h1

theorem call_ne_outOfFuel (h : Handler) (ev : Event) (is : StringReadStream)
    (log : List Event) : CALL h ev is log ≠ .outOfFuel := by
  unfold CALL; split <;> simp

theorem leaf_ne_outOfFuel {P : Event → Prop} {h : Handler} {n : Nat} {log : List Event}
    {r : Res} (hl : Leaf P h n log r) : r ≠ .outOfFuel := by
  rcases hl with ⟨ev, is, -, -, rfl⟩ | ⟨err, -, rfl⟩ | rfl
  · exact call_ne_outOfFuel _ _ _ _
  · simp
  · simp

theorem inv_ok_length {h : Handler} {n : Nat} {log log1 : List Event} {r : Res}
    {is1 : StringReadStream} (hi : Inv h n log r) (hr : r = .ok is1 log1) :
    is1.length < n := by
  subst hr; exact hi.1

theorem fuel_enough (h : Handler) (fuel : Nat) :
    (∀ is log, 3 * is.length + 1 ≤ fuel → parseValue mem h fuel is log ≠ .outOfFuel) ∧
    (∀ is log, hasNext is = true → 3 * is.length ≤ fuel →
      parseArray mem h fuel is log ≠ .outOfFuel) ∧
    (∀ is log, 3 * is.length + 2 ≤ fuel → parseArrayLoop mem h fuel is log ≠ .outOfFuel) ∧
    (∀ is log, hasNext is = true → 3 * is.length ≤ fuel →
      parseObject mem h fuel is log ≠ .outOfFuel) ∧
    (∀ is log, 3 * is.length + 2 ≤ fuel → parseObjectLoop mem h fuel is log ≠ .outOfFuel) := by
  induction fuel with
  | zero =>
    refine ⟨?_, ?_, ?_, ?_, ?_⟩
    · intro is log hf; omega
    · intro is log hn hf
      cases is
      · simp [hasNext] at hn
      · simp at hf
    · intro is log hf; omega
    · intro is log hn hf
      cases is
      · simp [hasNext] at hn
      · simp at hf
    · intro is log hf; omega
  | succ fuel ih =>
    obtain ⟨ihV, ihA, ihAL, ihO, ihOL⟩ := ih
    refine ⟨?_, ?_, ?_, ?_, ?_⟩
    · intro is log hf
      rw [parseValue]
      by_cases hn : hasNext is = true
      · simp only [hn, Bool.not_true, Bool.false_eq_true, if_false]
        split_ifs
        · exact leaf_ne_outOfFuel (parseLiteral_leaf _ _ _ _ _ hn)
        · exact leaf_ne_outOfFuel (parseLiteral_leaf _ _ _ _ _ hn)
        · exact leaf_ne_outOfFuel (parseLiteral_leaf _ _ _ _ _ hn)
        · exact leaf_ne_outOfFuel (parseString_leaf _ _ _ _ hn)
        · exact ihA _ _ hn (by omega)
        · exact ihO _ _ hn (by omega)
        · exact leaf_ne_outOfFuel (parseNumber_leaf _ _ _ hn)
      · simp only [hn, Bool.not_false, if_true]
        simp
    · intro is log hn hf
      rw [parseArray]
      have l1 := advance_length_lt hn
      have l2 := parseWhiteSpace_length_le (advance is)
      refine andThen_ne_outOfFuel (call_ne_outOfFuel _ _ _ _) ?_
      intro is1 log1 he
      obtain ⟨rfl, -, -⟩ := call_eq_ok he
      try simp only
      split_ifs
      · exact call_ne_outOfFuel _ _ _ _
      · exact ihAL _ _ (by omega)
    · intro is log hf
      rw [parseArrayLoop]
      refine andThen_ne_outOfFuel (ihV _ _ (by omega)) ?_
      intro is1 log1 he
      have hl := inv_ok_length ((inv_parse h fuel).1 is log) he
      have l2 := parseWhiteSpace_length_le is1
      have l3 := advance_length_le (parseWhiteSpace is1)
      have l4 := parseWhiteSpace_length_le (advance (parseWhiteSpace is1))
      try simp only
      split_ifs
      · exact ihAL _ _ (by omega)
      · exact call_ne_outOfFuel _ _ _ _
      · simp
    · intro is log hn hf
      rw [parseObject]
      have l1 := advance_length_lt hn
      have l2 := parseWhiteSpace_length_le (advance is)
      refine andThen_ne_outOfFuel (call_ne_outOfFuel _ _ _ _) ?_
      intro is1 log1 he
      obtain ⟨rfl, -, -⟩ := call_eq_ok he
      try simp only
      split_ifs
      · exact call_ne_outOfFuel _ _ _ _
      · exact ihOL _ _ (by omega)
    · intro is log hf
      rw [parseObjectLoop]
      split_ifs with hq
      · simp
      · have hn : hasNext is = true := hasNext_of_peek_ne (by
          intro h0; rw [h0] at hq; exact hq (by decide))
        have hs := parseString_leaf h is log true hn
        refine andThen_ne_outOfFuel (leaf_ne_outOfFuel hs) ?_
        intro is1 log1 he
        have hl1 := inv_ok_length (inv_of_leaf hs) he
        have l2 := parseWhiteSpace_length_le is1
        have l3 := advance_length_le (parseWhiteSpace is1)
        have l4 := parseWhiteSpace_length_le (advance (parseWhiteSpace is1))
        try simp only
        split_ifs
        · simp
        · refine andThen_ne_outOfFuel (ihV _ _ (by omega)) ?_
          intro is2 log2 he2
          have hl2 := inv_ok_length ((inv_parse h fuel).1 _ _) he2
          have l5 := parseWhiteSpace_length_le is2
          have l6 := advance_length_le (parseWhiteSpace is2)
          have l7 := parseWhiteSpace_length_le (advance (parseWhiteSpace is2))
          try simp only
          split_ifs
          · exact ihOL _ _ (by omega)
          · exact call_ne_outOfFuel _ _ _ _
          · simp

theorem andThen_congr {r1 r2 : Res} {k1 k2 : StringReadStream → List Event → Res}
    (hr : r1 = r2) (hk : ∀ is log, r2 = .ok is log → k1 is log = k2 is log) :
    r1.andThen k1 = r2.andThen k2 := by
  subst hr
  cases r1 with
  | ok is log => exact hk is log rfl
  | throw err log => rfl
  | abort log => rfl
  | outOfFuel => rfl

theorem andThen_ne_outOfFuel_left {r : Res} {k : StringReadStream → List Event → Res}
    (h1 : r.andThen k ≠ .outOfFuel) : r ≠ .outOfFuel := by
  intro h; subst h; exact h1 rfl

theorem andThen_ne_outOfFuel_right {r : Res} {k : StringReadStream → List Event → Res}
    (h1 : r.andThen k ≠ .outOfFuel) {is log} (hr : r = .ok is log) : k is log ≠ .outOfFuel := by
  subst hr; exact h1

/-- More fuel does not change a result that was reached -/
theorem fuel_succ (h : Handler) (fuel : Nat) :
    (∀ is log, parseValue mem h fuel is log ≠ .outOfFuel →
      parseValue mem h (fuel + 1) is log = parseValue mem h fuel is log) ∧
    (∀ is log, parseArray mem h fuel is log ≠ .outOfFuel →
      parseArray mem h (fuel + 1) is log = parseArray mem h fuel is log) ∧
    (∀ is log, parseArrayLoop mem h fuel is log ≠ .outOfFuel →
      parseArrayLoop mem h (fuel + 1) is log = parseArrayLoop mem h fuel is log) ∧
    (∀ is log, parseObject mem h fuel is log ≠ .outOfFuel →
      parseObject mem h (fuel + 1) is log = parseObject mem h fuel is log) ∧
    (∀ is log, parseObjectLoop mem h fuel is log ≠ .outOfFuel →
      parseObjectLoop mem h (fuel + 1) is log = parseObjectLoop mem h fuel is log) := by
  induction fuel with
  | zero =>
    refine ⟨?_, ?_, ?_, ?_, ?_⟩ <;> intro is log hne <;> exfalso <;> apply hne <;>
      simp only [parseValue, parseArray, parseArrayLoop, parseObject, parseObjectLoop]
  | succ fuel ih =>
    obtain ⟨ihV, ihA, ihAL, ihO, ihOL⟩ := ih
    refine ⟨?_, ?_, ?_, ?_, ?_⟩
    · intro is log hne
      rw [parseValue_succ] at hne
      rw [parseValue_succ h (fuel + 1), parseValue_succ h fuel]
      by_cases h91 : peek is = 91
      · simp only [if_pos h91] at hne ⊢
        exact ihA _ _ hne
      · simp only [if_neg h91] at hne ⊢
        by_cases h123 : peek is = 123
        · simp only [if_pos h123] at hne ⊢
          exact ihO _ _ hne
        · simp only [if_neg h123]
    · intro is log hne
      rw [parseArray] at hne
      rw [parseArray, parseArray]
      refine andThen_congr rfl ?_
      intro is1 log1 he
      have hne2 := andThen_ne_outOfFuel_right hne he
      simp only at hne2 ⊢
      split_ifs at hne2 ⊢
      · rfl
      · exact ihAL _ _ hne2
    · intro is log hne
      rw [parseArrayLoop] at hne
      rw [parseArrayLoop, parseArrayLoop]
      refine andThen_congr (ihV _ _ (andThen_ne_outOfFuel_left hne)) ?_
      intro is1 log1 he
      have hne2 := andThen_ne_outOfFuel_right hne he
      simp only at hne2 ⊢
      split_ifs at hne2 ⊢
      · exact ihAL _ _ hne2
      · rfl
      · rfl
    · intro is log hne
      rw [parseObject] at hne
      rw [parseObject, parseObject]
      refine andThen_congr rfl ?_
      intro is1 log1 he
      have hne2 := andThen_ne_outOfFuel_right hne he
      simp only at hne2 ⊢
      split_ifs at hne2 ⊢
      · rfl
      · exact ihOL _ _ hne2
    · intro is log hne
      rw [parseObjectLoop] at hne
      rw [parseObjectLoop, parseObjectLoop]
      split_ifs at hne ⊢ with hq
      · rfl
      · refine andThen_congr rfl ?_
        intro is1 log1 he
        have hne2 := andThen_ne_outOfFuel_right hne he
        simp only at hne2 ⊢
        split_ifs at hne2 ⊢
        · rfl
        · refine andThen_congr (ihV _ _ (andThen_ne_outOfFuel_left hne2)) ?_
          intro is2 log2 he2
          have hne3 := andThen_ne_outOfFuel_right hne2 he2
          simp only at hne3 ⊢
          split_ifs at hne3 ⊢
          · exact ihOL _ _ hne3
          · rfl
          · rfl


/-! ### Well-nested events -/

theorem andThen_eq_ok {r : Res} {k : StringReadStream → List Event → Res}
    {is : StringReadStream} {log : List Event} (h : r.andThen k = .ok is log) :
    ∃ is1 log1, r = .ok is1 log1 ∧ k is1 log1 = .ok is log := by
  cases r with
  | ok is1 log1 => exact ⟨is1, log1, rfl, h⟩
  | throw err log1 => cases h
  | abort log1 => cases h
  | outOfFuel => cases h

theorem leaf_eq_ok {P : Event → Prop} {h : Handler} {n : Nat} {log log1 : List Event}
    {r : Res} {is1 : StringReadStream} (hl : Leaf P h n log r) (hr : r = .ok is1 log1) :
    ∃ ev, P ev ∧ log1 = log ++ [ev] := by
  rcases hl with ⟨ev, is, hp, -, rfl⟩ | ⟨err, -, rfl⟩ | rfl
  · exact ⟨ev, hp, (call_eq_ok hr).2.1⟩
  · cases hr
  · cases hr

theorem wellNested_parse (h : Handler) (fuel : Nat) :
    (∀ is log is1 log1, parseValue mem h fuel is log = .ok is1 log1 →
      ∃ v, log1 = log ++ v ∧ WellNested v) ∧
    (∀ is log is1 log1, hasNext is = true → parseArray mem h fuel is log = .ok is1 log1 →
      ∃ v, log1 = log ++ v ∧ WellNested v) ∧
    (∀ is log is1 log1, parseArrayLoop mem h fuel is log = .ok is1 log1 →
      ∃ es, log1 = log ++ (es ++ [Event.EndArray]) ∧ Elements es) ∧
    (∀ is log is1 log1, hasNext is = true → parseObject mem h fuel is log = .ok is1 log1 →
      ∃ v, log1 = log ++ v ∧ WellNested v) ∧
    (∀ is log is1 log1, parseObjectLoop mem h fuel is log = .ok is1 log1 →
      ∃ ms, log1 = log ++ (ms ++ [Event.EndObject]) ∧ Members ms) := by
  induction fuel with
  | zero =>
    refine ⟨?_, ?_, ?_, ?_, ?_⟩ <;> intros <;> simp only [parseValue, parseArray,
      parseArrayLoop, parseObject, parseObjectLoop] at * <;> contradiction
  | succ fuel ih =>
    obtain ⟨ihV, ihA, ihAL, ihO, ihOL⟩ := ih
    have scalar : ∀ {n log r is1 log1}, Leaf isScalar h n log r → r = .ok is1 log1 →
        ∃ v, log1 = log ++ v ∧ WellNested v := by
      intro n log r is1 log1 hl hr
      obtain ⟨ev, hp, he⟩ := leaf_eq_ok hl hr
      exact ⟨[ev], he, WellNested.scalar ev hp⟩
    refine ⟨?_, ?_, ?_, ?_, ?_⟩
    · intro is log is1 log1 hp
      rw [parseValue] at hp
      by_cases hn : hasNext is = true
      · simp only [hn, Bool.not_true, Bool.false_eq_true, if_false] at hp
        split_ifs at hp
        · exact scalar (parseLiteral_leaf _ _ _ _ _ hn) hp
        · exact scalar (parseLiteral_leaf _ _ _ _ _ hn) hp
        · exact scalar (parseLiteral_leaf _ _ _ _ _ hn) hp
        · obtain ⟨ev, ⟨s, rfl⟩, he⟩ := leaf_eq_ok (parseString_leaf _ _ _ _ hn) hp
          exact ⟨[.String s], he, WellNested.scalar _ trivial⟩
        · exact ihA _ _ _ _ hn hp
        · exact ihO _ _ _ _ hn hp
        · exact scalar (parseNumber_leaf _ _ _ hn) hp
      · simp only [hn, Bool.not_false, if_true] at hp
        cases hp
    · intro is log is1 log1 hn hp
      rw [parseArray] at hp
      obtain ⟨is2, log2, hc, hk⟩ := andThen_eq_ok hp
      obtain ⟨rfl, rfl, -⟩ := call_eq_ok hc
      try simp only at hk
      split_ifs at hk
      · obtain ⟨-, rfl, -⟩ := call_eq_ok hk
        exact ⟨[.StartArray, .EndArray], by simp, WellNested.array [] Elements.nil⟩
      · obtain ⟨es, rfl, hes⟩ := ihAL _ _ _ _ hk
        exact ⟨.StartArray :: es ++ [.EndArray], by simp, WellNested.array es hes⟩
    · intro is log is1 log1 hp
      rw [parseArrayLoop] at hp
      obtain ⟨is2, log2, hv, hk⟩ := andThen_eq_ok hp
      obtain ⟨v, rfl, hwv⟩ := ihV _ _ _ _ hv
      try simp only at hk
      split_ifs at hk
      · obtain ⟨es, rfl, hes⟩ := ihAL _ _ _ _ hk
        exact ⟨v ++ es, by simp, Elements.cons v es hwv hes⟩
      · obtain ⟨-, rfl, -⟩ := call_eq_ok hk
        exact ⟨v ++ [], by simp, Elements.cons v [] hwv Elements.nil⟩
    · intro is log is1 log1 hn hp
      rw [parseObject] at hp
      obtain ⟨is2, log2, hc, hk⟩ := andThen_eq_ok hp
      obtain ⟨rfl, rfl, -⟩ := call_eq_ok hc
      try simp only at hk
      split_ifs at hk
      · obtain ⟨-, rfl, -⟩ := call_eq_ok hk
        exact ⟨[.StartObject, .EndObject], by simp, WellNested.object [] Members.nil⟩
      · obtain ⟨ms, rfl, hms⟩ := ihOL _ _ _ _ hk
        exact ⟨.StartObject :: ms ++ [.EndObject], by simp, WellNested.object ms hms⟩
    · intro is log is1 log1 hp
      rw [parseObjectLoop] at hp
      split_ifs at hp with hq
      have hn : hasNext is = true := hasNext_of_peek_ne (by
        intro h0; rw [h0] at hq; exact hq (by decide))
      obtain ⟨is2, log2, hs, hk⟩ := andThen_eq_ok hp
      obtain ⟨ev, ⟨s, rfl⟩, rfl⟩ := leaf_eq_ok (parseString_leaf h is log true hn) hs
      try simp only at hk
      split_ifs at hk
      obtain ⟨is3, log3, hv, hk2⟩ := andThen_eq_ok hk
      obtain ⟨v, rfl, hwv⟩ := ihV _ _ _ _ hv
      try simp only at hk2
      split_ifs at hk2
      · obtain ⟨ms, rfl, hms⟩ := ihOL _ _ _ _ hk2
        exact ⟨.Key s :: v ++ ms, by simp, Members.cons s v ms hwv hms⟩
      · obtain ⟨-, rfl, -⟩ := call_eq_ok hk2
        exact ⟨.Key s :: v ++ [], by simp, Members.cons s v [] hwv Members.nil⟩

end Reader

/-! ## Fuel: `Reader.parse` always has enough -/

namespace Reader

theorem fuel_mono (h : Handler) (fuel : Nat) (d : Nat) (is : StringReadStream)
    (log : List Event) (hne : parseValue mem h fuel is log ≠ .outOfFuel) :
    parseValue mem h (fuel + d) is log = parseValue mem h fuel is log := by
  induction d with
  | zero => rfl
  | succ d ih =>
    have h1 : parseValue mem h (fuel + d) is log ≠ .outOfFuel := by rw [ih]; exact hne
    rw [← Nat.add_assoc, (fuel_succ h (fuel + d)).1 is log h1, ih]

/-- Enough fuel gives the result of `parse`: any amount of fuel from
`3 * length + 1` on gives the same outcome. -/
theorem parse_fuel_enough (h : Handler) (is : StringReadStream) (fuel : Nat)
    (hf : 3 * is.length + 1 ≤ fuel) : parseFuel mem h fuel is = parse mem h is := by
  have hne : parseValue mem h (3 * is.length + 1) (parseWhiteSpace is) [] ≠ .outOfFuel :=
    (fuel_enough h _).1 _ _ (by have := parseWhiteSpace_length_le is; omega)
  obtain ⟨d, rfl⟩ := Nat.exists_eq_add_of_le hf
  unfold parse parseFuel
  rw [fuel_mono h _ d _ _ hne]

/-- C4. Handler cancellation: for every input and every handler, if the k-th
handler call made by `Reader::parse` returns false, then `parse` returns
PARSE_USER_STOPPED and the k-th call is the last call made. -/
theorem handler_cancellation (mem : List Nat) (h : Handler) (is : StringReadStream) (k : Nat)
    (hk : 1 ≤ k) (hlen : k ≤ (parse mem h is).log.length)
    (hfalse : h ((parse mem h is).log.take k) = false) :
    parse mem h is = .returned .PARSE_USER_STOPPED (parse mem h is).log ∧
      (parse mem h is).log.length = k := by
  have hinv := (@inv_parse mem h (3 * is.length + 1)).1 (parseWhiteSpace is) []
  have hacc : ∀ log, Accepted h [] log → k ≤ log.length → h (log.take k) = true :=
    fun log ha hl => ha k (by simpa using hk) hl
  unfold parse parseFuel at hlen hfalse ⊢
  cases hr : parseValue mem h (3 * is.length + 1) (parseWhiteSpace is) [] with
  | ok is1 log1 =>
    rw [hr] at hinv hlen hfalse
    exfalso
    have hl : k ≤ log1.length := by
      revert hlen; simp only; split <;> exact id
    have hf : h (log1.take k) = false := by
      revert hfalse; simp only; split <;> exact id
    rw [hacc log1 hinv.2.2 hl] at hf
    cases hf
  | throw err log1 =>
    rw [hr] at hinv hlen hfalse
    simp only [Outcome.log] at hlen hfalse ⊢
    rcases hinv.2.2 with ⟨-, ha⟩ | ⟨he, l, ev, hlog, -, ha, -⟩
    · rw [hacc log1 ha hlen] at hfalse; cases hfalse
    · subst hlog he
      refine ⟨rfl, ?_⟩
      by_cases hkl : k ≤ l.length
      · rw [List.take_append_of_le_length hkl, hacc l ha hkl] at hfalse; cases hfalse
      · simp only [List.length_append, List.length_singleton] at hlen ⊢
        omega
  | abort log1 =>
    rw [hr] at hinv hlen hfalse
    simp only [Outcome.log] at hlen hfalse
    rw [hacc log1 hinv.2 hlen] at hfalse; cases hfalse
  | outOfFuel =>
    rw [hr] at hlen
    simp only [Outcome.log, List.length_nil] at hlen
    omega

/-- C4, scenario 6: on `[1,2,3]`, with the handler that returns false from its
third Int32 call, the calls observed are StartArray, Int32(1), Int32(2),
Int32(3) and the result is PARSE_USER_STOPPED. -/
theorem handler_cancellation_witness :
    (1 ≤ 4 ∧ 4 ≤ (parse [] stopAtThirdInt32 (bytes "[1,2,3]")).log.length ∧
      stopAtThirdInt32 ((parse [] stopAtThirdInt32 (bytes "[1,2,3]")).log.take 4) = false) ∧
    (parse [] stopAtThirdInt32 (bytes "[1,2,3]") =
        .returned .PARSE_USER_STOPPED (parse [] stopAtThirdInt32 (bytes "[1,2,3]")).log ∧
      (parse [] stopAtThirdInt32 (bytes "[1,2,3]")).log.length = 4) ∧
    (parse [] stopAtThirdInt32 (bytes "[1,2,3]")).log =
      [.StartArray, .Int32 1, .Int32 2, .Int32 3] :=
  ⟨⟨by decide, by decide, by decide⟩,
    handler_cancellation [] stopAtThirdInt32 (bytes "[1,2,3]") 4 (by decide) (by decide)
      (by decide), by decide⟩

/-- C5. For every input on which `Reader::parse` returns PARSE_OK, whatever the
handler, the events emitted form exactly one well-nested value: a single
scalar event, or StartArray, well-nested values, EndArray, or StartObject,
pairs of a Key and a well-nested value, EndObject. -/
theorem events_well_nested (mem : List Nat) (h : Handler) (is : StringReadStream) (log : List Event)
    (hok : parse mem h is = .returned .PARSE_OK log) : WellNested log := by
  unfold parse parseFuel at hok
  cases hr : parseValue mem h (3 * is.length + 1) (parseWhiteSpace is) [] with
  | ok is1 log1 =>
    rw [hr] at hok
    obtain ⟨v, hv, hw⟩ := (wellNested_parse h _).1 _ _ _ _ hr
    simp only [List.nil_append] at hv
    have : log = log1 := by
      revert hok; simp only; split <;> intro hok <;> cases hok; rfl
    rw [this, hv]; exact hw
  | throw err log1 =>
    rw [hr] at hok
    simp only [Outcome.returned.injEq] at hok
    have hinv := (@inv_parse mem h (3 * is.length + 1)).1 (parseWhiteSpace is) []
    rw [hr] at hinv
    exact absurd hok.1 hinv.2.1
  | abort log1 => rw [hr] at hok; cases hok
  | outOfFuel => rw [hr] at hok; cases hok


/-- C5, witness: the events of the text `[1,{"a":[]}]` -/
theorem events_well_nested_witness :
    parse [] Handler.accept (bytes "[1,\x7b\"a\":[]\x7d]") =
      .returned .PARSE_OK [.StartArray, .Int32 1, .StartObject, .Key [97], .StartArray,
        .EndArray, .EndObject, .EndArray] ∧
    WellNested [.StartArray, .Int32 1, .StartObject, .Key [97], .StartArray,
        .EndArray, .EndObject, .EndArray] :=
  ⟨by decide, events_well_nested [] Handler.accept (bytes "[1,\x7b\"a\":[]\x7d]") _ (by decide)⟩

end Reader

/-! ## Numbers -/

namespace Reader

theorem allDigits_cons {c : Nat} {cs : List Nat} :
    allDigits (c :: cs) = true ↔ isDigit c = true ∧ allDigits cs = true := by
  simp [allDigits]

theorem peek_cons (c : Nat) (cs : List Nat) : peek (c :: cs) = c := rfl

theorem next_cons (c : Nat) (cs : List Nat) : next (c :: cs) = c := rfl

theorem advance_cons (c : Nat) (cs : List Nat) : advance (c :: cs) = cs := rfl

theorem skipDigits_of_not_digit {is : StringReadStream} (h : isDigit (peek is) = false) :
    skipDigits is = is := by
  cases is with
  | nil => rfl
  | cons c cs =>
    rw [peek_cons] at h
    simp [skipDigits, h]

theorem skipDigits_append {ds : List Nat} (hd : allDigits ds = true) (rest : StringReadStream) :
    skipDigits (ds ++ rest) = skipDigits rest := by
  induction ds with
  | nil => rfl
  | cons c cs ih =>
    rw [allDigits_cons] at hd
    simp only [List.cons_append, skipDigits, hd.1, if_true]
    exact ih hd.2

theorem skipDigits_digits {ds : List Nat} (hd : allDigits ds = true) {rest : StringReadStream}
    (hr : isDigit (peek rest) = false) : skipDigits (ds ++ rest) = rest := by
  rw [skipDigits_append hd, skipDigits_of_not_digit hr]

theorem isDigit_iff (c : Nat) : isDigit c = true ↔ 48 ≤ c ∧ c ≤ 57 := by
  simp [isDigit]

theorem isDigit_false_iff (c : Nat) : isDigit c = false ↔ ¬(48 ≤ c ∧ c ≤ 57) := by
  rw [← isDigit_iff]; simp

theorem isDigit19_iff (c : Nat) : isDigit19 c = true ↔ 49 ≤ c ∧ c ≤ 57 := by
  simp [isDigit19]

/-- The first byte of an integer part is a digit, and it is `0` only for the
integer part `0`. -/
theorem isIntPart_cases {ip : List Nat} (h : isIntPart ip = true) :
    ip = [48] ∨ ∃ c cs, ip = c :: cs ∧ isDigit19 c = true ∧ allDigits cs = true := by
  cases ip with
  | nil => simp [isIntPart] at h
  | cons c cs =>
    simp only [isIntPart, Bool.or_eq_true, Bool.and_eq_true, beq_iff_eq,
      List.isEmpty_iff] at h
    rcases h with ⟨h1, h2⟩ | ⟨h1, h2⟩
    · left; rw [h1, h2]
    · right; exact ⟨c, cs, rfl, h1, h2⟩

theorem isIntPart_allDigits {ip : List Nat} (h : isIntPart ip = true) :
    allDigits ip = true ∧ ip ≠ [] := by
  rcases isIntPart_cases h with rfl | ⟨c, cs, rfl, h1, h2⟩
  · exact ⟨by decide, by simp⟩
  · refine ⟨allDigits_cons.2 ⟨?_, h2⟩, by simp⟩
    rw [isDigit19_iff] at h1
    rw [isDigit_iff]; omega

/-! ### The C library's strtol on a validated token -/

theorem digitsValue_append (acc : Nat) {ds : List Nat} (hd : allDigits ds = true)
    (rest : List Nat) :
    Libc.digitsValue acc (ds ++ rest) =
      Libc.digitsValue (ds.foldl (fun a c => a * 10 + (c - 48)) acc) rest := by
  induction ds generalizing acc with
  | nil => rfl
  | cons c cs ih =>
    rw [allDigits_cons, isDigit_iff] at hd
    simp only [List.cons_append, Libc.digitsValue, hd.1, and_self, if_true, List.foldl_cons]
    exact ih _ hd.2

theorem digitsValue_of_not_digit (acc : Nat) {rest : List Nat}
    (hr : isDigit (peek rest) = false) : Libc.digitsValue acc rest = acc := by
  cases rest with
  | nil => rfl
  | cons c cs =>
    rw [peek_cons, isDigit_false_iff] at hr
    simp only [Libc.digitsValue, if_neg hr]

theorem digitsValue_digits {ds : List Nat} (hd : allDigits ds = true) {rest : List Nat}
    (hr : isDigit (peek rest) = false) :
    Libc.digitsValue 0 (ds ++ rest) = decimalValue ds := by
  rw [digitsValue_append 0 hd, digitsValue_of_not_digit _ hr]; rfl

theorem skipSpace_of_not_space {s : List Nat} (h : Libc.isspace (peek s) = false) :
    Libc.skipSpace s = s := by
  cases s with
  | nil => rfl
  | cons c cs =>
    rw [peek_cons] at h
    simp [Libc.skipSpace, h]

/-- `strtol` on a sign and digits followed by a byte that is not a digit -/
theorem strtol_token (neg : Bool) {ds : List Nat} (hd : allDigits ds = true) (hne : ds ≠ [])
    {rest : List Nat} (hr : isDigit (peek rest) = false) :
    Libc.strtol (signText neg ++ ds ++ rest) =
      if signedValue neg ds < -(2 : Int) ^ 63 ∨ (2 : Int) ^ 63 - 1 < signedValue neg ds
      then .out_of_range else .value (signedValue neg ds) := by
  obtain ⟨c, cs, rfl⟩ := List.exists_cons_of_ne_nil hne
  have hc := (allDigits_cons.1 hd).1
  rw [isDigit_iff] at hc
  have hval := digitsValue_digits hd hr
  have hval' : Libc.digitsValue 0 (c :: (cs ++ rest)) = decimalValue (c :: cs) := hval
  have c45 : c ≠ 45 := by omega
  have c43 : c ≠ 43 := by omega
  cases neg with
  | true =>
    have e1 : signText true ++ (c :: cs) ++ rest = 45 :: c :: (cs ++ rest) := rfl
    rw [e1]
    unfold Libc.strtol
    rw [skipSpace_of_not_space (by rfl)]
    simp only [peek_cons, advance_cons, true_or, if_true, decide_True, hc, and_self, hval',
      signedValue]
  | false =>
    have e1 : signText false ++ (c :: cs) ++ rest = c :: (cs ++ rest) := rfl
    rw [e1]
    unfold Libc.strtol
    have hsp : Libc.isspace (peek (c :: (cs ++ rest))) = false := by
      rw [peek_cons]
      simp only [Libc.isspace, Bool.or_eq_false_iff, decide_eq_false_iff_not,
        Bool.and_eq_false_iff]
      omega
    rw [skipSpace_of_not_space hsp]
    simp only [peek_cons, c45, c43, or_self, if_false, decide_False, hc, and_self, if_true,
      hval', signedValue, Bool.false_eq_true]


/-! ### The stages of parseNumber on a token -/

theorem peek_append_cons (ds : List Nat) (c : Nat) (rest : List Nat) (hne : ds ≠ []) :
    peek (ds ++ c :: rest) = peek ds := by
  cases ds with
  | nil => exact absurd rfl hne
  | cons d ds => rfl

/-- The sign and the integer part: parsing goes on with the fraction -/
theorem parseNumber_int (h : Handler) (log : List Event) (neg : Bool) {ip : List Nat}
    (hip : isIntPart ip = true) {tail : StringReadStream}
    (ht : isDigit (peek tail) = false) :
    parseNumber mem h (signText neg ++ ip ++ tail) log =
      parseNumberFrac mem h (signText neg ++ ip ++ tail) tail log := by
  have key : ∀ start : StringReadStream, peek start ≠ 78 → peek start ≠ 73 →
      (if peek start = 45 then advance start else start) = ip ++ tail →
      parseNumber mem h start log = parseNumberFrac mem h start tail log := by
    intro start h78 h73 hrest
    unfold parseNumber
    simp only [if_neg h78, if_neg h73, hrest]
    rcases isIntPart_cases hip with rfl | ⟨c, cs, rfl, h1, h2⟩
    · have e : [48] ++ tail = 48 :: tail := rfl
      simp only [e, peek_cons, advance_cons, if_true, ht, Bool.false_eq_true, if_false]
    · have e : (c :: cs) ++ tail = c :: (cs ++ tail) := rfl
      have h1' := (isDigit19_iff c).1 h1
      have c48 : c ≠ 48 := by omega
      simp only [e, peek_cons, advance_cons, if_neg c48, h1, if_true, skipDigits_digits h2 ht]
  obtain ⟨hall, hne⟩ := isIntPart_allDigits hip
  obtain ⟨c, cs, rfl⟩ := List.exists_cons_of_ne_nil hne
  have hc := (isDigit_iff c).1 (allDigits_cons.1 hall).1
  cases neg with
  | true =>
    have e : signText true ++ (c :: cs) ++ tail = 45 :: ((c :: cs) ++ tail) := rfl
    rw [e]
    exact key _ (by rw [peek_cons]; decide) (by rw [peek_cons]; decide) (by
      rw [peek_cons, if_pos rfl, advance_cons])
  | false =>
    have e : signText false ++ (c :: cs) ++ tail = c :: (cs ++ tail) := rfl
    rw [e]
    exact key _ (by rw [peek_cons]; omega) (by rw [peek_cons]; omega) (by
      rw [peek_cons, if_neg (by omega)]; rfl)

theorem isFracPart_cases {fp : List Nat} (h : isFracPart fp = true) :
    fp = [] ∨ ∃ d ds, fp = 46 :: d :: ds ∧ isDigit d = true ∧ allDigits ds = true := by
  cases fp with
  | nil => exact Or.inl rfl
  | cons c ds =>
    right
    simp only [isFracPart, Bool.and_eq_true, beq_iff_eq, Bool.not_eq_true',
      List.isEmpty_eq_false_iff_exists_mem] at h
    obtain ⟨⟨rfl, hne⟩, hall⟩ := h
    cases ds with
    | nil => simp at hne
    | cons d ds => exact ⟨d, ds, rfl, (allDigits_cons.1 hall).1, (allDigits_cons.1 hall).2⟩

/-- The optional fraction: parsing goes on with the exponent -/
theorem parseNumberFrac_part (h : Handler) (log : List Event) (start : StringReadStream)
    {fp : List Nat} (hfp : isFracPart fp = true) {tail : StringReadStream}
    (ht : if fp = [] then peek tail ≠ 46 else isDigit (peek tail) = false) :
    parseNumberFrac mem h start (fp ++ tail) log =
      parseNumberExp mem h start tail log (typeAfter fp .TYPE_NULL) := by
  rcases isFracPart_cases hfp with rfl | ⟨d, ds, rfl, hd, hds⟩
  · simp only [if_true] at ht
    unfold parseNumberFrac
    simp only [List.nil_append, if_neg ht, typeAfter, if_true]
  · simp only [List.cons_ne_nil, if_false] at ht
    have e : (46 :: d :: ds) ++ tail = 46 :: d :: (ds ++ tail) := rfl
    unfold parseNumberFrac
    simp only [e, peek_cons, advance_cons, if_true, hd, Bool.not_true, Bool.false_eq_true,
      if_false, typeAfter, List.cons_ne_nil]
    have e2 : skipDigits (d :: (ds ++ tail)) = tail := by
      have := skipDigits_digits (allDigits_cons.2 ⟨hd, hds⟩) ht
      exact this
    rw [e2]

theorem isExpPart_cases {es ed : List Nat} (h : isExpPart es ed = true) :
    (es = [] ∧ ed = []) ∨
    ∃ c sg d ds, es = c :: sg ∧ ed = d :: ds ∧ (c = 101 ∨ c = 69) ∧
      (sg = [] ∨ sg = [43] ∨ sg = [45]) ∧ isDigit d = true ∧ allDigits ds = true := by
  cases es with
  | nil =>
    left
    simp only [isExpPart, List.isEmpty_iff] at h
    exact ⟨rfl, h⟩
  | cons c sg =>
    right
    simp only [isExpPart, isExpSign, Bool.and_eq_true, Bool.or_eq_true, beq_iff_eq,
      Bool.not_eq_true', List.isEmpty_eq_false_iff_exists_mem] at h
    obtain ⟨⟨⟨hc, hsg⟩, hne⟩, hall⟩ := h
    cases ed with
    | nil => simp at hne
    | cons d ds =>
      refine ⟨c, sg, d, ds, rfl, rfl, hc, ?_, (allDigits_cons.1 hall).1,
        (allDigits_cons.1 hall).2⟩
      rcases hsg with (h1 | h1) | h1
      · exact Or.inl h1
      · exact Or.inr (Or.inl h1)
      · exact Or.inr (Or.inr h1)

/-- The optional exponent: parsing goes on with the suffix -/
theorem parseNumberExp_part (h : Handler) (log : List Event) (start : StringReadStream)
    (ty : ValueType) {es ed : List Nat} (hep : isExpPart es ed = true)
    {tail : StringReadStream}
    (ht : if es = [] then peek tail ≠ 101 ∧ peek tail ≠ 69 else isDigit (peek tail) = false) :
    parseNumberExp mem h start (es ++ ed ++ tail) log ty =
      parseNumberSuffix mem h start tail log (typeAfter es ty) := by
  rcases isExpPart_cases hep with ⟨rfl, rfl⟩ | ⟨c, sg, d, ds, rfl, rfl, hc, hsg, hd, hds⟩
  · simp only [if_true] at ht
    unfold parseNumberExp
    have hn : ¬(peek tail = 101 ∨ peek tail = 69) := fun hx => hx.elim ht.1 ht.2
    simp only [List.nil_append, if_neg hn, typeAfter, if_true]
  · simp only [List.cons_ne_nil, if_false] at ht
    have hd' := (isDigit_iff d).1 hd
    have d43 : d ≠ 43 := by omega
    have d45 : d ≠ 45 := by omega
    have e2 : skipDigits (ds ++ tail) = tail := skipDigits_digits hds ht
    unfold parseNumberExp
    rcases hsg with rfl | rfl | rfl
    · have e : (c :: []) ++ (d :: ds) ++ tail = c :: d :: (ds ++ tail) := rfl
      simp only [e, peek_cons, advance_cons, hc, if_true, d43, d45, or_self, if_false, hd,
        Bool.not_true, Bool.false_eq_true, typeAfter, List.cons_ne_nil, e2]
    · have e : (c :: [43]) ++ (d :: ds) ++ tail = c :: 43 :: d :: (ds ++ tail) := rfl
      simp only [e, peek_cons, advance_cons, hc, if_true, true_or, hd,
        Bool.not_true, Bool.false_eq_true, if_false, typeAfter, List.cons_ne_nil, e2]
    · have e : (c :: [45]) ++ (d :: ds) ++ tail = c :: 45 :: d :: (ds ++ tail) := rfl
      simp only [e, peek_cons, advance_cons, hc, if_true, or_true, hd,
        Bool.not_true, Bool.false_eq_true, if_false, typeAfter, List.cons_ne_nil, e2]

/-- No suffix: parsing goes on with the conversion -/
theorem parseNumberSuffix_none (h : Handler) (log : List Event) (start : StringReadStream)
    (ty : ValueType) {tail : StringReadStream} (ht : peek tail ≠ 105) :
    parseNumberSuffix mem h start tail log ty = convertNumber mem h start tail log ty := by
  unfold parseNumberSuffix
  rw [if_neg ht]

/-- The suffix `i32` of an integral token -/
theorem parseNumberSuffix_i32 (h : Handler) (log : List Event) (start : StringReadStream)
    (tail : StringReadStream) :
    parseNumberSuffix mem h start (105 :: 51 :: 50 :: tail) log .TYPE_NULL =
      convertNumber mem h start tail log .TYPE_INT32 := by
  unfold parseNumberSuffix
  simp [peek_cons, next_cons, advance_cons]

/-- The suffix `i64` of an integral token -/
theorem parseNumberSuffix_i64 (h : Handler) (log : List Event) (start : StringReadStream)
    (tail : StringReadStream) :
    parseNumberSuffix mem h start (105 :: 54 :: 52 :: tail) log .TYPE_NULL =
      convertNumber mem h start tail log .TYPE_INT64 := by
  unfold parseNumberSuffix
  simp [peek_cons, next_cons, advance_cons]


/-- The conversion of an integral token: what `strtol` reads is the sign and
the digits, when the byte after them, in the view or after it, is not a
digit. -/
theorem convertNumber_int (mem : List Nat) (h : Handler) (log : List Event) (neg : Bool)
    {ip : List Nat}
    (hip : isIntPart ip = true) (rest tail : StringReadStream)
    (hr : isDigit (peek (rest ++ mem)) = false)
    (hlen : tail.length < (signText neg ++ ip ++ rest).length) (ty : ValueType)
    (hty : ty ≠ .TYPE_DOUBLE) :
    convertNumber mem h (signText neg ++ ip ++ rest) tail log ty =
      if ¬fitsInt64 (signedValue neg ip) then .throw .PARSE_NUMBER_TOO_BIG log
      else if ty = .TYPE_INT64 then CALL h (.Int64 (signedValue neg ip)) tail log
      else if ty = .TYPE_INT32 then
        if fitsInt32 (signedValue neg ip) then CALL h (.Int32 (signedValue neg ip)) tail log
        else .throw .PARSE_NUMBER_TOO_BIG log
      else if fitsInt32 (signedValue neg ip) then CALL h (.Int32 (signedValue neg ip)) tail log
      else CALL h (.Int64 (signedValue neg ip)) tail log := by
  obtain ⟨hall, hne⟩ := isIntPart_allDigits hip
  unfold convertNumber
  rw [if_neg (by omega), if_neg hty, List.append_assoc (signText neg ++ ip) rest mem,
    strtol_token neg hall hne hr]
  unfold fitsInt32 fitsInt64
  generalize signedValue neg ip = v
  by_cases h64 : v < -(2 : Int) ^ 63 ∨ (2 : Int) ^ 63 - 1 < v
  · have : ¬(-9223372036854775808 ≤ v ∧ v ≤ 9223372036854775807) := by omega
    simp only [if_pos h64, this, not_false_eq_true, if_true]
  · have h64' : -9223372036854775808 ≤ v ∧ v ≤ 9223372036854775807 := by omega
    simp only [if_neg h64, h64', and_self, not_true_eq_false, if_false]
    by_cases h32 : v ≤ 2147483647 ∧ v ≥ -2147483648
    · have a : ¬(v > 2147483647 ∨ v < -2147483648) := by omega
      have b : -2147483648 ≤ v ∧ v ≤ 2147483647 := by omega
      simp only [a, b, h32, and_self, if_true, if_false]
    · have a : v > 2147483647 ∨ v < -2147483648 := by omega
      have b : ¬(-2147483648 ≤ v ∧ v ≤ 2147483647) := by omega
      simp only [a, b, h32, if_true, if_false]

/-- Reader.hpp:370-377: a value that does not start with n, t, f, a quote or
an opening bracket is parsed as a number. -/
theorem parseValue_number (h : Handler) (fuel : Nat) {is : StringReadStream}
    (log : List Event) (hn : hasNext is = true)
    (hp : peek is ≠ 110 ∧ peek is ≠ 116 ∧ peek is ≠ 102 ∧ peek is ≠ 34 ∧ peek is ≠ 91 ∧
      peek is ≠ 123) :
    parseValue mem h (fuel + 1) is log = parseNumber mem h is log := by
  rw [parseValue]
  simp only [hn, Bool.not_true, Bool.false_eq_true, if_false, if_neg hp.1, if_neg hp.2.1,
    if_neg hp.2.2.1, if_neg hp.2.2.2.1, if_neg hp.2.2.2.2.1, if_neg hp.2.2.2.2.2]

theorem parse_eq_finish (h : Handler) (is : StringReadStream) :
    parse mem h is = finish (parseValue mem h (3 * is.length + 1) (parseWhiteSpace is) []) := rfl

theorem parseWhiteSpace_of_not_ws {is : StringReadStream}
    (h : peek is ≠ 32 ∧ peek is ≠ 9 ∧ peek is ≠ 13 ∧ peek is ≠ 10) :
    parseWhiteSpace is = is := by
  cases is with
  | nil => rfl
  | cons c cs =>
    rw [peek_cons] at h
    have : ¬(c = 32 ∨ c = 9 ∨ c = 13 ∨ c = 10) := by omega
    simp only [parseWhiteSpace, if_neg this]

/-- The first byte of a number token is a minus sign or a digit. -/
theorem peek_token (neg : Bool) {ip : List Nat} (hip : isIntPart ip = true)
    (rest : List Nat) :
    peek (signText neg ++ ip ++ rest) = 45 ∨
      (48 ≤ peek (signText neg ++ ip ++ rest) ∧ peek (signText neg ++ ip ++ rest) ≤ 57) := by
  obtain ⟨hall, hne⟩ := isIntPart_allDigits hip
  obtain ⟨c, cs, rfl⟩ := List.exists_cons_of_ne_nil hne
  cases neg with
  | true => left; rfl
  | false => right; exact (isDigit_iff c).1 (allDigits_cons.1 hall).1

theorem hasNext_token (neg : Bool) {ip : List Nat} (hip : isIntPart ip = true)
    (rest : List Nat) : hasNext (signText neg ++ ip ++ rest) = true := by
  apply hasNext_of_peek_ne
  rcases peek_token neg hip rest with h | h <;> omega

/-- `parse` on an input that starts with a number token -/
theorem parse_token (h : Handler) (neg : Bool) {ip : List Nat} (hip : isIntPart ip = true)
    (rest : List Nat) :
    parse mem h (signText neg ++ ip ++ rest) =
      finish (parseNumber mem h (signText neg ++ ip ++ rest) []) := by
  have hp := peek_token neg hip rest
  rw [parse_eq_finish, parseWhiteSpace_of_not_ws (by omega),
    parseValue_number h _ [] (hasNext_token neg hip rest) (by omega)]


/-- The bytes that may follow a number token with the optional parts `fp` and
`es`: not a digit, not an exponent letter unless the token has an exponent,
not a point unless the token has a fraction or an exponent. -/
theorem parseNumber_token (h : Handler) (log : List Event) (neg : Bool)
    {ip : List Nat} (fp es ed : List Nat) (hip : isIntPart ip = true)
    (hfp : isFracPart fp = true) (hep : isExpPart es ed = true) (tail : StringReadStream)
    (ht : isDigit (peek tail) = false) (hte : es = [] → peek tail ≠ 101 ∧ peek tail ≠ 69)
    (htp : fp = [] → es = [] → peek tail ≠ 46) :
    parseNumber mem h (signText neg ++ ip ++ (fp ++ (es ++ ed ++ tail))) log =
      parseNumberSuffix mem h (signText neg ++ ip ++ (fp ++ (es ++ ed ++ tail))) tail log
        (typeAfter es (typeAfter fp .TYPE_NULL)) := by
  have hexp : ∀ start ty, parseNumberExp mem h start (es ++ ed ++ tail) log ty =
      parseNumberSuffix mem h start tail log (typeAfter es ty) := by
    intro start ty
    apply parseNumberExp_part h log start ty hep
    by_cases he : es = []
    · rw [if_pos he]; exact hte he
    · rw [if_neg he]; exact ht
  have hpe : es ≠ [] → ∃ c t, es ++ ed ++ tail = c :: t ∧ (c = 101 ∨ c = 69) := by
    intro he
    rcases isExpPart_cases hep with ⟨rfl, -⟩ | ⟨c, sg, d, ds, rfl, rfl, hc, -⟩
    · exact absurd rfl he
    · exact ⟨c, _, rfl, hc⟩
  have hfrac : ∀ start, parseNumberFrac mem h start (fp ++ (es ++ ed ++ tail)) log =
      parseNumberSuffix mem h start tail log (typeAfter es (typeAfter fp .TYPE_NULL)) := by
    intro start
    rw [parseNumberFrac_part h log start hfp, hexp]
    by_cases hf : fp = []
    · rw [if_pos hf]
      by_cases he : es = []
      · rcases isExpPart_cases hep with ⟨-, rfl⟩ | ⟨c, sg, d, ds, rfl, -⟩
        · subst he; exact htp hf rfl
        · cases he
      · obtain ⟨c, t, hct, hc⟩ := hpe he
        rw [hct, peek_cons]; omega
    · rw [if_neg hf]
      by_cases he : es = []
      · rcases isExpPart_cases hep with ⟨-, rfl⟩ | ⟨c, sg, d, ds, rfl, -⟩
        · subst he; exact ht
        · cases he
      · obtain ⟨c, t, hct, hc⟩ := hpe he
        rw [hct, peek_cons, isDigit_false_iff]; omega
  rw [parseNumber_int h log neg hip, hfrac]
  by_cases hf : fp = []
  · subst hf
    by_cases he : es = []
    · rcases isExpPart_cases hep with ⟨-, rfl⟩ | ⟨c, sg, d, ds, rfl, -⟩
      · subst he; exact ht
      · cases he
    · obtain ⟨c, t, hct, hc⟩ := hpe he
      rw [List.nil_append, hct, peek_cons, isDigit_false_iff]; omega
  · rcases isFracPart_cases hfp with rfl | ⟨d, ds, rfl, -⟩
    · exact absurd rfl hf
    · rfl

theorem finish_call_accept (ev : Event) (is : StringReadStream) (log : List Event) :
    finish (CALL Handler.accept ev is log) =
      if hasNext (parseWhiteSpace is) then .returned .PARSE_ROOT_NOT_SINGULAR (log ++ [ev])
      else .returned .PARSE_OK (log ++ [ev]) := rfl

/-- An integral numeric text without suffix, alone in a view that a byte other
than a digit follows in memory -/
theorem parse_integer_text (neg : Bool) {ip : List Nat} (hip : isIntPart ip = true)
    (hm : isDigit (peek mem) = false) :
    parse mem Handler.accept (signText neg ++ ip) =
      if fitsInt32 (signedValue neg ip) then
        .returned .PARSE_OK [.Int32 (signedValue neg ip)]
      else if fitsInt64 (signedValue neg ip) then
        .returned .PARSE_OK [.Int64 (signedValue neg ip)]
      else .returned .PARSE_NUMBER_TOO_BIG [] := by
  have hlen : ([] : List Nat).length < (signText neg ++ ip ++ []).length := by
    have := (isIntPart_allDigits hip).2
    cases ip with
    | nil => exact absurd rfl this
    | cons c cs => simp
  have h32 : fitsInt32 (signedValue neg ip) → fitsInt64 (signedValue neg ip) := by
    unfold fitsInt32 fitsInt64; omega
  have e : signText neg ++ ip = signText neg ++ ip ++ ([] ++ ([] ++ [] ++ [])) := by simp
  have hconv := convertNumber_int mem Handler.accept [] neg hip [] []
    hm hlen .TYPE_NULL (by decide)
  rw [e, parse_token Handler.accept neg hip,
    parseNumber_token Handler.accept [] neg [] [] [] hip rfl rfl _
      (by rfl) (by intro; decide) (by intro _ _; decide),
    parseNumberSuffix_none _ _ _ _ (by decide)]
  simp only [List.append_nil, typeAfter, if_true] at hconv ⊢
  rw [hconv]
  by_cases a : fitsInt32 (signedValue neg ip)
  · simp only [h32 a, a, not_true_eq_false, if_false, if_true, reduceCtorEq,
      finish_call_accept, parseWhiteSpace, hasNext, Bool.false_eq_true, List.nil_append]
  · by_cases b : fitsInt64 (signedValue neg ip)
    · simp only [a, b, not_true_eq_false, if_false, if_true, reduceCtorEq,
        finish_call_accept, parseWhiteSpace, hasNext, Bool.false_eq_true, List.nil_append]
    · simp only [a, b, not_false_eq_true, if_false, if_true, finish]

/-- Integer classification where the conversion stops at the end of the text:
an integral numeric text (optional `-`, then
`0` or a digit from 1 to 9 followed by digits) that denotes `v` parses, with
no suffix and when the byte that follows the text in memory is not a digit, to
Int32(v) when `v` fits 32 bits, to Int64(v) when it fits 64 bits only, and to
PARSE_NUMBER_TOO_BIG with no event otherwise; with the suffix `i32`, to
Int32(v) when `v` fits 32 bits and to PARSE_NUMBER_TOO_BIG otherwise; with the
suffix `i64`, to Int64(v) when `v` fits 64 bits and to PARSE_NUMBER_TOO_BIG
otherwise, whatever follows the text in memory. -/
theorem integer_classification (mem : List Nat) (neg : Bool) (ip : List Nat)
    (hip : isIntPart ip = true) :
    (isDigit (peek mem) = false →
      parse mem Handler.accept (signText neg ++ ip) =
        if fitsInt32 (signedValue neg ip) then
          .returned .PARSE_OK [.Int32 (signedValue neg ip)]
        else if fitsInt64 (signedValue neg ip) then
          .returned .PARSE_OK [.Int64 (signedValue neg ip)]
        else .returned .PARSE_NUMBER_TOO_BIG []) ∧
    (parse mem Handler.accept (signText neg ++ ip ++ [105, 51, 50]) =
      if fitsInt32 (signedValue neg ip) then
        .returned .PARSE_OK [.Int32 (signedValue neg ip)]
      else .returned .PARSE_NUMBER_TOO_BIG []) ∧
    (parse mem Handler.accept (signText neg ++ ip ++ [105, 54, 52]) =
      if fitsInt64 (signedValue neg ip) then
        .returned .PARSE_OK [.Int64 (signedValue neg ip)]
      else .returned .PARSE_NUMBER_TOO_BIG []) := by
  have hlen : ∀ rest : List Nat,
      ([] : List Nat).length < (signText neg ++ ip ++ rest).length := by
    intro rest
    have := (isIntPart_allDigits hip).2
    cases ip with
    | nil => exact absurd rfl this
    | cons c cs => simp
  have h32 : fitsInt32 (signedValue neg ip) → fitsInt64 (signedValue neg ip) := by
    unfold fitsInt32 fitsInt64; omega
  refine ⟨fun hm => parse_integer_text neg hip hm, ?_, ?_⟩
  · have e : signText neg ++ ip ++ [105, 51, 50] =
        signText neg ++ ip ++ ([] ++ ([] ++ [] ++ [105, 51, 50])) := by simp
    have hconv := convertNumber_int mem Handler.accept [] neg hip [105, 51, 50] []
      (by rfl) (hlen _) .TYPE_INT32 (by decide)
    rw [e, parse_token Handler.accept neg hip,
      parseNumber_token Handler.accept [] neg [] [] [] hip rfl rfl _
        (by rfl) (by intro; decide) (by intro _ _; decide)]
    simp only [List.nil_append, typeAfter, if_true] at hconv ⊢
    rw [parseNumberSuffix_i32, hconv]
    by_cases a : fitsInt32 (signedValue neg ip)
    · simp only [h32 a, a, not_true_eq_false, if_false, if_true, reduceCtorEq,
        finish_call_accept, parseWhiteSpace, hasNext, Bool.false_eq_true, List.nil_append]
    · by_cases b : fitsInt64 (signedValue neg ip)
      · simp only [a, b, not_true_eq_false, if_false, if_true, reduceCtorEq, finish]
      · simp only [a, b, not_false_eq_true, if_false, if_true, finish]
  · have e : signText neg ++ ip ++ [105, 54, 52] =
        signText neg ++ ip ++ ([] ++ ([] ++ [] ++ [105, 54, 52])) := by simp
    have hconv := convertNumber_int mem Handler.accept [] neg hip [105, 54, 52] []
      (by rfl) (hlen _) .TYPE_INT64 (by decide)
    rw [e, parse_token Handler.accept neg hip,
      parseNumber_token Handler.accept [] neg [] [] [] hip rfl rfl _
        (by rfl) (by intro; decide) (by intro _ _; decide)]
    simp only [List.nil_append, typeAfter, if_true] at hconv ⊢
    rw [parseNumberSuffix_i64, hconv]
    by_cases b : fitsInt64 (signedValue neg ip)
    · simp only [b, not_true_eq_false, if_false, if_true, reduceCtorEq,
        finish_call_accept, parseWhiteSpace, hasNext, Bool.false_eq_true, List.nil_append]
    · simp only [b, not_false_eq_true, if_false, if_true, finish]

/-- The texts `42`, `42i32` and `42i64` in a view that a NUL follows -/
theorem integer_classification_example :
    parse [] Handler.accept (bytes "42") = .returned .PARSE_OK [.Int32 42] ∧
    parse [] Handler.accept (bytes "42i32") = .returned .PARSE_OK [.Int32 42] ∧
    parse [] Handler.accept (bytes "42i64") = .returned .PARSE_OK [.Int64 42] :=
  ⟨(integer_classification [] false [52, 50] (by decide)).1 (by decide),
    (integer_classification [] false [52, 50] (by decide)).2⟩

/-- C7, the code diverges from the claim.  The integral numeric text `12`
denotes 12, which fits 32 bits.  As the view of the two first bytes of the
buffer `12345`, which is what `Document::parse("12345", 2)` parses, it is
scanned as the token `12`, but `strtol` is given the raw pointer and reads on
to the end of the digits: the event is Int32(12345), not Int32(12).  With
more digits in the buffer the event is an Int64, and with enough of them the
parse returns PARSE_NUMBER_TOO_BIG. -/
theorem integer_classification_diverges :
    isIntPart (bytes "12") = true ∧ signedValue false (bytes "12") = 12 ∧
    parse (bytes "345") Handler.accept (signText false ++ bytes "12") =
      .returned .PARSE_OK [.Int32 12345] ∧
    parse (bytes "3456789012") Handler.accept (signText false ++ bytes "12") =
      .returned .PARSE_OK [.Int64 123456789012] ∧
    parse (bytes "345678901234567890") Handler.accept (signText false ++ bytes "12") =
      .returned .PARSE_NUMBER_TOO_BIG [] := by
  decide

theorem rejectsBadValue_of_number {is : StringReadStream} (hn : hasNext is = true)
    (hp : peek is ≠ 110 ∧ peek is ≠ 116 ∧ peek is ≠ 102 ∧ peek is ≠ 34 ∧ peek is ≠ 91 ∧
      peek is ≠ 123)
    (hws : peek is ≠ 32 ∧ peek is ≠ 9 ∧ peek is ≠ 13 ∧ peek is ≠ 10)
    (hnum : ∀ (mem : List Nat) (h : Handler) (log : List Event),
      parseNumber mem h is log = .throw .PARSE_BAD_VALUE log) : rejectsBadValue is := by
  constructor
  · intro mem h fuel log
    rw [parseValue_number h fuel log hn hp, hnum]
  · intro mem h
    rw [parse_eq_finish, parseWhiteSpace_of_not_ws hws, parseValue_number h _ [] hn hp, hnum]
    rfl

theorem rejectsBadValue_token (neg : Bool) {ip : List Nat} (hip : isIntPart ip = true)
    (rest : List Nat)
    (hnum : ∀ (mem : List Nat) (h : Handler) (log : List Event),
      parseNumber mem h (signText neg ++ ip ++ rest) log = .throw .PARSE_BAD_VALUE log) :
    rejectsBadValue (signText neg ++ ip ++ rest) := by
  have hp := peek_token neg hip rest
  exact rejectsBadValue_of_number (hasNext_token neg hip rest) (by omega) (by omega) hnum

/-- C8. A type suffix on a number with a fraction or an exponent is rejected
with PARSE_BAD_VALUE and no event (as `1.5i32`, `1e2i64`), and so is, on an
integral number, every `i` that is not followed by `32` or `64` (as `1i`,
`1i3`, `1i16`, `1i6`). -/
theorem suffix_rejected (neg : Bool) (ip fp es ed rest : List Nat)
    (hip : isIntPart ip = true) (hfp : isFracPart fp = true)
    (hep : isExpPart es ed = true) :
    ((fp ≠ [] ∨ es ≠ []) →
      rejectsBadValue (signText neg ++ ip ++ (fp ++ (es ++ ed ++ 105 :: rest)))) ∧
    (rest.take 2 ≠ [51, 50] → rest.take 2 ≠ [54, 52] →
      rejectsBadValue (signText neg ++ ip ++ 105 :: rest)) := by
  constructor
  · intro hd
    apply rejectsBadValue_token neg hip
    intro mem h log
    rw [parseNumber_token h log neg fp es ed hip hfp hep (105 :: rest) (by rfl)
      (by intro; rw [peek_cons]; decide) (by intro _ _; rw [peek_cons]; decide)]
    have hty : typeAfter es (typeAfter fp .TYPE_NULL) = .TYPE_DOUBLE := by
      unfold typeAfter
      by_cases he : es = []
      · rw [if_pos he]
        rcases hd with hf | he'
        · rw [if_neg hf]
        · exact absurd he he'
      · rw [if_neg he]
    rw [hty]
    unfold parseNumberSuffix
    simp only [peek_cons, if_true]
  · intro h32 h64
    apply rejectsBadValue_token neg hip
    intro mem h log
    have e : signText neg ++ ip ++ 105 :: rest =
        signText neg ++ ip ++ ([] ++ ([] ++ [] ++ 105 :: rest)) := by simp
    rw [e, parseNumber_token h log neg [] [] [] hip rfl rfl (105 :: rest) (by rfl)
      (by intro; rw [peek_cons]; decide) (by intro _ _; rw [peek_cons]; decide)]
    unfold parseNumberSuffix
    simp only [peek_cons, advance_cons, if_true, typeAfter, reduceCtorEq, if_false]
    cases rest with
    | nil => simp [next]
    | cons a t =>
      cases t with
      | nil =>
        simp only [next_cons, advance_cons, next]
        split_ifs <;> first | rfl | omega
      | cons b t =>
        simp only [List.take_succ_cons, List.take_zero, ne_eq, List.cons.injEq, and_true,
          not_and] at h32 h64
        simp only [next_cons, advance_cons]
        split_ifs <;> first | rfl | omega

/-- C8, witness: `1.5i32`, `1e2i64`, and `1i16` -/
theorem suffix_rejected_witness :
    (isIntPart [49] = true ∧ isFracPart [46, 53] = true ∧ isExpPart [101] [50] = true) ∧
    (([46, 53] ≠ [] ∨ [101] ≠ ([] : List Nat)) →
      rejectsBadValue (signText false ++ [49] ++ ([46, 53] ++ ([101] ++ [50] ++ 105 :: [49, 54])))) ∧
    (([49, 54] : List Nat).take 2 ≠ [51, 50] → ([49, 54] : List Nat).take 2 ≠ [54, 52] →
      rejectsBadValue (signText false ++ [49] ++ 105 :: [49, 54])) :=
  ⟨⟨by decide, by decide, by decide⟩,
    suffix_rejected false [49] [46, 53] [101] [50] [49, 54] (by decide) (by decide) (by decide)⟩

/-- C9. At a value position whose first byte is none of n, t, f, a quote, an
opening bracket, N, I (and not white space, which the parser has skipped), the
parse ends with PARSE_BAD_VALUE and no event when the integer part is missing
(after the optional `-` the next byte is not a digit), when a leading `0` is
followed by a digit, when `.` is not followed by a digit, and when `e` or `E`
with its optional sign is not followed by a digit. -/
theorem bad_number (neg : Bool) (c d e : Nat) (ip fp sg rest : List Nat)
    (hip : isIntPart ip = true) (hfp : isFracPart fp = true) :
    ((c ≠ 110 ∧ c ≠ 116 ∧ c ≠ 102 ∧ c ≠ 34 ∧ c ≠ 91 ∧ c ≠ 123 ∧ c ≠ 78 ∧ c ≠ 73) →
      (c ≠ 32 ∧ c ≠ 9 ∧ c ≠ 13 ∧ c ≠ 10) →
      (if c = 45 then isDigit (peek rest) = false else isDigit c = false) →
      rejectsBadValue (c :: rest)) ∧
    (isDigit d = true → rejectsBadValue (signText neg ++ [48] ++ d :: rest)) ∧
    (isDigit (peek rest) = false → rejectsBadValue (signText neg ++ ip ++ 46 :: rest)) ∧
    ((e = 101 ∨ e = 69) → isExpSign sg = true →
      (sg = [] → peek rest ≠ 43 ∧ peek rest ≠ 45) → isDigit (peek rest) = false →
      rejectsBadValue (signText neg ++ ip ++ (fp ++ e :: (sg ++ rest)))) := by
  refine ⟨?_, ?_, ?_, ?_⟩
  · intro hc hws hd
    refine rejectsBadValue_of_number rfl ?_ ?_ ?_
    · rw [peek_cons]; omega
    · rw [peek_cons]; omega
    · intro mem h log
      unfold parseNumber
      simp only [peek_cons, advance_cons, if_neg hc.2.2.2.2.2.2.1, if_neg hc.2.2.2.2.2.2.2]
      by_cases h45 : c = 45
      · rw [if_pos h45] at hd
        have hd' := (isDigit_false_iff _).1 hd
        have h48 : peek rest ≠ 48 := by omega
        have h19 : isDigit19 (peek rest) = false := by
          cases h19 : isDigit19 (peek rest)
          · rfl
          · rw [isDigit19_iff] at h19; omega
        simp only [if_pos h45, if_neg h48, h19, Bool.false_eq_true, if_false]
      · rw [if_neg h45] at hd
        have hd' := (isDigit_false_iff _).1 hd
        have h48 : c ≠ 48 := by omega
        have h19 : isDigit19 c = false := by
          cases h19 : isDigit19 c
          · rfl
          · rw [isDigit19_iff] at h19; omega
        simp only [if_neg h45, peek_cons, if_neg h48, h19, Bool.false_eq_true, if_false]
  · intro hd
    have e0 : signText neg ++ [48] ++ d :: rest = signText neg ++ [48] ++ (d :: rest) := rfl
    apply rejectsBadValue_token neg (by decide)
    intro mem h log
    have key : ∀ start : StringReadStream, peek start ≠ 78 → peek start ≠ 73 →
        (if peek start = 45 then advance start else start) = 48 :: d :: rest →
        parseNumber mem h start log = .throw .PARSE_BAD_VALUE log := by
      intro start h78 h73 hrest
      unfold parseNumber
      simp only [if_neg h78, if_neg h73, hrest, peek_cons, advance_cons, if_true, hd]
    cases neg with
    | true =>
      exact key _ (by show (45 : Nat) ≠ 78; decide) (by show (45 : Nat) ≠ 73; decide) rfl
    | false =>
      exact key _ (by show (48 : Nat) ≠ 78; decide) (by show (48 : Nat) ≠ 73; decide) rfl
  · intro hd
    apply rejectsBadValue_token neg hip
    intro mem h log
    rw [parseNumber_int h log neg hip (by rfl)]
    unfold parseNumberFrac
    simp only [peek_cons, advance_cons, if_true, hd, Bool.not_false]
  · intro he hsg hmax hd
    apply rejectsBadValue_token neg hip
    intro mem h log
    have hde : isDigit e = false := by
      rw [isDigit_false_iff]; omega
    have hexp : ∀ start ty, parseNumberExp mem h start (e :: (sg ++ rest)) log ty =
        .throw .PARSE_BAD_VALUE log := by
      intro start ty
      unfold parseNumberExp
      simp only [peek_cons, advance_cons, he, if_true]
      simp only [isExpSign, Bool.or_eq_true, beq_iff_eq] at hsg
      rcases hsg with (rfl | rfl) | rfl
      · have hm := hmax rfl
        have : ¬(peek rest = 43 ∨ peek rest = 45) := by omega
        simp only [List.nil_append, if_neg this, hd, Bool.not_false, if_true]
      · simp only [List.singleton_append, peek_cons, advance_cons, true_or, if_true, hd,
          Bool.not_false]
      · simp only [List.singleton_append, peek_cons, advance_cons, or_true, if_true, hd,
          Bool.not_false]
    rcases isFracPart_cases hfp with rfl | ⟨f, fs, rfl, hf, hfs⟩
    · rw [List.nil_append, parseNumber_int h log neg hip (by rw [peek_cons]; exact hde)]
      unfold parseNumberFrac
      have : peek (e :: (sg ++ rest)) ≠ 46 := by rw [peek_cons]; omega
      rw [if_neg this, hexp]
    · rw [parseNumber_int h log neg hip (by rfl),
        parseNumberFrac_part h log _ (by
          simp only [isFracPart, allDigits_cons.2 ⟨hf, hfs⟩]; rfl) (by
          rw [if_neg (by simp)]; rw [peek_cons]; exact hde), hexp]

/-- C9, witness: `x`, `-`, `01`, `1.`, `1.5e+` -/
theorem bad_number_witness :
    (isIntPart [49] = true ∧ isFracPart [46, 53] = true) ∧
    (((120 ≠ 110 ∧ 120 ≠ 116 ∧ 120 ≠ 102 ∧ 120 ≠ 34 ∧ 120 ≠ 91 ∧ 120 ≠ 123 ∧ 120 ≠ 78 ∧
        120 ≠ 73) →
      (120 ≠ 32 ∧ 120 ≠ 9 ∧ 120 ≠ 13 ∧ 120 ≠ 10) →
      (if 120 = 45 then isDigit (peek []) = false else isDigit 120 = false) →
      rejectsBadValue (120 :: [])) ∧
    (isDigit 49 = true → rejectsBadValue (signText false ++ [48] ++ 49 :: [])) ∧
    (isDigit (peek []) = false → rejectsBadValue (signText false ++ [49] ++ 46 :: [])) ∧
    ((101 = 101 ∨ 101 = 69) → isExpSign [43] = true →
      ([43] = [] → peek [] ≠ 43 ∧ peek [] ≠ 45) → isDigit (peek []) = false →
      rejectsBadValue (signText false ++ [49] ++ ([46, 53] ++ 101 :: ([43] ++ []))))) :=
  ⟨⟨by decide, by decide⟩,
    bad_number false 120 49 101 [49] [46, 53] [43] [] (by decide) (by decide)⟩

end Reader

/-! ## The C library's strtod on a validated token -/

namespace Reader

theorem takeDigits_digits {ds : List Nat} (hd : allDigits ds = true) {rest : List Nat}
    (hr : isDigit (peek rest) = false) : Libc.takeDigits (ds ++ rest) = ds := by
  induction ds with
  | nil =>
    cases rest with
    | nil => rfl
    | cons c cs =>
      rw [peek_cons, isDigit_false_iff] at hr
      simp only [List.nil_append, Libc.takeDigits, if_neg hr]
  | cons c cs ih =>
    rw [allDigits_cons, isDigit_iff] at hd
    show Libc.takeDigits (c :: (cs ++ rest)) = c :: cs
    rw [Libc.takeDigits, if_pos hd.1, ih hd.2]

theorem dropDigits_digits {ds : List Nat} (hd : allDigits ds = true) {rest : List Nat}
    (hr : isDigit (peek rest) = false) : Libc.dropDigits (ds ++ rest) = rest := by
  induction ds with
  | nil =>
    cases rest with
    | nil => rfl
    | cons c cs =>
      rw [peek_cons, isDigit_false_iff] at hr
      simp only [List.nil_append, Libc.dropDigits, if_neg hr]
  | cons c cs ih =>
    rw [allDigits_cons, isDigit_iff] at hd
    show Libc.dropDigits (c :: (cs ++ rest)) = rest
    rw [Libc.dropDigits, if_pos hd.1, ih hd.2]

/-- The let-bindings of `strtod`, as one expression -/
theorem strtod_eq (s : List Nat) :
    Libc.strtod s =
      strtodOf (decide (peek s = 45))
        (Libc.takeDigits (if peek s = 45 ∨ peek s = 43 then advance s else s))
        (if peek (Libc.dropDigits (if peek s = 45 ∨ peek s = 43 then advance s else s)) = 46
          then Libc.takeDigits (advance
            (Libc.dropDigits (if peek s = 45 ∨ peek s = 43 then advance s else s)))
          else [])
        (Libc.exponentValue
          (if peek (Libc.dropDigits (if peek s = 45 ∨ peek s = 43 then advance s else s)) = 46
            then Libc.dropDigits (advance
              (Libc.dropDigits (if peek s = 45 ∨ peek s = 43 then advance s else s)))
            else Libc.dropDigits (if peek s = 45 ∨ peek s = 43 then advance s else s))) := rfl

/-- The let-bindings of `strtodEnd`, as one expression -/
theorem strtodEnd_eq (s : List Nat) :
    Libc.strtodEnd s =
      (if peek s = 45 ∨ peek s = 43 then 1 else 0) +
        (Libc.takeDigits (if peek s = 45 ∨ peek s = 43 then advance s else s)).length +
        (if peek (Libc.dropDigits (if peek s = 45 ∨ peek s = 43 then advance s else s)) = 46
          then 1 else 0) +
        (if peek (Libc.dropDigits (if peek s = 45 ∨ peek s = 43 then advance s else s)) = 46
          then Libc.takeDigits (advance
            (Libc.dropDigits (if peek s = 45 ∨ peek s = 43 then advance s else s)))
          else []).length +
        Libc.exponentLength
          (if peek (Libc.dropDigits (if peek s = 45 ∨ peek s = 43 then advance s else s)) = 46
            then Libc.dropDigits (advance
              (Libc.dropDigits (if peek s = 45 ∨ peek s = 43 then advance s else s)))
            else Libc.dropDigits (if peek s = 45 ∨ peek s = 43 then advance s else s)) := rfl

/-- `strtod` on a sign, digits, and a point with digits or no point, from what
it finds as the exponent -/
theorem strtod_constant (neg : Bool) {ip fd : List Nat} (hip : allDigits ip = true)
    (hne : ip ≠ []) (hfd : allDigits fd = true) {W : List Nat}
    (hW : isDigit (peek W) = false) :
    (Libc.strtod (signText neg ++ ip ++ 46 :: (fd ++ W)) =
        strtodOf neg ip fd (Libc.exponentValue W) ∧
      Libc.strtodEnd (signText neg ++ ip ++ 46 :: (fd ++ W)) =
        (signText neg).length + ip.length + 1 + fd.length + Libc.exponentLength W) ∧
    (peek W ≠ 46 →
      Libc.strtod (signText neg ++ ip ++ W) = strtodOf neg ip [] (Libc.exponentValue W) ∧
      Libc.strtodEnd (signText neg ++ ip ++ W) =
        (signText neg).length + ip.length + Libc.exponentLength W) := by
  obtain ⟨c, cs, rfl⟩ := List.exists_cons_of_ne_nil hne
  have hc := (allDigits_cons.1 hip).1
  rw [isDigit_iff] at hc
  have c45 : c ≠ 45 := by omega
  have c43 : c ≠ 43 := by omega
  have h46 : isDigit (peek (46 :: (fd ++ W))) = false := by rfl
  have t1 := takeDigits_digits hip h46
  have d1 := dropDigits_digits hip h46
  have t2 := takeDigits_digits hfd hW
  have d2 := dropDigits_digits hfd hW
  have t3 := takeDigits_digits hip hW
  have d3 := dropDigits_digits hip hW
  have hsign : ∀ Z : List Nat,
      (decide (peek (signText neg ++ (c :: cs) ++ Z) = 45) = neg) ∧
      (if peek (signText neg ++ (c :: cs) ++ Z) = 45 ∨ peek (signText neg ++ (c :: cs) ++ Z) = 43
        then advance (signText neg ++ (c :: cs) ++ Z) else signText neg ++ (c :: cs) ++ Z) =
        (c :: cs) ++ Z ∧
      (if peek (signText neg ++ (c :: cs) ++ Z) = 45 ∨ peek (signText neg ++ (c :: cs) ++ Z) = 43
        then 1 else 0) = (signText neg).length := by
    intro Z
    cases neg with
    | true => exact ⟨rfl, rfl, rfl⟩
    | false =>
      have e : signText false ++ (c :: cs) ++ Z = c :: (cs ++ Z) := rfl
      rw [e, peek_cons]
      have : ¬(c = 45 ∨ c = 43) := by omega
      refine ⟨by simp only [c45, decide_False], ?_, ?_⟩
      · rw [if_neg this]; rfl
      · rw [if_neg this]; rfl
  refine ⟨⟨?_, ?_⟩, fun hW46 => ⟨?_, ?_⟩⟩
  · rw [strtod_eq, (hsign _).1, (hsign _).2.1, t1, d1, peek_cons, if_pos rfl, if_pos rfl,
      advance_cons, t2, d2]
  · rw [strtodEnd_eq, (hsign _).2.2, (hsign _).2.1, t1, d1, peek_cons, if_pos rfl, if_pos rfl,
      if_pos rfl, advance_cons, t2, d2]
  · rw [strtod_eq, (hsign _).1, (hsign _).2.1, t3, d3, if_neg hW46, if_neg hW46]
  · rw [strtodEnd_eq, (hsign _).2.2, (hsign _).2.1, t3, d3, if_neg hW46, if_neg hW46,
      if_neg hW46]
    rfl

/-- Where there is no exponent: the byte is not `e` or `E` -/
theorem exponent_none {Y : List Nat} (h : peek Y ≠ 101 ∧ peek Y ≠ 69) :
    Libc.exponentValue Y = 0 ∧ Libc.exponentLength Y = 0 := by
  have : ¬(peek Y = 101 ∨ peek Y = 69) := by omega
  unfold Libc.exponentValue Libc.exponentLength
  simp only [if_neg this, and_self]

/-- The exponent of a token: its value and its length do not depend on what
follows, if that is not a digit -/
theorem exponent_part {es ed : List Nat} (hep : isExpPart es ed = true) (hes : es ≠ []) :
    ∃ x : Int, ∀ Y : List Nat, isDigit (peek Y) = false →
      Libc.exponentValue (es ++ ed ++ Y) = x ∧
      Libc.exponentLength (es ++ ed ++ Y) = (es ++ ed).length := by
  rcases isExpPart_cases hep with ⟨h1, -⟩ | ⟨c, sg, d, ds, rfl, rfl, hc, hsg, hd, hds⟩
  · exact absurd h1 hes
  · have hall : allDigits (d :: ds) = true := allDigits_cons.2 ⟨hd, hds⟩
    have hd' := (isDigit_iff d).1 hd
    have d45 : d ≠ 45 := by omega
    have d43 : d ≠ 43 := by omega
    have nd : ¬(d = 45 ∨ d = 43) := by omega
    refine ⟨if sg = [45] then -(decimalValue (d :: ds) : Int) else (decimalValue (d :: ds) : Int),
      fun Y hY => ?_⟩
    have hv : Libc.digitsValue 0 (d :: (ds ++ Y)) = decimalValue (d :: ds) :=
      digitsValue_digits hall hY
    have ht : Libc.takeDigits (d :: (ds ++ Y)) = d :: ds := takeDigits_digits hall hY
    rcases hsg with rfl | rfl | rfl
    · have e1 : [c] ++ (d :: ds) ++ Y = c :: d :: (ds ++ Y) := rfl
      rw [e1]
      constructor
      · unfold Libc.exponentValue
        simp only [peek_cons, advance_cons, if_pos hc, d45, d43, or_self, if_false, if_pos hd',
          decide_False, Bool.false_eq_true, hv]
        rw [if_neg (by decide)]
      · unfold Libc.exponentLength
        simp only [peek_cons, advance_cons, if_pos hc, if_neg nd, if_pos hd', ht,
          List.length_cons, List.length_append, List.length_nil]
    · have e1 : [c, 43] ++ (d :: ds) ++ Y = c :: 43 :: d :: (ds ++ Y) := rfl
      rw [e1]
      constructor
      · unfold Libc.exponentValue
        simp only [peek_cons, advance_cons, if_pos hc, or_true, if_true, if_pos hd',
          show ¬((43 : Nat) = 45) by decide, decide_False, Bool.false_eq_true, if_false, hv,
          List.cons.injEq, and_true]
      · unfold Libc.exponentLength
        simp only [peek_cons, advance_cons, if_pos hc, or_true, if_true, if_pos hd', ht,
          List.length_cons, List.length_append, List.length_nil]
    · have e1 : [c, 45] ++ (d :: ds) ++ Y = c :: 45 :: d :: (ds ++ Y) := rfl
      rw [e1]
      constructor
      · unfold Libc.exponentValue
        simp only [peek_cons, advance_cons, if_pos hc, true_or, if_true, if_pos hd',
          decide_True, hv]
      · unfold Libc.exponentLength
        simp only [peek_cons, advance_cons, if_pos hc, true_or, if_true, if_pos hd', ht,
          List.length_cons, List.length_append, List.length_nil]

/-- The conversion by `strtod` of a number token with a fraction or an
exponent reads the token and no more, and gives the same double whatever
follows the token, when the byte that follows is not a digit, `e` or `E`. -/
theorem strtod_token (neg : Bool) {ip fp es ed : List Nat} (hip : isIntPart ip = true)
    (hfp : isFracPart fp = true) (hep : isExpPart es ed = true) (hdbl : fp ≠ [] ∨ es ≠ []) :
    ∃ r : Stoa Dbl, ∀ Y : List Nat, endsConversion Y →
      Libc.strtod (signText neg ++ ip ++ (fp ++ (es ++ ed)) ++ Y) = r ∧
      Libc.strtodEnd (signText neg ++ ip ++ (fp ++ (es ++ ed)) ++ Y) =
        (signText neg ++ ip ++ (fp ++ (es ++ ed))).length := by
  obtain ⟨hall, hne⟩ := isIntPart_allDigits hip
  -- the exponent
  have hexp : ∃ x : Int, ∀ Y : List Nat, endsConversion Y →
      isDigit (peek (es ++ ed ++ Y)) = false ∧ (es ≠ [] → peek (es ++ ed ++ Y) ≠ 46) ∧
      Libc.exponentValue (es ++ ed ++ Y) = x ∧
      Libc.exponentLength (es ++ ed ++ Y) = (es ++ ed).length := by
    by_cases hes : es = []
    · have hed : ed = [] := by
        rcases isExpPart_cases hep with ⟨-, h2⟩ | ⟨c, sg, d, ds, h1, -⟩
        · exact h2
        · rw [hes] at h1; cases h1
      subst hes hed
      exact ⟨0, fun Y hY => ⟨hY.1, fun h => absurd rfl h, (exponent_none hY.2).1,
        (exponent_none hY.2).2⟩⟩
    · obtain ⟨x, hx⟩ := exponent_part hep hes
      refine ⟨x, fun Y hY => ?_⟩
      obtain ⟨c, sg, rfl⟩ := List.exists_cons_of_ne_nil hes
      have hc : c = 101 ∨ c = 69 := by
        rcases isExpPart_cases hep with ⟨h1, -⟩ | ⟨c', sg', d, ds, h1, -, hc, -⟩
        · cases h1
        · cases h1; exact hc
      refine ⟨?_, fun _ => ?_, (hx Y hY.1).1, (hx Y hY.1).2⟩
      · simp only [List.cons_append, peek_cons, isDigit_false_iff]; omega
      · simp only [List.cons_append, peek_cons]; omega
  obtain ⟨x, hx⟩ := hexp
  rcases isFracPart_cases hfp with rfl | ⟨d, ds, rfl, hd, hds⟩
  · have hes : es ≠ [] := by
      rcases hdbl with h | h
      · exact absurd rfl h
      · exact h
    refine ⟨strtodOf neg ip [] x, fun Y hY => ?_⟩
    obtain ⟨w1, w2, w3, w4⟩ := hx Y hY
    have := (strtod_constant neg hall hne (show allDigits [] = true from rfl) w1).2 (w2 hes)
    rw [w3, w4] at this
    simp only [List.nil_append, List.append_assoc, List.length_append] at this ⊢
    exact ⟨this.1, by rw [this.2]; omega⟩
  · have hfd : allDigits (d :: ds) = true := allDigits_cons.2 ⟨hd, hds⟩
    refine ⟨strtodOf neg ip (d :: ds) x, fun Y hY => ?_⟩
    obtain ⟨w1, w2, w3, w4⟩ := hx Y hY
    have := (strtod_constant neg hall hne hfd w1).1
    rw [w3, w4] at this
    simp only [List.cons_append, List.append_assoc, List.length_append, List.length_cons]
      at this ⊢
    exact ⟨this.1, by rw [this.2]; omega⟩

end Reader
/-! ## Strings -/

namespace Reader

theorem parseStringLoop_quote (h : Handler) (isKey : Bool) (fuel : Nat)
    (rest : StringReadStream) (buffer : List Nat) (log : List Event) :
    parseStringLoop h isKey (fuel + 1) (34 :: rest) buffer log =
      CALL h (if isKey then .Key buffer else .String buffer) rest log := by
  rw [parseStringLoop]
  cases isKey <;> rfl

theorem parseStringLoop_control (h : Handler) (isKey : Bool) (fuel : Nat) {b : Nat}
    (hb : 1 ≤ b ∧ b ≤ 31) (rest : StringReadStream) (buffer : List Nat) (log : List Event) :
    parseStringLoop h isKey (fuel + 1) (b :: rest) buffer log =
      .throw .PARSE_BAD_STRING_CHAR log := by
  rw [parseStringLoop]
  have e1 : hasNext (b :: rest) = true := rfl
  have b34 : b ≠ 34 := by omega
  simp only [e1, next_cons, advance_cons, Bool.not_true, Bool.false_eq_true, if_false,
    if_neg b34, if_pos hb]

theorem parseStringLoop_raw (h : Handler) (isKey : Bool) (fuel : Nat) {b : Nat}
    (hb : ¬(1 ≤ b ∧ b ≤ 31)) (b34 : b ≠ 34) (b92 : b ≠ 92) (rest : StringReadStream)
    (buffer : List Nat) (log : List Event) :
    parseStringLoop h isKey (fuel + 1) (b :: rest) buffer log =
      parseStringLoop h isKey fuel rest (buffer ++ [b]) log := by
  rw [parseStringLoop]
  have e1 : hasNext (b :: rest) = true := rfl
  simp only [e1, next_cons, advance_cons, Bool.not_true, Bool.false_eq_true, if_false,
    if_neg b34, if_neg hb, if_neg b92]

theorem parseString_quote (h : Handler) (body : StringReadStream) (log : List Event)
    (isKey : Bool) :
    parseString h (34 :: body) log isKey = parseStringLoop h isKey (body.length + 1) body [] log :=
  rfl

/-- A string body without quote and backslash, up to its closing quote: the
loop throws at the first control byte, and otherwise delivers the bytes as they
are. -/
theorem parseStringLoop_plain (h : Handler) (isKey : Bool) (s : List Nat)
    (hs : ∀ c ∈ s, c ≠ 34 ∧ c ≠ 92) (fuel : Nat) (rest : StringReadStream)
    (buffer : List Nat) (log : List Event) :
    parseStringLoop h isKey (s.length + (fuel + 1)) (s ++ 34 :: rest) buffer log =
      if ∃ c ∈ s, 1 ≤ c ∧ c ≤ 31 then .throw .PARSE_BAD_STRING_CHAR log
      else CALL h (if isKey then .Key (buffer ++ s) else .String (buffer ++ s)) rest log := by
  induction s generalizing buffer with
  | nil =>
    simp only [List.length_nil, Nat.zero_add, List.nil_append, List.not_mem_nil, false_and,
      exists_false, if_false, List.append_nil]
    exact parseStringLoop_quote h isKey fuel rest buffer log
  | cons c cs ih =>
    have hc := hs c (List.mem_cons_self c cs)
    have hcs : ∀ x ∈ cs, x ≠ 34 ∧ x ≠ 92 := fun x hx => hs x (List.mem_cons_of_mem c hx)
    have e : (c :: cs).length + (fuel + 1) = (cs.length + (fuel + 1)) + 1 := by
      simp only [List.length_cons]; omega
    rw [e, List.cons_append]
    by_cases hctl : 1 ≤ c ∧ c ≤ 31
    · rw [parseStringLoop_control h isKey _ hctl]
      have : ∃ x ∈ c :: cs, 1 ≤ x ∧ x ≤ 31 := ⟨c, List.mem_cons_self c cs, hctl⟩
      rw [if_pos this]
    · rw [parseStringLoop_raw h isKey _ hctl hc.1 hc.2, ih hcs]
      have hiff : (∃ x ∈ c :: cs, 1 ≤ x ∧ x ≤ 31) ↔ (∃ x ∈ cs, 1 ≤ x ∧ x ≤ 31) := by
        constructor
        · rintro ⟨x, hx, hx2⟩
          rcases List.mem_cons.1 hx with rfl | hx'
          · exact absurd hx2 hctl
          · exact ⟨x, hx', hx2⟩
        · rintro ⟨x, hx, hx2⟩
          exact ⟨x, List.mem_cons_of_mem c hx, hx2⟩
      simp only [hiff, List.append_assoc, List.singleton_append]


/-- A run of bytes that are copied as they are -/
theorem parseStringLoop_raws (h : Handler) (isKey : Bool) (s : List Nat)
    (hs : ∀ c ∈ s, ¬(1 ≤ c ∧ c ≤ 31) ∧ c ≠ 34 ∧ c ≠ 92) (fuel : Nat)
    (rest : StringReadStream) (buffer : List Nat) (log : List Event) :
    parseStringLoop h isKey (s.length + fuel) (s ++ rest) buffer log =
      parseStringLoop h isKey fuel rest (buffer ++ s) log := by
  induction s generalizing buffer with
  | nil => simp
  | cons c cs ih =>
    have hc := hs c (List.mem_cons_self c cs)
    have hcs : ∀ x ∈ cs, ¬(1 ≤ x ∧ x ≤ 31) ∧ x ≠ 34 ∧ x ≠ 92 :=
      fun x hx => hs x (List.mem_cons_of_mem c hx)
    have e : (c :: cs).length + fuel = (cs.length + fuel) + 1 := by
      simp only [List.length_cons]; omega
    rw [e, List.cons_append, parseStringLoop_raw h isKey _ hc.1 hc.2.1 hc.2.2, ih hcs]
    simp only [List.append_assoc, List.singleton_append]

theorem parseValue_string (h : Handler) (fuel : Nat) (body : StringReadStream)
    (log : List Event) :
    parseValue mem h (fuel + 1) (34 :: body) log = parseString h (34 :: body) log false := by
  rw [parseValue]
  rfl

theorem parse_string (h : Handler) (body : StringReadStream) :
    parse mem h (34 :: body) = finish (parseStringLoop h false (body.length + 1) body [] []) := by
  rw [parse_eq_finish, parseWhiteSpace_of_not_ws (by rw [peek_cons]; decide), parseValue_string,
    parseString_quote]

theorem call_accept (ev : Event) (is : StringReadStream) (log : List Event) :
    CALL Handler.accept ev is log = .ok is (log ++ [ev]) := rfl

end Reader

/-! ## The accepted grammar is accepted -/

namespace Reader

theorem isWs_iff (c : Nat) : isWs c = true ↔ (c = 32 ∨ c = 9 ∨ c = 13 ∨ c = 10) := by
  simp only [isWs, Bool.or_eq_true, beq_iff_eq]
  omega

theorem parseWhiteSpace_append {ws : List Nat} (hws : allWs ws = true)
    (rest : StringReadStream) : parseWhiteSpace (ws ++ rest) = parseWhiteSpace rest := by
  induction ws with
  | nil => rfl
  | cons c cs ih =>
    simp only [allWs, List.all_cons, Bool.and_eq_true] at hws
    have hc := (isWs_iff c).1 hws.1
    simp only [List.cons_append, parseWhiteSpace, if_pos hc]
    exact ih hws.2

/-- White space followed by a byte that is not white space -/
theorem parseWhiteSpace_ws {ws : List Nat} (hws : allWs ws = true) {rest : StringReadStream}
    (hr : peek rest ≠ 32 ∧ peek rest ≠ 9 ∧ peek rest ≠ 13 ∧ peek rest ≠ 10) :
    parseWhiteSpace (ws ++ rest) = rest := by
  rw [parseWhiteSpace_append hws, parseWhiteSpace_of_not_ws hr]

theorem endsToken_ws {ws : List Nat} (hws : allWs ws = true) {rest : List Nat}
    (hr : endsToken rest) : endsToken (ws ++ rest) := by
  cases ws with
  | nil => exact hr
  | cons c cs =>
    simp only [allWs, List.all_cons, Bool.and_eq_true] at hws
    have hc := (isWs_iff c).1 hws.1
    simp only [endsToken, List.cons_append, peek_cons, isDigit_false_iff]
    omega

theorem endsToken_cons {c : Nat} (rest : List Nat)
    (hc : c = 44 ∨ c = 93 ∨ c = 125) : endsToken (c :: rest) := by
  simp only [endsToken, peek_cons, isDigit_false_iff]
  omega

theorem endsToken_nil : endsToken [] := by
  simp only [endsToken, peek, isDigit_false_iff]
  omega

theorem endsConversion_nil : endsConversion [] := by
  simp only [endsConversion, peek, isDigit_false_iff]
  omega

theorem endsNumber_ws {ws : List Nat} (hws : allWs ws = true) {rest : List Nat}
    (hr : endsNumber mem rest) : endsNumber mem (ws ++ rest) := by
  cases ws with
  | nil => exact hr
  | cons c cs => exact ⟨endsToken_ws hws hr.1, fun h => by cases h⟩

theorem endsNumber_cons {c : Nat} (rest : List Nat)
    (hc : c = 44 ∨ c = 93 ∨ c = 125) : endsNumber mem (c :: rest) :=
  ⟨endsToken_cons rest hc, fun h => by cases h⟩

theorem endsNumber_nil (hm : endsConversion mem) : endsNumber mem [] :=
  ⟨endsToken_nil, fun _ => hm⟩

/-- What follows a number token, in the view and after it, starts with a byte
at which the conversion stops -/
theorem endsNumber_conversion {rest : List Nat} (hr : endsNumber mem rest) :
    endsConversion (rest ++ mem) := by
  cases rest with
  | nil => exact hr.2 rfl
  | cons c t =>
    obtain ⟨r1, -, r3, r4, -⟩ := hr.1
    exact ⟨r1, r3, r4⟩

/-! ### Strings -/

theorem simpleEscape_parseEscape {e b : Nat} (he : simpleEscape e = some b)
    (t : StringReadStream) (buffer : List Nat) :
    parseEscape (e :: t) buffer = .next t (buffer ++ [b]) := by
  unfold simpleEscape at he
  unfold parseEscape
  simp only [next_cons, advance_cons]
  by_cases h1 : e = 34
  · rw [if_pos h1] at he ⊢; cases he; rfl
  rw [if_neg h1] at he ⊢
  by_cases h2 : e = 92
  · rw [if_pos h2] at he ⊢; cases he; rfl
  rw [if_neg h2] at he ⊢
  by_cases h3 : e = 47
  · rw [if_pos h3] at he ⊢; cases he; rfl
  rw [if_neg h3] at he ⊢
  by_cases h4 : e = 98
  · rw [if_pos h4] at he ⊢; cases he; rfl
  rw [if_neg h4] at he ⊢
  by_cases h5 : e = 102
  · rw [if_pos h5] at he ⊢; cases he; rfl
  rw [if_neg h5] at he ⊢
  by_cases h6 : e = 110
  · rw [if_pos h6] at he ⊢; cases he; rfl
  rw [if_neg h6] at he ⊢
  by_cases h7 : e = 114
  · rw [if_pos h7] at he ⊢; cases he; rfl
  rw [if_neg h7] at he ⊢
  by_cases h8 : e = 116
  · rw [if_pos h8] at he ⊢; cases he; rfl
  rw [if_neg h8] at he
  cases he

theorem parseEscape_unicode (t : StringReadStream) (buffer : List Nat) :
    parseEscape (117 :: t) buffer =
      match parseUnicode t with
      | .error err => .throw err
      | .ok (u, is) =>
        match encodeUtf8 buffer u with
        | some buffer => .next is buffer
        | none => .abort := rfl

theorem hexDigit_eq {u c v : Nat} (hv : hexValue c = some v) :
    hexDigit (u <<< 4) c = some (u * 16 + v) := by
  have hor : ∀ x, x < 16 → (u <<< 4) ||| x = u * 16 + x := by
    intro x hx
    rw [Nat.shiftLeft_eq, Nat.mul_comm u (2 ^ 4),
      ← Nat.mul_add_lt_is_or (show x < 2 ^ 4 from hx) u]
  unfold hexValue at hv
  unfold hexDigit
  by_cases h1 : 48 ≤ c ∧ c ≤ 57
  · rw [if_pos h1] at hv ⊢; cases hv; rw [hor _ (by omega)]
  rw [if_neg h1] at hv ⊢
  by_cases h2 : 97 ≤ c ∧ c ≤ 102
  · rw [if_pos h2] at hv ⊢; cases hv; rw [hor _ (by omega)]
  rw [if_neg h2] at hv ⊢
  by_cases h3 : 65 ≤ c ∧ c ≤ 70
  · rw [if_pos h3] at hv ⊢; cases hv; rw [hor _ (by omega)]
  rw [if_neg h3] at hv
  cases hv

theorem parseHex4_eq {a b c d u : Nat} (hu : hex4Value a b c d = some u)
    (t : StringReadStream) : parseHex4 (a :: b :: c :: d :: t) = .ok (u, t) := by
  unfold hex4Value at hu
  cases ha : hexValue a with
  | none => rw [ha] at hu; cases hu
  | some x =>
    cases hb : hexValue b with
    | none => rw [ha, hb] at hu; cases hu
    | some y =>
      cases hc : hexValue c with
      | none => rw [ha, hb, hc] at hu; cases hu
      | some z =>
        cases hd : hexValue d with
        | none => rw [ha, hb, hc, hd] at hu; cases hu
        | some w =>
          rw [ha, hb, hc, hd] at hu
          simp only [Option.some.injEq] at hu
          subst hu
          have e0 : hexDigit ((0 : Nat) <<< 4) a = some x := by
            have := hexDigit_eq (u := 0) ha
            simpa using this
          simp only [parseHex4, parseHex4Loop, next_cons, advance_cons, e0, hexDigit_eq hb,
            hexDigit_eq hc, hexDigit_eq hd]

theorem encodeUtf8_append {u : Nat} {enc : List Nat} (h : encodeUtf8 [] u = some enc)
    (buffer : List Nat) : encodeUtf8 buffer u = some (buffer ++ enc) := by
  unfold encodeUtf8 at h ⊢
  by_cases h1 : u ≤ 0x7F
  · rw [if_pos h1] at h ⊢
    simp only [List.nil_append, Option.some.injEq] at h
    rw [← h]
  rw [if_neg h1] at h ⊢
  by_cases h2 : u ≤ 0x7FF
  · rw [if_pos h2] at h ⊢
    simp only [List.nil_append, Option.some.injEq] at h
    rw [← h]
  rw [if_neg h2] at h ⊢
  by_cases h3 : u ≤ 0xFFFF
  · rw [if_pos h3] at h ⊢
    simp only [List.nil_append, Option.some.injEq] at h
    rw [← h]
  rw [if_neg h3] at h ⊢
  by_cases h4 : u ≤ 0x10FFFF
  · rw [if_pos h4] at h ⊢
    simp only [List.nil_append, Option.some.injEq] at h
    rw [← h]
  rw [if_neg h4] at h
  cases h

/-- The loop of parseString on the text of a string body and its closing
quote -/
theorem parseStringLoop_body (h : Handler) (isKey : Bool) {t s : List Nat}
    (hb : StrBody t s) (fuel : Nat) (rest : StringReadStream) (buffer : List Nat)
    (log : List Event) :
    parseStringLoop h isKey (t.length + (fuel + 1)) (t ++ 34 :: rest) buffer log =
      CALL h (if isKey then .Key (buffer ++ s) else .String (buffer ++ s)) rest log := by
  induction hb generalizing buffer fuel with
  | nil =>
    simp only [List.length_nil, Nat.zero_add, List.nil_append, List.append_nil]
    exact parseStringLoop_quote h isKey fuel rest buffer log
  | raw c t s hc h34 h92 _ ih =>
    have e : (c :: t).length + (fuel + 1) = (t.length + (fuel + 1)) + 1 := by
      simp only [List.length_cons]; omega
    rw [e, List.cons_append, parseStringLoop_raw h isKey _ hc h34 h92, ih]
    simp only [List.append_assoc, List.singleton_append]
  | escape e b t s he _ ih =>
    have e1 : (92 :: e :: t).length + (fuel + 1) = (t.length + 1 + (fuel + 1)) + 1 := by
      simp only [List.length_cons]; omega
    have e2 : t.length + 1 + (fuel + 1) = t.length + (fuel + 1 + 1) := by omega
    have e3 : (92 :: e :: t) ++ 34 :: rest = 92 :: e :: (t ++ 34 :: rest) := rfl
    rw [e1, e3, parseStringLoop]
    have hn : hasNext (92 :: e :: (t ++ 34 :: rest)) = true := rfl
    simp only [hn, next_cons, advance_cons, Bool.not_true, Bool.false_eq_true, if_false,
      reduceCtorEq, Nat.reduceEqDiff, Nat.reduceLeDiff, and_false, and_true, if_true,
      simpleEscape_parseEscape he]
    rw [e2, ih]
    simp only [List.append_assoc, List.singleton_append]
  | unicode a b c d u enc t s hu hns henc _ ih =>
    have e1 : (92 :: 117 :: a :: b :: c :: d :: t).length + (fuel + 1) =
        (t.length + (fuel + 5 + 1)) + 1 := by
      simp only [List.length_cons]; omega
    have e3 : (92 :: 117 :: a :: b :: c :: d :: t) ++ 34 :: rest =
        92 :: 117 :: a :: b :: c :: d :: (t ++ 34 :: rest) := rfl
    have hpu : parseUnicode (a :: b :: c :: d :: (t ++ 34 :: rest)) =
        .ok (u, t ++ 34 :: rest) := by
      unfold parseUnicode
      rw [parseHex4_eq hu]
      simp only [if_neg hns]
    rw [e1, e3, parseStringLoop]
    have hn : hasNext (92 :: 117 :: a :: b :: c :: d :: (t ++ 34 :: rest)) = true := rfl
    simp only [hn, next_cons, advance_cons, Bool.not_true, Bool.false_eq_true, if_false,
      reduceCtorEq, Nat.reduceEqDiff, Nat.reduceLeDiff, and_false, and_true, if_true,
      parseEscape_unicode, hpu, encodeUtf8_append henc]
    rw [ih]
    simp only [List.append_assoc]
  | surrogates a b c d a2 b2 c2 d2 hi lo u enc t s hhi hhr hlo hlr hu henc _ ih =>
    have e1 : (92 :: 117 :: a :: b :: c :: d :: 92 :: 117 :: a2 :: b2 :: c2 :: d2 :: t).length +
        (fuel + 1) = (t.length + (fuel + 11 + 1)) + 1 := by
      simp only [List.length_cons]; omega
    have e3 : (92 :: 117 :: a :: b :: c :: d :: 92 :: 117 :: a2 :: b2 :: c2 :: d2 :: t) ++
        34 :: rest =
        92 :: 117 :: a :: b :: c :: d :: 92 :: 117 :: a2 :: b2 :: c2 :: d2 ::
          (t ++ 34 :: rest) := rfl
    have hpu : parseUnicode
        (a :: b :: c :: d :: 92 :: 117 :: a2 :: b2 :: c2 :: d2 :: (t ++ 34 :: rest)) =
        .ok (u, t ++ 34 :: rest) := by
      unfold parseUnicode
      rw [parseHex4_eq hhi]
      simp only [if_pos hhr, next_cons, advance_cons, ne_eq, not_true_eq_false, if_false,
        parseHex4_eq hlo, if_pos hlr]
      rw [hu]
    rw [e1, e3, parseStringLoop]
    have hn : hasNext (92 :: 117 :: a :: b :: c :: d :: 92 :: 117 :: a2 :: b2 :: c2 :: d2 ::
        (t ++ 34 :: rest)) = true := rfl
    simp only [hn, next_cons, advance_cons, Bool.not_true, Bool.false_eq_true, if_false,
      reduceCtorEq, Nat.reduceEqDiff, Nat.reduceLeDiff, and_false, and_true, if_true,
      parseEscape_unicode, hpu, encodeUtf8_append henc]
    rw [ih]
    simp only [List.append_assoc]


/-! ### Numbers -/

theorem isSuffix_cases {sfx : List Nat} (h : isSuffix sfx = true) :
    sfx = [] ∨ sfx = [105, 51, 50] ∨ sfx = [105, 54, 52] := by
  simp only [isSuffix, Bool.or_eq_true, beq_iff_eq] at h
  rcases h with (h | h) | h
  · exact Or.inl h
  · exact Or.inr (Or.inl h)
  · exact Or.inr (Or.inr h)

theorem token_length (neg : Bool) {ip : List Nat} (hip : isIntPart ip = true)
    (rest tail : List Nat) (hle : tail.length ≤ rest.length) :
    tail.length < (signText neg ++ ip ++ rest).length := by
  have := (isIntPart_allDigits hip).2
  cases ip with
  | nil => exact absurd rfl this
  | cons c cs => simp only [List.length_append, List.length_cons]; omega

/-- A number token of the grammar, followed by a byte that ends it: the
parser makes the handler call of its event. -/
theorem parseNumber_complete (h : Handler) (log : List Event) (neg : Bool)
    (ip fp es ed sfx rest : List Nat) (ev : Event) (hip : isIntPart ip = true)
    (hfp : isFracPart fp = true) (hep : isExpPart es ed = true)
    (hsfx : isSuffix sfx = true) (hd : fp ≠ [] ∨ es ≠ [] → sfx = [])
    (hev : numberEvent neg ip fp es ed sfx = some ev) (hr : endsNumber mem rest) :
    parseNumber mem h (signText neg ++ ip ++ (fp ++ (es ++ ed ++ (sfx ++ rest)))) log =
      CALL h ev rest log := by
  have hX := endsNumber_conversion hr
  obtain ⟨r1, r2, r3, r4, r5⟩ := hr.1
  by_cases hdbl : fp ≠ [] ∨ es ≠ []
  · have hs := hd hdbl
    subst hs
    rw [List.nil_append, parseNumber_token h log neg fp es ed hip hfp hep rest r1
      (fun _ => ⟨r3, r4⟩) (fun _ _ => r2), parseNumberSuffix_none _ _ _ _ r5]
    have hty : typeAfter es (typeAfter fp .TYPE_NULL) = .TYPE_DOUBLE := by
      unfold typeAfter
      by_cases he : es = []
      · rw [if_pos he]
        rcases hdbl with hf | he'
        · rw [if_neg hf]
        · exact absurd he he'
      · rw [if_neg he]
    have hlen := token_length neg hip (fp ++ (es ++ ed ++ rest)) rest (by
      simp only [List.length_append]; omega)
    have e : signText neg ++ ip ++ (fp ++ (es ++ ed ++ rest)) ++ mem =
        (signText neg ++ ip ++ (fp ++ (es ++ ed))) ++ (rest ++ mem) := by
      simp only [List.append_assoc]
    have elen : (signText neg ++ ip ++ (fp ++ (es ++ ed ++ rest))).length =
        (signText neg ++ ip ++ (fp ++ (es ++ ed))).length + rest.length := by
      simp only [List.length_append]; omega
    obtain ⟨r, hconv⟩ := strtod_token neg hip hfp hep hdbl
    have hA := hconv (rest ++ mem) hX
    have hB := (hconv [] endsConversion_nil).1
    rw [List.append_nil] at hB
    unfold numberEvent at hev
    rw [if_pos hdbl] at hev
    unfold convertNumber
    rw [if_neg (by omega), hty, if_pos rfl, e, hA.1, hA.2, elen, ← hB]
    cases hst : Libc.strtod (signText neg ++ ip ++ (fp ++ (es ++ ed))) with
    | value d =>
      rw [hst] at hev
      simp only [Option.some.injEq] at hev
      rw [← hev]
      simp only [if_true]
    | out_of_range => rw [hst] at hev; cases hev
    | invalid_argument => rw [hst] at hev; cases hev
  · have hf : fp = [] := by
      by_contra hne; exact hdbl (Or.inl hne)
    have he : es = [] := by
      by_contra hne; exact hdbl (Or.inr hne)
    subst hf he
    have hed : ed = [] := by
      rcases isExpPart_cases hep with ⟨-, h2⟩ | ⟨c, sg, d, ds, h1, -⟩
      · exact h2
      · cases h1
    subst hed
    unfold numberEvent at hev
    rw [if_neg hdbl] at hev
    have h32 : fitsInt32 (signedValue neg ip) → fitsInt64 (signedValue neg ip) := by
      unfold fitsInt32 fitsInt64; omega
    rcases isSuffix_cases hsfx with rfl | rfl | rfl
    · simp only [reduceCtorEq, if_false] at hev
      have hconv := convertNumber_int mem h log neg hip rest rest hX.1
        (token_length neg hip rest rest (Nat.le_refl _)) .TYPE_NULL (by decide)
      show parseNumber mem h (signText neg ++ ip ++ ([] ++ ([] ++ [] ++ rest))) log = _
      rw [parseNumber_token h log neg [] [] [] hip rfl rfl _ r1 (fun _ => ⟨r3, r4⟩)
        (fun _ _ => r2), parseNumberSuffix_none _ _ _ _ r5]
      simp only [List.nil_append, typeAfter, if_true] at hconv ⊢
      rw [hconv]
      by_cases a : fitsInt32 (signedValue neg ip)
      · simp only [a, if_true, Option.some.injEq] at hev
        simp only [h32 a, a, not_true_eq_false, if_false, if_true, reduceCtorEq, hev]
      · by_cases b : fitsInt64 (signedValue neg ip)
        · simp only [a, b, if_true, if_false, Option.some.injEq] at hev
          simp only [a, b, not_true_eq_false, if_false, if_true, reduceCtorEq, hev]
        · simp only [a, b, if_false, reduceCtorEq] at hev
    · simp only [if_true] at hev
      have hconv := convertNumber_int mem h log neg hip ([105, 51, 50] ++ rest) rest (by rfl)
        (token_length neg hip _ rest (by
          simp only [List.length_append, List.length_cons, List.length_nil]; omega)) .TYPE_INT32 (by decide)
      rw [parseNumber_token h log neg [] [] [] hip rfl rfl _ (by rfl)
        (by intro; exact ⟨by show (105 : Nat) ≠ 101; decide, by show (105 : Nat) ≠ 69; decide⟩)
        (by intro _ _; show (105 : Nat) ≠ 46; decide)]
      simp only [List.nil_append, typeAfter, if_true] at hconv ⊢
      have e : [105, 51, 50] ++ rest = 105 :: 51 :: 50 :: rest := rfl
      rw [e] at hconv ⊢
      rw [parseNumberSuffix_i32, hconv]
      by_cases a : fitsInt32 (signedValue neg ip)
      · simp only [a, if_true, Option.some.injEq] at hev
        simp only [h32 a, a, not_true_eq_false, if_false, if_true, reduceCtorEq, hev]
      · simp only [a, if_false, reduceCtorEq] at hev
    · rw [if_neg (by decide), if_pos rfl] at hev
      have hconv := convertNumber_int mem h log neg hip ([105, 54, 52] ++ rest) rest (by rfl)
        (token_length neg hip _ rest (by
          simp only [List.length_append, List.length_cons, List.length_nil]; omega)) .TYPE_INT64 (by decide)
      rw [parseNumber_token h log neg [] [] [] hip rfl rfl _ (by rfl)
        (by intro; exact ⟨by show (105 : Nat) ≠ 101; decide, by show (105 : Nat) ≠ 69; decide⟩)
        (by intro _ _; show (105 : Nat) ≠ 46; decide)]
      simp only [List.nil_append, typeAfter, if_true] at hconv ⊢
      have e : [105, 54, 52] ++ rest = 105 :: 54 :: 52 :: rest := rfl
      rw [e] at hconv ⊢
      rw [parseNumberSuffix_i64, hconv]
      by_cases b : fitsInt64 (signedValue neg ip)
      · simp only [b, if_true, Option.some.injEq] at hev
        simp only [b, not_true_eq_false, if_false, if_true, reduceCtorEq, hev]
      · simp only [b, if_false, reduceCtorEq] at hev


/-! ### Values -/

/-- The first byte of a value: not white space and no closing bracket; a minus
sign or a digit for a number only. -/
theorem valueText_first {b : Bool} {v : List Nat} {evs : List Event}
    (hv : ValueText b v evs) :
    ∃ c t, v = c :: t ∧ (c ≠ 32 ∧ c ≠ 9 ∧ c ≠ 13 ∧ c ≠ 10) ∧ c ≠ 93 ∧ c ≠ 125 ∧ c ≠ 44 := by
  cases hv with
  | litNull => exact ⟨110, _, rfl, by decide, by decide, by decide, by decide⟩
  | litTrue => exact ⟨116, _, rfl, by decide, by decide, by decide, by decide⟩
  | litFalse => exact ⟨102, _, rfl, by decide, by decide, by decide, by decide⟩
  | litNaN => exact ⟨78, _, rfl, by decide, by decide, by decide, by decide⟩
  | litInfinity => exact ⟨73, _, rfl, by decide, by decide, by decide, by decide⟩
  | number neg ip fp es ed sfx hip _ _ _ _ _ =>
    have hp := peek_token neg hip (fp ++ (es ++ ed ++ sfx))
    have hn := hasNext_token neg hip (fp ++ (es ++ ed ++ sfx))
    cases htok : signText neg ++ ip ++ (fp ++ (es ++ ed ++ sfx)) with
    | nil => rw [htok] at hn; cases hn
    | cons c t =>
      rw [htok, peek_cons] at hp
      exact ⟨c, t, rfl, by omega, by omega, by omega, by omega⟩
  | string t s _ => exact ⟨34, _, rfl, by decide, by decide, by decide, by decide⟩
  | emptyArray ws _ => exact ⟨91, _, rfl, by decide, by decide, by decide, by decide⟩
  | array ws body evs _ _ => exact ⟨91, _, rfl, by decide, by decide, by decide, by decide⟩
  | emptyObject ws _ => exact ⟨123, _, rfl, by decide, by decide, by decide, by decide⟩
  | object ws body evs _ _ => exact ⟨123, _, rfl, by decide, by decide, by decide, by decide⟩

theorem elementsText_first {b : Bool} {body : List Nat} {evs : List Event}
    (hb : ElementsText b body evs) :
    ∃ c t, body = c :: t ∧ (c ≠ 32 ∧ c ≠ 9 ∧ c ≠ 13 ∧ c ≠ 10) ∧ c ≠ 93 := by
  cases hb with
  | last v ws evs hv _ =>
    obtain ⟨c, t, rfl, h1, h2, -⟩ := valueText_first hv
    exact ⟨c, _, rfl, h1, h2⟩
  | more v ws1 ws2 rest evs evs2 hv _ _ _ =>
    obtain ⟨c, t, rfl, h1, h2, -⟩ := valueText_first hv
    exact ⟨c, _, rfl, h1, h2⟩

theorem membersText_first {b : Bool} {body : List Nat} {evs : List Event}
    (hb : MembersText b body evs) : ∃ t, body = 34 :: t := by
  cases hb with
  | last k ks ws1 ws2 v ws3 evs _ _ _ _ _ => exact ⟨_, rfl⟩
  | more k ks ws1 ws2 v ws3 ws4 rest evs evs2 _ _ _ _ _ _ _ => exact ⟨_, rfl⟩

theorem exists_succ {N fuel : Nat} (h : N + 1 ≤ fuel) : ∃ f, fuel = f + 1 ∧ N ≤ f :=
  ⟨fuel - 1, by omega, by omega⟩

theorem parseValue_literal (fuel : Nat) (rest : List Nat) (log : List Event) :
    parseValue mem Handler.accept (fuel + 1) (lit_null ++ rest) log = .ok rest (log ++ [.Null]) ∧
    parseValue mem Handler.accept (fuel + 1) (lit_true ++ rest) log =
      .ok rest (log ++ [.Bool true]) ∧
    parseValue mem Handler.accept (fuel + 1) (lit_false ++ rest) log =
      .ok rest (log ++ [.Bool false]) ∧
    parseValue mem Handler.accept (fuel + 1) (lit_NaN ++ rest) log =
      .ok rest (log ++ [.Double .nan]) ∧
    parseValue mem Handler.accept (fuel + 1) (lit_Infinity ++ rest) log =
      .ok rest (log ++ [.Double (.inf false)]) := by
  refine ⟨?_, ?_, ?_, ?_, ?_⟩ <;> (rw [parseValue]; rfl)

/-- A value that starts with a quote -/
theorem parseValue_stringText (h : Handler) (fuel : Nat) {t s : List Nat} (hb : StrBody t s)
    (rest : List Nat) (log : List Event) :
    parseValue mem h (fuel + 1) (34 :: (t ++ [34]) ++ rest) log = CALL h (.String s) rest log := by
  have e : 34 :: (t ++ [34]) ++ rest = 34 :: (t ++ 34 :: rest) := by simp
  have e2 : (t ++ 34 :: rest).length + 1 = t.length + (rest.length + 1 + 1) := by
    simp only [List.length_append, List.length_cons]; omega
  rw [e, parseValue_string, parseString_quote, e2, parseStringLoop_body h false hb]
  rfl

/-- A key and what follows it -/
theorem parseString_keyText (h : Handler) {k ks : List Nat} (hb : StrBody k ks)
    (rest : List Nat) (log : List Event) :
    parseString h (34 :: (k ++ 34 :: rest)) log true = CALL h (.Key ks) rest log := by
  have e2 : (k ++ 34 :: rest).length + 1 = k.length + (rest.length + 1 + 1) := by
    simp only [List.length_append, List.length_cons]; omega
  rw [parseString_quote, e2, parseStringLoop_body h true hb]
  rfl


/-! ### Arrays and objects -/

theorem peek_not_ws_of_cons {c : Nat} {t : List Nat} (rest : List Nat)
    (hc : c ≠ 32 ∧ c ≠ 9 ∧ c ≠ 13 ∧ c ≠ 10) :
    peek (c :: t ++ rest) ≠ 32 ∧ peek (c :: t ++ rest) ≠ 9 ∧ peek (c :: t ++ rest) ≠ 13 ∧
      peek (c :: t ++ rest) ≠ 10 := hc

theorem parseValue_emptyArray (fuel : Nat) {ws : List Nat} (hws : allWs ws = true)
    (rest : List Nat) (log : List Event) :
    parseValue mem Handler.accept (fuel + 2) (91 :: (ws ++ [93]) ++ rest) log =
      .ok rest (log ++ [.StartArray, .EndArray]) := by
  have e : 91 :: (ws ++ [93]) ++ rest = 91 :: (ws ++ 93 :: rest) := by simp
  rw [e, parseValue_succ, if_pos (peek_cons _ _), parseArray, call_accept]
  simp only [Res.andThen, advance_cons]
  rw [parseWhiteSpace_ws hws (by rw [peek_cons]; decide), if_pos (peek_cons _ _), advance_cons,
    call_accept]
  simp only [List.append_assoc, List.singleton_append]

theorem parseValue_arrayText (fuel : Nat) {ws : List Nat} (hws : allWs ws = true)
    {c : Nat} (t : List Nat) (hc : (c ≠ 32 ∧ c ≠ 9 ∧ c ≠ 13 ∧ c ≠ 10) ∧ c ≠ 93)
    (rest : List Nat) (log : List Event) :
    parseValue mem Handler.accept (fuel + 2) (91 :: (ws ++ c :: t) ++ rest) log =
      parseArrayLoop mem Handler.accept fuel (c :: t ++ rest) (log ++ [.StartArray]) := by
  have e : 91 :: (ws ++ c :: t) ++ rest = 91 :: (ws ++ (c :: t ++ rest)) := by simp
  rw [e, parseValue_succ, if_pos (peek_cons _ _), parseArray, call_accept]
  simp only [Res.andThen, advance_cons]
  rw [parseWhiteSpace_ws hws (peek_not_ws_of_cons rest hc.1)]
  have : peek (c :: t ++ rest) ≠ 93 := hc.2
  rw [if_neg this]

theorem parseArrayLoop_last (fuel : Nat) {v ws : List Nat} {evs : List Event}
    (hws : allWs ws = true) (rest : List Nat) (log : List Event)
    (hv : parseValue mem Handler.accept fuel (v ++ (ws ++ 93 :: rest)) log =
      .ok (ws ++ 93 :: rest) (log ++ evs)) :
    parseArrayLoop mem Handler.accept (fuel + 1) (v ++ (ws ++ [93]) ++ rest) log =
      .ok rest (log ++ (evs ++ [.EndArray])) := by
  have e : v ++ (ws ++ [93]) ++ rest = v ++ (ws ++ 93 :: rest) := by simp
  rw [e, parseArrayLoop, hv]
  simp only [Res.andThen]
  rw [parseWhiteSpace_ws hws (by rw [peek_cons]; decide)]
  simp only [next_cons, advance_cons, Nat.reduceEqDiff, if_false, if_true, call_accept,
    List.append_assoc]

theorem parseArrayLoop_more (fuel : Nat) {v ws1 ws2 : List Nat} {evs evs2 : List Event}
    (hws1 : allWs ws1 = true) (hws2 : allWs ws2 = true) {c : Nat} (t : List Nat)
    (hc : c ≠ 32 ∧ c ≠ 9 ∧ c ≠ 13 ∧ c ≠ 10) (rest : List Nat) (log : List Event)
    (hv : parseValue mem Handler.accept fuel (v ++ (ws1 ++ 44 :: (ws2 ++ (c :: t ++ rest)))) log =
      .ok (ws1 ++ 44 :: (ws2 ++ (c :: t ++ rest))) (log ++ evs))
    (hrest : parseArrayLoop mem Handler.accept fuel (c :: t ++ rest) (log ++ evs) =
      .ok rest (log ++ evs ++ evs2)) :
    parseArrayLoop mem Handler.accept (fuel + 1) (v ++ (ws1 ++ 44 :: (ws2 ++ c :: t)) ++ rest) log =
      .ok rest (log ++ (evs ++ evs2)) := by
  have e : v ++ (ws1 ++ 44 :: (ws2 ++ c :: t)) ++ rest =
      v ++ (ws1 ++ 44 :: (ws2 ++ (c :: t ++ rest))) := by simp
  rw [e, parseArrayLoop, hv]
  simp only [Res.andThen]
  rw [parseWhiteSpace_ws hws1 (by rw [peek_cons]; decide)]
  simp only [next_cons, advance_cons, if_true]
  rw [parseWhiteSpace_ws hws2 (peek_not_ws_of_cons rest hc), hrest, List.append_assoc]

theorem parseValue_emptyObject (fuel : Nat) {ws : List Nat} (hws : allWs ws = true)
    (rest : List Nat) (log : List Event) :
    parseValue mem Handler.accept (fuel + 2) (123 :: (ws ++ [125]) ++ rest) log =
      .ok rest (log ++ [.StartObject, .EndObject]) := by
  have e : 123 :: (ws ++ [125]) ++ rest = 123 :: (ws ++ 125 :: rest) := by simp
  rw [e, parseValue_succ, if_neg (by rw [peek_cons]; decide), if_pos (peek_cons _ _),
    parseObject, call_accept]
  simp only [Res.andThen, advance_cons]
  rw [parseWhiteSpace_ws hws (by rw [peek_cons]; decide), if_pos (peek_cons _ _), advance_cons,
    call_accept]
  simp only [List.append_assoc, List.singleton_append]

theorem parseValue_objectText (fuel : Nat) {ws : List Nat} (hws : allWs ws = true)
    (t : List Nat) (rest : List Nat) (log : List Event) :
    parseValue mem Handler.accept (fuel + 2) (123 :: (ws ++ 34 :: t) ++ rest) log =
      parseObjectLoop mem Handler.accept fuel (34 :: t ++ rest) (log ++ [.StartObject]) := by
  have e : 123 :: (ws ++ 34 :: t) ++ rest = 123 :: (ws ++ (34 :: t ++ rest)) := by simp
  rw [e, parseValue_succ, if_neg (by rw [peek_cons]; decide), if_pos (peek_cons _ _),
    parseObject, call_accept]
  simp only [Res.andThen, advance_cons]
  rw [parseWhiteSpace_ws hws (by
    show (34 : Nat) ≠ 32 ∧ (34 : Nat) ≠ 9 ∧ (34 : Nat) ≠ 13 ∧ (34 : Nat) ≠ 10; decide)]
  have : peek (34 :: t ++ rest) ≠ 125 := by show (34 : Nat) ≠ 125; decide
  rw [if_neg this]

/-- One member of an object up to the end of its value: the key, the colon and
the value -/
theorem parseObjectLoop_member (fuel : Nat) {k ks ws1 ws2 v : List Nat} {evs : List Event}
    (hk : StrBody k ks) (hws1 : allWs ws1 = true) (hws2 : allWs ws2 = true)
    {c : Nat} {t : List Nat} (hvc : v = c :: t) (hc : c ≠ 32 ∧ c ≠ 9 ∧ c ≠ 13 ∧ c ≠ 10)
    (rest : List Nat) (log : List Event)
    (hv : parseValue mem Handler.accept fuel (v ++ rest) (log ++ [.Key ks]) =
      .ok rest (log ++ [.Key ks] ++ evs)) :
    parseObjectLoop mem Handler.accept (fuel + 1)
        (34 :: (k ++ 34 :: (ws1 ++ 58 :: (ws2 ++ (v ++ rest))))) log =
      (Res.ok rest (log ++ [.Key ks] ++ evs)).andThen fun is log =>
        if next (parseWhiteSpace is) = 44 then
          parseObjectLoop mem Handler.accept fuel
            (parseWhiteSpace (advance (parseWhiteSpace is))) log
        else if next (parseWhiteSpace is) = 125 then
          CALL Handler.accept .EndObject (advance (parseWhiteSpace is)) log
        else .throw .PARSE_MISS_COMMA_OR_CURLY_BRACKET log := by
  rw [parseObjectLoop, if_neg (by rw [peek_cons]; decide), parseString_keyText _ hk,
    call_accept]
  simp only [Res.andThen]
  rw [parseWhiteSpace_ws hws1 (by rw [peek_cons]; decide)]
  simp only [next_cons, advance_cons, ne_eq, not_true_eq_false, if_false]
  rw [parseWhiteSpace_ws hws2 (by subst hvc; exact peek_not_ws_of_cons rest hc), hv]


theorem startsNumber_token (neg : Bool) {ip : List Nat} (hip : isIntPart ip = true)
    (rest : List Nat) : startsNumber (signText neg ++ ip ++ rest) := by
  rcases peek_token neg hip rest with h | h
  · exact Or.inl h
  · exact Or.inr ((isDigit_iff _).2 h)

mutual

/-- The parser accepts every value of the grammar whose numbers are in range,
and makes the handler calls of its events.  After a number the next byte must
end the token. -/
theorem valueText_complete : ∀ {v : List Nat} {evs : List Event}, ValueText true v evs →
    ∃ N, ∀ fuel, N ≤ fuel → ∀ (rest : List Nat) (log : List Event),
      (startsNumber v → endsNumber mem rest) →
      parseValue mem Handler.accept fuel (v ++ rest) log = .ok rest (log ++ evs)
  | _, _, .litNull => ⟨1, fun fuel hf rest log _ => by
      obtain ⟨f, rfl, -⟩ := exists_succ hf
      exact (parseValue_literal f rest log).1⟩
  | _, _, .litTrue => ⟨1, fun fuel hf rest log _ => by
      obtain ⟨f, rfl, -⟩ := exists_succ hf
      exact (parseValue_literal f rest log).2.1⟩
  | _, _, .litFalse => ⟨1, fun fuel hf rest log _ => by
      obtain ⟨f, rfl, -⟩ := exists_succ hf
      exact (parseValue_literal f rest log).2.2.1⟩
  | _, _, .litNaN => ⟨1, fun fuel hf rest log _ => by
      obtain ⟨f, rfl, -⟩ := exists_succ hf
      exact (parseValue_literal f rest log).2.2.2.1⟩
  | _, _, .litInfinity => ⟨1, fun fuel hf rest log _ => by
      obtain ⟨f, rfl, -⟩ := exists_succ hf
      exact (parseValue_literal f rest log).2.2.2.2⟩
  | _, _, .number neg ip fp es ed sfx hip hfp hep hsfx hd hin => ⟨1, fun fuel hf rest log hr => by
      obtain ⟨f, rfl, -⟩ := exists_succ hf
      obtain ⟨ev, hev⟩ := Option.isSome_iff_exists.1 (hin rfl)
      have hr' := hr (startsNumber_token neg hip _)
      have e : signText neg ++ ip ++ (fp ++ (es ++ ed ++ sfx)) ++ rest =
          signText neg ++ ip ++ (fp ++ (es ++ ed ++ (sfx ++ rest))) := by
        simp only [List.append_assoc]
      have hp := peek_token neg hip (fp ++ (es ++ ed ++ (sfx ++ rest)))
      rw [hev, e, parseValue_number _ _ _ (hasNext_token neg hip _) (by omega),
        parseNumber_complete _ _ neg ip fp es ed sfx rest ev hip hfp hep hsfx hd hev hr',
        call_accept]
      rfl⟩
  | _, _, .string t s hb => ⟨1, fun fuel hf rest log _ => by
      obtain ⟨f, rfl, -⟩ := exists_succ hf
      rw [parseValue_stringText _ f hb, call_accept]⟩
  | _, _, .emptyArray ws hws => ⟨2, fun fuel hf rest log _ => by
      obtain ⟨f, rfl, -⟩ : ∃ f, fuel = f + 2 ∧ True := ⟨fuel - 2, by omega, trivial⟩
      exact parseValue_emptyArray f hws rest log⟩
  | _, _, .array ws body evs hws hb => by
      obtain ⟨N, hN⟩ := elementsText_complete hb
      obtain ⟨c, t, rfl, hc⟩ := elementsText_first hb
      refine ⟨N + 2, fun fuel hf rest log _ => ?_⟩
      obtain ⟨f, rfl, hf'⟩ : ∃ f, fuel = f + 2 ∧ N ≤ f := ⟨fuel - 2, by omega, by omega⟩
      rw [parseValue_arrayText f hws t hc, hN f hf']
      simp only [List.append_assoc, List.singleton_append]
  | _, _, .emptyObject ws hws => ⟨2, fun fuel hf rest log _ => by
      obtain ⟨f, rfl, -⟩ : ∃ f, fuel = f + 2 ∧ True := ⟨fuel - 2, by omega, trivial⟩
      exact parseValue_emptyObject f hws rest log⟩
  | _, _, .object ws body evs hws hb => by
      obtain ⟨N, hN⟩ := membersText_complete hb
      obtain ⟨t, rfl⟩ := membersText_first hb
      refine ⟨N + 2, fun fuel hf rest log _ => ?_⟩
      obtain ⟨f, rfl, hf'⟩ : ∃ f, fuel = f + 2 ∧ N ≤ f := ⟨fuel - 2, by omega, by omega⟩
      rw [parseValue_objectText f hws t, hN f hf']
      simp only [List.append_assoc, List.singleton_append]
termination_by v _ _ => v.length
decreasing_by
  all_goals simp only [List.length_cons, List.length_append]
  all_goals omega

/-- The loop of parseArray on the elements of an array of the grammar -/
theorem elementsText_complete : ∀ {body : List Nat} {evs : List Event},
    ElementsText true body evs →
    ∃ N, ∀ fuel, N ≤ fuel → ∀ (rest : List Nat) (log : List Event),
      parseArrayLoop mem Handler.accept fuel (body ++ rest) log = .ok rest (log ++ evs)
  | _, _, .last v ws evs hv hws => by
      obtain ⟨N, hN⟩ := valueText_complete hv
      refine ⟨N + 1, fun fuel hf rest log => ?_⟩
      obtain ⟨f, rfl, hf'⟩ := exists_succ hf
      exact parseArrayLoop_last f hws rest log
        (hN f hf' _ log (fun _ => endsNumber_ws hws (endsNumber_cons _ (by omega))))
  | _, _, .more v ws1 ws2 rest0 evs evs2 hv hws1 hws2 hb => by
      obtain ⟨N, hN⟩ := valueText_complete hv
      obtain ⟨M, hM⟩ := elementsText_complete hb
      obtain ⟨c, t, rfl, hc⟩ := elementsText_first hb
      refine ⟨N + M + 1, fun fuel hf rest log => ?_⟩
      obtain ⟨f, rfl, hf'⟩ := exists_succ hf
      exact parseArrayLoop_more f hws1 hws2 t hc.1 rest log
        (hN f (by omega) _ log (fun _ => endsNumber_ws hws1 (endsNumber_cons _ (by omega))))
        (hM f (by omega) rest (log ++ evs))
termination_by body _ _ => body.length
decreasing_by
  all_goals simp only [List.length_cons, List.length_append, List.length_nil]
  all_goals omega

/-- The loop of parseObject on the members of an object of the grammar -/
theorem membersText_complete : ∀ {body : List Nat} {evs : List Event},
    MembersText true body evs →
    ∃ N, ∀ fuel, N ≤ fuel → ∀ (rest : List Nat) (log : List Event),
      parseObjectLoop mem Handler.accept fuel (body ++ rest) log = .ok rest (log ++ evs)
  | _, _, .last k ks ws1 ws2 v ws3 evs hk hws1 hws2 hv hws3 => by
      obtain ⟨N, hN⟩ := valueText_complete hv
      obtain ⟨c, t, hvc, hc, -⟩ := valueText_first hv
      refine ⟨N + 1, fun fuel hf rest log => ?_⟩
      obtain ⟨f, rfl, hf'⟩ := exists_succ hf
      have e : 34 :: (k ++ 34 :: (ws1 ++ 58 :: (ws2 ++ (v ++ (ws3 ++ [125]))))) ++ rest =
          34 :: (k ++ 34 :: (ws1 ++ 58 :: (ws2 ++ (v ++ (ws3 ++ 125 :: rest))))) := by simp
      rw [e, parseObjectLoop_member f hk hws1 hws2 hvc hc _ log
        (hN f hf' _ _ (fun _ => endsNumber_ws hws3 (endsNumber_cons _ (by omega))))]
      simp only [Res.andThen]
      rw [parseWhiteSpace_ws hws3 (by rw [peek_cons]; decide)]
      simp only [next_cons, advance_cons, Nat.reduceEqDiff, if_false, if_true, call_accept,
        List.append_assoc, List.singleton_append, List.cons_append, List.nil_append]
  | _, _, .more k ks ws1 ws2 v ws3 ws4 rest0 evs evs2 hk hws1 hws2 hv hws3 hws4 hb => by
      obtain ⟨N, hN⟩ := valueText_complete hv
      obtain ⟨M, hM⟩ := membersText_complete hb
      obtain ⟨c, t, hvc, hc, -⟩ := valueText_first hv
      obtain ⟨t0, rfl⟩ := membersText_first hb
      refine ⟨N + M + 1, fun fuel hf rest log => ?_⟩
      obtain ⟨f, rfl, hf'⟩ := exists_succ hf
      have e : 34 :: (k ++ 34 :: (ws1 ++ 58 :: (ws2 ++ (v ++ (ws3 ++ 44 :: (ws4 ++ 34 :: t0)))))) ++
          rest =
          34 :: (k ++ 34 :: (ws1 ++ 58 :: (ws2 ++ (v ++ (ws3 ++ 44 :: (ws4 ++ (34 :: t0 ++ rest))))))) := by
        simp
      rw [e, parseObjectLoop_member f hk hws1 hws2 hvc hc _ log
        (hN f (by omega) _ _ (fun _ => endsNumber_ws hws3 (endsNumber_cons _ (by omega))))]
      simp only [Res.andThen]
      rw [parseWhiteSpace_ws hws3 (by rw [peek_cons]; decide)]
      simp only [next_cons, advance_cons, if_true]
      rw [parseWhiteSpace_ws hws4 (by
        show (34 : Nat) ≠ 32 ∧ (34 : Nat) ≠ 9 ∧ (34 : Nat) ≠ 13 ∧ (34 : Nat) ≠ 10; decide),
        hM f (by omega)]
      simp only [List.append_assoc, List.singleton_append, List.cons_append, List.nil_append]
termination_by body _ _ => body.length
decreasing_by
  all_goals simp only [List.length_cons, List.length_append, List.length_nil]
  all_goals omega

end

end Reader

/-! ## One value, then only white space -/

namespace Reader

theorem parseWhiteSpace_all {ws : List Nat} (hws : allWs ws = true) : parseWhiteSpace ws = [] := by
  have := parseWhiteSpace_append hws []
  rw [List.append_nil] at this
  rw [this]; rfl

/-- `parse` on a value of the grammar between white space and followed by
anything that lets its last token end -/
theorem parse_valueText {ws1 v : List Nat} {evs : List Event} (h1 : allWs ws1 = true)
    (hv : ValueText true v evs) (rest : List Nat) (hr : startsNumber v → endsNumber mem rest) :
    parse mem Handler.accept (ws1 ++ (v ++ rest)) = finish (.ok rest evs) := by
  obtain ⟨N, hN⟩ := @valueText_complete mem v evs hv
  obtain ⟨c, t, rfl, hc, -⟩ := valueText_first hv
  rw [← parse_fuel_enough Handler.accept _ (N + (3 * (ws1 ++ (c :: t ++ rest)).length + 1))
    (by omega)]
  unfold parseFuel
  rw [parseWhiteSpace_ws h1 (peek_not_ws_of_cons rest hc), hN _ (by omega) rest [] hr]
  rfl

/-- White space after the value, or the memory after the view if there is
none, ends the last token of the value -/
theorem endsNumber_trailing {v ws2 : List Nat} (h2 : allWs ws2 = true)
    (hm : ws2 ≠ [] ∨ ¬startsNumber v ∨ endsConversion mem) :
    startsNumber v → endsNumber mem ws2 := by
  intro hs
  cases ws2 with
  | nil =>
    rcases hm with h | h | h
    · exact absurd rfl h
    · exact absurd hs h
    · exact endsNumber_nil h
  | cons w ws =>
    have := endsToken_ws h2 endsToken_nil
    rw [List.append_nil] at this
    exact ⟨this, fun e => by cases e⟩

/-- C6, as amended. For every text generated by the accepted grammar (one
value: a literal, a number of the extended number grammar, a string with valid
escapes, an array or an object, with optional white space around every token)
in which every number converts without range error, `parse` with the handler
that never aborts returns PARSE_OK and the events emitted are those the text
denotes, provided that, when the text ends with the last digit of a number
that is the whole value, the byte that follows the text in memory is none of a
digit, `e` and `E`.  The events then depend on the text alone: the text
denotes one event sequence only, and the parses of the text in two memories
that meet the proviso are the same. -/
theorem grammar_accepted (mem : List Nat) (ws1 v ws2 : List Nat) (evs : List Event)
    (h1 : allWs ws1 = true) (hv : ValueText true v evs) (h2 : allWs ws2 = true)
    (hm : ws2 ≠ [] ∨ ¬startsNumber v ∨ endsConversion mem) :
    parse mem Handler.accept (ws1 ++ (v ++ ws2)) = .returned .PARSE_OK evs ∧
    (∀ evs2, ValueText true v evs2 → evs2 = evs) ∧
    (∀ mem2 : List Nat, (ws2 ≠ [] ∨ ¬startsNumber v ∨ endsConversion mem2) →
      parse mem2 Handler.accept (ws1 ++ (v ++ ws2)) =
        parse mem Handler.accept (ws1 ++ (v ++ ws2))) := by
  have key : ∀ (m : List Nat) (e : List Event),
      (ws2 ≠ [] ∨ ¬startsNumber v ∨ endsConversion m) → ValueText true v e →
      parse m Handler.accept (ws1 ++ (v ++ ws2)) = .returned .PARSE_OK e := by
    intro m e hm' he
    rw [parse_valueText h1 he ws2 (endsNumber_trailing h2 hm')]
    simp only [finish, parseWhiteSpace_all h2, hasNext, Bool.false_eq_true, if_false]
  refine ⟨key mem evs hm hv, fun evs2 h2' => ?_, fun mem2 hm2 => ?_⟩
  · have a := key mem evs hm hv
    rw [key mem evs2 hm h2'] at a
    simp only [Outcome.returned.injEq, true_and] at a
    exact a
  · rw [key mem2 evs hm2 hv, key mem evs hm hv]

/-- C6, the claim as stated fails.  The text `9223372036854775808` is a number
of the grammar, and `parse` returns PARSE_NUMBER_TOO_BIG on it.  The text
`1.5` in the memory `1.55` (a view of its three first bytes) is not parsed to
PARSE_OK either: `strtod` reads the four bytes and the assertion of
Reader.hpp:200 fails; and the text `12` gives Int32(12) in a view that a NUL
follows and Int32(12345) in the memory `12345`. -/
theorem grammar_accepted_counterexample :
    (ValueText false (bytes "9223372036854775808") [] ∧
      parse [] Handler.accept (bytes "9223372036854775808") =
        .returned .PARSE_NUMBER_TOO_BIG []) ∧
    (ValueText true (bytes "1.5") [.Double (.fin false 6755399441055744 (-52))] ∧
      parse (bytes "5") Handler.accept (bytes "1.5") = .aborted []) ∧
    (ValueText true (bytes "12") [.Int32 12] ∧
      parse [] Handler.accept (bytes "12") = .returned .PARSE_OK [.Int32 12] ∧
      parse (bytes "345") Handler.accept (bytes "12") = .returned .PARSE_OK [.Int32 12345]) :=
  ⟨⟨ValueText.number false (bytes "9223372036854775808") [] [] [] [] (by decide) (by decide)
      (by decide) (by decide) (by decide) (by decide),
    by decide⟩,
   ⟨ValueText.number false [49] [46, 53] [] [] [] (by decide) (by decide)
      (by decide) (by decide) (by decide) (by decide), by decide⟩,
   ⟨ValueText.number false [49, 50] [] [] [] [] (by decide) (by decide)
      (by decide) (by decide) (by decide) (by decide), by decide, by decide⟩⟩

/-- C6, witness: the text `[1, "a\n", {"k": null}]` between two spaces -/
theorem grammar_accepted_witness :
    (allWs [32] = true ∧
      ValueText true (bytes "[1, \"a\\n\", \x7b\"k\": null\x7d]")
        [.StartArray, .Int32 1, .String [97, 10], .StartObject, .Key [107], .Null,
          .EndObject, .EndArray] ∧
      allWs [32] = true ∧
      (([32] : List Nat) ≠ [] ∨ ¬startsNumber (bytes "[1, \"a\\n\", \x7b\"k\": null\x7d]") ∨
        endsConversion [])) ∧
    (parse [] Handler.accept ([32] ++ (bytes "[1, \"a\\n\", \x7b\"k\": null\x7d]" ++ [32])) =
      .returned .PARSE_OK [.StartArray, .Int32 1, .String [97, 10], .StartObject, .Key [107],
        .Null, .EndObject, .EndArray] ∧
     (∀ evs2, ValueText true (bytes "[1, \"a\\n\", \x7b\"k\": null\x7d]") evs2 →
      evs2 = [.StartArray, .Int32 1, .String [97, 10], .StartObject, .Key [107], .Null,
        .EndObject, .EndArray]) ∧
     (∀ mem2 : List Nat,
      (([32] : List Nat) ≠ [] ∨ ¬startsNumber (bytes "[1, \"a\\n\", \x7b\"k\": null\x7d]") ∨
        endsConversion mem2) →
      parse mem2 Handler.accept
          ([32] ++ (bytes "[1, \"a\\n\", \x7b\"k\": null\x7d]" ++ [32])) =
        parse [] Handler.accept
          ([32] ++ (bytes "[1, \"a\\n\", \x7b\"k\": null\x7d]" ++ [32])))) :=
  have hv : ValueText true (bytes "[1, \"a\\n\", \x7b\"k\": null\x7d]")
      [.StartArray, .Int32 1, .String [97, 10], .StartObject, .Key [107], .Null,
        .EndObject, .EndArray] :=
    ValueText.array [] _ _ (by decide)
      (ElementsText.more [49] [] [32] _ [.Int32 1] _
        (ValueText.number false [49] [] [] [] [] (by decide) (by decide) (by decide)
          (by decide) (by decide) (by decide)) (by decide) (by decide)
        (ElementsText.more [34, 97, 92, 110, 34] [] [32] _ [.String [97, 10]] _
          (ValueText.string [97, 92, 110] [97, 10]
            (StrBody.raw 97 _ _ (by decide) (by decide) (by decide)
              (StrBody.escape 110 10 _ _ (by decide) StrBody.nil)))
          (by decide) (by decide)
          (ElementsText.last _ [] _
            (ValueText.object [] _ _ (by decide)
              (MembersText.last [107] [107] [] [32] _ [] [.Null]
                (StrBody.raw 107 _ _ (by decide) (by decide) (by decide) StrBody.nil)
                (by decide) (by decide) ValueText.litNull (by decide)))
            (by decide))))
  ⟨⟨by decide, hv, by decide, Or.inl (by decide)⟩,
    grammar_accepted [] [32] _ [32] _ (by decide) hv (by decide) (Or.inl (by decide))⟩

/-- C3, as amended. For every input that consists of one value of the grammar
(numbers in range) followed only by white space, `parse` returns PARSE_OK,
provided that, when the input ends with the last digit of a number that is the
whole value, the byte that follows the input in memory is none of a digit, `e`
and `E`; and with a byte `c` that is not white space appended (and anything
after it), `parse` returns PARSE_ROOT_NOT_SINGULAR, provided that white space
separates the value from `c`, or the value is not a number, or `c` is none of
a digit, `.`, `e`, `E`, `i`.  (A number directly followed by one of these
bytes is read on as one token.) -/
theorem single_root (mem : List Nat) (ws1 v ws2 : List Nat) (evs : List Event) (c : Nat)
    (more : List Nat)
    (h1 : allWs ws1 = true) (hv : ValueText true v evs) (h2 : allWs ws2 = true)
    (hc : isWs c = false) :
    ((ws2 ≠ [] ∨ ¬startsNumber v ∨ endsConversion mem) →
      parse mem Handler.accept (ws1 ++ (v ++ ws2)) = .returned .PARSE_OK evs) ∧
    ((ws2 ≠ [] ∨ ¬startsNumber v ∨ endsToken [c]) →
      parse mem Handler.accept (ws1 ++ (v ++ (ws2 ++ c :: more))) =
        .returned .PARSE_ROOT_NOT_SINGULAR evs) := by
  refine ⟨fun hm => ?_, fun hsep => ?_⟩
  · rw [parse_valueText h1 hv ws2 (endsNumber_trailing h2 hm)]
    simp only [finish, parseWhiteSpace_all h2, hasNext, Bool.false_eq_true, if_false]
  have hcw : c ≠ 32 ∧ c ≠ 9 ∧ c ≠ 13 ∧ c ≠ 10 := by
    have := (isWs_iff c).not.1 (by rw [hc]; decide)
    omega
  have hr : startsNumber v → endsNumber mem (ws2 ++ c :: more) := by
    intro hs
    cases ws2 with
    | nil =>
      rcases hsep with h | h | h
      · exact absurd rfl h
      · exact absurd hs h
      · exact ⟨h, fun e => by cases e⟩
    | cons w ws =>
      simp only [allWs, List.all_cons, Bool.and_eq_true] at h2
      have hw := (isWs_iff w).1 h2.1
      refine ⟨?_, fun e => by cases e⟩
      simp only [endsToken, List.cons_append, peek_cons, isDigit_false_iff]
      omega
  rw [parse_valueText h1 hv _ hr]
  simp only [finish, parseWhiteSpace_ws h2 (show peek (c :: more) ≠ 32 ∧ peek (c :: more) ≠ 9 ∧
    peek (c :: more) ≠ 13 ∧ peek (c :: more) ≠ 10 from hcw), hasNext, if_true]

/-- C3, the claim as stated fails: `1` is one value and `2` is not white
space, and `12` parses to PARSE_OK with the single event Int32(12).  And the
one value `2.5` is not parsed to PARSE_OK in the memory `2.50` (a view of its
three first bytes): `strtod` reads the four bytes and the assertion of
Reader.hpp:200 fails. -/
theorem single_root_counterexample :
    (ValueText true (bytes "1") [.Int32 1] ∧ isWs 50 = false ∧
      parse [] Handler.accept (bytes "1" ++ [50]) = .returned .PARSE_OK [.Int32 12]) ∧
    (ValueText true (bytes "2.5") [.Double (.fin false 5629499534213120 (-51))] ∧
      parse (bytes "0") Handler.accept (bytes "2.5") = .aborted []) :=
  ⟨⟨ValueText.number false [49] [] [] [] [] (by decide) (by decide) (by decide) (by decide)
      (by decide) (by decide), by decide, by decide⟩,
   ⟨ValueText.number false [50] [46, 53] [] [] [] (by decide) (by decide)
      (by decide) (by decide) (by decide) (by decide), by decide⟩⟩

/-- C3, witness: `{} {}` -/
theorem single_root_witness :
    (allWs [] = true ∧ ValueText true [123, 125] [.StartObject, .EndObject] ∧
      allWs [32] = true ∧ isWs 123 = false) ∧
    (((([32] : List Nat) ≠ [] ∨ ¬startsNumber [123, 125] ∨ endsConversion []) →
        parse [] Handler.accept ([] ++ ([123, 125] ++ [32])) =
          .returned .PARSE_OK [.StartObject, .EndObject]) ∧
      (([32] ≠ ([] : List Nat) ∨ ¬startsNumber [123, 125] ∨ endsToken [123]) →
        parse [] Handler.accept ([] ++ ([123, 125] ++ ([32] ++ 123 :: [125]))) =
          .returned .PARSE_ROOT_NOT_SINGULAR [.StartObject, .EndObject])) :=
  ⟨⟨by decide, ValueText.emptyObject [] (by decide), by decide, by decide⟩,
    single_root [] [] [123, 125] [32] _ 123 [125] (by decide) (ValueText.emptyObject [] (by decide))
      (by decide) (by decide)⟩

end Reader

/-! ## Writer: the fast integer formatting -/

theorem bitLengthFuel_spec (fuel n : Nat) (h : n ≤ fuel) (hn : 0 < n) :
    2 ^ (bitLengthFuel fuel n - 1) ≤ n ∧ n < 2 ^ bitLengthFuel fuel n ∧
      1 ≤ bitLengthFuel fuel n := by
  induction fuel generalizing n with
  | zero => omega
  | succ fuel ih =>
    have hn0 : n ≠ 0 := by omega
    simp only [bitLengthFuel, if_neg hn0]
    by_cases h1 : n / 2 = 0
    · have hn1 : n = 1 := by omega
      subst hn1
      cases fuel <;> simp [bitLengthFuel]
    · have := ih (n / 2) (by omega) (by omega)
      obtain ⟨a, b, c⟩ := this
      have e : bitLengthFuel fuel (n / 2) + 1 - 1 = (bitLengthFuel fuel (n / 2) - 1) + 1 := by
        omega
      rw [e, Nat.pow_succ, Nat.pow_succ]
      omega

theorem bitLength_spec (n : Nat) (hn : 0 < n) :
    2 ^ (bitLength n - 1) ≤ n ∧ n < 2 ^ bitLength n ∧ 1 ≤ bitLength n :=
  bitLengthFuel_spec n n (Nat.le_refl n) hn

theorem bitLength_le (n b : Nat) (hn : 0 < n) (h : n < 2 ^ b) : bitLength n ≤ b := by
  obtain ⟨h1, -, h3⟩ := bitLength_spec n hn
  by_contra hc
  have : b ≤ bitLength n - 1 := by omega
  have := Nat.pow_le_pow_right (show 0 < 2 by decide) this
  omega

theorem or_one (n : Nat) : n ||| 1 = 2 * (n / 2) + 1 := by
  have h1 : ∀ a, 2 * a ||| 1 = 2 * a + 1 := by
    intro a
    have := Nat.mul_add_lt_is_or (show 1 < 2 ^ 1 by decide) a
    simpa using this.symm
  rcases Nat.mod_two_eq_zero_or_one n with h | h
  · have e : n = 2 * (n / 2) := by omega
    rw [e, h1]
    omega
  · have e : n = 2 * (n / 2) + 1 := by omega
    have e2 : n ||| 1 = 2 * (n / 2) ||| 1 := by
      conv_lhs => rw [e, ← h1, Nat.or_assoc, Nat.or_self]
    rw [e2, h1]

/-- Writer.hpp:20-44: `countDigits(unsigned)` is the number of decimal digits -/
theorem countDigits32_spec (n : Nat) (hn : n < 4294967296) :
    1 ≤ countDigits32 n ∧ countDigits32 n ≤ 10 ∧ n < 10 ^ countDigits32 n ∧
      (2 ≤ countDigits32 n → 10 ^ (countDigits32 n - 1) ≤ n) := by
  have hm := or_one n
  have hpos : 0 < n ||| 1 := by omega
  obtain ⟨h1, h2, h3⟩ := bitLength_spec (n ||| 1) hpos
  have h4 : bitLength (n ||| 1) ≤ 32 := bitLength_le _ _ hpos (by omega)
  unfold countDigits32 clz
  generalize bitLength (n ||| 1) = b at h1 h2 h3 h4
  generalize n ||| 1 = m at hm h1 h2 hpos
  interval_cases b <;> simp [powers_of_10_32] at h1 h2 ⊢ <;> (try split_ifs) <;>
    (try simp) <;> omega

set_option maxHeartbeats 4000000 in
/-- Writer.hpp:46-71: `countDigits(uint64_t)` is the number of decimal digits -/
theorem countDigits64_spec (n : Nat) (hn : n < 18446744073709551616) :
    1 ≤ countDigits64 n ∧ countDigits64 n ≤ 20 ∧ n < 10 ^ countDigits64 n ∧
      (2 ≤ countDigits64 n → 10 ^ (countDigits64 n - 1) ≤ n) := by
  have hm := or_one n
  have hpos : 0 < n ||| 1 := by omega
  obtain ⟨h1, h2, h3⟩ := bitLength_spec (n ||| 1) hpos
  have h4 : bitLength (n ||| 1) ≤ 64 := bitLength_le _ _ hpos (by omega)
  unfold countDigits64 clz
  generalize bitLength (n ||| 1) = b at h1 h2 h3 h4
  generalize n ||| 1 = m at hm h1 h2 hpos
  interval_cases b <;> simp [powers_of_10_64] at h1 h2 ⊢ <;> (try split_ifs) <;>
    (try simp) <;> omega

theorem digits_eq : digits =
    [48, 48, 48, 49, 48, 50, 48, 51, 48, 52, 48, 53, 48, 54, 48, 55, 48, 56, 48, 57,
     49, 48, 49, 49, 49, 50, 49, 51, 49, 52, 49, 53, 49, 54, 49, 55, 49, 56, 49, 57,
     50, 48, 50, 49, 50, 50, 50, 51, 50, 52, 50, 53, 50, 54, 50, 55, 50, 56, 50, 57,
     51, 48, 51, 49, 51, 50, 51, 51, 51, 52, 51, 53, 51, 54, 51, 55, 51, 56, 51, 57,
     52, 48, 52, 49, 52, 50, 52, 51, 52, 52, 52, 53, 52, 54, 52, 55, 52, 56, 52, 57,
     53, 48, 53, 49, 53, 50, 53, 51, 53, 52, 53, 53, 53, 54, 53, 55, 53, 56, 53, 57,
     54, 48, 54, 49, 54, 50, 54, 51, 54, 52, 54, 53, 54, 54, 54, 55, 54, 56, 54, 57,
     55, 48, 55, 49, 55, 50, 55, 51, 55, 52, 55, 53, 55, 54, 55, 55, 55, 56, 55, 57,
     56, 48, 56, 49, 56, 50, 56, 51, 56, 52, 56, 53, 56, 54, 56, 55, 56, 56, 56, 57,
     57, 48, 57, 49, 57, 50, 57, 51, 57, 52, 57, 53, 57, 54, 57, 55, 57, 56, 57, 57] := by
  rfl

/-- Writer.hpp:81-86: the table holds the two digits of every number below
100 -/
theorem digits_spec (j : Nat) (hj : j < 100) :
    digits.getD (j * 2) 0 = 48 + j / 10 ∧ digits.getD (j * 2 + 1) 0 = 48 + j % 10 := by
  rw [digits_eq]
  interval_cases j <;> exact ⟨rfl, rfl⟩

/-! ### The loop of `itoa_` -/

theorem decDigits_length (w n : Nat) : (decDigits w n).length = w := by
  induction w generalizing n with
  | zero => rfl
  | succ w ih => simp [decDigits, ih]

theorem decDigits_two (w n : Nat) :
    decDigits (w + 2) n = decDigits w (n / 100) ++ [48 + n % 100 / 10, 48 + n % 10] := by
  have e1 : n / 10 / 10 = n / 100 := by omega
  have e2 : n / 10 % 10 = n % 100 / 10 := by omega
  simp only [decDigits, e1, e2, List.append_assoc, List.singleton_append]

theorem set_set_drop (a b : Nat) : ∀ (i : Nat) (l : List Nat), i + 1 < l.length →
    ((l.set (i + 1) b).set i a).drop i = a :: b :: l.drop (i + 2) ∧
      ((l.set (i + 1) b).set i a).take i = l.take i
  | 0, x :: y :: t, _ => by simp
  | 0, [_], h => by simp at h
  | 0, [], h => by simp at h
  | i + 1, [], h => by simp at h
  | i + 1, x :: t, h => by
    have := set_set_drop a b i t (by simpa using h)
    simpa using this

theorem set_drop (a : Nat) : ∀ (i : Nat) (l : List Nat), i < l.length →
    (l.set i a).drop i = a :: l.drop (i + 1) ∧ (l.set i a).take i = l.take i
  | 0, x :: t, _ => by simp
  | 0, [], h => by simp at h
  | i + 1, [], h => by simp at h
  | i + 1, x :: t, h => by
    have := set_drop a i t (by simpa using h)
    simpa using this

theorem take_of_drop (k : Nat) {l : List Nat} {i : Nat} {p q : List Nat} (h1 : l.take i = p)
    (h2 : l.drop i = q) : l.take (i + k) = p ++ q.take k ∧ l.drop (i + k) = q.drop k := by
  subst h1 h2
  constructor
  · rw [List.take_add]
  · rw [List.drop_drop, Nat.add_comm]

/-- The last step of `itoa_` (Writer.hpp:101-111) on the state that the loop
leaves -/
theorem itoaLoop_spec (fuel : Nat) : ∀ (val next : Nat) (buf : List Nat), val ≤ fuel →
    next < buf.length → val < 10 ^ (next + 1) → (1 ≤ next → 10 ^ next ≤ val) →
    ∀ out : List Nat,
      out = (if (itoaLoop fuel val next buf).1 < 10 then
          (itoaLoop fuel val next buf).2.2.set (itoaLoop fuel val next buf).2.1
            (48 + (itoaLoop fuel val next buf).1)
        else
          (((itoaLoop fuel val next buf).2.2.set (itoaLoop fuel val next buf).2.1
            (digits.getD ((itoaLoop fuel val next buf).1 * 2 + 1) 0)).set
              ((itoaLoop fuel val next buf).2.1 - 1)
              (digits.getD ((itoaLoop fuel val next buf).1 * 2) 0))) →
      out.take (next + 1) = decDigits (next + 1) val ∧ out.drop (next + 1) = buf.drop (next + 1) := by
  have base : ∀ (val next : Nat) (buf : List Nat), val < 100 →
      next < buf.length → val < 10 ^ (next + 1) → (1 ≤ next → 10 ^ next ≤ val) →
      ∀ out : List Nat,
        out = (if val < 10 then buf.set next (48 + val)
          else ((buf.set next (digits.getD (val * 2 + 1) 0)).set (next - 1)
            (digits.getD (val * 2) 0))) →
        out.take (next + 1) = decDigits (next + 1) val ∧
          out.drop (next + 1) = buf.drop (next + 1) := by
    intro val next buf h100 hlen hlt hge out hout
    by_cases h10 : val < 10
    · rw [if_pos h10] at hout
      have hn : next = 0 := by
        by_contra hc
        have h1 := hge (by omega)
        have := Nat.pow_le_pow_right (show 0 < 10 by decide) (show 1 ≤ next by omega)
        omega
      subst hn
      obtain ⟨a, b⟩ := set_drop (48 + val) 0 buf hlen
      rw [← hout] at a b
      have := take_of_drop 1 b a
      simp only [Nat.zero_add, List.nil_append] at this
      rw [this.1, this.2]
      have e : val % 10 = val := by omega
      simp [decDigits, e]
    · rw [if_neg h10] at hout
      have hn : next = 1 := by
        have h1 : 1 ≤ next := by
          by_contra hc
          have : next = 0 := by omega
          subst this
          simp at hlt
          omega
        have h2 := hge h1
        by_contra hc
        have := Nat.pow_le_pow_right (show 0 < 10 by decide) (show 2 ≤ next by omega)
        omega
      subst hn
      obtain ⟨d0, d1⟩ := digits_spec val h100
      rw [d0, d1] at hout
      obtain ⟨a, b⟩ := set_set_drop (48 + val / 10) (48 + val % 10) 0 buf hlen
      rw [← hout] at a b
      have := take_of_drop 2 b a
      simp only [Nat.zero_add, List.nil_append] at this
      rw [this.1, this.2]
      have e : val / 10 % 10 = val / 10 := by omega
      simp [decDigits, e]
  induction fuel with
  | zero =>
    intro val next buf hf hlen hlt hge out hout
    simp only [itoaLoop] at hout
    exact base val next buf (by omega) hlen hlt hge out hout
  | succ fuel ih =>
    intro val next buf hf hlen hlt hge out hout
    by_cases h100 : 100 ≤ val
    · simp only [itoaLoop, if_pos h100] at hout
      have hn : 2 ≤ next := by
        by_contra hc
        have : 10 ^ (next + 1) ≤ 10 ^ 2 :=
          Nat.pow_le_pow_right (show 0 < 10 by decide) (by omega)
        omega
      obtain ⟨m, rfl⟩ : ∃ m, next = m + 2 := ⟨next - 2, by omega⟩
      obtain ⟨d0, d1⟩ := digits_spec (val % 100) (by omega)
      rw [d0, d1] at hout
      have hlt2 : val / 100 < 10 ^ (m + 1) := by
        rw [Nat.div_lt_iff_lt_mul (by decide)]
        have : 10 ^ (m + 2 + 1) = 10 ^ (m + 1) * 100 := by
          rw [show m + 2 + 1 = (m + 1) + 2 by omega, Nat.pow_add]
        omega
      have hge2 : 1 ≤ m → 10 ^ m ≤ val / 100 := by
        intro _
        rw [Nat.le_div_iff_mul_le (by decide)]
        have : 10 ^ (m + 2) = 10 ^ m * 100 := by rw [Nat.pow_add]
        have := hge (by omega)
        omega
      have r := ih (val / 100) m
        ((buf.set (m + 2) (48 + val % 100 % 10)).set (m + 2 - 1) (48 + val % 100 / 10))
        (by omega) (by simp; omega) hlt2 hge2 out hout
      obtain ⟨a, b⟩ := set_set_drop (48 + val % 100 / 10) (48 + val % 100 % 10) (m + 1) buf hlen
      rw [show m + 2 - 1 = m + 1 by omega] at r
      rw [a] at r
      have := take_of_drop 2 r.1 r.2
      rw [show m + 2 + 1 = m + 1 + 2 by omega, this.1, this.2, decDigits_two]
      have e : val % 100 % 10 = val % 10 := by omega
      simp [e]
    · simp only [itoaLoop, if_neg h100] at hout
      exact base val next buf (by omega) hlen hlt hge out hout

/-! ### The text of an integer -/

theorem itoa_spec (count val : Nat) (buf : List Nat) (hc : 1 ≤ count)
    (hlen : count ≤ buf.length) (hlt : val < 10 ^ count)
    (hge : 2 ≤ count → 10 ^ (count - 1) ≤ val) :
    (itoa_ count val buf).1 = count ∧
      (itoa_ count val buf).2.take count = decDigits count val := by
  obtain ⟨m, rfl⟩ : ∃ m, count = m + 1 := ⟨count - 1, by omega⟩
  have key := itoaLoop_spec val val m buf (Nat.le_refl _) (by omega) hlt
    (fun h => by have := hge (by omega); simpa using this) _ rfl
  simp only [Nat.add_sub_cancel] at hge
  by_cases h : (itoaLoop val val m buf).1 < 10
  · rw [if_pos h] at key
    simp only [itoa_, Nat.add_sub_cancel, if_pos h]
    exact ⟨trivial, key.1⟩
  · rw [if_neg h] at key
    simp only [itoa_, Nat.add_sub_cancel, if_neg h]
    exact ⟨trivial, key.1⟩

theorem decDigits_head (w : Nat) : ∀ n : Nat, n < 10 ^ (w + 1) →
    ∃ cs, decDigits (w + 1) n = (48 + n / 10 ^ w) :: cs ∧ allDigits cs = true := by
  induction w with
  | zero =>
    intro n hn
    have e : n % 10 = n := by omega
    exact ⟨[], by simp [decDigits, e], rfl⟩
  | succ w ih =>
    intro n hn
    have h1 : n / 10 < 10 ^ (w + 1) := by
      rw [Nat.div_lt_iff_lt_mul (by decide)]
      rw [Nat.pow_succ] at hn
      exact hn
    obtain ⟨cs, e, hcs⟩ := ih (n / 10) h1
    refine ⟨cs ++ [48 + n % 10], ?_, ?_⟩
    · have e2 : n / 10 / 10 ^ w = n / 10 ^ (w + 1) := by
        rw [Nat.div_div_eq_div_mul, Nat.pow_succ, Nat.mul_comm]
      rw [decDigits, e, e2]
      rfl
    · have hd : Reader.isDigit (48 + n % 10) = true := by
        rw [Reader.isDigit_iff]; omega
      simp only [allDigits, List.all_append, List.all_cons, List.all_nil, Bool.and_true,
        Bool.and_eq_true] at hcs ⊢
      exact ⟨hcs, hd⟩

theorem isIntPart_decDigits (w n : Nat) (hw : 1 ≤ w) (hlt : n < 10 ^ w)
    (hge : 2 ≤ w → 10 ^ (w - 1) ≤ n) : isIntPart (decDigits w n) = true := by
  obtain ⟨m, rfl⟩ : ∃ m, w = m + 1 := ⟨w - 1, by omega⟩
  obtain ⟨cs, e, hcs⟩ := decDigits_head m n hlt
  have hl := decDigits_length (m + 1) n
  rw [e] at hl ⊢
  simp only [Nat.add_sub_cancel] at hge
  have hq : n / 10 ^ m < 10 := by
    rw [Nat.div_lt_iff_lt_mul (by positivity)]
    rw [Nat.pow_succ, Nat.mul_comm] at hlt
    exact hlt
  simp only [isIntPart, Bool.or_eq_true, Bool.and_eq_true, beq_iff_eq, List.isEmpty_iff,
    Reader.isDigit19_iff]
  by_cases hm : m = 0
  · subst hm
    have hnil : cs = [] := by
      cases cs with
      | nil => rfl
      | cons a t => simp at hl
    by_cases h0 : n / 10 ^ 0 = 0
    · left; exact ⟨by omega, hnil⟩
    · right; exact ⟨by omega, hcs⟩
  · right
    have h1 := hge (by omega)
    have : 1 ≤ n / 10 ^ m := by
      rw [Nat.le_div_iff_mul_le (by positivity)]
      omega
    exact ⟨by omega, hcs⟩

theorem decimalValue_append (l : List Nat) (c : Nat) :
    decimalValue (l ++ [c]) = decimalValue l * 10 + (c - 48) := by
  simp [decimalValue, List.foldl_append]

theorem decimalValue_decDigits (w : Nat) : ∀ n : Nat, n < 10 ^ w →
    decimalValue (decDigits w n) = n := by
  induction w with
  | zero => intro n hn; simp at hn; subst hn; rfl
  | succ w ih =>
    intro n hn
    have h1 : n / 10 < 10 ^ w := by
      rw [Nat.div_lt_iff_lt_mul (by decide)]
      rw [Nat.pow_succ] at hn
      exact hn
    rw [decDigits, decimalValue_append, ih _ h1]
    omega

theorem itoa_text (count val : Nat) (buf : List Nat) (hc : 1 ≤ count)
    (hlen : count ≤ buf.length) (hlt : val < 10 ^ count)
    (hge : 2 ≤ count → 10 ^ (count - 1) ≤ val) :
    ∃ ip, isIntPart ip = true ∧ decimalValue ip = val ∧
      (itoa_ count val buf).2.take (itoa_ count val buf).1 = ip ∧
      (itoa_ count val buf).1 = count := by
  obtain ⟨a, b⟩ := itoa_spec count val buf hc hlen hlt hge
  refine ⟨decDigits count val, isIntPart_decDigits count val hc hlt hge,
    decimalValue_decDigits count val hlt, ?_, a⟩
  rw [a, b]

/-- Writer.hpp:117-126 and 166-172: the text that `Writer::Int32` writes for a
value of the type is an optional minus sign and the decimal digits of the
absolute value, without leading zeros -/
theorem itoa32_text (val : Int) (h : fitsInt32 val) :
    ∃ ip, isIntPart ip = true ∧ signedValue (decide (val < 0)) ip = val ∧
      (itoa32 val (List.replicate 11 0)).2.take (itoa32 val (List.replicate 11 0)).1 =
        signText (decide (val < 0)) ++ ip := by
  obtain ⟨h1, h2⟩ := h
  by_cases hneg : val < 0
  · have hu : ((4294967295 - (val % 4294967296).toNat) + 1) % 4294967296 = (-val).toNat := by
      omega
    obtain ⟨c1, c2, c3, c4⟩ := countDigits32_spec (-val).toNat (by omega)
    obtain ⟨ip, i1, i2, i3, i4⟩ := itoa_text (countDigits32 (-val).toNat) (-val).toNat
      (List.replicate 10 0) c1 (by simpa using c2) c3 c4
    refine ⟨ip, i1, ?_, ?_⟩
    · simp only [signedValue, hneg, decide_True, if_true, i2]
      omega
    · simp only [itoa32, if_pos hneg, hu, signText, decide_True, if_true, hneg]
      rw [show (List.replicate 11 0 : List Nat).tail = List.replicate 10 0 by rfl, i4,
        Nat.add_comm, List.take_succ_cons]
      rw [i4] at i3
      rw [i3]
      rfl
  · have hu : (val % 4294967296).toNat = val.toNat := by omega
    obtain ⟨c1, c2, c3, c4⟩ := countDigits32_spec val.toNat (by omega)
    obtain ⟨ip, i1, i2, i3, i4⟩ := itoa_text (countDigits32 val.toNat) val.toNat
      (List.replicate 11 0) c1 (by simp; omega) c3 c4
    refine ⟨ip, i1, ?_, ?_⟩
    · simp only [signedValue, hneg, decide_False, i2]
      simp only [Bool.false_eq_true, if_false]
      omega
    · simp only [itoa32, hu, signText, decide_False, hneg, if_false, Bool.false_eq_true]
      rw [i3]
      rfl

/-- Writer.hpp:127-136 and 174-180: the text that `Writer::Int64` writes -/
theorem itoa64_text (val : Int) (h : fitsInt64 val) :
    ∃ ip, isIntPart ip = true ∧ signedValue (decide (val < 0)) ip = val ∧
      (itoa64 val (List.replicate 20 0)).2.take (itoa64 val (List.replicate 20 0)).1 =
        signText (decide (val < 0)) ++ ip := by
  obtain ⟨h1, h2⟩ := h
  by_cases hneg : val < 0
  · have hu : ((18446744073709551615 - (val % 18446744073709551616).toNat) + 1) %
        18446744073709551616 = (-val).toNat := by
      omega
    obtain ⟨c1, c2, c3, c4⟩ := countDigits64_spec (-val).toNat (by omega)
    have c5 : countDigits64 (-val).toNat ≤ 19 := by
      by_contra hc
      have e : countDigits64 (-val).toNat = 20 := by omega
      rw [e] at c4
      have := c4 (by decide)
      simp at this
      omega
    obtain ⟨ip, i1, i2, i3, i4⟩ := itoa_text (countDigits64 (-val).toNat) (-val).toNat
      (List.replicate 19 0) c1 (by simpa using c5) c3 c4
    refine ⟨ip, i1, ?_, ?_⟩
    · simp only [signedValue, hneg, decide_True, if_true, i2]
      omega
    · simp only [itoa64, if_pos hneg, hu, signText, decide_True, if_true, hneg]
      rw [show (List.replicate 20 0 : List Nat).tail = List.replicate 19 0 by rfl, i4,
        Nat.add_comm, List.take_succ_cons]
      rw [i4] at i3
      rw [i3]
      rfl
  · have hu : (val % 18446744073709551616).toNat = val.toNat := by omega
    obtain ⟨c1, c2, c3, c4⟩ := countDigits64_spec val.toNat (by omega)
    obtain ⟨ip, i1, i2, i3, i4⟩ := itoa_text (countDigits64 val.toNat) val.toNat
      (List.replicate 20 0) c1 (by simp; omega) c3 c4
    refine ⟨ip, i1, ?_, ?_⟩
    · simp only [signedValue, hneg, decide_False, i2]
      simp only [Bool.false_eq_true, if_false]
      omega
    · simp only [itoa64, hu, signText, decide_False, hneg, if_false, Bool.false_eq_true]
      rw [i3]
      rfl

/-! ## The Writer on the events of a value -/

theorem writer_run_append (evs1 evs2 : List Event) : ∀ w : Writer,
    Writer.run w (evs1 ++ evs2) = (Writer.run w evs1).bind fun w => Writer.run w evs2 := by
  induction evs1 with
  | nil => intro w; rfl
  | cons ev evs ih =>
    intro w
    simp only [List.cons_append, Writer.run]
    cases Writer.handle w ev with
    | none => rfl
    | some w2 =>
      simp only [Option.bind_some, Option.some_bind]
      exact ih w2

theorem writer_run_cons {w w2 : Writer} {ev : Event} (h : Writer.handle w ev = some w2)
    (evs : List Event) : Writer.run w (ev :: evs) = Writer.run w2 evs := by
  simp only [Writer.run, h, Option.some_bind]

theorem separator_seeValue {w w1 : Writer} {ty : ValueType}
    (h : w.separator ty = some w1) : w1.seeValue_ = true := by
  obtain ⟨st, os, sv⟩ := w
  cases st with
  | nil =>
    simp only [Writer.separator] at h
    split_ifs at h
    cases h; rfl
  | cons top below =>
    simp only [Writer.separator] at h
    rw [if_neg (by simp)] at h
    by_cases h1 : top.inArray = true
    · rw [if_pos h1] at h
      cases h
      by_cases h2 : top.valueCount > 0 <;> simp [h2, Writer.put]
    · rw [if_neg h1] at h
      by_cases h3 : top.valueCount % 2 = 1
      · rw [if_pos h3] at h
        cases h; rfl
      · rw [if_neg h3] at h
        by_cases h4 : ty ≠ .TYPE_STRING
        · rw [if_pos h4] at h
          cases h
        · rw [if_neg h4] at h
          cases h
          by_cases h2 : top.valueCount > 0 <;> simp [h2, Writer.put]

theorem separator_inArray (k : Nat) (st : List Level) (os : List Nat) (sv : Bool)
    (ty : ValueType) :
    Writer.separator
      { stack_ := { inArray := true, valueCount := k } :: st, os_ := os, seeValue_ := sv } ty =
      some { stack_ := { inArray := true, valueCount := k + 1 } :: st,
             os_ := os ++ (if 0 < k then [44] else []), seeValue_ := true } := by
  by_cases hk : 0 < k <;> simp [Writer.separator, Writer.put, hk]

theorem separator_key (k : Nat) (hk : k % 2 = 0) (st : List Level) (os : List Nat) (sv : Bool) :
    Writer.separator
      { stack_ := { inArray := false, valueCount := k } :: st, os_ := os, seeValue_ := sv }
      .TYPE_STRING =
      some { stack_ := { inArray := false, valueCount := k + 1 } :: st,
             os_ := os ++ (if 0 < k then [44] else []), seeValue_ := true } := by
  by_cases h0 : 0 < k <;> simp [Writer.separator, Writer.put, hk, h0]

theorem separator_member (k : Nat) (hk : k % 2 = 1) (st : List Level) (os : List Nat)
    (sv : Bool) (ty : ValueType) :
    Writer.separator
      { stack_ := { inArray := false, valueCount := k } :: st, os_ := os, seeValue_ := sv } ty =
      some { stack_ := { inArray := false, valueCount := k + 1 } :: st,
             os_ := os ++ [58], seeValue_ := true } := by
  simp [Writer.separator, Writer.put, hk]

theorem separator_root (ty : ValueType) :
    Writer.separator Writer.init ty = some { stack_ := [], os_ := [], seeValue_ := true } := by
  simp [Writer.separator, Writer.init]

/-! ## The text of a string -/

theorem escape_control (u : Nat) (hu : u < 32) :
    hex4Value 48 48 (Writer.hexUpper (u / 16)) (Writer.hexUpper (u % 16)) = some u ∧
      Reader.encodeUtf8 [] u = some [u] := by
  interval_cases u <;> exact ⟨rfl, rfl⟩

/-- Writer.hpp:212-240: what `Writer::String` writes between the quotes is a
string body of the grammar that denotes the bytes of the string -/
theorem strBody_escape : ∀ s : List Nat, StrBody (s.flatMap Writer.escape) s
  | [] => StrBody.nil
  | u :: s => by
    have ih := strBody_escape s
    rw [List.flatMap_cons]
    unfold Writer.escape
    by_cases h1 : u = 34
    · rw [if_pos h1, h1]; exact StrBody.escape 34 34 _ _ rfl ih
    rw [if_neg h1]
    by_cases h2 : u = 92
    · rw [if_pos h2, h2]; exact StrBody.escape 92 92 _ _ rfl ih
    rw [if_neg h2]
    by_cases h3 : u = 8
    · rw [if_pos h3, h3]; exact StrBody.escape 98 8 _ _ rfl ih
    rw [if_neg h3]
    by_cases h4 : u = 12
    · rw [if_pos h4, h4]; exact StrBody.escape 102 12 _ _ rfl ih
    rw [if_neg h4]
    by_cases h5 : u = 10
    · rw [if_pos h5, h5]; exact StrBody.escape 110 10 _ _ rfl ih
    rw [if_neg h5]
    by_cases h6 : u = 13
    · rw [if_pos h6, h6]; exact StrBody.escape 114 13 _ _ rfl ih
    rw [if_neg h6]
    by_cases h7 : u = 9
    · rw [if_pos h7, h7]; exact StrBody.escape 116 9 _ _ rfl ih
    rw [if_neg h7]
    by_cases h8 : u < 0x20
    · rw [if_pos h8]
      obtain ⟨a, b⟩ := escape_control u h8
      exact StrBody.unicode 48 48 _ _ u [u] _ _ a (by omega) b ih
    · rw [if_neg h8]
      exact StrBody.raw u _ _ (by omega) h1 h2 ih

/-- A key without quote, backslash and control byte is a string body that
denotes itself -/
theorem strBody_plainKey : ∀ s : List Nat, plainKey s → StrBody s s
  | [], _ => StrBody.nil
  | c :: s, h => by
    have hc := h c (List.mem_cons_self c s)
    exact StrBody.raw c s s hc.1 hc.2.1 hc.2.2
      (strBody_plainKey s fun d hd => h d (List.mem_cons_of_mem c hd))

/-! ## Writing a value and reading the text back -/

theorem numberEvent_int (neg : Bool) (ip : List Nat) :
    numberEvent neg ip [] [] [] [] =
      if fitsInt32 (signedValue neg ip) then some (.Int32 (signedValue neg ip))
      else if fitsInt64 (signedValue neg ip) then some (.Int64 (signedValue neg ip))
      else none := by
  simp [numberEvent]

/-- The text of an integer without suffix denotes the Int32 or Int64 event
that `narrow` chooses -/
theorem valueText_int (neg : Bool) (ip : List Nat) (v : Int) (hip : isIntPart ip = true)
    (hv : signedValue neg ip = v) (h64 : fitsInt64 v) :
    ValueText true (signText neg ++ ip) [narrow (.Int64 v)] := by
  have he : numberEvent neg ip [] [] [] [] = some (narrow (.Int64 v)) := by
    rw [numberEvent_int, hv]
    by_cases h32 : fitsInt32 v
    · simp only [narrow, if_pos h32]
    · simp only [narrow, if_neg h32, if_pos h64]
  have := @ValueText.number true neg ip [] [] [] [] hip rfl rfl rfl (fun _ => rfl)
    (fun _ => by rw [he]; rfl)
  rw [he] at this
  simpa using this

theorem fitsInt64_of_fitsInt32 {v : Int} (h : fitsInt32 v) : fitsInt64 v := by
  unfold fitsInt32 at h
  unfold fitsInt64
  omega

theorem writeTo_scalar (V : Value) (ev : Event) (text : List Nat)
    (h1 : ∀ log, V.writeTo Handler.accept log = Value.CALL Handler.accept ev log)
    (h2 : ∀ w, Writer.handle w ev = (w.separator V.getType).map fun w => w.put text)
    (h3 : ValueText true text [narrow ev]) :
    ∃ evs text,
      (∀ log, V.writeTo Handler.accept log = .returned true (log ++ evs)) ∧
      (∀ w w1, Writer.separator w V.getType = some w1 →
        Writer.run w evs = some (w1.put text)) ∧
      ValueText true text (evs.map narrow) := by
  refine ⟨[ev], text, fun log => by rw [h1]; rfl, fun w w1 hs => ?_, h3⟩
  simp only [Writer.run, h2, hs, Option.map_some', Option.some_bind]

set_option maxRecDepth 100000 in
/-- C1, the code diverges from the claim.  The object with the one member whose
key is the one-byte string `"` and whose value is null has no NaN, no Infinity
and no integer.  writeTo emits StartObject, Key, Null, EndObject; `Writer::Key`
writes the key without escaping it, so that the text is `{""":null}`; and
`Reader::parse` with a handler whose methods all return true, as those of
Document do, returns PARSE_MISS_COLON after the events StartObject and Key of
the empty string, not PARSE_OK.  A second defect breaks the round trip as well:
`Writer::Double` appends `.0` to the exponent form, the double 1e22 is written
`1e+22.0`, and the parse returns PARSE_ROOT_NOT_SINGULAR. -/
theorem round_trip_diverges :
    ((Value.Object [(.String [34], .Null)]).writeTo Handler.accept [] =
        .returned true [.StartObject, .Key [34], .Null, .EndObject] ∧
      (Writer.run Writer.init [.StartObject, .Key [34], .Null, .EndObject]).map
        (fun w => w.os_) = some (bytes "\x7b\"\"\":null\x7d") ∧
      Reader.parse [] Handler.accept (bytes "\x7b\"\"\":null\x7d") =
        .returned .PARSE_MISS_COLON [.StartObject, .Key []]) ∧
    ((Value.Double (.fin false 4768371582031250 21)).writeTo Handler.accept [] =
        .returned true [.Double (.fin false 4768371582031250 21)] ∧
      (Writer.run Writer.init [.Double (.fin false 4768371582031250 21)]).map
        (fun w => w.os_) = some (bytes "1e+22.0") ∧
      Reader.parse [] Handler.accept (bytes "1e+22.0") =
        .returned .PARSE_ROOT_NOT_SINGULAR [.Double (.fin false 4768371582031250 21)]) :=
  ⟨⟨by decide, by decide, by decide⟩, by decide, by decide, by decide⟩

/-! ## UTF-8 -/

theorem and_255 (x : Nat) : x &&& 0xFF = x % 256 := Nat.and_pow_two_sub_one_eq_mod x 8

theorem and_63 (x : Nat) : x &&& 0x3F = x % 64 := Nat.and_pow_two_sub_one_eq_mod x 6

theorem or_lead : (∀ x, x < 64 → 0x80 ||| x = 0x80 + x) ∧ (∀ x, x < 32 → 0xC0 ||| x = 0xC0 + x) ∧
    (∀ x, x < 16 → 0xE0 ||| x = 0xE0 + x) ∧ (∀ x, x < 8 → 0xF0 ||| x = 0xF0 + x) := by
  refine ⟨?_, ?_, ?_, ?_⟩ <;> decide

/-- Reader.hpp:433-461: encodeUtf8 appends the bytes of the standard layout -/
theorem encodeUtf8_spec (buffer : List Nat) (u : Nat) (hu : u ≤ 0x10FFFF) :
    Reader.encodeUtf8 buffer u = some (buffer ++ specUtf8 u) := by
  obtain ⟨o80, oC0, oE0, oF0⟩ := or_lead
  unfold Reader.encodeUtf8 specUtf8
  simp only [and_255, and_63, Nat.shiftRight_eq_div_pow]
  by_cases h1 : u ≤ 0x7F
  · rw [if_pos h1, if_pos h1]
    have e : u % 256 % 256 = u := by omega
    rw [e]
  rw [if_neg h1, if_neg h1]
  by_cases h2 : u ≤ 0x7FF
  · rw [if_pos h2, if_pos h2]
    have e1 : u / 2 ^ 6 % 256 = u / 64 := by omega
    rw [e1, oC0 _ (by omega), o80 _ (by omega)]
    have e2 : (0xC0 + u / 64) % 256 = 0xC0 + u / 64 := by omega
    have e3 : (0x80 + u % 64) % 256 = 0x80 + u % 64 := by omega
    rw [e2, e3]
  rw [if_neg h2, if_neg h2]
  by_cases h3 : u ≤ 0xFFFF
  · rw [if_pos h3, if_pos h3]
    have e1 : u / 2 ^ 12 % 256 = u / 4096 := by omega
    have e0 : u / 2 ^ 6 = u / 64 := by omega
    rw [e1, e0, oE0 _ (by omega), o80 _ (by omega), o80 _ (by omega)]
    have e2 : (0xE0 + u / 4096) % 256 = 0xE0 + u / 4096 := by omega
    have e3 : (0x80 + u % 64) % 256 = 0x80 + u % 64 := by omega
    have e4 : (0x80 + u / 64 % 64) % 256 = 0x80 + u / 64 % 64 := by omega
    rw [e2, e3, e4]
  rw [if_neg h3, if_neg h3, if_pos hu]
  have e1 : u / 2 ^ 18 % 256 = u / 262144 := by omega
  have e0 : u / 2 ^ 6 = u / 64 := by omega
  have e5 : u / 2 ^ 12 = u / 4096 := by omega
  rw [e1, e0, e5, oF0 _ (by omega), o80 _ (by omega), o80 _ (by omega), o80 _ (by omega)]
  have e2 : (0xF0 + u / 262144) % 256 = 0xF0 + u / 262144 := by omega
  have e3 : (0x80 + u % 64) % 256 = 0x80 + u % 64 := by omega
  have e4 : (0x80 + u / 64 % 64) % 256 = 0x80 + u / 64 % 64 := by omega
  have e6 : (0x80 + u / 4096 % 64) % 256 = 0x80 + u / 4096 % 64 := by omega
  rw [e2, e3, e4, e6]

theorem specUtf8_decode (u : Nat) (hu : u ≤ 0x10FFFF) : specUtf8Decode (specUtf8 u) = some u := by
  unfold specUtf8
  by_cases h1 : u ≤ 0x7F
  · rw [if_pos h1]
    simp only [specUtf8Decode]
    rw [if_pos (by omega)]
  rw [if_neg h1]
  by_cases h2 : u ≤ 0x7FF
  · rw [if_pos h2]
    simp only [specUtf8Decode]
    have e : (0xC0 + u / 64 - 0xC0) * 64 + (0x80 + u % 64 - 0x80) = u := by omega
    rw [if_pos (by omega), e]
  rw [if_neg h2]
  by_cases h3 : u ≤ 0xFFFF
  · rw [if_pos h3]
    simp only [specUtf8Decode]
    have e : (0xE0 + u / 4096 - 0xE0) * 4096 + (0x80 + u / 64 % 64 - 0x80) * 64 +
        (0x80 + u % 64 - 0x80) = u := by omega
    rw [if_pos (by omega), e]
  rw [if_neg h3]
  simp only [specUtf8Decode]
  have e : (0xF0 + u / 262144 - 0xF0) * 262144 + (0x80 + u / 4096 % 64 - 0x80) * 4096 +
      (0x80 + u / 64 % 64 - 0x80) * 64 + (0x80 + u % 64 - 0x80) = u := by omega
  rw [if_pos (by omega), e]

/-- C14. For every code point `u` up to 0x10FFFF, encodeUtf8 returns (no
assertion fails) and appends to the buffer, which it leaves as it was, exactly
the standard UTF-8 encoding of `u`: one byte up to 0x7F, two up to 0x7FF,
three up to 0xFFFF, four above, each byte below 256, and decoding these bytes
by the standard bit layout gives back `u`. -/
theorem encodeUtf8_standard (buffer : List Nat) (u : Nat) (hu : u ≤ 0x10FFFF) :
    Reader.encodeUtf8 buffer u = some (buffer ++ specUtf8 u) ∧
    specUtf8Decode (specUtf8 u) = some u ∧
    (specUtf8 u).length =
      (if u ≤ 0x7F then 1 else if u ≤ 0x7FF then 2 else if u ≤ 0xFFFF then 3 else 4) ∧
    ∀ b ∈ specUtf8 u, b < 256 := by
  refine ⟨encodeUtf8_spec buffer u hu, specUtf8_decode u hu, ?_, ?_⟩
  · unfold specUtf8
    split_ifs <;> rfl
  · unfold specUtf8
    split_ifs <;> simp <;> omega

/-- C14, witness: the code point U+20AC, the euro sign, after the byte `a` -/
theorem encodeUtf8_standard_witness :
    0x20AC ≤ 0x10FFFF ∧
    (Reader.encodeUtf8 [97] 0x20AC = some ([97] ++ specUtf8 0x20AC) ∧
    specUtf8Decode (specUtf8 0x20AC) = some 0x20AC ∧
    (specUtf8 0x20AC).length =
      (if 0x20AC ≤ 0x7F then 1 else if 0x20AC ≤ 0x7FF then 2 else if 0x20AC ≤ 0xFFFF then 3
        else 4) ∧
    ∀ b ∈ specUtf8 0x20AC, b < 256) ∧
    specUtf8 0x20AC = [0xE2, 0x82, 0xAC] :=
  ⟨by decide, encodeUtf8_standard [97] 0x20AC (by decide), by decide⟩

/-! ## Escapes in strings -/

namespace Reader

theorem strBody_append {t s t2 s2 : List Nat} (h1 : StrBody t s) (h2 : StrBody t2 s2) :
    StrBody (t ++ t2) (s ++ s2) := by
  induction h1 with
  | nil => exact h2
  | raw c t s hc h34 h92 _ ih => exact StrBody.raw c _ _ hc h34 h92 ih
  | escape e b t s he _ ih => exact StrBody.escape e b _ _ he ih
  | unicode a b c d u enc t s hu hns henc _ ih =>
    have := StrBody.unicode a b c d u enc _ _ hu hns henc ih
    simpa only [List.append_assoc, List.cons_append] using this
  | surrogates a b c d a2 b2 c2 d2 hi lo u enc t s hhi hhr hlo hlr hu henc _ ih =>
    have := StrBody.surrogates a b c d a2 b2 c2 d2 hi lo u enc _ _ hhi hhr hlo hlr hu henc ih
    simpa only [List.append_assoc, List.cons_append] using this

theorem parseStringLoop_backslash_next (h : Handler) (isKey : Bool) (fuel : Nat)
    (rest : StringReadStream) (buffer : List Nat) (log : List Event) {is : StringReadStream}
    {b : List Nat} (he : parseEscape rest buffer = .next is b) :
    parseStringLoop h isKey (fuel + 1) (92 :: rest) buffer log =
      parseStringLoop h isKey fuel is b log := by
  rw [parseStringLoop]
  have hn : hasNext (92 :: rest) = true := rfl
  simp only [hn, next_cons, advance_cons, Bool.not_true, Bool.false_eq_true, if_false,
    reduceCtorEq, Nat.reduceEqDiff, Nat.reduceLeDiff, and_false, and_true, if_true, he]

theorem parseStringLoop_backslash_throw (h : Handler) (isKey : Bool) (fuel : Nat)
    (rest : StringReadStream) (buffer : List Nat) (log : List Event) {err : ParseError}
    (he : parseEscape rest buffer = .throw err) :
    parseStringLoop h isKey (fuel + 1) (92 :: rest) buffer log = .throw err log := by
  rw [parseStringLoop]
  have hn : hasNext (92 :: rest) = true := rfl
  simp only [hn, next_cons, advance_cons, Bool.not_true, Bool.false_eq_true, if_false,
    reduceCtorEq, Nat.reduceEqDiff, Nat.reduceLeDiff, and_false, and_true, if_true, he]

theorem parseStringLoop_end (h : Handler) (isKey : Bool) (fuel : Nat) (buffer : List Nat)
    (log : List Event) :
    parseStringLoop h isKey (fuel + 1) [] buffer log = .throw .PARSE_MISS_QUOTATION_MARK log := by
  rw [parseStringLoop]
  rfl

/-- The loop of parseString on the text of a string body: it goes on after
the body with the bytes that the body denotes in the buffer -/
theorem parseStringLoop_prefix (h : Handler) (isKey : Bool) {t s : List Nat}
    (hb : StrBody t s) :
    ∃ d, ∀ (fuel : Nat) (rest : StringReadStream) (buffer : List Nat) (log : List Event),
      parseStringLoop h isKey (t.length + fuel) (t ++ rest) buffer log =
        parseStringLoop h isKey (fuel + d) rest (buffer ++ s) log := by
  induction hb with
  | nil => exact ⟨0, fun fuel rest buffer log => by simp⟩
  | raw c t s hc h34 h92 _ ih =>
    obtain ⟨d, hd⟩ := ih
    refine ⟨d, fun fuel rest buffer log => ?_⟩
    have e : (c :: t).length + fuel = (t.length + fuel) + 1 := by
      simp only [List.length_cons]; omega
    rw [e, List.cons_append, parseStringLoop_raw h isKey _ hc h34 h92, hd]
    simp only [List.append_assoc, List.singleton_append]
  | escape e b t s he _ ih =>
    obtain ⟨d, hd⟩ := ih
    refine ⟨d + 1, fun fuel rest buffer log => ?_⟩
    have e1 : (92 :: e :: t).length + fuel = (t.length + (fuel + 1)) + 1 := by
      simp only [List.length_cons]; omega
    have e3 : (92 :: e :: t) ++ rest = 92 :: e :: (t ++ rest) := rfl
    rw [e1, e3, parseStringLoop_backslash_next h isKey _ _ _ _ (simpleEscape_parseEscape he _ _),
      hd, show fuel + 1 + d = fuel + (d + 1) by omega]
    simp only [List.append_assoc, List.singleton_append]
  | unicode a b c d u enc t s hu hns henc _ ih =>
    obtain ⟨k, hk⟩ := ih
    refine ⟨k + 5, fun fuel rest buffer log => ?_⟩
    have e1 : (92 :: 117 :: a :: b :: c :: d :: t).length + fuel =
        (t.length + (fuel + 5)) + 1 := by
      simp only [List.length_cons]; omega
    have e3 : (92 :: 117 :: a :: b :: c :: d :: t) ++ rest =
        92 :: 117 :: a :: b :: c :: d :: (t ++ rest) := rfl
    have hpu : parseUnicode (a :: b :: c :: d :: (t ++ rest)) = .ok (u, t ++ rest) := by
      unfold parseUnicode
      rw [parseHex4_eq hu]
      simp only [if_neg hns]
    have hpe : parseEscape (117 :: a :: b :: c :: d :: (t ++ rest)) buffer =
        .next (t ++ rest) (buffer ++ enc) := by
      rw [parseEscape_unicode, hpu]
      simp only [encodeUtf8_append henc]
    rw [e1, e3, parseStringLoop_backslash_next h isKey _ _ _ _ hpe, hk,
      show fuel + 5 + k = fuel + (k + 5) by omega]
    simp only [List.append_assoc]
  | surrogates a b c d a2 b2 c2 d2 hi lo u enc t s hhi hhr hlo hlr hu henc _ ih =>
    obtain ⟨k, hk⟩ := ih
    refine ⟨k + 11, fun fuel rest buffer log => ?_⟩
    have e1 : (92 :: 117 :: a :: b :: c :: d :: 92 :: 117 :: a2 :: b2 :: c2 :: d2 :: t).length +
        fuel = (t.length + (fuel + 11)) + 1 := by
      simp only [List.length_cons]; omega
    have e3 : (92 :: 117 :: a :: b :: c :: d :: 92 :: 117 :: a2 :: b2 :: c2 :: d2 :: t) ++
        rest =
        92 :: 117 :: a :: b :: c :: d :: 92 :: 117 :: a2 :: b2 :: c2 :: d2 :: (t ++ rest) := rfl
    have hpu : parseUnicode
        (a :: b :: c :: d :: 92 :: 117 :: a2 :: b2 :: c2 :: d2 :: (t ++ rest)) =
        .ok (u, t ++ rest) := by
      unfold parseUnicode
      rw [parseHex4_eq hhi]
      simp only [if_pos hhr, next_cons, advance_cons, ne_eq, not_true_eq_false, if_false,
        parseHex4_eq hlo, if_pos hlr]
      rw [hu]
    have hpe : parseEscape
        (117 :: a :: b :: c :: d :: 92 :: 117 :: a2 :: b2 :: c2 :: d2 :: (t ++ rest)) buffer =
        .next (t ++ rest) (buffer ++ enc) := by
      rw [parseEscape_unicode, hpu]
      simp only [encodeUtf8_append henc]
    rw [e1, e3, parseStringLoop_backslash_next h isKey _ _ _ _ hpe, hk,
      show fuel + 11 + k = fuel + (k + 11) by omega]
    simp only [List.append_assoc]

/-- A string literal whose text starts with a string body: parseString is the
loop on what follows the body, with at least one round left -/
theorem parseString_prefix (h : Handler) (isKey : Bool) {t s : List Nat} (hb : StrBody t s)
    (rest : StringReadStream) (log : List Event) :
    ∃ n, parseString h (34 :: (t ++ rest)) log isKey =
      parseStringLoop h isKey (n + 1) rest s log := by
  obtain ⟨d, hd⟩ := parseStringLoop_prefix h isKey hb
  refine ⟨rest.length + d, ?_⟩
  have e : (t ++ rest).length + 1 = t.length + (rest.length + 1) := by
    simp only [List.length_append]; omega
  rw [parseString_quote, e, hd, List.nil_append,
    show rest.length + 1 + d = rest.length + d + 1 by omega]

theorem parse_quote (h : Handler) (body : StringReadStream) :
    parse mem h (34 :: body) = finish (parseString h (34 :: body) [] false) := by
  rw [parse_string, parseString_quote]

/-- An escape that throws ends the literal, whatever stands before it -/
theorem parseString_escape_throw (h : Handler) (isKey : Bool) {t s : List Nat}
    (hb : StrBody t s) (rest : StringReadStream) (log : List Event) {err : ParseError}
    (he : parseEscape rest s = .throw err) :
    parseString h (34 :: (t ++ 92 :: rest)) log isKey = .throw err log := by
  obtain ⟨n, hn⟩ := parseString_prefix h isKey hb (92 :: rest) log
  rw [hn, parseStringLoop_backslash_throw h isKey _ _ _ _ he]

theorem parse_escape_throw (h : Handler) {t s : List Nat}
    (hb : StrBody t s) (rest : StringReadStream) {err : ParseError}
    (he : parseEscape rest s = .throw err) :
    parse mem h (34 :: (t ++ 92 :: rest)) = .returned err [] := by
  rw [parse_quote, parseString_escape_throw h false hb rest [] he]
  rfl

/-- A string literal, alone, as the whole input -/
theorem parse_strBody {body s : List Nat} (hb : StrBody body s) :
    parse mem Handler.accept (34 :: (body ++ [34])) = .returned .PARSE_OK [.String s] := by
  have := @parse_valueText mem [] _ _ (show allWs [] = true from rfl)
    (ValueText.string body s hb) []
    fun hs => absurd hs (by simp [startsNumber, peek, isDigit])
  simpa [finish, parseWhiteSpace, hasNext] using this

end Reader

namespace Reader

theorem peek_eq_next (is : StringReadStream) : peek is = next is := by
  cases is <;> rfl

theorem parseEscape_bad {rest : StringReadStream} (buffer : List Nat)
    (hc : peek rest ∉ [34, 92, 47, 98, 102, 110, 114, 116, 117]) :
    parseEscape rest buffer = .throw .PARSE_BAD_STRING_ESCAPE := by
  rw [peek_eq_next] at hc
  simp only [List.mem_cons, List.mem_singleton, List.not_mem_nil, or_false, not_or] at hc
  obtain ⟨h1, h2, h3, h4, h5, h6, h7, h8, h9⟩ := hc
  unfold parseEscape
  simp only [if_neg h1, if_neg h2, if_neg h3, if_neg h4, if_neg h5, if_neg h6, if_neg h7,
    if_neg h8, if_neg h9]

theorem hexDigit_none {u c : Nat} (hv : hexValue c = none) : hexDigit u c = none := by
  unfold hexValue at hv
  unfold hexDigit
  by_cases h1 : 48 ≤ c ∧ c ≤ 57
  · rw [if_pos h1] at hv; cases hv
  rw [if_neg h1] at hv ⊢
  by_cases h2 : 97 ≤ c ∧ c ≤ 102
  · rw [if_pos h2] at hv; cases hv
  rw [if_neg h2] at hv ⊢
  by_cases h3 : 65 ≤ c ∧ c ≤ 70
  · rw [if_pos h3] at hv; cases hv
  rw [if_neg h3]

theorem hexValue_lt {c v : Nat} (hv : hexValue c = some v) : v < 16 := by
  unfold hexValue at hv
  by_cases h1 : 48 ≤ c ∧ c ≤ 57
  · rw [if_pos h1] at hv; cases hv; omega
  rw [if_neg h1] at hv
  by_cases h2 : 97 ≤ c ∧ c ≤ 102
  · rw [if_pos h2] at hv; cases hv; omega
  rw [if_neg h2] at hv
  by_cases h3 : 65 ≤ c ∧ c ≤ 70
  · rw [if_pos h3] at hv; cases hv; omega
  rw [if_neg h3] at hv
  cases hv

theorem hex4Value_le {a b c d u : Nat} (hu : hex4Value a b c d = some u) : u ≤ 0xFFFF := by
  unfold hex4Value at hu
  cases ha : hexValue a with
  | none => rw [ha] at hu; cases hu
  | some x =>
    cases hb : hexValue b with
    | none => rw [ha, hb] at hu; cases hu
    | some y =>
      cases hc : hexValue c with
      | none => rw [ha, hb, hc] at hu; cases hu
      | some z =>
        cases hd : hexValue d with
        | none => rw [ha, hb, hc, hd] at hu; cases hu
        | some w =>
          rw [ha, hb, hc, hd] at hu
          simp only [Option.some.injEq] at hu
          have := hexValue_lt ha
          have := hexValue_lt hb
          have := hexValue_lt hc
          have := hexValue_lt hd
          omega

theorem parseHex4Loop_step (n u : Nat) (is : StringReadStream) :
    parseHex4Loop (n + 1) u is =
      match hexValue (next is) with
      | some v => parseHex4Loop n (u * 16 + v) (advance is)
      | none => .error .PARSE_BAD_UNICODE_HEX := by
  rw [parseHex4Loop]
  cases hv : hexValue (next is) with
  | some v => rw [hexDigit_eq hv]
  | none => rw [hexDigit_none hv]

theorem next_getD (rest : List Nat) :
    next rest = rest.getD 0 0 ∧ next (advance rest) = rest.getD 1 0 ∧
      next (advance (advance rest)) = rest.getD 2 0 ∧
      next (advance (advance (advance rest))) = rest.getD 3 0 := by
  rcases rest with _ | ⟨a, _ | ⟨b, _ | ⟨c, _ | ⟨d, t⟩⟩⟩⟩ <;> exact ⟨rfl, rfl, rfl, rfl⟩

/-- Reader.hpp:54-66: four bytes that are not all hex digits, or fewer than
four bytes, make parseHex4 throw -/
theorem parseHex4_error {rest : List Nat}
    (h : hex4Value (rest.getD 0 0) (rest.getD 1 0) (rest.getD 2 0) (rest.getD 3 0) = none) :
    parseHex4 rest = .error .PARSE_BAD_UNICODE_HEX := by
  obtain ⟨n0, n1, n2, n3⟩ := next_getD rest
  unfold hex4Value at h
  unfold parseHex4
  rw [parseHex4Loop_step, n0]
  cases ha : hexValue (rest.getD 0 0) with
  | none => rfl
  | some x =>
    simp only []
    rw [parseHex4Loop_step, n1]
    cases hb : hexValue (rest.getD 1 0) with
    | none => rfl
    | some y =>
      simp only []
      rw [parseHex4Loop_step, n2]
      cases hc : hexValue (rest.getD 2 0) with
      | none => rfl
      | some z =>
        simp only []
        rw [parseHex4Loop_step, n3]
        cases hd : hexValue (rest.getD 3 0) with
        | none => rfl
        | some w => rw [ha, hb, hc, hd] at h; cases h

theorem parseUnicode_hex {rest : List Nat}
    (h : hex4Value (rest.getD 0 0) (rest.getD 1 0) (rest.getD 2 0) (rest.getD 3 0) = none) :
    parseUnicode rest = .error .PARSE_BAD_UNICODE_HEX := by
  unfold parseUnicode
  rw [parseHex4_error h]

theorem parseUnicode_single {a b c d u : Nat} (hu : hex4Value a b c d = some u)
    (hns : ¬(0xD800 ≤ u ∧ u ≤ 0xDBFF)) (rest : List Nat) :
    parseUnicode (a :: b :: c :: d :: rest) = .ok (u, rest) := by
  unfold parseUnicode
  rw [parseHex4_eq hu]
  simp only [if_neg hns]

theorem parseUnicode_lone {a b c d hi : Nat} (hhi : hex4Value a b c d = some hi)
    (hr : 0xD800 ≤ hi ∧ hi ≤ 0xDBFF) {rest : List Nat}
    (hn : rest.getD 0 0 ≠ 92 ∨ rest.getD 1 0 ≠ 117) :
    parseUnicode (a :: b :: c :: d :: rest) = .error .PARSE_BAD_UNICODE_SURROGATE := by
  obtain ⟨n0, n1, -, -⟩ := next_getD rest
  unfold parseUnicode
  rw [parseHex4_eq hhi]
  simp only [if_pos hr, n0, n1]
  by_cases h1 : rest.getD 0 0 = 92
  · have h2 : rest.getD 1 0 ≠ 117 := by
      rcases hn with h | h
      · exact absurd h1 h
      · exact h
    simp only [h1, ne_eq, not_true_eq_false, if_false, h2, not_false_eq_true, if_true]
  · simp only [ne_eq, h1, not_false_eq_true, if_true]

theorem parseUnicode_low_hex {a b c d hi : Nat} (hhi : hex4Value a b c d = some hi)
    (hr : 0xD800 ≤ hi ∧ hi ≤ 0xDBFF) {rest : List Nat}
    (h : hex4Value (rest.getD 0 0) (rest.getD 1 0) (rest.getD 2 0) (rest.getD 3 0) = none) :
    parseUnicode (a :: b :: c :: d :: 92 :: 117 :: rest) = .error .PARSE_BAD_UNICODE_HEX := by
  unfold parseUnicode
  rw [parseHex4_eq hhi]
  simp only [if_pos hr, next_cons, advance_cons, ne_eq, not_true_eq_false, if_false,
    parseHex4_error h]

theorem parseUnicode_low_range {a b c d hi a2 b2 c2 d2 lo : Nat}
    (hhi : hex4Value a b c d = some hi) (hr : 0xD800 ≤ hi ∧ hi ≤ 0xDBFF)
    (hlo : hex4Value a2 b2 c2 d2 = some lo) (hlr : ¬(0xDC00 ≤ lo ∧ lo ≤ 0xDFFF))
    (rest : List Nat) :
    parseUnicode (a :: b :: c :: d :: 92 :: 117 :: a2 :: b2 :: c2 :: d2 :: rest) =
      .error .PARSE_BAD_UNICODE_SURROGATE := by
  unfold parseUnicode
  rw [parseHex4_eq hhi]
  simp only [if_pos hr, next_cons, advance_cons, ne_eq, not_true_eq_false, if_false,
    parseHex4_eq hlo, if_neg hlr]

theorem parseEscape_unicode_error {rest : List Nat} (buffer : List Nat) {err : ParseError}
    (h : parseUnicode rest = .error err) : parseEscape (117 :: rest) buffer = .throw err := by
  rw [parseEscape_unicode, h]

end Reader

namespace Reader

theorem simpleEscape_table {e b : Nat}
    (h : (e, b) ∈ [(34, 34), (92, 92), (47, 47), (98, 8), (102, 12), (110, 10), (114, 13),
      (116, 9)]) : simpleEscape e = some b := by
  simp only [List.mem_cons, Prod.mk.injEq, List.mem_singleton, List.not_mem_nil, or_false] at h
  rcases h with h | h | h | h | h | h | h | h <;> (obtain ⟨rfl, rfl⟩ := h; rfl)

/-- A code unit that is not a high surrogate, as a string body -/
theorem strBody_unicode {a b c d u : Nat} (hu : hex4Value a b c d = some u)
    (hns : ¬(0xD800 ≤ u ∧ u ≤ 0xDBFF)) {t2 s2 : List Nat} (h2 : StrBody t2 s2) :
    StrBody (92 :: 117 :: a :: b :: c :: d :: t2) (specUtf8 u ++ s2) := by
  have hle := hex4Value_le hu
  have henc := encodeUtf8_spec [] u (by omega)
  rw [List.nil_append] at henc
  exact StrBody.unicode a b c d u _ _ _ hu hns henc h2

/-- C10. Inside a string literal, after any valid body (raw bytes and
escapes), a raw byte `b` makes parseString throw PARSE_BAD_STRING_CHAR without
a handler call, for a key as for a string, so that parse returns it with no
String or Key event for the literal, if `1 <= b <= 0x1F`, whatever follows
`b`; and every other byte `b` except the quote and the backslash (0x00, 0x7F
and the bytes from 0x80 included) is copied unchanged into the value: with a
valid body after it and the closing quote, the literal is read as the Key or
the String of the bytes before `b`, `b` itself and the bytes after it. -/
theorem raw_string_bytes (mem : List Nat) (t s : List Nat) (hb : StrBody t s) (b : Nat) :
    ((1 ≤ b ∧ b ≤ 31) →
      ∀ (h : Handler) (isKey : Bool) (log : List Event) (rest : List Nat),
        parseString h (34 :: (t ++ b :: rest)) log isKey =
          .throw .PARSE_BAD_STRING_CHAR log ∧
        parse mem h (34 :: (t ++ b :: rest)) = .returned .PARSE_BAD_STRING_CHAR []) ∧
    (¬(1 ≤ b ∧ b ≤ 31) → b ≠ 34 → b ≠ 92 →
      ∀ t2 s2, StrBody t2 s2 →
        (∀ (h : Handler) (isKey : Bool) (log : List Event) (rest : List Nat),
          parseString h (34 :: (t ++ b :: (t2 ++ 34 :: rest))) log isKey =
            CALL h (if isKey then .Key (s ++ b :: s2) else .String (s ++ b :: s2)) rest log) ∧
        parse mem Handler.accept (34 :: (t ++ b :: (t2 ++ [34]))) =
          .returned .PARSE_OK [.String (s ++ b :: s2)]) := by
  refine ⟨fun hr h isKey log rest => ?_, fun hr h34 h92 t2 s2 h2 => ⟨fun h isKey log rest => ?_, ?_⟩⟩
  · have key : parseString h (34 :: (t ++ b :: rest)) log isKey =
        .throw .PARSE_BAD_STRING_CHAR log := by
      obtain ⟨n, hn⟩ := parseString_prefix h isKey hb (b :: rest) log
      rw [hn, parseStringLoop_control h isKey n hr]
    refine ⟨key, ?_⟩
    obtain ⟨n, hn⟩ := parseString_prefix h false hb (b :: rest) []
    rw [parse_quote, hn, parseStringLoop_control h false n hr]
    rfl
  · obtain ⟨n, hn⟩ := parseString_prefix h isKey
      (strBody_append hb (StrBody.raw b t2 s2 hr h34 h92 h2)) (34 :: rest) log
    simp only [List.append_assoc, List.cons_append] at hn
    rw [hn, parseStringLoop_quote]
  · have := @parse_strBody mem _ _ (strBody_append hb (StrBody.raw b t2 s2 hr h34 h92 h2))
    simpa only [List.append_assoc, List.cons_append] using this

/-- C10, witness: after the body `a\n`, which has an escape, the bytes 0x00,
0x7F and 0xC3 are copied and the byte 0x01 is rejected. -/
theorem raw_string_bytes_witness :
    StrBody [97, 92, 110] [97, 10] ∧
    parse [] Handler.accept (34 :: ([97, 92, 110] ++ 1 :: [98, 34])) =
      .returned .PARSE_BAD_STRING_CHAR [] ∧
    parse [] Handler.accept (34 :: ([97, 92, 110] ++ 0 :: ([98] ++ [34]))) =
      .returned .PARSE_OK [.String ([97, 10] ++ 0 :: [98])] ∧
    parse [] Handler.accept (34 :: ([97, 92, 110] ++ 127 :: ([] ++ [34]))) =
      .returned .PARSE_OK [.String ([97, 10] ++ 127 :: [])] ∧
    parse [] Handler.accept (34 :: ([97, 92, 110] ++ 195 :: ([169] ++ [34]))) =
      .returned .PARSE_OK [.String ([97, 10] ++ 195 :: [169])] :=
  have hb : StrBody [97, 92, 110] [97, 10] :=
    StrBody.raw 97 _ _ (by decide) (by decide) (by decide)
      (StrBody.escape 110 10 _ _ (by decide) StrBody.nil)
  ⟨hb,
    ((raw_string_bytes [] _ _ hb 1).1 (by decide) Handler.accept false [] [98, 34]).2,
    ((raw_string_bytes [] _ _ hb 0).2 (by decide) (by decide) (by decide) [98] [98]
      (StrBody.raw 98 _ _ (by decide) (by decide) (by decide) StrBody.nil)).2,
    ((raw_string_bytes [] _ _ hb 127).2 (by decide) (by decide) (by decide) [] []
      StrBody.nil).2,
    ((raw_string_bytes [] _ _ hb 195).2 (by decide) (by decide) (by decide) [169] [169]
      (StrBody.raw 169 _ _ (by decide) (by decide) (by decide) StrBody.nil)).2⟩

/-- C11. Inside a string literal, after any valid body, the byte that follows
a backslash decides the escape: `"`, `\`, `/`, b, f, n, r, t append the byte
0x22, 0x5C, 0x2F, 0x08, 0x0C, 0x0A, 0x0D, 0x09 to the string value; `u` starts
a unicode escape (four hex digits of a code unit that is not a high surrogate
append the UTF-8 encoding of the code unit); every other byte, and the end of
the input, makes parseString throw PARSE_BAD_STRING_ESCAPE without a handler
call, so that parse returns it. -/
theorem string_escapes (mem : List Nat) (t s : List Nat) (hb : StrBody t s) :
    (∀ e b, (e, b) ∈ [(34, 34), (92, 92), (47, 47), (98, 8), (102, 12), (110, 10), (114, 13),
        (116, 9)] →
      ∀ t2 s2, StrBody t2 s2 →
        parse mem Handler.accept (34 :: (t ++ 92 :: e :: (t2 ++ [34]))) =
          .returned .PARSE_OK [.String (s ++ b :: s2)]) ∧
    (∀ a b c d u, hex4Value a b c d = some u → ¬(0xD800 ≤ u ∧ u ≤ 0xDBFF) →
      ∀ t2 s2, StrBody t2 s2 →
        parse mem Handler.accept (34 :: (t ++ 92 :: 117 :: a :: b :: c :: d :: (t2 ++ [34]))) =
          .returned .PARSE_OK [.String (s ++ (specUtf8 u ++ s2))]) ∧
    (∀ (h : Handler) (isKey : Bool) (log : List Event) (rest : List Nat),
      peek rest ∉ [34, 92, 47, 98, 102, 110, 114, 116, 117] →
        parseString h (34 :: (t ++ 92 :: rest)) log isKey =
          .throw .PARSE_BAD_STRING_ESCAPE log ∧
        parse mem h (34 :: (t ++ 92 :: rest)) = .returned .PARSE_BAD_STRING_ESCAPE []) := by
  refine ⟨fun e b heb t2 s2 h2 => ?_, fun a b c d u hu hns t2 s2 h2 => ?_,
    fun h isKey log rest hc => ?_⟩
  · have := @parse_strBody mem _ _ (strBody_append hb (StrBody.escape e b t2 s2 (simpleEscape_table heb) h2))
    simpa only [List.append_assoc, List.cons_append] using this
  · have := @parse_strBody mem _ _ (strBody_append hb (strBody_unicode hu hns h2))
    simpa only [List.append_assoc, List.cons_append] using this
  · exact ⟨parseString_escape_throw h isKey hb rest log (parseEscape_bad s hc),
      parse_escape_throw h hb rest (parseEscape_bad s hc)⟩

/-- C11, witness: after the body `a\n`; the escape `\t` is read, and `\x` and
a backslash at the end of the input are rejected -/
theorem string_escapes_witness :
    StrBody [97, 92, 110] [97, 10] ∧
    parse [] Handler.accept (bytes "\"a\\n\\tb\"") = .returned .PARSE_OK [.String [97, 10, 9, 98]] ∧
    parse [] Handler.accept (bytes "\"a\\n\\u0041\"") = .returned .PARSE_OK [.String [97, 10, 65]] ∧
    parse [] Handler.accept (bytes "\"a\\n\\x\"") = .returned .PARSE_BAD_STRING_ESCAPE [] ∧
    parse [] Handler.accept (bytes "\"a\\n\\") = .returned .PARSE_BAD_STRING_ESCAPE [] :=
  have hb : StrBody [97, 92, 110] [97, 10] :=
    StrBody.raw 97 _ _ (by decide) (by decide) (by decide)
      (StrBody.escape 110 10 _ _ (by decide) StrBody.nil)
  have h := string_escapes [] [97, 92, 110] [97, 10] hb
  ⟨hb,
    h.1 116 9 (by decide) [98] [98]
      (StrBody.raw 98 _ _ (by decide) (by decide) (by decide) StrBody.nil),
    h.2.1 48 48 52 49 65 (by decide) (by decide) [] [] StrBody.nil,
    (h.2.2 Handler.accept false [] [120, 34] (by decide)).2,
    (h.2.2 Handler.accept false [] [] (by decide)).2⟩

/-- C15. For every input that consists of `"` followed by a valid string body
(raw bytes other than the quote, the backslash and 0x01 to 0x1F, and complete
valid escapes) and then ends, parseString throws PARSE_MISS_QUOTATION_MARK
without a handler call, for a key as for a string, and parse returns
PARSE_MISS_QUOTATION_MARK with no event. -/
theorem unterminated_string (mem : List Nat) (t s : List Nat) (hb : StrBody t s) :
    (∀ (h : Handler) (isKey : Bool) (log : List Event),
      parseString h (34 :: t) log isKey = .throw .PARSE_MISS_QUOTATION_MARK log) ∧
    (∀ h : Handler, parse mem h (34 :: t) = .returned .PARSE_MISS_QUOTATION_MARK []) := by
  have key : ∀ (h : Handler) (isKey : Bool) (log : List Event),
      parseString h (34 :: t) log isKey = .throw .PARSE_MISS_QUOTATION_MARK log := by
    intro h isKey log
    obtain ⟨n, hn⟩ := parseString_prefix h isKey hb [] log
    rw [List.append_nil] at hn
    rw [hn, parseStringLoop_end]
  refine ⟨key, fun h => ?_⟩
  rw [parse_quote, key]
  rfl

/-- C15, witness: the input `"ab\né` -/
theorem unterminated_string_witness :
    StrBody (bytes "ab\\n\\u00e9") [97, 98, 10, 0xC3, 0xA9] ∧
    (∀ (h : Handler) (isKey : Bool) (log : List Event),
      parseString h (34 :: bytes "ab\\n\\u00e9") log isKey =
        .throw .PARSE_MISS_QUOTATION_MARK log) ∧
    (∀ h : Handler, parse [] h (34 :: bytes "ab\\n\\u00e9") =
      .returned .PARSE_MISS_QUOTATION_MARK []) :=
  have hb : StrBody (bytes "ab\\n\\u00e9") [97, 98, 10, 0xC3, 0xA9] :=
    StrBody.raw 97 _ _ (by decide) (by decide) (by decide)
      (StrBody.raw 98 _ _ (by decide) (by decide) (by decide)
        (StrBody.escape 110 10 _ _ (by decide)
          (StrBody.unicode 48 48 101 57 0xE9 [0xC3, 0xA9] [] [] (by decide) (by decide)
            (by decide) StrBody.nil)))
  ⟨hb, unterminated_string [] _ _ hb⟩

end Reader

namespace Reader

theorem hexDigit_case (u c : Nat) (hc : 65 ≤ c ∧ c ≤ 70) : hexDigit u (c + 32) = hexDigit u c := by
  unfold hexDigit
  rw [if_neg (by omega), if_pos (by omega), if_neg (by omega), if_neg (by omega),
    if_pos (by omega), show c + 32 - 97 + 10 = c - 65 + 10 by omega]

/-- C12. A `\u` escape reads exactly the next four bytes.  If the four are hex
digits, parseHex4 returns their base-16 value, most significant digit first,
at most 0xFFFF, and leaves the stream after them; a letter gives the same
result in upper and in lower case; and a code unit that is not a high
surrogate appends its UTF-8 encoding to the string value.  If one of the four
is not a hex digit, or the input ends before the fourth, parseString throws
PARSE_BAD_UNICODE_HEX without a handler call and parse returns it; so it is
for the second escape of a surrogate pair. -/
theorem unicode_hex (mem : List Nat) (t s : List Nat) (hb : StrBody t s) :
    (∀ a b c d u rest, hex4Value a b c d = some u →
      parseHex4 (a :: b :: c :: d :: rest) = .ok (u, rest) ∧ u ≤ 0xFFFF) ∧
    (∀ u c, 65 ≤ c ∧ c ≤ 70 → hexDigit u (c + 32) = hexDigit u c) ∧
    (∀ a b c d u, hex4Value a b c d = some u → ¬(0xD800 ≤ u ∧ u ≤ 0xDBFF) →
      ∀ t2 s2, StrBody t2 s2 →
        parse mem Handler.accept (34 :: (t ++ 92 :: 117 :: a :: b :: c :: d :: (t2 ++ [34]))) =
          .returned .PARSE_OK [.String (s ++ (specUtf8 u ++ s2))]) ∧
    (∀ (h : Handler) (isKey : Bool) (log : List Event) (rest : List Nat),
      hex4Value (rest.getD 0 0) (rest.getD 1 0) (rest.getD 2 0) (rest.getD 3 0) = none →
        parseString h (34 :: (t ++ 92 :: 117 :: rest)) log isKey =
          .throw .PARSE_BAD_UNICODE_HEX log ∧
        parse mem h (34 :: (t ++ 92 :: 117 :: rest)) = .returned .PARSE_BAD_UNICODE_HEX []) ∧
    (∀ (h : Handler) (isKey : Bool) (log : List Event) (a b c d hi : Nat) (rest : List Nat),
      hex4Value a b c d = some hi → (0xD800 ≤ hi ∧ hi ≤ 0xDBFF) →
      hex4Value (rest.getD 0 0) (rest.getD 1 0) (rest.getD 2 0) (rest.getD 3 0) = none →
        parseString h (34 :: (t ++ 92 :: 117 :: a :: b :: c :: d :: 92 :: 117 :: rest)) log
          isKey = .throw .PARSE_BAD_UNICODE_HEX log ∧
        parse mem h (34 :: (t ++ 92 :: 117 :: a :: b :: c :: d :: 92 :: 117 :: rest)) =
          .returned .PARSE_BAD_UNICODE_HEX []) := by
  refine ⟨fun a b c d u rest hu => ⟨parseHex4_eq hu rest, hex4Value_le hu⟩, hexDigit_case,
    fun a b c d u hu hns t2 s2 h2 => ?_, fun h isKey log rest hx => ?_,
    fun h isKey log a b c d hi rest hhi hr hx => ?_⟩
  · have := @parse_strBody mem _ _ (strBody_append hb (strBody_unicode hu hns h2))
    simpa only [List.append_assoc, List.cons_append] using this
  · have he := parseEscape_unicode_error s (parseUnicode_hex hx)
    exact ⟨parseString_escape_throw h isKey hb _ log he, parse_escape_throw h hb _ he⟩
  · have he := parseEscape_unicode_error s (parseUnicode_low_hex hhi hr hx)
    exact ⟨parseString_escape_throw h isKey hb _ log he, parse_escape_throw h hb _ he⟩

/-- C12, witness: after the body `a`; `\u00e9` and `\u00E9` are both read as
U+00E9, `\u00g9` and `\u00` at the end of the input are rejected -/
theorem unicode_hex_witness :
    StrBody [97] [97] ∧
    parse [] Handler.accept (bytes "\"a\\u00e9\"") = .returned .PARSE_OK [.String [97, 0xC3, 0xA9]] ∧
    parse [] Handler.accept (bytes "\"a\\u00E9\"") = .returned .PARSE_OK [.String [97, 0xC3, 0xA9]] ∧
    parse [] Handler.accept (bytes "\"a\\u00g9\"") = .returned .PARSE_BAD_UNICODE_HEX [] ∧
    parse [] Handler.accept (bytes "\"a\\u00") = .returned .PARSE_BAD_UNICODE_HEX [] :=
  have hb : StrBody [97] [97] := StrBody.raw 97 _ _ (by decide) (by decide) (by decide) StrBody.nil
  have h := unicode_hex [] [97] [97] hb
  ⟨hb, h.2.2.1 48 48 101 57 0xE9 (by decide) (by decide) [] [] StrBody.nil,
    h.2.2.1 48 48 69 57 0xE9 (by decide) (by decide) [] [] StrBody.nil,
    (h.2.2.2.1 Handler.accept false [] [48, 48, 103, 57, 34] (by decide)).2,
    (h.2.2.2.1 Handler.accept false [] [48, 48] (by decide)).2⟩

/-- A surrogate pair, as a string body -/
theorem strBody_surrogates {a b c d hi a2 b2 c2 d2 lo u : Nat}
    (hhi : hex4Value a b c d = some hi) (hr : 0xD800 ≤ hi ∧ hi ≤ 0xDBFF)
    (hlo : hex4Value a2 b2 c2 d2 = some lo) (hlr : 0xDC00 ≤ lo ∧ lo ≤ 0xDFFF)
    (hu : u = 0x10000 + (hi - 0xD800) * 0x400 + (lo - 0xDC00)) {t2 s2 : List Nat}
    (h2 : StrBody t2 s2) :
    StrBody (92 :: 117 :: a :: b :: c :: d :: 92 :: 117 :: a2 :: b2 :: c2 :: d2 :: t2)
      (specUtf8 u ++ s2) := by
  have hle : u ≤ 0x10FFFF := by omega
  have henc := encodeUtf8_spec [] u hle
  rw [List.nil_append] at henc
  exact StrBody.surrogates a b c d a2 b2 c2 d2 hi lo u _ _ _ hhi hr hlo hlr hu henc h2

/-- C13. For every `\u` escape whose code unit `hi` is a high surrogate
(0xD800 to 0xDBFF), after any valid body: if it is followed at once by `\u`
and four hex digits of value `lo` from 0xDC00 to 0xDFFF, the string value
receives the UTF-8 encoding of the scalar
`0x10000 + (hi - 0xD800) * 0x400 + (lo - 0xDC00)`; if the next two bytes are
not `\u`, or `lo` is outside 0xDC00 to 0xDFFF, parseString throws
PARSE_BAD_UNICODE_SURROGATE without a handler call and parse returns it. -/
theorem surrogate_pairs (mem : List Nat) (t s : List Nat) (hb : StrBody t s) (a b c d hi : Nat)
    (hhi : hex4Value a b c d = some hi) (hr : 0xD800 ≤ hi ∧ hi ≤ 0xDBFF) :
    (∀ a2 b2 c2 d2 lo u, hex4Value a2 b2 c2 d2 = some lo → (0xDC00 ≤ lo ∧ lo ≤ 0xDFFF) →
      u = 0x10000 + (hi - 0xD800) * 0x400 + (lo - 0xDC00) →
      ∀ t2 s2, StrBody t2 s2 →
        parse mem Handler.accept (34 :: (t ++ 92 :: 117 :: a :: b :: c :: d :: 92 :: 117 :: a2 ::
          b2 :: c2 :: d2 :: (t2 ++ [34]))) =
          .returned .PARSE_OK [.String (s ++ (specUtf8 u ++ s2))]) ∧
    (∀ (h : Handler) (isKey : Bool) (log : List Event) (rest : List Nat),
      (rest.getD 0 0 ≠ 92 ∨ rest.getD 1 0 ≠ 117) →
        parseString h (34 :: (t ++ 92 :: 117 :: a :: b :: c :: d :: rest)) log isKey =
          .throw .PARSE_BAD_UNICODE_SURROGATE log ∧
        parse mem h (34 :: (t ++ 92 :: 117 :: a :: b :: c :: d :: rest)) =
          .returned .PARSE_BAD_UNICODE_SURROGATE []) ∧
    (∀ (h : Handler) (isKey : Bool) (log : List Event) (a2 b2 c2 d2 lo : Nat)
      (rest : List Nat), hex4Value a2 b2 c2 d2 = some lo → ¬(0xDC00 ≤ lo ∧ lo ≤ 0xDFFF) →
        parseString h (34 :: (t ++ 92 :: 117 :: a :: b :: c :: d :: 92 :: 117 :: a2 :: b2 ::
          c2 :: d2 :: rest)) log isKey = .throw .PARSE_BAD_UNICODE_SURROGATE log ∧
        parse mem h (34 :: (t ++ 92 :: 117 :: a :: b :: c :: d :: 92 :: 117 :: a2 :: b2 :: c2 ::
          d2 :: rest)) = .returned .PARSE_BAD_UNICODE_SURROGATE []) := by
  refine ⟨fun a2 b2 c2 d2 lo u hlo hlr hu t2 s2 h2 => ?_, fun h isKey log rest hn => ?_,
    fun h isKey log a2 b2 c2 d2 lo rest hlo hlr => ?_⟩
  · have := @parse_strBody mem _ _ (strBody_append hb (strBody_surrogates hhi hr hlo hlr hu h2))
    simpa only [List.append_assoc, List.cons_append] using this
  · have he := parseEscape_unicode_error s (parseUnicode_lone hhi hr hn)
    exact ⟨parseString_escape_throw h isKey hb _ log he, parse_escape_throw h hb _ he⟩
  · have he := parseEscape_unicode_error s (parseUnicode_low_range hhi hr hlo hlr rest)
    exact ⟨parseString_escape_throw h isKey hb _ log he, parse_escape_throw h hb _ he⟩

/-- C13, witness: `"\uD83D\uDE00"` yields the bytes F0 9F 98 80; `"\uD800"`,
`"\uD83Dx"` and `"\uD83D\u0041"` are rejected -/
theorem surrogate_pairs_witness :
    (StrBody [] [] ∧ hex4Value 68 56 51 68 = some 0xD83D ∧ (0xD800 ≤ 0xD83D ∧ 0xD83D ≤ 0xDBFF)) ∧
    parse [] Handler.accept (bytes "\"\\uD83D\\uDE00\"") =
      .returned .PARSE_OK [.String [0xF0, 0x9F, 0x98, 0x80]] ∧
    parse [] Handler.accept (bytes "\"\\uD83Dx\"") = .returned .PARSE_BAD_UNICODE_SURROGATE [] ∧
    parse [] Handler.accept (bytes "\"\\uD83D\\u0041\"") =
      .returned .PARSE_BAD_UNICODE_SURROGATE [] ∧
    parse [] Handler.accept (bytes "\"\\uD800\"") = .returned .PARSE_BAD_UNICODE_SURROGATE [] :=
  have h := surrogate_pairs [] [] [] StrBody.nil 68 56 51 68 0xD83D (by decide) (by decide)
  ⟨⟨StrBody.nil, by decide, by decide⟩,
    h.1 68 69 48 48 0xDE00 0x1F600 (by decide) (by decide) (by decide) [] [] StrBody.nil,
    (h.2.1 Handler.accept false [] [120, 34] (by decide)).2,
    (h.2.2 Handler.accept false [] 48 48 52 49 0x41 [34] (by decide) (by decide)).2,
    by decide⟩

end Reader

/-! ## Literals -/

namespace Reader

theorem literalLoop_fail : ∀ (ls : List Nat) (is : StringReadStream), (∀ c ∈ ls, c ≠ 0) →
    ¬ ls <+: is → (literalLoop ls is).1 ≠ []
  | [], is, _, hn => absurd (List.nil_prefix) hn
  | l :: ls, is, h0, hn => by
    rw [literalLoop]
    by_cases hl : l = peek is
    · rw [if_pos hl]
      cases is with
      | nil => exact absurd hl (h0 l (List.mem_cons_self l ls))
      | cons c t =>
        rw [peek_cons] at hl
        subst hl
        rw [advance_cons]
        refine literalLoop_fail ls t (fun c hc => h0 c (List.mem_cons_of_mem _ hc)) fun hp => ?_
        exact hn ((List.prefix_cons_inj l).2 hp)
    · rw [if_neg hl]
      exact List.cons_ne_nil _ _

/-- Reader.hpp:82-106: a text that starts with the first byte of a literal and
does not go on with the whole literal -/
theorem parseLiteral_fail (h : Handler) (log : List Event) (ty : ValueType) {c : Nat}
    {ls rest : List Nat} (hc : c ≠ 0) (h0 : ∀ d ∈ ls, d ≠ 0) (hp : peek rest = c)
    (hn : ¬ (c :: ls) <+: rest) :
    parseLiteral h rest log (c :: ls) ty = .throw .PARSE_BAD_VALUE log := by
  unfold parseLiteral
  have hne : (literalLoop ls (advance rest)).1 ≠ [] := by
    cases rest with
    | nil => exact absurd hp.symm hc
    | cons d t =>
      rw [peek_cons] at hp
      subst hp
      rw [advance_cons]
      exact literalLoop_fail ls t h0 fun hp2 => hn ((List.prefix_cons_inj d).2 hp2)
  simp only [List.tail_cons, if_neg hne]

/-- C18. Literals: the inputs `null`, `true`, `false`, `NaN`, `Infinity` each
parse to PARSE_OK with exactly one event, Null, Bool(true), Bool(false),
Double(NaN), Double(+Infinity); and every input whose first byte after
optional white space is the first byte of one of the five literals (n, t, f,
N, I) and which does not go on with that whole literal makes parse return
PARSE_BAD_VALUE with no event. -/
theorem literals (mem : List Nat) :
    (parse mem Handler.accept (bytes "null") = .returned .PARSE_OK [.Null] ∧
      parse mem Handler.accept (bytes "true") = .returned .PARSE_OK [.Bool true] ∧
      parse mem Handler.accept (bytes "false") = .returned .PARSE_OK [.Bool false] ∧
      parse mem Handler.accept (bytes "NaN") = .returned .PARSE_OK [.Double .nan] ∧
      parse mem Handler.accept (bytes "Infinity") = .returned .PARSE_OK [.Double (.inf false)]) ∧
    (∀ (h : Handler) (ws rest lit : List Nat),
      lit ∈ [bytes "null", bytes "true", bytes "false", bytes "NaN", bytes "Infinity"] →
      allWs ws = true → peek rest = lit.headD 0 → ¬ lit <+: rest →
      parse mem h (ws ++ rest) = .returned .PARSE_BAD_VALUE []) := by
  refine ⟨⟨rfl, rfl, rfl, rfl, rfl⟩,
    fun h ws rest lit hlit hws hp hn => ?_⟩
  have hbytes : [bytes "null", bytes "true", bytes "false", bytes "NaN", bytes "Infinity"] =
      [110 :: [117, 108, 108], 116 :: [114, 117, 101], 102 :: [97, 108, 115, 101],
        78 :: [97, 78], 73 :: [110, 102, 105, 110, 105, 116, 121]] := by decide
  rw [hbytes] at hlit
  simp only [List.mem_cons, List.mem_singleton, List.not_mem_nil, or_false] at hlit
  have hpw : peek rest ≠ 32 ∧ peek rest ≠ 9 ∧ peek rest ≠ 13 ∧ peek rest ≠ 10 := by
    rcases hlit with rfl | rfl | rfl | rfl | rfl <;>
      (simp only [List.headD_cons] at hp; omega)
  have hnx : hasNext rest = true := by
    apply hasNext_of_peek_ne
    rcases hlit with rfl | rfl | rfl | rfl | rfl <;>
      (simp only [List.headD_cons] at hp; omega)
  rw [parse_eq_finish, parseWhiteSpace_ws hws hpw]
  have key : ∀ fuel log, parseValue mem h (fuel + 1) rest log = .throw .PARSE_BAD_VALUE log := by
    intro fuel log
    rcases hlit with rfl | rfl | rfl | rfl | rfl
    · simp only [List.headD_cons] at hp
      rw [parseValue]
      simp only [hnx, hp, Bool.not_true, Bool.false_eq_true, if_false, if_true]
      exact parseLiteral_fail h log _ (by decide) (by decide) hp hn
    · simp only [List.headD_cons] at hp
      rw [parseValue]
      simp only [hnx, hp, Bool.not_true, Bool.false_eq_true, if_false, if_true,
        Nat.reduceEqDiff]
      exact parseLiteral_fail h log _ (by decide) (by decide) hp hn
    · simp only [List.headD_cons] at hp
      rw [parseValue]
      simp only [hnx, hp, Bool.not_true, Bool.false_eq_true, if_false, if_true,
        Nat.reduceEqDiff]
      exact parseLiteral_fail h log _ (by decide) (by decide) hp hn
    · simp only [List.headD_cons] at hp
      rw [parseValue_number h fuel log hnx (by omega), parseNumber, if_pos hp]
      exact parseLiteral_fail h log _ (by decide) (by decide) hp hn
    · simp only [List.headD_cons] at hp
      rw [parseValue_number h fuel log hnx (by omega), parseNumber, if_neg (by omega), if_pos hp]
      exact parseLiteral_fail h log _ (by decide) (by decide) hp hn
  rw [key]
  rfl

/-- C18, witness: `nul`, ` tru e`, `falsE`, `Nan` and `Inf` are rejected -/
theorem literals_witness :
    parse [] Handler.accept (bytes "nul") = .returned .PARSE_BAD_VALUE [] ∧
    parse [] Handler.accept (bytes " tru e") = .returned .PARSE_BAD_VALUE [] ∧
    parse [] Handler.accept (bytes "falsE") = .returned .PARSE_BAD_VALUE [] ∧
    parse [] Handler.accept (bytes "Nan") = .returned .PARSE_BAD_VALUE [] ∧
    parse [] Handler.accept (bytes "Inf") = .returned .PARSE_BAD_VALUE [] :=
  ⟨(literals []).2 Handler.accept [] (bytes "nul") (bytes "null") (by decide) (by decide) (by decide)
      (by decide),
    (literals []).2 Handler.accept [32] (bytes "tru e") (bytes "true") (by decide) (by decide)
      (by decide) (by decide),
    (literals []).2 Handler.accept [] (bytes "falsE") (bytes "false") (by decide) (by decide)
      (by decide) (by decide),
    (literals []).2 Handler.accept [] (bytes "Nan") (bytes "NaN") (by decide) (by decide) (by decide)
      (by decide),
    (literals []).2 Handler.accept [] (bytes "Inf") (bytes "Infinity") (by decide) (by decide)
      (by decide) (by decide)⟩

end Reader

/-! ## Arrays and objects that are not finished -/

namespace Reader

theorem not_ws_of_isWs {c : Nat} (h : isWs c = false) : c ≠ 32 ∧ c ≠ 9 ∧ c ≠ 13 ∧ c ≠ 10 := by
  have := (isWs_iff c).not.1 (by rw [h]; decide)
  omega

theorem parseWhiteSpace_stop {ws : List Nat} (hws : allWs ws = true) {rest : List Nat}
    (hr : isWs (peek rest) = false) : parseWhiteSpace (ws ++ rest) = rest :=
  parseWhiteSpace_ws hws (not_ws_of_isWs hr)

theorem parseWhiteSpace_self {rest : List Nat} (hr : isWs (peek rest) = false) :
    parseWhiteSpace rest = rest :=
  parseWhiteSpace_of_not_ws (not_ws_of_isWs hr)

theorem parseArrayLoop_ok {fuel : Nat} {is is1 : StringReadStream} {log log1 : List Event}
    (hv : parseValue mem Handler.accept fuel is log = .ok is1 log1) :
    parseArrayLoop mem Handler.accept (fuel + 1) is log =
      if next (parseWhiteSpace is1) = 44 then
        parseArrayLoop mem Handler.accept fuel (parseWhiteSpace (advance (parseWhiteSpace is1))) log1
      else if next (parseWhiteSpace is1) = 93 then
        CALL Handler.accept .EndArray (advance (parseWhiteSpace is1)) log1
      else .throw .PARSE_MISS_COMMA_OR_SQUARE_BRACKET log1 := by
  rw [parseArrayLoop, hv]
  rfl

theorem parseArrayLoop_throw {fuel : Nat} {is : StringReadStream} {log l : List Event}
    {err : ParseError} (hv : parseValue mem Handler.accept fuel is log = .throw err l) :
    parseArrayLoop mem Handler.accept (fuel + 1) is log = .throw err l := by
  rw [parseArrayLoop, hv]
  rfl

theorem parseObjectLoop_value_ok (fuel : Nat) {k ks : List Nat} (hk : StrBody k ks)
    {rest is1 : List Nat} {log log1 : List Event} (hc : next (parseWhiteSpace rest) = 58)
    (hv : parseValue mem Handler.accept fuel (parseWhiteSpace (advance (parseWhiteSpace rest)))
      (log ++ [.Key ks]) = .ok is1 log1) :
    parseObjectLoop mem Handler.accept (fuel + 1) (34 :: (k ++ 34 :: rest)) log =
      if next (parseWhiteSpace is1) = 44 then
        parseObjectLoop mem Handler.accept fuel (parseWhiteSpace (advance (parseWhiteSpace is1)))
          log1
      else if next (parseWhiteSpace is1) = 125 then
        CALL Handler.accept .EndObject (advance (parseWhiteSpace is1)) log1
      else .throw .PARSE_MISS_COMMA_OR_CURLY_BRACKET log1 := by
  rw [parseObjectLoop, if_neg (by rw [peek_cons]; decide), parseString_keyText Handler.accept hk]
  simp only [call_accept, Res.andThen, hc, ne_eq, not_true_eq_false, if_false, hv]

theorem parseObjectLoop_value_throw (fuel : Nat) {k ks : List Nat} (hk : StrBody k ks)
    {rest : List Nat} {log l : List Event} {err : ParseError}
    (hc : next (parseWhiteSpace rest) = 58)
    (hv : parseValue mem Handler.accept fuel (parseWhiteSpace (advance (parseWhiteSpace rest)))
      (log ++ [.Key ks]) = .throw err l) :
    parseObjectLoop mem Handler.accept (fuel + 1) (34 :: (k ++ 34 :: rest)) log = .throw err l := by
  rw [parseObjectLoop, if_neg (by rw [peek_cons]; decide), parseString_keyText Handler.accept hk]
  simp only [call_accept, Res.andThen, hc, ne_eq, not_true_eq_false, if_false, hv]

/-- Reader.hpp:292-303: after `[` and white space, a byte that is not `]` -/
theorem parseValue_array_open (fuel : Nat) {ws : List Nat} (hws : allWs ws = true)
    {rest : List Nat} (hr : isWs (peek rest) = false) (h93 : peek rest ≠ 93)
    (log : List Event) :
    parseValue mem Handler.accept (fuel + 2) (91 :: (ws ++ rest)) log =
      parseArrayLoop mem Handler.accept fuel rest (log ++ [.StartArray]) := by
  rw [parseValue_succ, if_pos (by rfl), parseArray]
  simp only [call_accept, Res.andThen, advance_cons, parseWhiteSpace_stop hws hr, if_neg h93]

/-- Reader.hpp:322-333: after `{` and white space, a byte that is not `}` -/
theorem parseValue_object_open (fuel : Nat) {ws : List Nat} (hws : allWs ws = true)
    {rest : List Nat} (hr : isWs (peek rest) = false) (h125 : peek rest ≠ 125)
    (log : List Event) :
    parseValue mem Handler.accept (fuel + 2) (123 :: (ws ++ rest)) log =
      parseObjectLoop mem Handler.accept fuel rest (log ++ [.StartObject]) := by
  rw [parseValue_succ, if_neg (by rw [peek_cons]; decide), if_pos (by rfl), parseObject]
  simp only [call_accept, Res.andThen, advance_cons, parseWhiteSpace_stop hws hr, if_neg h125]

end Reader

namespace Reader

theorem isWs_of_not_ws {c : Nat} (h : c ≠ 32 ∧ c ≠ 9 ∧ c ≠ 13 ∧ c ≠ 10) : isWs c = false := by
  cases hw : isWs c with
  | false => rfl
  | true =>
    have := (isWs_iff c).1 hw
    omega

theorem valueText_peek {b : Bool} {v : List Nat} {evs : List Event} (hv : ValueText b v evs)
    (rest : List Nat) :
    isWs (peek (v ++ rest)) = false ∧ peek (v ++ rest) ≠ 93 ∧ peek (v ++ rest) ≠ 125 ∧
      peek (v ++ rest) ≠ 44 := by
  obtain ⟨c, t, rfl, hc, h93, h125, h44⟩ := valueText_first hv
  exact ⟨isWs_of_not_ws hc, h93, h125, h44⟩

theorem elementsDone_peek {done : List Nat} {devs : List Event} (hd : ElementsDone done devs)
    {rest : List Nat} (hr : isWs (peek rest) = false) (h93 : peek rest ≠ 93) :
    isWs (peek (done ++ rest)) = false ∧ peek (done ++ rest) ≠ 93 := by
  cases hd with
  | nil => exact ⟨hr, h93⟩
  | cons v ws1 ws2 rest0 evs evs2 hv h1 h2 hrest =>
    rw [List.append_assoc]
    exact ⟨(valueText_peek hv _).1, (valueText_peek hv _).2.1⟩

theorem membersDone_peek {done : List Nat} {devs : List Event} (hd : MembersDone done devs)
    {rest : List Nat} (hr : peek rest = 34) : peek (done ++ rest) = 34 := by
  cases hd with
  | nil => exact hr
  | cons k ks ws1 ws2 v ws3 ws4 rest0 evs evs2 hk h1 h2 hv h3 h4 hrest => rfl

/-- The loop of parseArray on elements that a comma follows: it goes on with
what follows them -/
theorem elementsDone_loop {done : List Nat} {devs : List Event} (hd : ElementsDone done devs)
    {rest : List Nat} (r : List Event → Res) (hr : isWs (peek rest) = false)
    (h93 : peek rest ≠ 93)
    (hk : ∃ N, ∀ fuel, N ≤ fuel → ∀ log, parseArrayLoop mem Handler.accept fuel rest log = r log) :
    ∃ N, ∀ fuel, N ≤ fuel → ∀ log,
      parseArrayLoop mem Handler.accept fuel (done ++ rest) log = r (log ++ devs) := by
  induction hd with
  | nil => simpa using hk
  | cons v ws1 ws2 rest0 evs evs2 hv h1 h2 hrest ih =>
    obtain ⟨N1, hN1⟩ := ih
    obtain ⟨Nv, hNv⟩ := @valueText_complete mem _ _ hv
    refine ⟨N1 + Nv + 1, fun fuel hf log => ?_⟩
    obtain ⟨f, rfl, hf2⟩ := exists_succ hf
    have e : v ++ (ws1 ++ 44 :: (ws2 ++ rest0)) ++ rest =
        v ++ (ws1 ++ 44 :: (ws2 ++ (rest0 ++ rest))) := by
      simp only [List.append_assoc, List.cons_append]
    have hv2 := hNv f (by omega) (ws1 ++ 44 :: (ws2 ++ (rest0 ++ rest))) log
      fun _ => endsNumber_ws h1 (endsNumber_cons _ (Or.inl rfl))
    have hw1 : parseWhiteSpace (ws1 ++ 44 :: (ws2 ++ (rest0 ++ rest))) =
        44 :: (ws2 ++ (rest0 ++ rest)) := parseWhiteSpace_stop h1 (by rw [peek_cons]; decide)
    have hw2 : parseWhiteSpace (ws2 ++ (rest0 ++ rest)) = rest0 ++ rest :=
      parseWhiteSpace_stop h2 (elementsDone_peek hrest hr h93).1
    rw [e, parseArrayLoop_ok hv2, hw1, next_cons, if_pos rfl, advance_cons, hw2,
      hN1 f (by omega), List.append_assoc]

/-- The loop of parseObject on members that a comma follows: it goes on with
what follows them -/
theorem membersDone_loop {done : List Nat} {devs : List Event} (hd : MembersDone done devs)
    {rest : List Nat} (r : List Event → Res) (hr : isWs (peek rest) = false)
    (hk : ∃ N, ∀ fuel, N ≤ fuel → ∀ log, parseObjectLoop mem Handler.accept fuel rest log = r log) :
    ∃ N, ∀ fuel, N ≤ fuel → ∀ log,
      parseObjectLoop mem Handler.accept fuel (done ++ rest) log = r (log ++ devs) := by
  induction hd with
  | nil => simpa using hk
  | cons k ks ws1 ws2 v ws3 ws4 rest0 evs evs2 hks h1 h2 hv h3 h4 hrest ih =>
    obtain ⟨N1, hN1⟩ := ih
    obtain ⟨Nv, hNv⟩ := @valueText_complete mem _ _ hv
    refine ⟨N1 + Nv + 1, fun fuel hf log => ?_⟩
    obtain ⟨f, rfl, hf2⟩ := exists_succ hf
    have e : 34 :: (k ++ 34 :: (ws1 ++ 58 :: (ws2 ++ (v ++ (ws3 ++ 44 :: (ws4 ++ rest0)))))) ++
        rest =
        34 :: (k ++ 34 :: (ws1 ++ 58 :: (ws2 ++ (v ++ (ws3 ++ 44 :: (ws4 ++ (rest0 ++ rest))))))) := by
      simp only [List.append_assoc, List.cons_append]
    have hw1 : parseWhiteSpace (ws1 ++ 58 :: (ws2 ++ (v ++ (ws3 ++ 44 :: (ws4 ++ (rest0 ++ rest)))))) =
        58 :: (ws2 ++ (v ++ (ws3 ++ 44 :: (ws4 ++ (rest0 ++ rest))))) :=
      parseWhiteSpace_stop h1 (by rw [peek_cons]; decide)
    have hw2 : parseWhiteSpace (ws2 ++ (v ++ (ws3 ++ 44 :: (ws4 ++ (rest0 ++ rest))))) =
        v ++ (ws3 ++ 44 :: (ws4 ++ (rest0 ++ rest))) :=
      parseWhiteSpace_stop h2 (valueText_peek hv _).1
    have hv2 := hNv f (by omega) (ws3 ++ 44 :: (ws4 ++ (rest0 ++ rest))) (log ++ [.Key ks])
      fun _ => endsNumber_ws h3 (endsNumber_cons _ (Or.inl rfl))
    have hw3 : parseWhiteSpace (ws3 ++ 44 :: (ws4 ++ (rest0 ++ rest))) =
        44 :: (ws4 ++ (rest0 ++ rest)) := parseWhiteSpace_stop h3 (by rw [peek_cons]; decide)
    have hp : isWs (peek (rest0 ++ rest)) = false := by
      cases hrest with
      | nil => exact hr
      | cons => rfl
    have hw4 : parseWhiteSpace (ws4 ++ (rest0 ++ rest)) = rest0 ++ rest :=
      parseWhiteSpace_stop h4 hp
    have hc : next (parseWhiteSpace
        (ws1 ++ 58 :: (ws2 ++ (v ++ (ws3 ++ 44 :: (ws4 ++ (rest0 ++ rest))))))) = 58 := by
      rw [hw1]; rfl
    have hv3 : parseValue mem Handler.accept f (parseWhiteSpace (advance (parseWhiteSpace
        (ws1 ++ 58 :: (ws2 ++ (v ++ (ws3 ++ 44 :: (ws4 ++ (rest0 ++ rest)))))))))
        (log ++ [.Key ks]) =
        .ok (ws3 ++ 44 :: (ws4 ++ (rest0 ++ rest))) (log ++ [.Key ks] ++ evs) := by
      rw [hw1, advance_cons, hw2, hv2]
    rw [e, parseObjectLoop_value_ok f hks hc hv3, hw3, next_cons, if_pos rfl, advance_cons, hw4,
      hN1 f (by omega)]
    simp only [List.append_assoc, List.singleton_append, List.cons_append, List.nil_append]

/-- An exception that parseValue throws where a value is required ends the
parse: parse returns its kind after the events emitted up to there -/
theorem position_throw {p : List Nat} {evs : List Event} (hp : ValuePosition p evs) :
    ∀ (rest : List Nat) (err : ParseError) (e2 : List Event), isWs (peek rest) = false →
      peek rest ≠ 93 →
      (∃ N, ∀ fuel, N ≤ fuel → ∀ log,
        parseValue mem Handler.accept fuel rest log = .throw err (log ++ e2)) →
      parse mem Handler.accept (p ++ rest) = .returned err (evs ++ e2) := by
  induction hp with
  | root ws hws =>
    intro rest err e2 hr _ ⟨N, hN⟩
    have e := hN (N + (3 * (ws ++ rest).length + 1)) (by omega) []
    rw [← parse_fuel_enough Handler.accept _ (N + (3 * (ws ++ rest).length + 1)) (by omega)]
    simp only [parseFuel, parseWhiteSpace_stop hws hr, e, List.nil_append]
  | element p ws done evs devs _ hws hd ih =>
    intro rest err e2 hr h93 ⟨N, hN⟩
    have hloop : ∃ M, ∀ fuel, M ≤ fuel → ∀ log,
        parseArrayLoop mem Handler.accept fuel rest log = .throw err (log ++ e2) := by
      refine ⟨N + 1, fun fuel hf log => ?_⟩
      obtain ⟨f, rfl, hf2⟩ := exists_succ hf
      exact parseArrayLoop_throw (hN f hf2 log)
    obtain ⟨M, hM⟩ := elementsDone_loop hd (fun log => .throw err (log ++ e2)) hr h93 hloop
    have hpk := elementsDone_peek hd hr h93
    have := ih (91 :: (ws ++ (done ++ rest))) err (.StartArray :: (devs ++ e2))
      (by rw [peek_cons]; decide) (by rw [peek_cons]; decide)
      ⟨M + 2, fun fuel hf log => by
        obtain ⟨f, rfl, hf2⟩ := exists_succ hf
        obtain ⟨g, rfl, hg⟩ := exists_succ hf2
        rw [parseValue_array_open g hws hpk.1 hpk.2, hM g hg]
        simp only [List.append_assoc, List.singleton_append, List.cons_append, List.nil_append]⟩
    simpa only [List.append_assoc, List.cons_append, List.singleton_append] using this
  | member p ws done k ks ws1 ws2 evs devs _ hws hd hk h1 h2 ih =>
    intro rest err e2 hr _ ⟨N, hN⟩
    have hw1 : parseWhiteSpace (ws1 ++ 58 :: (ws2 ++ rest)) = 58 :: (ws2 ++ rest) :=
      parseWhiteSpace_stop h1 (by rw [peek_cons]; decide)
    have hloop : ∃ M, ∀ fuel, M ≤ fuel → ∀ log,
        parseObjectLoop mem Handler.accept fuel (34 :: (k ++ 34 :: (ws1 ++ 58 :: (ws2 ++ rest)))) log =
          .throw err (log ++ ([.Key ks] ++ e2)) := by
      refine ⟨N + 1, fun fuel hf log => ?_⟩
      obtain ⟨f, rfl, hf2⟩ := exists_succ hf
      refine parseObjectLoop_value_throw f hk (by rw [hw1]; rfl) ?_
      rw [hw1, advance_cons, parseWhiteSpace_stop h2 hr, hN f hf2]
      simp only [List.append_assoc]
    obtain ⟨M, hM⟩ := membersDone_loop hd (fun log => .throw err (log ++ ([.Key ks] ++ e2)))
      (by rw [peek_cons]; decide) hloop
    have hpk : peek (done ++ 34 :: (k ++ 34 :: (ws1 ++ 58 :: (ws2 ++ rest)))) = 34 :=
      membersDone_peek hd rfl
    have := ih (123 :: (ws ++ (done ++ 34 :: (k ++ 34 :: (ws1 ++ 58 :: (ws2 ++ rest))))))
      err (.StartObject :: (devs ++ ([.Key ks] ++ e2)))
      (by rw [peek_cons]; decide) (by rw [peek_cons]; decide)
      ⟨M + 2, fun fuel hf log => by
        obtain ⟨f, rfl, hf2⟩ := exists_succ hf
        obtain ⟨g, rfl, hg⟩ := exists_succ hf2
        rw [parseValue_object_open g hws (by rw [hpk]; decide) (by rw [hpk]; decide), hM g hg]
        simp only [List.append_assoc, List.singleton_append, List.cons_append, List.nil_append]⟩
    simpa only [List.append_assoc, List.cons_append, List.singleton_append] using this

end Reader

namespace Reader

end Reader

/-! ## Arrays -/

namespace Reader

end Reader

namespace Reader

theorem parseValue_end (h : Handler) (fuel : Nat) (log : List Event) :
    parseValue mem h (fuel + 1) [] log = .throw .PARSE_EXPECT_VALUE log := by
  rw [parseValue]
  rfl

/-- C19. The end of the input where a value is required makes parse return
PARSE_EXPECT_VALUE: for the empty input and for every input made only of
white space, with no event, whatever the handler; and, with a handler that
never aborts, for every input that ends, after optional white space, right
after `[`, right after the comma of an element of an array or right after the
colon of a member of an object, at any depth, with the events emitted up to
there. -/
theorem expect_value (mem : List Nat) :
    (∀ (h : Handler) (ws : List Nat), allWs ws = true →
      parse mem h ws = .returned .PARSE_EXPECT_VALUE []) ∧
    (∀ (p : List Nat) (evs : List Event), ValuePosition p evs →
      parse mem Handler.accept p = .returned .PARSE_EXPECT_VALUE evs) := by
  refine ⟨fun h ws hws => ?_, fun p evs hp => ?_⟩
  · rw [parse_eq_finish, parseWhiteSpace_all hws, parseValue_end]
    rfl
  · have := @position_throw mem _ _ hp [] .PARSE_EXPECT_VALUE [] (by decide) (by decide)
      ⟨1, fun fuel hf log => by
        obtain ⟨f, rfl, -⟩ := exists_succ hf
        rw [parseValue_end, List.append_nil]⟩
    simpa only [List.append_nil] using this

/-- C19, witness: the inputs of two spaces, `[`, `[1, ` and `[1, {"a": ` -/
theorem expect_value_witness :
    parse [] Handler.accept [32, 32] = .returned .PARSE_EXPECT_VALUE [] ∧
    parse [] Handler.accept (bytes "[") = .returned .PARSE_EXPECT_VALUE [.StartArray] ∧
    parse [] Handler.accept (bytes "[1, ") = .returned .PARSE_EXPECT_VALUE [.StartArray, .Int32 1] ∧
    parse [] Handler.accept (bytes "[1, \x7b\"a\": ") =
      .returned .PARSE_EXPECT_VALUE [.StartArray, .Int32 1, .StartObject, .Key [97]] :=
  have h1 : ValueText true [49] [.Int32 1] :=
    ValueText.number false [49] [] [] [] [] (by decide) (by decide) (by decide) (by decide)
      (by decide) (by decide)
  have hd : ElementsDone [49, 44, 32] [.Int32 1] :=
    ElementsDone.cons [49] [] [32] [] [.Int32 1] [] h1 (by decide) (by decide) ElementsDone.nil
  have p0 : ValuePosition [] [] := ValuePosition.root [] (by decide)
  have p1 : ValuePosition (bytes "[1, ") [.StartArray, .Int32 1] :=
    ValuePosition.element [] [] [49, 44, 32] [] [.Int32 1] p0 (by decide) hd
  ⟨(expect_value []).1 Handler.accept [32, 32] (by decide),
    (expect_value []).2 _ _ (ValuePosition.element [] [] [] [] [] p0 (by decide) ElementsDone.nil),
    (expect_value []).2 _ _ p1,
    (expect_value []).2 _ _
      (ValuePosition.member (bytes "[1, ") [] [] [97] [97] [] [32] _ [] p1 (by decide)
        MembersDone.nil (StrBody.raw 97 _ _ (by decide) (by decide) (by decide) StrBody.nil)
        (by decide) (by decide))⟩

end Reader

/-! ## Objects -/

namespace Reader

end Reader

/-! ## The separators of the Writer -/

theorem compactText_ne_nil {evs : List Event} {text : List Nat} (h : CompactText evs text) :
    1 ≤ evs.length := by
  cases h <;> simp

theorem compactElements_ne_nil {es : List Event} {t : List Nat} (h : CompactElements es t) :
    1 ≤ es.length := by
  cases h with
  | one v t hv => exact compactText_ne_nil hv
  | more v es t ts hv _ =>
    have := compactText_ne_nil hv
    simp only [List.length_append]
    omega

theorem handle_scalar (w : Writer) {ev : Event} (hs : isScalar ev) :
    ∃ ty, Writer.handle w ev = (w.separator ty).map fun w => w.put (Writer.token ev) := by
  cases ev with
  | Null => exact ⟨.TYPE_NULL, rfl⟩
  | Bool b => exact ⟨.TYPE_BOOL, rfl⟩
  | Int32 i => exact ⟨.TYPE_INT32, rfl⟩
  | Int64 i => exact ⟨.TYPE_INT64, rfl⟩
  | Double d => exact ⟨.TYPE_DOUBLE, rfl⟩
  | String s =>
    refine ⟨.TYPE_STRING, ?_⟩
    simp only [Writer.handle, Writer.String, Writer.token, Writer.put, List.append_assoc,
      List.singleton_append, List.cons_append, List.nil_append]
  | Key s => exact absurd hs (by simp [isScalar])
  | StartObject => exact absurd hs (by simp [isScalar])
  | EndObject => exact absurd hs (by simp [isScalar])
  | StartArray => exact absurd hs (by simp [isScalar])
  | EndArray => exact absurd hs (by simp [isScalar])

theorem run_key (st : List Level) (os : List Nat) (sv : Bool) (k : Nat) (hk : k % 2 = 0)
    (s : List Nat) (evs : List Event) :
    Writer.run
        { stack_ := { inArray := false, valueCount := k } :: st, os_ := os, seeValue_ := sv }
        (.Key s :: evs) =
      Writer.run
        { stack_ := { inArray := false, valueCount := k + 1 } :: st,
          os_ := os ++ (if 0 < k then [44] else []) ++ Writer.token (.Key s),
          seeValue_ := true } evs := by
  have hh : Writer.handle
      { stack_ := { inArray := false, valueCount := k } :: st, os_ := os, seeValue_ := sv }
      (.Key s) =
      some { stack_ := { inArray := false, valueCount := k + 1 } :: st,
             os_ := os ++ (if 0 < k then [44] else []) ++ Writer.token (.Key s),
             seeValue_ := true } := by
    simp [Writer.handle, Writer.Key, separator_key k hk, Writer.put, Writer.token]
  rw [writer_run_cons hh]

/-- The Writer on the events of a value, of the elements of an array and of
the members of an object, for sequences of at most `n` events -/
theorem writer_compact (n : Nat) :
    (∀ (evs : List Event) (text : List Nat), evs.length ≤ n → CompactText evs text →
      ∀ w w1 : Writer, (∀ ty, Writer.separator w ty = some w1) →
        Writer.run w evs = some (w1.put text)) ∧
    (∀ (es : List Event) (t : List Nat), es.length ≤ n → CompactElements es t →
      ∀ (st : List Level) (os : List Nat) (sv : Bool) (k : Nat),
        Writer.run
            { stack_ := { inArray := true, valueCount := k } :: st, os_ := os, seeValue_ := sv }
            (es ++ [.EndArray]) =
          some { stack_ := st, os_ := os ++ (if 0 < k then [44] else []) ++ (t ++ [93]),
                 seeValue_ := true }) ∧
    (∀ (ms : List Event) (t : List Nat), ms.length ≤ n → CompactMembers ms t →
      ∀ (st : List Level) (os : List Nat) (sv : Bool) (k : Nat), k % 2 = 0 →
        Writer.run
            { stack_ := { inArray := false, valueCount := k } :: st, os_ := os, seeValue_ := sv }
            (ms ++ [.EndObject]) =
          some { stack_ := st, os_ := os ++ (if 0 < k then [44] else []) ++ (t ++ [125]),
                 seeValue_ := true }) := by
  induction n with
  | zero =>
    refine ⟨fun evs text hl h => ?_, fun es t hl h => ?_, fun ms t hl h => ?_⟩
    · have := compactText_ne_nil h; omega
    · have := compactElements_ne_nil h; omega
    · cases h <;> simp at hl
  | succ n ih =>
    obtain ⟨ihA, ihB, ihC⟩ := ih
    have hA : ∀ (evs : List Event) (text : List Nat), evs.length ≤ n + 1 →
        CompactText evs text → ∀ w w1 : Writer, (∀ ty, Writer.separator w ty = some w1) →
          Writer.run w evs = some (w1.put text) := by
      intro evs text hl h w w1 hsep
      cases h with
      | scalar ev hs =>
        obtain ⟨ty, e⟩ := handle_scalar w hs
        simp only [Writer.run, e, hsep ty, Option.map_some', Option.some_bind]
      | emptyArray =>
        simp [Writer.run, Writer.handle, Writer.StartArray, hsep, Writer.EndArray, Writer.put]
      | array es t he =>
        have hsv := separator_seeValue (hsep .TYPE_ARRAY)
        have hh : Writer.handle w .StartArray =
            some { stack_ := { inArray := true, valueCount := 0 } :: w1.stack_,
                   os_ := w1.os_ ++ [91], seeValue_ := w1.seeValue_ } := by
          simp [Writer.handle, Writer.StartArray, hsep, Writer.put]
        have hl2 : es.length ≤ n := by
          simp only [List.length_cons, List.length_append, List.length_nil] at hl
          omega
        rw [writer_run_cons hh, ihB es t hl2 he]
        simp [Writer.put, hsv]
      | emptyObject =>
        simp [Writer.run, Writer.handle, Writer.StartObject, hsep, Writer.EndObject, Writer.put]
      | object ms t hm =>
        have hsv := separator_seeValue (hsep .TYPE_OBJECT)
        have hh : Writer.handle w .StartObject =
            some { stack_ := { inArray := false, valueCount := 0 } :: w1.stack_,
                   os_ := w1.os_ ++ [123], seeValue_ := w1.seeValue_ } := by
          simp [Writer.handle, Writer.StartObject, hsep, Writer.put]
        have hl2 : ms.length ≤ n := by
          simp only [List.length_cons, List.length_append, List.length_nil] at hl
          omega
        rw [writer_run_cons hh, ihC ms t hl2 hm _ _ _ 0 rfl]
        simp [Writer.put, hsv]
    refine ⟨hA, fun es t hl h st os sv k => ?_, fun ms t hl h st os sv k hk => ?_⟩
    · cases h with
      | one v t hv =>
        rw [writer_run_append, hA es t hl hv _ _ (separator_inArray k st os sv)]
        simp [Writer.run, Writer.handle, Writer.EndArray, Writer.put]
      | more v es t ts hv hes =>
        have l1 := compactText_ne_nil hv
        have l2 := compactElements_ne_nil hes
        simp only [List.length_append] at hl
        rw [List.append_assoc, writer_run_append,
          ihA v t (by omega) hv _ _ (separator_inArray k st os sv)]
        simp only [Option.some_bind, Writer.put]
        rw [ihB es ts (by omega) hes]
        simp
    · cases h with
      | one key v t hv =>
        simp only [List.length_cons] at hl
        rw [List.cons_append, run_key st os sv k hk, writer_run_append,
          ihA v t (by omega) hv _ _ (separator_member (k + 1) (by omega) st _ true)]
        simp [Writer.run, Writer.handle, Writer.EndObject, Writer.put]
      | more key v ms t ts hv hms =>
        simp only [List.length_cons, List.length_append] at hl
        rw [List.cons_append, List.append_assoc, run_key st os sv k hk, writer_run_append,
          ihA v t (by omega) hv _ _ (separator_member (k + 1) (by omega) st _ true)]
        simp only [Option.some_bind, Writer.put]
        rw [ihC ms ts (by omega) hms _ _ _ _ (by omega)]
        simp

theorem wellNested_ne_nil {evs : List Event} (h : WellNested evs) : 1 ≤ evs.length := by
  cases h <;> simp

/-- Every well-nested event sequence has a compact text -/
theorem wellNested_compact (n : Nat) :
    (∀ evs : List Event, evs.length ≤ n → WellNested evs → ∃ t, CompactText evs t) ∧
    (∀ es : List Event, es.length ≤ n → Elements es → es ≠ [] → ∃ t, CompactElements es t) ∧
    (∀ ms : List Event, ms.length ≤ n → Members ms → ms ≠ [] → ∃ t, CompactMembers ms t) := by
  induction n with
  | zero =>
    refine ⟨fun evs hl h => ?_, fun es hl _ hne => ?_, fun ms hl _ hne => ?_⟩
    · have := wellNested_ne_nil h; omega
    · exact absurd (List.length_eq_zero.1 (by omega)) hne
    · exact absurd (List.length_eq_zero.1 (by omega)) hne
  | succ n ih =>
    obtain ⟨ihA, ihB, ihC⟩ := ih
    have hA : ∀ evs : List Event, evs.length ≤ n + 1 → WellNested evs →
        ∃ t, CompactText evs t := by
      intro evs hl h
      cases h with
      | scalar ev hs => exact ⟨_, CompactText.scalar ev hs⟩
      | array es hes =>
        by_cases he : es = []
        · subst he
          exact ⟨_, CompactText.emptyArray⟩
        · have hl2 : es.length ≤ n := by
            simp only [List.length_cons, List.length_append, List.length_nil] at hl
            omega
          obtain ⟨t, ht⟩ := ihB es hl2 hes he
          exact ⟨_, CompactText.array es t ht⟩
      | object ms hms =>
        by_cases he : ms = []
        · subst he
          exact ⟨_, CompactText.emptyObject⟩
        · have hl2 : ms.length ≤ n := by
            simp only [List.length_cons, List.length_append, List.length_nil] at hl
            omega
          obtain ⟨t, ht⟩ := ihC ms hl2 hms he
          exact ⟨_, CompactText.object ms t ht⟩
    refine ⟨hA, fun es hl h hne => ?_, fun ms hl h hne => ?_⟩
    · cases h with
      | nil => exact absurd rfl hne
      | cons v es2 hv hes =>
        have l1 := wellNested_ne_nil hv
        simp only [List.length_append] at hl
        by_cases he : es2 = []
        · subst he
          rw [List.append_nil]
          obtain ⟨t, ht⟩ := hA v (by simpa using hl) hv
          exact ⟨t, CompactElements.one v t ht⟩
        · have l2 : 1 ≤ es2.length := by
            cases es2 with
            | nil => exact absurd rfl he
            | cons a b => simp
          obtain ⟨t, ht⟩ := ihA v (by omega) hv
          obtain ⟨ts, hts⟩ := ihB es2 (by omega) hes he
          exact ⟨_, CompactElements.more v es2 t ts ht hts⟩
    · cases h with
      | nil => exact absurd rfl hne
      | cons k v ms2 hv hms =>
        simp only [List.length_cons, List.length_append] at hl
        obtain ⟨t, ht⟩ := ihA v (by omega) hv
        by_cases he : ms2 = []
        · subst he
          rw [List.append_nil]
          exact ⟨_, CompactMembers.one k v t ht⟩
        · obtain ⟨ts, hts⟩ := ihC ms2 (by omega) hms he
          exact ⟨_, CompactMembers.more k v ms2 t ts ht hts⟩

/-- C20. The separators of the Writer: every balanced, well-nested event
sequence has a compact JSON text, and a fresh Writer that receives the
sequence writes exactly that text, without a failed assertion and without
white space: `[` and `]` around an array, with a comma before the second and
each later element and none before the first; `{` and `}` around an object,
with a comma before each key beyond the first and a colon before the value of
each member; nothing before the root value.  The events of
example_generateJSON give `{"B":["ByteDance","BaiDu"],"A":"Alibaba","T":"Tencent"}`. -/
theorem separator_policy :
    (∀ evs : List Event, WellNested evs → ∃ text, CompactText evs text) ∧
    (∀ (evs : List Event) (text : List Nat), CompactText evs text →
      Writer.run Writer.init evs = some { stack_ := [], os_ := text, seeValue_ := true }) ∧
    ((Writer.run Writer.init [.StartObject, .Key (bytes "B"), .StartArray,
        .String (bytes "ByteDance"), .String (bytes "BaiDu"), .EndArray, .Key (bytes "A"),
        .String (bytes "Alibaba"), .Key (bytes "T"), .String (bytes "Tencent"),
        .EndObject]).map (fun w => w.os_) =
      some (bytes
        "\x7b\"B\":[\"ByteDance\",\"BaiDu\"],\"A\":\"Alibaba\",\"T\":\"Tencent\"\x7d")) := by
  refine ⟨fun evs h => (wellNested_compact evs.length).1 evs (Nat.le_refl _) h,
    fun evs text h => ?_, by decide⟩
  have := (writer_compact evs.length).1 evs text (Nat.le_refl _) h Writer.init _ separator_root
  simpa [Writer.put] using this

/-- C20, witness: the events of `[1,[],{"a":null}]`, a well-nested sequence -/
theorem separator_policy_witness :
    WellNested [.StartArray, .Int32 1, .StartArray, .EndArray, .StartObject, .Key [97], .Null,
      .EndObject, .EndArray] ∧
    CompactText [.StartArray, .Int32 1, .StartArray, .EndArray, .StartObject, .Key [97], .Null,
      .EndObject, .EndArray] (bytes "[1,[],\x7b\"a\":null\x7d]") ∧
    Writer.run Writer.init [.StartArray, .Int32 1, .StartArray, .EndArray, .StartObject,
        .Key [97], .Null, .EndObject, .EndArray] =
      some { stack_ := [], os_ := bytes "[1,[],\x7b\"a\":null\x7d]", seeValue_ := true } :=
  have hc : CompactText [.StartArray, .Int32 1, .StartArray, .EndArray, .StartObject,
      .Key [97], .Null, .EndObject, .EndArray] (bytes "[1,[],\x7b\"a\":null\x7d]") :=
    CompactText.array _ _
      (CompactElements.more [.Int32 1] _ [49] _ (CompactText.scalar (.Int32 1) trivial)
        (CompactElements.more [.StartArray, .EndArray] _ [91, 93] _ CompactText.emptyArray
          (CompactElements.one _ _
            (CompactText.object [.Key [97], .Null] _
              (CompactMembers.one [97] [.Null] _ (CompactText.scalar .Null trivial))))))
  ⟨WellNested.array _
      (Elements.cons [.Int32 1] _ (WellNested.scalar _ trivial)
        (Elements.cons [.StartArray, .EndArray] _ (WellNested.array [] Elements.nil)
          (Elements.cons [.StartObject, .Key [97], .Null, .EndObject] []
            (WellNested.object [.Key [97], .Null]
              (Members.cons [97] [.Null] [] (WellNested.scalar _ trivial) Members.nil))
            Elements.nil))),
    hc, separator_policy.2.1 _ _ hc⟩


/-! ## Writer::String and Writer::Key -/

/-- C21. In every state of the Writer in which a string may be written,
`Writer::String(s)` emits, after the separator, a double quote, then for each
byte of `s` in order its escape, then a double quote.  The escape of a byte is
backslash and `"` for 0x22, backslash and backslash for 0x5C, backslash and
`b`, `f`, `n`, `r`, `t` for 0x08, 0x0C, 0x0A, 0x0D, 0x09, the six bytes
`\u00XX` with the two upper-case hexadecimal digits of the byte for every other
byte below 0x20, and the byte itself otherwise. -/
theorem writer_string_escaping (w w1 : Writer) (s : List Nat)
    (hs : w.separator .TYPE_STRING = some w1) :
    w.String s = some (w1.put ([34] ++ s.flatMap Writer.escape ++ [34])) ∧
    Writer.escape 0x22 = [92, 34] ∧ Writer.escape 0x5C = [92, 92] ∧
    Writer.escape 0x08 = [92, 98] ∧ Writer.escape 0x0C = [92, 102] ∧
    Writer.escape 0x0A = [92, 110] ∧ Writer.escape 0x0D = [92, 114] ∧
    Writer.escape 0x09 = [92, 116] ∧
    (∀ u, u < 0x20 → u ∉ [0x08, 0x0C, 0x0A, 0x0D, 0x09] →
      Writer.escape u = [92, 117, 48, 48] ++ [(bytes "0123456789ABCDEF").getD (u / 16) 0,
        (bytes "0123456789ABCDEF").getD (u % 16) 0]) ∧
    (∀ u, 0x20 ≤ u → u ≠ 0x22 → u ≠ 0x5C → Writer.escape u = [u]) := by
  refine ⟨?_, rfl, rfl, rfl, rfl, rfl, rfl, rfl, ?_, ?_⟩
  · simp only [Writer.String, hs, Option.map_some', Writer.put, List.append_assoc]
  · intro u hu hn
    interval_cases u <;> first | rfl | (exact absurd (by decide) hn)
  · intro u h1 h2 h3
    unfold Writer.escape
    rw [if_neg h2, if_neg h3, if_neg (by omega), if_neg (by omega), if_neg (by omega),
      if_neg (by omega), if_neg (by omega), if_neg (by omega)]

/-- C21, witness: the string of the bytes `a`, 0x0A, 0x1F, `"` and 0xC3 on a
fresh writer -/
theorem writer_string_escaping_witness :
    (Writer.init.String [97, 10, 31, 34, 195]).map Writer.os_ =
      some [34, 97, 92, 110, 92, 117, 48, 48, 49, 70, 92, 34, 195, 34] ∧
    Writer.escape 31 = [92, 117, 48, 48, 49, 70] :=
  ⟨by
    rw [(writer_string_escaping Writer.init _ [97, 10, 31, 34, 195]
      (separator_root .TYPE_STRING)).1]
    rfl,
   by
    have h := (writer_string_escaping Writer.init _ [] (separator_root .TYPE_STRING)).2.2.2.2.2.2.2.2.1
    exact (h 31 (by decide) (by decide)).trans rfl⟩

/-- C26. For every byte string `s`, the byte 0x00 and the bytes from 0x80 on
included, the text that `Writer::String(s)` writes on a fresh writer is read by
`Reader::parse` with PARSE_OK and exactly the event `String(s)`. -/
theorem string_round_trip (mem : List Nat) (s : List Nat) :
    ∃ text, (Writer.run Writer.init [.String s]).map Writer.os_ = some text ∧
      Reader.parse mem Handler.accept text = .returned .PARSE_OK [.String s] := by
  refine ⟨34 :: (s.flatMap Writer.escape ++ [34]), ?_, Reader.parse_strBody (strBody_escape s)⟩
  simp [Writer.run, Writer.handle, Writer.String, separator_root, Writer.put]

/-- C28. `Writer::Key` writes the bytes of a key between two double quotes as
they are, where `Writer::String` escapes them: in an object just opened, the key
of the one byte `"` is written as three double quotes and the same string as a
value would be written `"\""`; the text written for the object with this key
and the value null is not read back. -/
theorem key_not_escaped :
    ((Writer.run Writer.init [.StartObject]).bind fun w => w.Key [34]).map Writer.os_ =
      some [123, 34, 34, 34] ∧
    ((Writer.run Writer.init [.StartObject]).bind fun w => w.String [34]).map Writer.os_ =
      some [123, 34, 92, 34, 34] ∧
    (Writer.run Writer.init [.StartObject, .Key [34], .Null, .EndObject]).map Writer.os_ =
      some (bytes "\x7b\"\"\":null\x7d") ∧
    Reader.parse [] Handler.accept (bytes "\x7b\"\"\":null\x7d") =
      .returned .PARSE_MISS_COLON [.StartObject, .Key []] := by
  refine ⟨by decide, by decide, by decide, by decide⟩

/-! ## Writer::Double -/

set_option maxRecDepth 100000 in
/-- C22, the code diverges from the claim.  The finite double 1e22 is rendered
`1e+22` by `%.17g`; the rendering has no `.`, so that `Writer::Double` appends
`.0` and writes `1e+22.0`, which is no number of the grammar: `Reader::parse`
emits Double(1e22) for `1e+22` and returns PARSE_ROOT_NOT_SINGULAR at the `.`.
The same happens to the double 1e17, written `1e+17.0`. -/
theorem double_text_not_reread :
    (Dbl.normal (.fin false 4768371582031250 21) = true ∧
      Libc.sprintf17g false 4768371582031250 21 = bytes "1e+22" ∧
      (Writer.run Writer.init [.Double (.fin false 4768371582031250 21)]).map Writer.os_ =
        some (bytes "1e+22.0") ∧
      Reader.parse [] Handler.accept (bytes "1e+22.0") =
        .returned .PARSE_ROOT_NOT_SINGULAR [.Double (.fin false 4768371582031250 21)]) ∧
    (Dbl.normal (.fin false 6250000000000000 4) = true ∧
      (Writer.run Writer.init [.Double (.fin false 6250000000000000 4)]).map Writer.os_ =
        some (bytes "1e+17.0") ∧
      Reader.parse [] Handler.accept (bytes "1e+17.0") =
        .returned .PARSE_ROOT_NOT_SINGULAR [.Double (.fin false 6250000000000000 4)]) :=
  ⟨⟨by decide, by decide, by decide, by decide⟩, by decide, by decide, by decide⟩

/-! ## countDigits, itoa and the integers of the Writer -/

theorem digits_length_eq (c n : Nat) (hc : 1 ≤ c) (hlt : n < 10 ^ c)
    (hge : 2 ≤ c → 10 ^ (c - 1) ≤ n) (hn : n ≠ 0) : (Nat.digits 10 n).length = c := by
  rw [Nat.digits_len 10 n (by decide) hn]
  have h1 : 10 ^ (c - 1) ≤ n := by
    by_cases h2 : 2 ≤ c
    · exact hge h2
    · have : c = 1 := by omega
      subst this
      simp only [Nat.sub_self, pow_zero]
      omega
  have : Nat.log 10 n = c - 1 := by
    rw [Nat.log_eq_iff (Or.inr ⟨by decide, hn⟩)]
    refine ⟨h1, ?_⟩
    rw [show c - 1 + 1 = c by omega]
    exact hlt
  omega

theorem decDigits_digits (w : Nat) : ∀ n : Nat, 10 ^ w ≤ n → n < 10 ^ (w + 1) →
    decDigits (w + 1) n = (Nat.digits 10 n).reverse.map (48 + ·) := by
  induction w with
  | zero =>
    intro n h1 h2
    have hn : 0 < n := by simpa using h1
    have e : n / 10 = 0 := by omega
    rw [Nat.digits_def' (by decide) hn, e]
    simp [decDigits]
  | succ w ih =>
    intro n h1 h2
    have hp : 0 < 10 ^ (w + 1) := by positivity
    have hn : 0 < n := by omega
    have e1 : 10 ^ (w + 1) = 10 ^ w * 10 := by ring
    have e2 : 10 ^ (w + 1 + 1) = 10 ^ (w + 1) * 10 := by ring
    have h3 : 10 ^ w ≤ n / 10 := by
      rw [Nat.le_div_iff_mul_le (by decide)]; omega
    have h4 : n / 10 < 10 ^ (w + 1) := by
      rw [Nat.div_lt_iff_lt_mul (by decide)]; omega
    rw [Nat.digits_def' (by decide) hn]
    rw [decDigits, ih (n / 10) h3 h4]
    simp

theorem decDigits_canonical (c n : Nat) (hc : 1 ≤ c) (hlt : n < 10 ^ c)
    (hge : 2 ≤ c → 10 ^ (c - 1) ≤ n) :
    decDigits c n = if n = 0 then [48] else (Nat.digits 10 n).reverse.map (48 + ·) := by
  obtain ⟨w, rfl⟩ : ∃ w, c = w + 1 := ⟨c - 1, by omega⟩
  by_cases hn : n = 0
  · subst hn
    rw [if_pos rfl]
    have : w = 0 := by
      by_contra hw
      have := hge (by omega)
      have hp : 0 < 10 ^ (w + 1 - 1) := by positivity
      omega
    subst this
    rfl
  · rw [if_neg hn]
    refine decDigits_digits w n ?_ hlt
    by_cases hw : w = 0
    · subst hw; simp only [pow_zero]; omega
    · simpa using hge (by omega)

/-- Writer.hpp:117-126: the count that `itoa(int32_t)` returns and the bytes
that it leaves in a buffer of 11 bytes -/
theorem itoa32_canonical (val : Int) (h : fitsInt32 val) :
    (itoa32 val (List.replicate 11 0)).1 ≤ 11 ∧
    (itoa32 val (List.replicate 11 0)).1 = (canonicalDecimal val).length ∧
    (itoa32 val (List.replicate 11 0)).2.take (itoa32 val (List.replicate 11 0)).1 =
      canonicalDecimal val := by
  obtain ⟨h1, h2⟩ := h
  by_cases hneg : val < 0
  · have hu : ((4294967295 - (val % 4294967296).toNat) + 1) % 4294967296 = (-val).toNat := by
      omega
    have hab : val.natAbs = (-val).toNat := by omega
    have h0 : val ≠ 0 := by omega
    have hn0 : (-val).toNat ≠ 0 := by omega
    obtain ⟨c1, c2, c3, c4⟩ := countDigits32_spec (-val).toNat (by omega)
    obtain ⟨a, b⟩ := itoa_spec (countDigits32 (-val).toNat) (-val).toNat
      (List.replicate 10 0) c1 (by simpa using c2) c3 c4
    have hd := decDigits_canonical _ _ c1 c3 c4
    rw [if_neg hn0] at hd
    have hl := decDigits_length (countDigits32 (-val).toNat) (-val).toNat
    have e1 : (itoa32 val (List.replicate 11 0)).1 = 1 + countDigits32 (-val).toNat := by
      simp only [itoa32, if_pos hneg, hu]
      rw [show (List.replicate 11 0 : List Nat).tail = List.replicate 10 0 by rfl, a]
    have e2 : (itoa32 val (List.replicate 11 0)).2.take (1 + countDigits32 (-val).toNat) =
        45 :: decDigits (countDigits32 (-val).toNat) (-val).toNat := by
      simp only [itoa32, if_pos hneg, hu]
      rw [show (List.replicate 11 0 : List Nat).tail = List.replicate 10 0 by rfl,
        Nat.add_comm, List.take_succ_cons, b]
    have e3 : canonicalDecimal val = 45 :: decDigits (countDigits32 (-val).toNat) (-val).toNat := by
      simp only [canonicalDecimal, if_pos hneg, if_neg h0, hab, hd, List.singleton_append]
    rw [e1, e2, e3]
    refine ⟨by omega, ?_, rfl⟩
    simp only [List.length_cons, hl]
    omega
  · have hu : (val % 4294967296).toNat = val.toNat := by omega
    have hab : val.natAbs = val.toNat := by omega
    obtain ⟨c1, c2, c3, c4⟩ := countDigits32_spec val.toNat (by omega)
    obtain ⟨a, b⟩ := itoa_spec (countDigits32 val.toNat) val.toNat
      (List.replicate 11 0) c1 (by simp; omega) c3 c4
    have hd := decDigits_canonical _ _ c1 c3 c4
    have hl := decDigits_length (countDigits32 val.toNat) val.toNat
    have e1 : (itoa32 val (List.replicate 11 0)).1 = countDigits32 val.toNat := by
      simp only [itoa32, if_neg hneg, hu, a]
    have e2 : (itoa32 val (List.replicate 11 0)).2.take (countDigits32 val.toNat) =
        decDigits (countDigits32 val.toNat) val.toNat := by
      simp only [itoa32, if_neg hneg, hu, b]
    have e3 : canonicalDecimal val = decDigits (countDigits32 val.toNat) val.toNat := by
      have e0 : (val = 0) = (val.toNat = 0) := by
        apply propext; constructor <;> intro h <;> omega
      simp only [canonicalDecimal, if_neg hneg, List.nil_append, hab, hd, e0]
    rw [e1, e2, e3]
    exact ⟨by omega, hl.symm, rfl⟩

/-- Writer.hpp:127-136: the count that `itoa(int64_t)` returns and the bytes
that it leaves in a buffer of 20 bytes -/
theorem itoa64_canonical (val : Int) (h : fitsInt64 val) :
    (itoa64 val (List.replicate 20 0)).1 ≤ 20 ∧
    (itoa64 val (List.replicate 20 0)).1 = (canonicalDecimal val).length ∧
    (itoa64 val (List.replicate 20 0)).2.take (itoa64 val (List.replicate 20 0)).1 =
      canonicalDecimal val := by
  obtain ⟨h1, h2⟩ := h
  by_cases hneg : val < 0
  · have hu : ((18446744073709551615 - (val % 18446744073709551616).toNat) + 1) %
        18446744073709551616 = (-val).toNat := by
      omega
    have hab : val.natAbs = (-val).toNat := by omega
    have h0 : val ≠ 0 := by omega
    have hn0 : (-val).toNat ≠ 0 := by omega
    obtain ⟨c1, c2, c3, c4⟩ := countDigits64_spec (-val).toNat (by omega)
    have c5 : countDigits64 (-val).toNat ≤ 19 := by
      by_contra hc
      have e : countDigits64 (-val).toNat = 20 := by omega
      rw [e] at c4
      have := c4 (by decide)
      simp at this
      omega
    obtain ⟨a, b⟩ := itoa_spec (countDigits64 (-val).toNat) (-val).toNat
      (List.replicate 19 0) c1 (by simpa using c5) c3 c4
    have hd := decDigits_canonical _ _ c1 c3 c4
    rw [if_neg hn0] at hd
    have hl := decDigits_length (countDigits64 (-val).toNat) (-val).toNat
    have e1 : (itoa64 val (List.replicate 20 0)).1 = 1 + countDigits64 (-val).toNat := by
      simp only [itoa64, if_pos hneg, hu]
      rw [show (List.replicate 20 0 : List Nat).tail = List.replicate 19 0 by rfl, a]
    have e2 : (itoa64 val (List.replicate 20 0)).2.take (1 + countDigits64 (-val).toNat) =
        45 :: decDigits (countDigits64 (-val).toNat) (-val).toNat := by
      simp only [itoa64, if_pos hneg, hu]
      rw [show (List.replicate 20 0 : List Nat).tail = List.replicate 19 0 by rfl,
        Nat.add_comm, List.take_succ_cons, b]
    have e3 : canonicalDecimal val = 45 :: decDigits (countDigits64 (-val).toNat) (-val).toNat := by
      simp only [canonicalDecimal, if_pos hneg, if_neg h0, hab, hd, List.singleton_append]
    rw [e1, e2, e3]
    refine ⟨by omega, ?_, rfl⟩
    simp only [List.length_cons, hl]
    omega
  · have hu : (val % 18446744073709551616).toNat = val.toNat := by omega
    have hab : val.natAbs = val.toNat := by omega
    obtain ⟨c1, c2, c3, c4⟩ := countDigits64_spec val.toNat (by omega)
    obtain ⟨a, b⟩ := itoa_spec (countDigits64 val.toNat) val.toNat
      (List.replicate 20 0) c1 (by simp; omega) c3 c4
    have hd := decDigits_canonical _ _ c1 c3 c4
    have hl := decDigits_length (countDigits64 val.toNat) val.toNat
    have e1 : (itoa64 val (List.replicate 20 0)).1 = countDigits64 val.toNat := by
      simp only [itoa64, if_neg hneg, hu, a]
    have e2 : (itoa64 val (List.replicate 20 0)).2.take (countDigits64 val.toNat) =
        decDigits (countDigits64 val.toNat) val.toNat := by
      simp only [itoa64, if_neg hneg, hu, b]
    have e3 : canonicalDecimal val = decDigits (countDigits64 val.toNat) val.toNat := by
      have e0 : (val = 0) = (val.toNat = 0) := by
        apply propext; constructor <;> intro h <;> omega
      simp only [canonicalDecimal, if_neg hneg, List.nil_append, hab, hd, e0]
    rw [e1, e2, e3]
    exact ⟨by omega, hl.symm, rfl⟩

/-- C29. `countDigits` is the number of decimal digits of every unsigned 32-bit
and 64-bit number, and 1 for 0.  For every signed 32-bit value `itoa` returns a
count of at most 11, and for every signed 64-bit value a count of at most 20,
the least values included; the count is the length of the canonical decimal
representation of the value, and the first bytes of the buffer, of 11 and of 20
bytes as in `Writer::Int32` and `Writer::Int64`, are this representation. -/
theorem decimal_formatting (n : Nat) (v : Int) :
    (n < 4294967296 → countDigits32 n = if n = 0 then 1 else (Nat.digits 10 n).length) ∧
    (n < 18446744073709551616 →
      countDigits64 n = if n = 0 then 1 else (Nat.digits 10 n).length) ∧
    (fitsInt32 v →
      (itoa32 v (List.replicate 11 0)).1 ≤ 11 ∧
      (itoa32 v (List.replicate 11 0)).1 = (canonicalDecimal v).length ∧
      (itoa32 v (List.replicate 11 0)).2.take (itoa32 v (List.replicate 11 0)).1 =
        canonicalDecimal v) ∧
    (fitsInt64 v →
      (itoa64 v (List.replicate 20 0)).1 ≤ 20 ∧
      (itoa64 v (List.replicate 20 0)).1 = (canonicalDecimal v).length ∧
      (itoa64 v (List.replicate 20 0)).2.take (itoa64 v (List.replicate 20 0)).1 =
        canonicalDecimal v) := by
  refine ⟨fun hn => ?_, fun hn => ?_, itoa32_canonical v, itoa64_canonical v⟩
  · by_cases h0 : n = 0
    · subst h0; rfl
    · obtain ⟨c1, -, c3, c4⟩ := countDigits32_spec n hn
      rw [if_neg h0, digits_length_eq _ n c1 c3 c4 h0]
  · by_cases h0 : n = 0
    · subst h0; rfl
    · obtain ⟨c1, -, c3, c4⟩ := countDigits64_spec n hn
      rw [if_neg h0, digits_length_eq _ n c1 c3 c4 h0]

/-- C29, witness: the greatest unsigned 32-bit and 64-bit numbers have 10 and
20 digits, and the least signed values are written with 11 and 20 bytes -/
theorem decimal_formatting_witness :
    (countDigits32 4294967295 = 10 ∧ countDigits64 18446744073709551615 = 20) ∧
    ((itoa32 (-2147483648) (List.replicate 11 0)).1 ≤ 11 ∧
      (itoa32 (-2147483648) (List.replicate 11 0)).2.take
        (itoa32 (-2147483648) (List.replicate 11 0)).1 = bytes "-2147483648") ∧
    ((itoa64 (-9223372036854775808) (List.replicate 20 0)).1 ≤ 20 ∧
      (itoa64 (-9223372036854775808) (List.replicate 20 0)).2.take
        (itoa64 (-9223372036854775808) (List.replicate 20 0)).1 =
          bytes "-9223372036854775808") := by
  have a := (decimal_formatting 4294967295 (-2147483648)).1 (by decide)
  have b := (decimal_formatting 18446744073709551615 (-9223372036854775808)).2.1 (by decide)
  have c := (decimal_formatting 0 (-2147483648)).2.2.1 (by decide)
  have d := (decimal_formatting 0 (-9223372036854775808)).2.2.2 (by decide)
  have e1 : canonicalDecimal (-2147483648) = bytes "-2147483648" := by
    simp [canonicalDecimal, bytes]
  have e2 : canonicalDecimal (-9223372036854775808) = bytes "-9223372036854775808" := by
    simp [canonicalDecimal, bytes]
  refine ⟨⟨?_, ?_⟩, ⟨c.1, c.2.2.trans e1⟩, ⟨d.1, d.2.2.trans e2⟩⟩
  · rw [a]; simp
  · rw [b]; simp

/-- The canonical decimal representation of a 64-bit value is a number of the
grammar that denotes the value, as an Int32 where it fits -/
theorem valueText_canonical (v : Int) (h64 : fitsInt64 v) :
    ValueText true (canonicalDecimal v) [narrow (.Int64 v)] := by
  obtain ⟨ip, i1, i2, i3⟩ := itoa64_text v h64
  rw [← (itoa64_canonical v h64).2.2, i3]
  exact valueText_int _ ip v i1 i2 h64

/-- The integer round trip where the conversion stops at the end of the text.
For every 64-bit value `v`, `Writer::Int64` writes the canonical
decimal representation of `v`, a sign and digits without a type suffix, and so
does `Writer::Int32` if `v` is a 32-bit value; `Reader::parse` reads this text,
when the byte that follows it in memory is not a digit, with PARSE_OK as the
one event Int32(v) if `v` fits 32 bits and Int64(v) otherwise.  The value that
is read from `42i64` is Int64(42), and it is written back as `42`. -/
theorem integer_round_trip (mem : List Nat) (v : Int) (h64 : fitsInt64 v) :
    (Writer.run Writer.init [.Int64 v]).map Writer.os_ = some (canonicalDecimal v) ∧
    (fitsInt32 v →
      (Writer.run Writer.init [.Int32 v]).map Writer.os_ = some (canonicalDecimal v)) ∧
    (Reader.isDigit (peek mem) = false →
      Reader.parse mem Handler.accept (canonicalDecimal v) =
        .returned .PARSE_OK [if fitsInt32 v then .Int32 v else .Int64 v]) ∧
    Reader.parse mem Handler.accept (bytes "42i64") = .returned .PARSE_OK [.Int64 42] ∧
    (Writer.run Writer.init [.Int64 42]).map Writer.os_ = some (bytes "42") := by
  refine ⟨?_, fun h32 => ?_, fun hm => ?_, rfl, by decide⟩
  · simp only [Writer.run, Writer.handle, Writer.Int64, separator_root, Writer.put,
      (itoa64_canonical v h64).2.2, Option.map_some', Option.some_bind, List.nil_append]
  · simp only [Writer.run, Writer.handle, Writer.Int32, separator_root, Writer.put,
      (itoa32_canonical v h32).2.2, Option.map_some', Option.some_bind, List.nil_append]
  · obtain ⟨ip, i1, i2, i3⟩ := itoa64_text v h64
    rw [← (itoa64_canonical v h64).2.2, i3, Reader.parse_integer_text _ i1 hm, i2]
    by_cases h32 : fitsInt32 v
    · simp only [if_pos h32]
    · simp only [if_neg h32, if_pos h64]

/-- In a view that a NUL follows, the least 64-bit value is read back as an
Int64, the least 32-bit value as an Int32 -/
theorem integer_round_trip_example :
    Reader.parse [] Handler.accept (canonicalDecimal (-9223372036854775808)) =
      .returned .PARSE_OK [.Int64 (-9223372036854775808)] ∧
    Reader.parse [] Handler.accept (canonicalDecimal (-2147483648)) =
      .returned .PARSE_OK [.Int32 (-2147483648)] := by
  have a := (integer_round_trip [] (-9223372036854775808) (by decide)).2.2.1 (by decide)
  have b := (integer_round_trip [] (-2147483648) (by decide)).2.2.1 (by decide)
  rw [if_neg (by decide)] at a
  rw [if_pos (by decide)] at b
  exact ⟨a, b⟩

/-- C27, the code diverges from the claim.  `Writer::Int32(7)` writes the one
byte `7`.  The buffer of `StringWriteStream` is a `vector<char>` and its view
has no terminator; the parser converts in place, and `strtol` reads the bytes
that follow the view.  Where the byte `0` follows, as for the view of the first
byte of the buffer `70`, the event is Int32(70), not Int32(7); where a NUL
follows, it is Int32(7). -/
theorem integer_round_trip_diverges :
    (Writer.run Writer.init [.Int32 7]).map Writer.os_ = some (bytes "7") ∧
    Reader.parse (bytes "0") Handler.accept (bytes "7") = .returned .PARSE_OK [.Int32 70] ∧
    Reader.parse [] Handler.accept (bytes "7") = .returned .PARSE_OK [.Int32 7] := by
  decide

/-! ## Value::writeTo and the answers of the handler -/

theorem not_keyLast_snoc (l : List Event) {ev : Event} (hev : ∀ s, ev ≠ .Key s) :
    ¬keyLast (l ++ [ev]) := by
  rintro ⟨l1, s, e⟩
  have := List.append_inj_right' e rfl
  simp only [List.cons.injEq, and_true] at this
  exact hev s this

theorem answered_refl (h : Handler) (log : List Event) : Value.Answered h log log := by
  intro k h1 h2; omega

theorem answered_trans {h : Handler} {log0 l1 l2 : List Event} (_ : log0 <+: l1)
    (p2 : l1 <+: l2) (a1 : Value.Answered h log0 l1) (a2 : Value.Answered h l1 l2) :
    Value.Answered h log0 l2 := by
  intro k h1 h2 hk
  by_cases hle : k ≤ l1.length
  · obtain ⟨t, rfl⟩ := p2
    rw [List.take_append_of_le_length hle] at hk ⊢
    exact a1 k h1 hle hk
  · exact a2 k (by omega) h2 hk

theorem answered_snoc {h : Handler} {log : List Event} {ev : Event}
    (ha : keyLast (log ++ [ev]) ∨ h (log ++ [ev]) = true) :
    Value.Answered h log (log ++ [ev]) := by
  intro k h1 h2 hk
  have : k = (log ++ [ev]).length := by
    simp only [List.length_append, List.length_singleton] at h2 ⊢; omega
  rw [this, List.take_length] at hk ⊢
  rcases ha with ha | ha
  · exact absurd ha hk
  · exact ha

theorem stops_trans {h : Handler} {log0 l1 : List Event} {r : WriteRes} (p1 : log0 <+: l1)
    (a1 : Value.Answered h log0 l1) (hs : Value.Stops h l1 r) : Value.Stops h log0 r := by
  cases r with
  | returned b log =>
    cases b with
    | true =>
      obtain ⟨p2, a2⟩ := hs
      exact ⟨p1.trans p2, answered_trans p1 p2 a1 a2⟩
    | false =>
      obtain ⟨l, ev, e, p2, hev, hf, a2⟩ := hs
      exact ⟨l, ev, e, p1.trans p2, hev, hf, answered_trans p1 p2 a1 a2⟩
  | abort log =>
    obtain ⟨p2, a2⟩ := hs
    exact ⟨p1.trans p2, answered_trans p1 p2 a1 a2⟩

theorem stops_call (h : Handler) (log : List Event) {ev : Event} (hev : ∀ s, ev ≠ .Key s) :
    Value.Stops h log (Value.CALL h ev log) := by
  unfold Value.CALL
  cases hc : h (log ++ [ev]) with
  | true => exact ⟨List.prefix_append _ _, answered_snoc (Or.inr hc)⟩
  | false => exact ⟨log, ev, rfl, List.prefix_refl _, hev, hc, answered_refl h log⟩

mutual

/-- Value.hpp:354-393: writeTo stops at the first call, other than Key, that
the handler answers false -/
theorem writeTo_stops (h : Handler) : ∀ (V : Value) (log : List Event),
    Value.Stops h log (V.writeTo h log)
  | .Null, log => stops_call h log (fun _ => by simp)
  | .Bool _, log => stops_call h log (fun _ => by simp)
  | .Int32 _, log => stops_call h log (fun _ => by simp)
  | .Int64 _, log => stops_call h log (fun _ => by simp)
  | .Double _, log => stops_call h log (fun _ => by simp)
  | .String _, log => stops_call h log (fun _ => by simp)
  | .Array a, log => by
    unfold Value.writeTo
    by_cases hc : h (log ++ [.StartArray]) = true
    · rw [if_pos hc]
      have p1 : log <+: log ++ [.StartArray] := List.prefix_append _ _
      have a1 : Value.Answered h log (log ++ [.StartArray]) := answered_snoc (Or.inr hc)
      have hr := writeArray_stops h a (log ++ [.StartArray])
      revert hr
      cases Value.writeArray h a (log ++ [.StartArray]) with
      | returned b l =>
        cases b with
        | true =>
          intro hr
          exact stops_trans p1 a1 (stops_trans hr.1 hr.2 (stops_call h l (fun _ => by simp)))
        | false => intro hr; exact stops_trans p1 a1 hr
      | abort l => intro hr; exact stops_trans p1 a1 hr
    · rw [if_neg hc]
      exact ⟨log, .StartArray, rfl, List.prefix_refl _, fun _ => by simp, by simpa using hc,
        answered_refl h log⟩
  | .Object o, log => by
    unfold Value.writeTo
    by_cases hc : h (log ++ [.StartObject]) = true
    · rw [if_pos hc]
      have p1 : log <+: log ++ [.StartObject] := List.prefix_append _ _
      have a1 : Value.Answered h log (log ++ [.StartObject]) := answered_snoc (Or.inr hc)
      have hr := writeObject_stops h o (log ++ [.StartObject])
      revert hr
      cases Value.writeObject h o (log ++ [.StartObject]) with
      | returned b l =>
        cases b with
        | true =>
          intro hr
          exact stops_trans p1 a1 (stops_trans hr.1 hr.2 (stops_call h l (fun _ => by simp)))
        | false => intro hr; exact stops_trans p1 a1 hr
      | abort l => intro hr; exact stops_trans p1 a1 hr
    · rw [if_neg hc]
      exact ⟨log, .StartObject, rfl, List.prefix_refl _, fun _ => by simp, by simpa using hc,
        answered_refl h log⟩

theorem writeArray_stops (h : Handler) : ∀ (a : List Value) (log : List Event),
    Value.Stops h log (Value.writeArray h a log)
  | [], log => ⟨List.prefix_refl _, answered_refl h log⟩
  | val :: vals, log => by
    unfold Value.writeArray
    have hr := writeTo_stops h val log
    revert hr
    cases Value.writeTo h val log with
    | returned b l =>
      cases b with
      | true => intro hr; exact stops_trans hr.1 hr.2 (writeArray_stops h vals l)
      | false => intro hr; exact hr
    | abort l => intro hr; exact hr

theorem writeObject_stops (h : Handler) : ∀ (o : List (Value × Value)) (log : List Event),
    Value.Stops h log (Value.writeObject h o log)
  | [], log => ⟨List.prefix_refl _, answered_refl h log⟩
  | (key, value) :: members, log => by
    unfold Value.writeObject
    cases hk : key.getStringView with
    | none => exact ⟨List.prefix_refl _, answered_refl h log⟩
    | some s =>
      simp only
      have p1 : log <+: log ++ [.Key s] := List.prefix_append _ _
      have a1 : Value.Answered h log (log ++ [.Key s]) := answered_snoc (Or.inl ⟨log, s, rfl⟩)
      have hr := writeTo_stops h value (log ++ [.Key s])
      revert hr
      cases Value.writeTo h value (log ++ [.Key s]) with
      | returned b l =>
        cases b with
        | true =>
          intro hr
          exact stops_trans p1 a1 (stops_trans hr.1 hr.2 (writeObject_stops h members l))
        | false => intro hr; exact stops_trans p1 a1 hr
      | abort l => intro hr; exact stops_trans p1 a1 hr

end

theorem call_key_free {h h1 : Handler} (hh : ∀ l, ¬keyLast l → h1 l = h l) (log : List Event)
    {ev : Event} (hev : ∀ s, ev ≠ .Key s) : Value.CALL h1 ev log = Value.CALL h ev log := by
  simp only [Value.CALL, hh _ (not_keyLast_snoc log hev)]

mutual

/-- Value.hpp:383-386: the boolean that the handler returns for Key has no
effect on writeTo -/
theorem writeTo_key_free {h h1 : Handler} (hh : ∀ l, ¬keyLast l → h1 l = h l) :
    ∀ (V : Value) (log : List Event), V.writeTo h1 log = V.writeTo h log
  | .Null, log => call_key_free hh log (fun _ => by simp)
  | .Bool _, log => call_key_free hh log (fun _ => by simp)
  | .Int32 _, log => call_key_free hh log (fun _ => by simp)
  | .Int64 _, log => call_key_free hh log (fun _ => by simp)
  | .Double _, log => call_key_free hh log (fun _ => by simp)
  | .String _, log => call_key_free hh log (fun _ => by simp)
  | .Array a, log => by
    have e1 := hh (log ++ [.StartArray]) (not_keyLast_snoc log (fun _ => by simp))
    have e2 := writeArray_key_free hh a (log ++ [.StartArray])
    have e3 : ∀ l, Value.CALL h1 .EndArray l = Value.CALL h .EndArray l :=
      fun l => call_key_free hh l (fun _ => by simp)
    simp only [Value.writeTo, e1, e2, e3]
  | .Object o, log => by
    have e1 := hh (log ++ [.StartObject]) (not_keyLast_snoc log (fun _ => by simp))
    have e2 := writeObject_key_free hh o (log ++ [.StartObject])
    have e3 : ∀ l, Value.CALL h1 .EndObject l = Value.CALL h .EndObject l :=
      fun l => call_key_free hh l (fun _ => by simp)
    simp only [Value.writeTo, e1, e2, e3]

theorem writeArray_key_free {h h1 : Handler} (hh : ∀ l, ¬keyLast l → h1 l = h l) :
    ∀ (a : List Value) (log : List Event), Value.writeArray h1 a log = Value.writeArray h a log
  | [], _ => rfl
  | val :: vals, log => by
    have e1 := writeTo_key_free hh val log
    have e2 : ∀ l, Value.writeArray h1 vals l = Value.writeArray h vals l :=
      fun l => writeArray_key_free hh vals l
    simp only [Value.writeArray, e1, e2]

theorem writeObject_key_free {h h1 : Handler} (hh : ∀ l, ¬keyLast l → h1 l = h l) :
    ∀ (o : List (Value × Value)) (log : List Event),
      Value.writeObject h1 o log = Value.writeObject h o log
  | [], _ => rfl
  | (key, value) :: members, log => by
    have e1 : ∀ l, Value.writeTo h1 value l = Value.writeTo h value l :=
      fun l => writeTo_key_free hh value l
    have e2 : ∀ l, Value.writeObject h1 members l = Value.writeObject h members l :=
      fun l => writeObject_key_free hh members l
    simp only [Value.writeObject, e1, e2]

end

theorem rejectKeys_accept (l : List Event) (hl : ¬keyLast l) : rejectKeys l = Handler.accept l := by
  unfold rejectKeys Handler.accept
  cases hg : l.getLast? with
  | none => rfl
  | some ev =>
    cases ev with
    | Key s =>
      obtain ⟨ys, e⟩ := List.getLast?_eq_some_iff.1 hg
      exact absurd ⟨ys, s, e⟩ hl
    | _ => rfl

/-- C30. `Value::writeTo`, started with the call log `log`, only adds calls to
the log; it returns false only when its last call, which is no call of Key, was
answered false, so that no call follows a call other than Key that is answered
false; it returns true only when every call other than Key was answered true.
What the handler answers to the calls of Key has no effect: two handlers that
agree on every call other than Key get the same calls and the same result, and
the handler that answers false to every call of Key and true to every other
call gets the calls and the result of a handler that accepts every event. -/
theorem writeTo_cancellation (h : Handler) (V : Value) (log : List Event) :
    Value.Stops h log (V.writeTo h log) ∧
    (∀ h1 : Handler, (∀ l, ¬keyLast l → h1 l = h l) → V.writeTo h1 log = V.writeTo h log) ∧
    V.writeTo rejectKeys log = V.writeTo Handler.accept log :=
  ⟨writeTo_stops h V log, fun _ hh => writeTo_key_free hh V log,
    writeTo_key_free rejectKeys_accept V log⟩

/-- C30, witness: the handler that answers false to every call of Key gets all
the calls of an object and the result true, and a handler that answers false to
its third call gets no fourth call -/
theorem writeTo_cancellation_witness :
    (Value.Object [(.String [97], .Array [.Null])]).writeTo rejectKeys [] =
      .returned true [.StartObject, .Key [97], .StartArray, .Null, .EndArray, .EndObject] ∧
    (Value.Array [.Null, .Bool true, .Null]).writeTo (fun l => decide (l.length < 3)) [] =
      .returned false [.StartArray, .Null, .Bool true] ∧
    Value.Stops (fun l => decide (l.length < 3)) []
      (.returned false [.StartArray, .Null, .Bool true]) :=
  ⟨((writeTo_cancellation Handler.accept (.Object [(.String [97], .Array [.Null])]) []).2.1
      rejectKeys rejectKeys_accept).trans (by decide),
    by decide,
    (writeTo_cancellation (fun l => decide (l.length < 3)) (.Array [.Null, .Bool true, .Null])
      []).1⟩

/-! ## Value::findMember and Value::addMember -/

theorem findIf_spec (k : List Nat) : ∀ o : List (Value × Value),
    (∀ m ∈ o, ∃ s, m.1 = .String s) →
    ∃ i, Value.findIf k o = some i ∧ i ≤ o.length ∧
      (∀ j m, j < i → o[j]? = some m → m.1 ≠ .String k) ∧
      (i < o.length → ∃ m, o[i]? = some m ∧ m.1 = .String k)
  | [], _ => ⟨0, rfl, Nat.le_refl _, fun j m hj => by omega, fun h => by simp at h⟩
  | m :: ms, hk => by
    obtain ⟨s, hs⟩ := hk m (List.mem_cons_self _ _)
    obtain ⟨i, e1, e2, e3, e4⟩ := findIf_spec k ms (fun x hx => hk x (List.mem_cons_of_mem _ hx))
    by_cases hsk : s = k
    · refine ⟨0, ?_, Nat.zero_le _, fun j m hj => by omega, fun _ => ⟨m, by simp, ?_⟩⟩
      · simp only [Value.findIf, hs, Value.getStringView, if_pos hsk]
      · rw [hs, hsk]
    · refine ⟨i + 1, ?_, by simpa using e2, fun j x hj hx => ?_, fun hi => ?_⟩
      · simp only [Value.findIf, hs, Value.getStringView, if_neg hsk, e1, Option.map_some']
      · cases j with
        | zero =>
          simp only [List.getElem?_cons_zero, Option.some.injEq] at hx
          rw [← hx, hs]
          simpa using hsk
        | succ j =>
          simp only [List.getElem?_cons_succ] at hx
          exact e3 j x (by omega) hx
      · simp only [List.getElem?_cons_succ]
        exact e4 (by simpa using hi)

theorem findIf_absent (k : List Nat) (o : List (Value × Value))
    (hk : ∀ m ∈ o, ∃ s, m.1 = .String s) (ha : ∀ m ∈ o, m.1 ≠ .String k) :
    Value.findIf k o = some o.length := by
  obtain ⟨i, e1, e2, -, e4⟩ := findIf_spec k o hk
  by_cases hi : i < o.length
  · obtain ⟨m, hm, hmk⟩ := e4 hi
    exact absurd hmk (ha m (List.getElem?_mem hm))
  · rw [e1, show i = o.length by omega]

theorem findIf_present (k : List Nat) (o : List (Value × Value))
    (hk : ∀ m ∈ o, ∃ s, m.1 = .String s) (hp : ∃ m ∈ o, m.1 = .String k) :
    ∃ i, Value.findIf k o = some i ∧ i < o.length := by
  obtain ⟨i, e1, e2, e3, -⟩ := findIf_spec k o hk
  refine ⟨i, e1, ?_⟩
  by_contra hi
  obtain ⟨m, hm, hmk⟩ := hp
  obtain ⟨j, hj, hjm⟩ := List.getElem_of_mem hm
  exact e3 j m (by omega) (by rw [List.getElem?_eq_getElem hj, hjm]) hmk

theorem findIf_append (k : List Nat) (o : List (Value × Value)) (v : Value)
    (hk : ∀ m ∈ o, ∃ s, m.1 = .String s) (ha : ∀ m ∈ o, m.1 ≠ .String k) :
    Value.findIf k (o ++ [(.String k, v)]) = some o.length := by
  obtain ⟨i, e1, e2, e3, e4⟩ := findIf_spec k (o ++ [(.String k, v)]) (by
    intro m hm
    rcases List.mem_append.1 hm with h | h
    · exact hk m h
    · simp only [List.mem_singleton] at h
      exact ⟨k, by rw [h]⟩)
  have hlast : (o ++ [(Value.String k, v)])[o.length]? = some (.String k, v) := by simp
  have h1 : i ≤ o.length := by
    by_contra hc
    exact e3 o.length _ (by omega) hlast rfl
  have h2 : ¬ i < o.length := by
    intro hc
    obtain ⟨m, hm, hmk⟩ := e4 (by simp; omega)
    rw [List.getElem?_append_left hc] at hm
    exact ha m (List.getElem?_mem hm) hmk
  rw [e1, show i = o.length by omega]

/-- C25. On an object whose keys are strings, as the keys of every object that
`addMember` builds: `findMember(k)` designates the first member whose key is
`k`, or the end when there is none; if no member has the key `k`,
`addMember(k, v)` leaves the object with the same members followed by the
member of key `k` and value `v`, one more than before, and `findMember(k)`
then designates this member; if a member has the key `k`, an assertion of
`addMember` fails. -/
theorem member_lookup (o : List (Value × Value)) (hk : ∀ m ∈ o, ∃ s, m.1 = .String s)
    (k : List Nat) (v : Value) :
    (∃ i, (Value.Object o).findMember k = some i ∧ i ≤ o.length ∧
      (∀ j m, j < i → o[j]? = some m → m.1 ≠ .String k) ∧
      (i < o.length → ∃ m, o[i]? = some m ∧ m.1 = .String k)) ∧
    ((∀ m ∈ o, m.1 ≠ .String k) →
      (Value.Object o).findMember k = (Value.Object o).endMember ∧
      (Value.Object o).addMember (.String k) v = some (.Object (o ++ [(.String k, v)])) ∧
      (Value.Object (o ++ [(.String k, v)])).getSize = (Value.Object o).getSize + 1 ∧
      (Value.Object (o ++ [(.String k, v)])).findMember k = some o.length ∧
      (o ++ [(Value.String k, v)])[o.length]? = some (.String k, v)) ∧
    ((∃ m ∈ o, m.1 = .String k) →
      (Value.Object o).findMember k ≠ (Value.Object o).endMember ∧
      (Value.Object o).addMember (.String k) v = none) := by
  refine ⟨findIf_spec k o hk, fun ha => ?_, fun hp => ?_⟩
  · have e := findIf_absent k o hk ha
    refine ⟨by simp only [Value.findMember, Value.endMember, e], ?_, by simp [Value.getSize],
      findIf_append k o v hk ha, by simp⟩
    simp only [Value.addMember, Value.getStringView, Value.findMember, e, Value.endMember,
      if_true]
  · obtain ⟨i, e, hi⟩ := findIf_present k o hk hp
    have hne : some i ≠ some o.length := by
      simp only [ne_eq, Option.some.injEq]; omega
    refine ⟨by simp only [Value.findMember, Value.endMember, e]; exact hne, ?_⟩
    simp only [Value.addMember, Value.getStringView, Value.findMember, e, Value.endMember,
      if_neg hne]

/-- C25, witness: in the object of the members `a` and `b`, the key `b` is
found at the second member and cannot be added again; the key `c` is not found
and is added at the end -/
theorem member_lookup_witness :
    (Value.Object [(.String [97], .Null), (.String [98], .Bool true)]).findMember [98] =
      some 1 ∧
    (Value.Object [(.String [97], .Null), (.String [98], .Bool true)]).addMember
      (.String [98]) (.Int32 1) = none ∧
    (Value.Object [(.String [97], .Null), (.String [98], .Bool true)]).addMember
      (.String [99]) (.Int32 1) =
        some (.Object [(.String [97], .Null), (.String [98], .Bool true),
          (.String [99], .Int32 1)]) := by
  have hk : ∀ m ∈ [(Value.String [97], Value.Null), (Value.String [98], Value.Bool true)],
      ∃ s, m.1 = Value.String s := by
    intro m hm
    simp only [List.mem_cons, List.mem_singleton, List.not_mem_nil, or_false] at hm
    rcases hm with h | h
    · exact ⟨[97], by rw [h]⟩
    · exact ⟨[98], by rw [h]⟩
  have a := (member_lookup _ hk [98] (.Int32 1)).2.2 ⟨(.String [98], .Bool true), by simp, rfl⟩
  have b := (member_lookup _ hk [99] (.Int32 1)).2.1 (by
    intro m hm
    simp only [List.mem_cons, List.mem_singleton, List.not_mem_nil, or_false] at hm
    rcases hm with h | h <;> rw [h] <;> simp)
  exact ⟨rfl, a.2, b.2.1⟩

/-! ## The pointers of a Document -/

theorem lastValue_setLast {c x c1 : Value} (h : c.setLast x = some c1) :
    c1.lastValue = some x := by
  cases c with
  | Array a =>
    simp only [Value.setLast] at h
    cases hl : a.getLast? with
    | none => simp [hl] at h
    | some y =>
      simp only [hl, Option.some.injEq] at h
      subst h
      simp [Value.lastValue]
  | Object o =>
    simp only [Value.setLast] at h
    cases hl : o.getLast? with
    | none => simp [hl] at h
    | some y =>
      simp only [hl, Option.some.injEq] at h
      subst h
      simp [Value.lastValue]
  | _ => simp [Value.setLast] at h

theorem setLast_setLast {c x c1 : Value} (h : c.setLast x = some c1) (y : Value) :
    c1.setLast y = c.setLast y := by
  cases c with
  | Array a =>
    simp only [Value.setLast] at h ⊢
    cases hl : a.getLast? with
    | none => simp [hl] at h
    | some z =>
      simp only [hl, Option.some.injEq] at h
      subst h
      simp [Value.setLast]
  | Object o =>
    simp only [Value.setLast] at h ⊢
    cases hl : o.getLast? with
    | none => simp [hl] at h
    | some z =>
      simp only [hl, Option.some.injEq] at h
      subst h
      simp [Value.setLast]
  | _ => simp [Value.setLast] at h

theorem setLast_some {c x : Value} (h : c.lastValue = some x) (y : Value) :
    ∃ c1, c.setLast y = some c1 := by
  cases c with
  | Array a =>
    simp only [Value.lastValue] at h
    simp [Value.setLast, h]
  | Object o =>
    simp only [Value.lastValue] at h
    cases hl : o.getLast? with
    | none => simp [hl] at h
    | some z => simp [Value.setLast, hl]
  | _ => simp [Value.lastValue] at h

theorem setLast_lastValue {c x : Value} (h : c.lastValue = some x) : c.setLast x = some c := by
  cases c with
  | Array a =>
    simp only [Value.lastValue] at h
    obtain ⟨ys, rfl⟩ := List.getLast?_eq_some_iff.1 h
    simp [Value.setLast]
  | Object o =>
    simp only [Value.lastValue] at h
    cases hl : o.getLast? with
    | none => simp [hl] at h
    | some z =>
      obtain ⟨ys, rfl⟩ := List.getLast?_eq_some_iff.1 hl
      simp only [hl, Option.map_some', Option.some.injEq] at h
      subst h
      simp [Value.setLast]
  | _ => simp [Value.lastValue] at h

theorem nodeAt_putAt : ∀ (n : Nat) {r x r1 : Value}, Value.putAt n r x = some r1 →
    Value.nodeAt n r1 = some x
  | 0, r, x, r1, h => by
    simp only [Value.putAt, Option.some.injEq] at h
    simp only [Value.nodeAt, h]
  | n + 1, r, x, r1, h => by
    simp only [Value.putAt] at h
    cases hc : Value.nodeAt n r with
    | none => simp [hc] at h
    | some c =>
      cases hs : c.setLast x with
      | none => simp [hc, hs] at h
      | some c1 =>
        simp only [hc, hs, Option.some_bind] at h
        simp only [Value.nodeAt, nodeAt_putAt n h, Option.some_bind, lastValue_setLast hs]

theorem putAt_putAt : ∀ (n : Nat) {r x r1 : Value}, Value.putAt n r x = some r1 →
    ∀ y, Value.putAt n r1 y = Value.putAt n r y
  | 0, _, _, _, _, _ => rfl
  | n + 1, r, x, r1, h, y => by
    simp only [Value.putAt] at h
    cases hc : Value.nodeAt n r with
    | none => simp [hc] at h
    | some c =>
      cases hs : c.setLast x with
      | none => simp [hc, hs] at h
      | some c1 =>
        simp only [hc, hs, Option.some_bind] at h
        simp only [Value.putAt, nodeAt_putAt n h, hc, Option.some_bind, setLast_setLast hs]
        cases c.setLast y with
        | none => rfl
        | some c2 => simp only [Option.some_bind, putAt_putAt n h]

theorem putAt_some : ∀ (n : Nat) {r c : Value}, Value.nodeAt n r = some c →
    ∀ x, ∃ r1, Value.putAt n r x = some r1
  | 0, _, _, _, x => ⟨x, rfl⟩
  | n + 1, r, c, h, x => by
    simp only [Value.nodeAt] at h
    cases hc : Value.nodeAt n r with
    | none => simp [hc] at h
    | some p =>
      simp only [hc, Option.some_bind] at h
      obtain ⟨p1, hp1⟩ := setLast_some h x
      obtain ⟨r1, hr1⟩ := putAt_some n hc p1
      exact ⟨r1, by simp only [Value.putAt, hc, Option.some_bind, hp1, hr1]⟩

theorem putAt_self : ∀ (n : Nat) {r c : Value}, Value.nodeAt n r = some c →
    Value.putAt n r c = some r
  | 0, _, _, h => by
    simp only [Value.nodeAt, Option.some.injEq] at h
    simp only [Value.putAt, h]
  | n + 1, r, c, h => by
    simp only [Value.nodeAt] at h
    cases hc : Value.nodeAt n r with
    | none => simp [hc] at h
    | some p =>
      simp only [hc, Option.some_bind] at h
      simp only [Value.putAt, hc, Option.some_bind, setLast_lastValue h, putAt_self n hc]

/-- An assignment one step below a value that has just been assigned is an
assignment of the value with its last element replaced -/
theorem putAt_succ {n : Nat} {r c r1 c1 : Value} (h : Value.putAt n r c = some r1) (x : Value)
    (hs : c.setLast x = some c1) : Value.putAt (n + 1) r1 x = Value.putAt n r c1 := by
  simp only [Value.putAt, nodeAt_putAt n h, Option.some_bind, hs, putAt_putAt n h]

theorem document_run_append (evs1 evs2 : List Event) : ∀ d : Document,
    Document.run d (evs1 ++ evs2) = (Document.run d evs1).bind fun d => Document.run d evs2 := by
  induction evs1 with
  | nil => intro d; rfl
  | cons ev evs ih =>
    intro d
    simp only [List.cons_append, Document.run]
    cases Document.handle d ev with
    | none => rfl
    | some d1 =>
      simp only [Option.bind_some, Option.some_bind]
      exact ih d1

/-! ## A Document on the events of a value -/

theorem slot_array {d : Document} {m c : Nat} {st : List Document.Level} {acc : List Value}
    (h1 : d.seeValue_ = true)
    (h2 : d.stack_ = { value := { inKey := false, depth := m }, valueCount := c } :: st)
    (h3 : Value.nodeAt m d.root = some (.Array acc)) :
    Document.Slot d m c st True (fun x => .Array (acc ++ [x])) := by
  obtain ⟨root, stack, key, see⟩ := d
  simp only at h1 h2 h3
  subst h1 h2
  refine ⟨rfl, rfl, ⟨_, h3⟩, fun x => by simp [Value.lastValue], fun x y => by
    simp [Value.setLast], fun _ => ⟨key, fun x => ?_⟩, fun h => absurd trivial h⟩
  simp only [Document.addValue, Document.deref, h3, Value.getType, Value.addValue,
    Document.store, Document.Ptr.last, if_true, Bool.false_eq_true, if_false]
  cases Value.putAt m root (Value.Array (acc ++ [x])) <;> rfl

theorem slot_member {d : Document} {m c : Nat} {st : List Document.Level}
    {acc : List (Value × Value)} {k : List Nat} (h1 : d.seeValue_ = true)
    (h2 : d.stack_ = { value := { inKey := false, depth := m }, valueCount := c } :: st)
    (hc : c % 2 = 1) (h3 : Value.nodeAt m d.root = some (.Object acc))
    (hk : ∀ a ∈ acc, ∃ s, a.1 = .String s) (h4 : d.key_ = .String k) :
    Document.Slot d m c st (∀ a ∈ acc, a.1 ≠ .String k)
      (fun x => .Object (acc ++ [(.String k, x)])) := by
  obtain ⟨root, stack, key, see⟩ := d
  simp only at h1 h2 h3 h4
  subst h1 h2 h4
  have hc2 : ¬ c % 2 = 0 := by omega
  refine ⟨rfl, rfl, ⟨_, h3⟩, fun x => by simp [Value.lastValue], fun x y => by
    simp [Value.setLast], fun ok => ⟨.Null, fun x => ?_⟩, fun nok x => ?_⟩
  · have e := findIf_absent k acc hk ok
    simp only [Document.addValue, Document.deref, h3, Value.getType, Value.addMember,
      Value.getStringView, Value.findMember, Value.endMember, e,
      Document.store, Document.Ptr.last, if_true, Bool.false_eq_true, if_false, hc2,
      reduceCtorEq]
    cases Value.putAt m root (Value.Object (acc ++ [(Value.String k, x)])) <;> rfl
  · have hp : ∃ a ∈ acc, a.1 = .String k := by
      by_contra hn
      exact nok fun a ha hak => hn ⟨a, ha, hak⟩
    obtain ⟨i, e, hi⟩ := findIf_present k acc hk hp
    have hne : some i ≠ some acc.length := by
      simp only [ne_eq, Option.some.injEq]; omega
    simp only [Document.addValue, Document.deref, h3, Value.getType, Value.addMember,
      Value.getStringView, Value.findMember, Value.endMember, e, if_neg hne,
      if_true, Bool.false_eq_true, if_false, hc2, reduceCtorEq]

/-- The end of a container: the events of its body and the event that closes
it -/
theorem container_body (d1 : Document) (m : Nat) (st : List Document.Level) (F : Value)
    (body : List Event) (close : Event) (P : Prop)
    (hclose : ∀ d, Document.handle d close = d.finish F.getType)
    (hpos : P → ∃ d2 c2, Document.run d1 body = some d2 ∧
      Document.Filled d1 d2 m
        ({ value := { inKey := false, depth := m }, valueCount := c2 } :: st) F)
    (hneg : ¬P → Document.run d1 body = none) :
    (P → ∃ d3, Document.run d1 (body ++ [close]) = some d3 ∧ Document.Filled d1 d3 m st F) ∧
    (¬P → Document.run d1 (body ++ [close]) = none) := by
  constructor
  · intro hp
    obtain ⟨d2, c2, e1, r, k, e2, e3⟩ := hpos hp
    subst e3
    refine ⟨{ root := r, stack_ := st, key_ := k, seeValue_ := true }, ?_, r, k, e2, rfl⟩
    rw [document_run_append, e1]
    simp only [Option.some_bind, Document.run, hclose, Document.finish, Document.deref,
      nodeAt_putAt m e2, Bool.false_eq_true, if_false, if_true]
  · intro hn
    rw [document_run_append, hneg hn]
    rfl

/-- A container in a container: the event that opens it, the events of its
body and the event that closes it -/
theorem slot_container {d : Document} {n c : Nat} {below : List Document.Level} {ok : Prop}
    {ins : Value → Value} (hs : Document.Slot d n c below ok ins) (E F : Value)
    (body : List Event) (open_ close : Event) (P : Prop)
    (hopen : ∀ d, Document.handle d open_ = d.start E)
    (hclose : ∀ d, Document.handle d close = d.finish F.getType)
    (hbody : ∀ d1 : Document, d1.seeValue_ = true →
      d1.stack_ = { value := { inKey := false, depth := n + 1 }, valueCount := 0 } ::
        { value := { inKey := false, depth := n }, valueCount := c + 1 } :: below →
      Value.nodeAt (n + 1) d1.root = some E →
      (P → ∃ d2 c2, Document.run d1 body = some d2 ∧
        Document.Filled d1 d2 (n + 1)
          ({ value := { inKey := false, depth := n + 1 }, valueCount := c2 } ::
            { value := { inKey := false, depth := n }, valueCount := c + 1 } :: below) F) ∧
      (¬P → Document.run d1 body = none)) :
    (ok ∧ P → ∃ d3, Document.run d (open_ :: (body ++ [close])) = some d3 ∧
      Document.Filled d d3 n
        ({ value := { inKey := false, depth := n }, valueCount := c + 1 } :: below) (ins F)) ∧
    (¬(ok ∧ P) → Document.run d (open_ :: (body ++ [close])) = none) := by
  obtain ⟨s1, s2, ⟨c0, s3⟩, s4, s5, s6, s7⟩ := hs
  by_cases hok : ok
  · obtain ⟨kf, hadd⟩ := s6 hok
    obtain ⟨r1, hr1⟩ := putAt_some n s3 (ins E)
    have hn1 : Value.nodeAt (n + 1) r1 = some E := by
      simp only [Value.nodeAt, nodeAt_putAt n hr1, Option.some_bind, s4]
    have hrun : ∀ rest, Document.run d (open_ :: rest) =
        Document.run
          { root := r1,
            stack_ := { value := { inKey := false, depth := n + 1 }, valueCount := 0 } ::
              { value := { inKey := false, depth := n }, valueCount := c + 1 } :: below,
            key_ := kf,
            seeValue_ := true } rest := by
      intro rest
      simp only [Document.run, hopen, Document.start, hadd, hr1, Option.map_some',
        Option.some_bind]
    obtain ⟨b1, b2⟩ := hbody
      { root := r1,
        stack_ := { value := { inKey := false, depth := n + 1 }, valueCount := 0 } ::
          { value := { inKey := false, depth := n }, valueCount := c + 1 } :: below,
        key_ := kf,
        seeValue_ := true } rfl rfl hn1
    obtain ⟨p1, p2⟩ := container_body _ (n + 1)
      ({ value := { inKey := false, depth := n }, valueCount := c + 1 } :: below) F body close
      P hclose b1 b2
    constructor
    · rintro ⟨-, hp⟩
      obtain ⟨d3, e1, r, k, e2, e3⟩ := p1 hp
      refine ⟨d3, by rw [hrun, e1], r, k, ?_, e3⟩
      rw [← e2]
      exact (putAt_succ hr1 F (s5 E F)).symm
    · intro hn
      rw [hrun]
      exact p2 fun hp => hn ⟨hok, hp⟩
  · constructor
    · rintro ⟨h, -⟩
      exact absurd h hok
    · intro _
      simp only [Document.run, hopen, Document.start, s7 hok, Option.map_none',
        Option.none_bind]

/-- A scalar in a container -/
theorem slot_scalar {d : Document} {n c : Nat} {below : List Document.Level} {ok : Prop}
    {ins : Value → Value} (hs : Document.Slot d n c below ok ins) (ev : Event) (x : Value)
    (hev : ∀ d, Document.handle d ev = (d.addValue x).map (·.1)) :
    (ok ∧ True → ∃ d1, Document.run d [ev] = some d1 ∧
      Document.Filled d d1 n
        ({ value := { inKey := false, depth := n }, valueCount := c + 1 } :: below) (ins x)) ∧
    (¬(ok ∧ True) → Document.run d [ev] = none) := by
  obtain ⟨s1, s2, ⟨c0, s3⟩, s4, s5, s6, s7⟩ := hs
  by_cases hok : ok
  · obtain ⟨kf, hadd⟩ := s6 hok
    obtain ⟨r1, hr1⟩ := putAt_some n s3 (ins x)
    constructor
    · intro _
      refine ⟨_, ?_, r1, kf, hr1, rfl⟩
      simp only [Document.run, hev, hadd, hr1, Option.map_some', Option.some_bind]
    · intro hn
      exact absurd ⟨hok, trivial⟩ hn
  · constructor
    · rintro ⟨h, -⟩
      exact absurd h hok
    · intro _
      simp only [Document.run, hev, s7 hok, Option.map_none', Option.none_bind]

theorem distinct_step (acc ms : List (Value × Value)) (k v : Value) :
    ((∀ a ∈ acc, ∀ x ∈ (k, v) :: ms, a.1 ≠ x.1) ∧ Value.distinctObject ((k, v) :: ms)) ↔
    ((∀ a ∈ acc, a.1 ≠ k) ∧ v.distinctKeys) ∧
      ((∀ a ∈ acc ++ [(k, v)], ∀ x ∈ ms, a.1 ≠ x.1) ∧ Value.distinctObject ms) := by
  simp only [Value.distinctObject]
  constructor
  · rintro ⟨h1, h2, h3, h4⟩
    refine ⟨⟨fun a ha => h1 a ha (k, v) (List.mem_cons_self _ _), h3⟩, fun a ha x hx => ?_, h4⟩
    rcases List.mem_append.1 ha with h | h
    · exact h1 a h x (List.mem_cons_of_mem _ hx)
    · simp only [List.mem_singleton] at h
      rw [h]
      exact fun e => h2 x hx e.symm
  · rintro ⟨⟨h1, h2⟩, h3, h4⟩
    refine ⟨fun a ha x hx => ?_, fun x hx e => ?_, h2, h4⟩
    · rcases List.mem_cons.1 hx with h | h
      · rw [h]; exact h1 a ha
      · exact h3 a (List.mem_append_left _ ha) x h
    · exact h3 (k, v) (List.mem_append_right _ (List.mem_singleton_self _)) x hx e.symm

/-- The call of Key in an object that awaits a key -/
theorem key_step {d : Document} {m c : Nat} {st : List Document.Level}
    {acc : List (Value × Value)} (s : List Nat) (h1 : d.seeValue_ = true)
    (h2 : d.stack_ = { value := { inKey := false, depth := m }, valueCount := c } :: st)
    (hc : c % 2 = 0) (h3 : Value.nodeAt m d.root = some (.Object acc)) :
    Document.handle d (.Key s) =
      some { root := d.root,
             stack_ := { value := { inKey := false, depth := m }, valueCount := c + 1 } :: st,
             key_ := .String s,
             seeValue_ := true } := by
  obtain ⟨root, stack, key, see⟩ := d
  simp only at h1 h2 h3
  subst h1 h2
  simp only [Document.handle, Document.Key, Document.addValue, Document.deref, h3,
    Value.getType, hc,
    if_true, Bool.false_eq_true, if_false, reduceCtorEq, Option.map_some']

mutual

/-- The events of a value in a container: the value is added at the end of the
container, unless the container refuses it or two members of one of its
objects have the same key -/
theorem build_value : ∀ (V : Value), V.stringKeys → ∀ (d : Document) (n c : Nat)
    (below : List Document.Level) (ok : Prop) (ins : Value → Value),
    Document.Slot d n c below ok ins →
    (ok ∧ V.distinctKeys → ∃ d1, Document.run d V.events = some d1 ∧
      Document.Filled d d1 n
        ({ value := { inKey := false, depth := n }, valueCount := c + 1 } :: below) (ins V)) ∧
    (¬(ok ∧ V.distinctKeys) → Document.run d V.events = none)
  | .Null, _, d, n, c, below, ok, ins, hs => by
    have := slot_scalar hs .Null .Null (fun _ => rfl)
    simpa only [Value.events, Value.distinctKeys] using this
  | .Bool b, _, d, n, c, below, ok, ins, hs => by
    have := slot_scalar hs (.Bool b) (.Bool b) (fun _ => rfl)
    simpa only [Value.events, Value.distinctKeys] using this
  | .Int32 i, _, d, n, c, below, ok, ins, hs => by
    have := slot_scalar hs (.Int32 i) (.Int32 i) (fun _ => rfl)
    simpa only [Value.events, Value.distinctKeys] using this
  | .Int64 i, _, d, n, c, below, ok, ins, hs => by
    have := slot_scalar hs (.Int64 i) (.Int64 i) (fun _ => rfl)
    simpa only [Value.events, Value.distinctKeys] using this
  | .Double x, _, d, n, c, below, ok, ins, hs => by
    have := slot_scalar hs (.Double x) (.Double x) (fun _ => rfl)
    simpa only [Value.events, Value.distinctKeys] using this
  | .String s, _, d, n, c, below, ok, ins, hs => by
    have := slot_scalar hs (.String s) (.String s) (fun _ => rfl)
    simpa only [Value.events, Value.distinctKeys] using this
  | .Array a, hk, d, n, c, below, ok, ins, hs => by
    have hk2 : Value.stringKeysArray a := by simpa only [Value.stringKeys] using hk
    have := slot_container hs (.Array []) (.Array a) (Value.eventsArray a) .StartArray
      .EndArray (Value.distinctArray a) (fun _ => rfl) (fun _ => rfl)
      (fun d1 h1 h2 h3 => by
        have := build_array a hk2 d1 (n + 1) 0 _ [] h1 h2 h3
        simpa only [List.nil_append] using this)
    simpa only [Value.events, Value.distinctKeys] using this
  | .Object o, hk, d, n, c, below, ok, ins, hs => by
    have hk2 : Value.stringKeysObject o := by simpa only [Value.stringKeys] using hk
    have := slot_container hs (.Object []) (.Object o) (Value.eventsObject o) .StartObject
      .EndObject (Value.distinctObject o) (fun _ => rfl) (fun _ => rfl)
      (fun d1 h1 h2 h3 => by
        have := build_object o hk2 d1 (n + 1) 0 _ [] h1 h2 rfl h3
          (fun a ha => absurd ha (List.not_mem_nil a))
        simpa only [List.nil_append, List.not_mem_nil, false_implies, implies_true,
          true_and] using this)
    simpa only [Value.events, Value.distinctKeys] using this

/-- The events of the elements of an array, in the array that the top of the
stack points to -/
theorem build_array : ∀ (xs : List Value), Value.stringKeysArray xs → ∀ (d : Document)
    (m c : Nat) (st : List Document.Level) (acc : List Value), d.seeValue_ = true →
    d.stack_ = { value := { inKey := false, depth := m }, valueCount := c } :: st →
    Value.nodeAt m d.root = some (.Array acc) →
    (Value.distinctArray xs → ∃ d1 c1, Document.run d (Value.eventsArray xs) = some d1 ∧
      Document.Filled d d1 m
        ({ value := { inKey := false, depth := m }, valueCount := c1 } :: st)
        (.Array (acc ++ xs))) ∧
    (¬Value.distinctArray xs → Document.run d (Value.eventsArray xs) = none)
  | [], _, d, m, c, st, acc, h1, h2, h3 => by
    refine ⟨fun _ => ⟨d, c, rfl, d.root, d.key_, ?_, ?_⟩, fun h => ?_⟩
    · rw [List.append_nil]; exact putAt_self m h3
    · obtain ⟨root, stack, key, see⟩ := d
      simp only at h1 h2
      subst h1 h2
      rfl
    · exact absurd (by simp only [Value.distinctArray]) h
  | x :: xs, hk, d, m, c, st, acc, h1, h2, h3 => by
    obtain ⟨hkx, hkxs⟩ : x.stringKeys ∧ Value.stringKeysArray xs := by
      simpa only [Value.stringKeysArray] using hk
    obtain ⟨v1, v2⟩ := build_value x hkx d m c st True _ (slot_array h1 h2 h3)
    simp only [Value.eventsArray, Value.distinctArray, document_run_append]
    by_cases hdx : x.distinctKeys
    · obtain ⟨d1, e1, r1, k1, e2, e3⟩ := v1 ⟨trivial, hdx⟩
      subst e3
      obtain ⟨a1, a2⟩ := build_array xs hkxs
        { root := r1,
          stack_ := { value := { inKey := false, depth := m }, valueCount := c + 1 } :: st,
          key_ := k1,
          seeValue_ := true } m (c + 1) st (acc ++ [x]) rfl rfl (nodeAt_putAt m e2)
      rw [e1]
      constructor
      · rintro ⟨-, hd⟩
        obtain ⟨d2, c2, f1, r2, k2, f2, f3⟩ := a1 hd
        refine ⟨d2, c2, f1, r2, k2, ?_, f3⟩
        simp only [putAt_putAt m e2, List.append_assoc, List.singleton_append] at f2
        exact f2
      · intro hn
        exact a2 fun hd => hn ⟨hdx, hd⟩
    · rw [v2 fun h => hdx h.2]
      exact ⟨fun h => absurd h.1 hdx, fun _ => rfl⟩

/-- The events of the members of an object, in the object that the top of the
stack points to -/
theorem build_object : ∀ (ms : List (Value × Value)), Value.stringKeysObject ms →
    ∀ (d : Document) (m c : Nat) (st : List Document.Level) (acc : List (Value × Value)),
    d.seeValue_ = true →
    d.stack_ = { value := { inKey := false, depth := m }, valueCount := c } :: st →
    c % 2 = 0 → Value.nodeAt m d.root = some (.Object acc) →
    (∀ a ∈ acc, ∃ s, a.1 = .String s) →
    ((∀ a ∈ acc, ∀ x ∈ ms, a.1 ≠ x.1) ∧ Value.distinctObject ms →
      ∃ d1 c1, Document.run d (Value.eventsObject ms) = some d1 ∧
        Document.Filled d d1 m
          ({ value := { inKey := false, depth := m }, valueCount := c1 } :: st)
          (.Object (acc ++ ms))) ∧
    (¬((∀ a ∈ acc, ∀ x ∈ ms, a.1 ≠ x.1) ∧ Value.distinctObject ms) →
      Document.run d (Value.eventsObject ms) = none)
  | [], _, d, m, c, st, acc, h1, h2, _, h3, _ => by
    refine ⟨fun _ => ⟨d, c, rfl, d.root, d.key_, ?_, ?_⟩, fun h => ?_⟩
    · rw [List.append_nil]; exact putAt_self m h3
    · obtain ⟨root, stack, key, see⟩ := d
      simp only at h1 h2
      subst h1 h2
      rfl
    · exact absurd ⟨fun a _ x hx => absurd hx (List.not_mem_nil x),
        by simp only [Value.distinctObject]⟩ h
  | (key, value) :: ms, hk, d, m, c, st, acc, h1, h2, hc, h3, hacc => by
    obtain ⟨⟨s, hs⟩, hkv, hkms⟩ :
        (∃ s, key = .String s) ∧ value.stringKeys ∧ Value.stringKeysObject ms := by
      simpa only [Value.stringKeysObject] using hk
    subst hs
    have hslot := @slot_member
      { root := d.root,
        stack_ := { value := { inKey := false, depth := m }, valueCount := c + 1 } :: st,
        key_ := .String s,
        seeValue_ := true } m (c + 1) st acc s rfl rfl (by omega) h3 hacc rfl
    obtain ⟨v1, v2⟩ := build_value value hkv _ m (c + 1) st _ _ hslot
    rw [distinct_step]
    simp only [Value.eventsObject, Value.getStringView, Option.getD_some, Document.run,
      key_step s h1 h2 hc h3, Option.some_bind, document_run_append]
    by_cases hcond : (∀ a ∈ acc, a.1 ≠ .String s) ∧ value.distinctKeys
    · obtain ⟨d1, e1, r1, k1, e2, e3⟩ := v1 hcond
      subst e3
      obtain ⟨a1, a2⟩ := build_object ms hkms
        { root := r1,
          stack_ := { value := { inKey := false, depth := m }, valueCount := c + 1 + 1 } :: st,
          key_ := k1,
          seeValue_ := true } m (c + 1 + 1) st (acc ++ [(.String s, value)]) rfl rfl
        (by omega) (nodeAt_putAt m e2) (by
          intro a ha
          rcases List.mem_append.1 ha with h | h
          · exact hacc a h
          · simp only [List.mem_singleton] at h
            exact ⟨s, by rw [h]⟩)
      rw [e1]
      constructor
      · rintro ⟨-, hd⟩
        obtain ⟨d2, c2, f1, r2, k2, f2, f3⟩ := a1 hd
        refine ⟨d2, c2, f1, r2, k2, ?_, f3⟩
        simp only [putAt_putAt m e2, List.append_assoc, List.singleton_append] at f2
        exact f2
      · intro hn
        exact a2 fun hd => hn ⟨hcond, hd⟩
    · rw [v2 hcond]
      exact ⟨fun h => absurd h.1 hcond, fun _ => rfl⟩

end

/-! ## The tree that a Document builds -/

/-- The events of a parse that returns PARSE_OK are those of one value -/
theorem parse_ok_wellNested (h : Handler) (is : StringReadStream) (log : List Event)
    (hok : Reader.parse mem h is = .returned .PARSE_OK log) : WellNested log := by
  unfold Reader.parse Reader.parseFuel at hok
  cases hr : Reader.parseValue mem h (3 * is.length + 1) (Reader.parseWhiteSpace is) [] with
  | ok is1 log1 =>
    rw [hr] at hok
    obtain ⟨v, hv, hw⟩ := (Reader.wellNested_parse h _).1 _ _ _ _ hr
    simp only [List.nil_append] at hv
    have : log = log1 := by
      revert hok; simp only; split <;> intro hok <;> cases hok; rfl
    rw [this, hv]; exact hw
  | throw err log1 =>
    rw [hr] at hok
    simp only [Reader.Outcome.returned.injEq] at hok
    have hinv := (@Reader.inv_parse mem h (3 * is.length + 1)).1 (Reader.parseWhiteSpace is) []
    rw [hr] at hinv
    exact absurd hok.1 hinv.2.1
  | abort log1 => rw [hr] at hok; cases hok
  | outOfFuel => rw [hr] at hok; cases hok

/-- Every sequence of the events of one value is the sequence of the events of
a value whose keys are strings -/
theorem wellNested_value (n : Nat) :
    (∀ evs : List Event, evs.length ≤ n → WellNested evs →
      ∃ V : Value, V.stringKeys ∧ V.events = evs) ∧
    (∀ es : List Event, es.length ≤ n → Elements es →
      ∃ a : List Value, Value.stringKeysArray a ∧ Value.eventsArray a = es) ∧
    (∀ ms : List Event, ms.length ≤ n → Members ms →
      ∃ o : List (Value × Value), Value.stringKeysObject o ∧ Value.eventsObject o = ms) := by
  induction n with
  | zero =>
    refine ⟨fun evs hl h => ?_, fun es hl _ => ?_, fun ms hl _ => ?_⟩
    · have := wellNested_ne_nil h; omega
    · have e : es = [] := List.length_eq_zero.1 (by omega)
      subst e
      exact ⟨[], by simp only [Value.stringKeysArray], by simp only [Value.eventsArray]⟩
    · have e : ms = [] := List.length_eq_zero.1 (by omega)
      subst e
      exact ⟨[], by simp only [Value.stringKeysObject], by simp only [Value.eventsObject]⟩
  | succ n ih =>
    obtain ⟨ihA, ihB, ihC⟩ := ih
    have hA : ∀ evs : List Event, evs.length ≤ n + 1 → WellNested evs →
        ∃ V : Value, V.stringKeys ∧ V.events = evs := by
      intro evs hl h
      cases h with
      | scalar ev hs =>
        cases ev with
        | Null => exact ⟨.Null, by simp only [Value.stringKeys], by simp only [Value.events]⟩
        | Bool b => exact ⟨.Bool b, by simp only [Value.stringKeys], by simp only [Value.events]⟩
        | Int32 i => exact ⟨.Int32 i, by simp only [Value.stringKeys], by simp only [Value.events]⟩
        | Int64 i => exact ⟨.Int64 i, by simp only [Value.stringKeys], by simp only [Value.events]⟩
        | Double x =>
          exact ⟨.Double x, by simp only [Value.stringKeys], by simp only [Value.events]⟩
        | String s =>
          exact ⟨.String s, by simp only [Value.stringKeys], by simp only [Value.events]⟩
        | Key s => exact absurd hs (by simp only [isScalar, not_false_eq_true])
        | StartObject => exact absurd hs (by simp only [isScalar, not_false_eq_true])
        | EndObject => exact absurd hs (by simp only [isScalar, not_false_eq_true])
        | StartArray => exact absurd hs (by simp only [isScalar, not_false_eq_true])
        | EndArray => exact absurd hs (by simp only [isScalar, not_false_eq_true])
      | array es hes =>
        have hl2 : es.length ≤ n := by
          simp only [List.length_cons, List.length_append, List.length_nil] at hl
          omega
        obtain ⟨a, h1, h2⟩ := ihB es hl2 hes
        exact ⟨.Array a, by simpa only [Value.stringKeys] using h1,
          by simp only [Value.events, h2, List.cons_append]⟩
      | object ms hms =>
        have hl2 : ms.length ≤ n := by
          simp only [List.length_cons, List.length_append, List.length_nil] at hl
          omega
        obtain ⟨o, h1, h2⟩ := ihC ms hl2 hms
        exact ⟨.Object o, by simpa only [Value.stringKeys] using h1,
          by simp only [Value.events, h2, List.cons_append]⟩
    refine ⟨hA, fun es hl h => ?_, fun ms hl h => ?_⟩
    · cases h with
      | nil => exact ⟨[], by simp only [Value.stringKeysArray], by simp only [Value.eventsArray]⟩
      | cons v es2 hv hes =>
        have l1 := wellNested_ne_nil hv
        simp only [List.length_append] at hl
        obtain ⟨x, x1, x2⟩ := hA v (by omega) hv
        obtain ⟨xs, y1, y2⟩ := ihB es2 (by omega) hes
        exact ⟨x :: xs, by simp only [Value.stringKeysArray]; exact ⟨x1, y1⟩,
          by simp only [Value.eventsArray, x2, y2]⟩
    · cases h with
      | nil =>
        exact ⟨[], by simp only [Value.stringKeysObject], by simp only [Value.eventsObject]⟩
      | cons k v ms2 hv hms =>
        simp only [List.length_cons, List.length_append] at hl
        obtain ⟨x, x1, x2⟩ := ihA v (by omega) hv
        obtain ⟨xs, y1, y2⟩ := ihC ms2 (by omega) hms
        exact ⟨(.String k, x) :: xs,
          by simp only [Value.stringKeysObject]; exact ⟨⟨k, rfl⟩, x1, y1⟩,
          by simp only [Value.eventsObject, Value.getStringView, Option.getD_some, x2, y2,
            List.cons_append]⟩

mutual

/-- The events of a value denote the value -/
theorem denotes_events : ∀ V : Value, V.stringKeys → Denotes V.events V
  | .Null, _ => by simp only [Value.events]; exact Denotes.null
  | .Bool b, _ => by simp only [Value.events]; exact Denotes.bool b
  | .Int32 i, _ => by simp only [Value.events]; exact Denotes.int32 i
  | .Int64 i, _ => by simp only [Value.events]; exact Denotes.int64 i
  | .Double x, _ => by simp only [Value.events]; exact Denotes.double x
  | .String s, _ => by simp only [Value.events]; exact Denotes.string s
  | .Array a, hk => by
    simp only [Value.events]
    exact Denotes.array _ a (denotes_array a (by simpa only [Value.stringKeys] using hk))
  | .Object o, hk => by
    simp only [Value.events]
    exact Denotes.object _ o (denotes_object o (by simpa only [Value.stringKeys] using hk))

theorem denotes_array : ∀ a : List Value, Value.stringKeysArray a →
    DenotesElements (Value.eventsArray a) a
  | [], _ => by simp only [Value.eventsArray]; exact DenotesElements.nil
  | x :: xs, hk => by
    obtain ⟨h1, h2⟩ : x.stringKeys ∧ Value.stringKeysArray xs := by
      simpa only [Value.stringKeysArray] using hk
    simp only [Value.eventsArray]
    exact DenotesElements.cons _ _ x xs (denotes_events x h1) (denotes_array xs h2)

theorem denotes_object : ∀ o : List (Value × Value), Value.stringKeysObject o →
    DenotesMembers (Value.eventsObject o) o
  | [], _ => by simp only [Value.eventsObject]; exact DenotesMembers.nil
  | (key, value) :: ms, hk => by
    obtain ⟨⟨s, hs⟩, h1, h2⟩ :
        (∃ s, key = .String s) ∧ value.stringKeys ∧ Value.stringKeysObject ms := by
      simpa only [Value.stringKeysObject] using hk
    subst hs
    simp only [Value.eventsObject, Value.getStringView, Option.getD_some]
    exact DenotesMembers.cons s _ _ value ms (denotes_events value h1) (denotes_object ms h2)

end

mutual

/-- Value.hpp:354-393: the calls that writeTo makes on a handler that accepts
every event -/
theorem writeTo_events : ∀ (V : Value), V.stringKeys → ∀ log : List Event,
    V.writeTo Handler.accept log = .returned true (log ++ V.events)
  | .Null, _, _ => rfl
  | .Bool _, _, _ => rfl
  | .Int32 _, _, _ => rfl
  | .Int64 _, _, _ => rfl
  | .Double _, _, _ => rfl
  | .String _, _, _ => rfl
  | .Array a, hk, log => by
    have e := writeArray_events a (by simpa only [Value.stringKeys] using hk)
      (log ++ [.StartArray])
    simp only [Value.writeTo, Handler.accept, if_true, e, Value.CALL, Value.events,
      List.append_assoc, List.singleton_append, List.cons_append, List.nil_append]
  | .Object o, hk, log => by
    have e := writeObject_events o (by simpa only [Value.stringKeys] using hk)
      (log ++ [.StartObject])
    simp only [Value.writeTo, Handler.accept, if_true, e, Value.CALL, Value.events,
      List.append_assoc, List.singleton_append, List.cons_append, List.nil_append]

theorem writeArray_events : ∀ (a : List Value), Value.stringKeysArray a →
    ∀ log : List Event,
      Value.writeArray Handler.accept a log = .returned true (log ++ Value.eventsArray a)
  | [], _, log => by simp only [Value.writeArray, Value.eventsArray, List.append_nil]
  | x :: xs, hk, log => by
    obtain ⟨h1, h2⟩ : x.stringKeys ∧ Value.stringKeysArray xs := by
      simpa only [Value.stringKeysArray] using hk
    simp only [Value.writeArray, writeTo_events x h1 log, writeArray_events xs h2,
      Value.eventsArray, List.append_assoc]

theorem writeObject_events : ∀ (o : List (Value × Value)), Value.stringKeysObject o →
    ∀ log : List Event,
      Value.writeObject Handler.accept o log = .returned true (log ++ Value.eventsObject o)
  | [], _, log => by simp only [Value.writeObject, Value.eventsObject, List.append_nil]
  | (key, value) :: ms, hk, log => by
    obtain ⟨⟨s, hs⟩, h1, h2⟩ :
        (∃ s, key = .String s) ∧ value.stringKeys ∧ Value.stringKeysObject ms := by
      simpa only [Value.stringKeysObject] using hk
    subst hs
    simp only [Value.writeObject, Value.getStringView, writeTo_events value h1,
      writeObject_events ms h2, Value.eventsObject, Option.getD_some, List.append_assoc,
      List.singleton_append, List.cons_append, List.nil_append]

end

/-- The events of a value on a fresh Document: the document becomes the value,
unless two members of one of its objects have the same key -/
theorem build_root (V : Value) (hk : V.stringKeys) :
    (V.distinctKeys → ∃ k, Document.run Document.init V.events =
      some { root := V, stack_ := [], key_ := k, seeValue_ := true }) ∧
    (¬V.distinctKeys → Document.run Document.init V.events = none) := by
  cases V with
  | Null => exact ⟨fun _ => ⟨.Null, rfl⟩, fun h => absurd (by simp only [Value.distinctKeys]) h⟩
  | Bool b => exact ⟨fun _ => ⟨.Null, rfl⟩, fun h => absurd (by simp only [Value.distinctKeys]) h⟩
  | Int32 i => exact ⟨fun _ => ⟨.Null, rfl⟩, fun h => absurd (by simp only [Value.distinctKeys]) h⟩
  | Int64 i => exact ⟨fun _ => ⟨.Null, rfl⟩, fun h => absurd (by simp only [Value.distinctKeys]) h⟩
  | Double x =>
    exact ⟨fun _ => ⟨.Null, rfl⟩, fun h => absurd (by simp only [Value.distinctKeys]) h⟩
  | String s =>
    exact ⟨fun _ => ⟨.Null, rfl⟩, fun h => absurd (by simp only [Value.distinctKeys]) h⟩
  | Array a =>
    have hk2 : Value.stringKeysArray a := by simpa only [Value.stringKeys] using hk
    have hb := build_array a hk2
      { root := .Array [],
        stack_ := [{ value := { inKey := false, depth := 0 }, valueCount := 0 }],
        key_ := .Null,
        seeValue_ := true } 0 0 [] [] rfl rfl rfl
    simp only [List.nil_append] at hb
    obtain ⟨p1, p2⟩ := container_body _ 0 [] (.Array a) (Value.eventsArray a) .EndArray
      (Value.distinctArray a) (fun _ => rfl) hb.1 hb.2
    have hrun : Document.run Document.init (Value.Array a).events =
        Document.run
          { root := .Array [],
            stack_ := [{ value := { inKey := false, depth := 0 }, valueCount := 0 }],
            key_ := .Null,
            seeValue_ := true } (Value.eventsArray a ++ [.EndArray]) := by
      simp only [Value.events]; rfl
    rw [hrun]
    simp only [Value.distinctKeys]
    refine ⟨fun hd => ?_, p2⟩
    obtain ⟨d3, e1, r, k, e2, e3⟩ := p1 hd
    simp only [Value.putAt, Option.some.injEq] at e2
    subst e2 e3
    exact ⟨k, e1⟩
  | Object o =>
    have hk2 : Value.stringKeysObject o := by simpa only [Value.stringKeys] using hk
    have hb := build_object o hk2
      { root := .Object [],
        stack_ := [{ value := { inKey := false, depth := 0 }, valueCount := 0 }],
        key_ := .Null,
        seeValue_ := true } 0 0 [] [] rfl rfl rfl rfl
      (fun a ha => absurd ha (List.not_mem_nil a))
    simp only [List.nil_append, List.not_mem_nil, false_implies, implies_true,
      true_and] at hb
    obtain ⟨p1, p2⟩ := container_body _ 0 [] (.Object o) (Value.eventsObject o) .EndObject
      (Value.distinctObject o) (fun _ => rfl) hb.1 hb.2
    have hrun : Document.run Document.init (Value.Object o).events =
        Document.run
          { root := .Object [],
            stack_ := [{ value := { inKey := false, depth := 0 }, valueCount := 0 }],
            key_ := .Null,
            seeValue_ := true } (Value.eventsObject o ++ [.EndObject]) := by
      simp only [Value.events]; rfl
    rw [hrun]
    simp only [Value.distinctKeys]
    refine ⟨fun hd => ?_, p2⟩
    obtain ⟨d3, e1, r, k, e2, e3⟩ := p1 hd
    simp only [Value.putAt, Option.some.injEq] at e2
    subst e2 e3
    exact ⟨k, e1⟩

/-- C23. For every input on which `Document::parse`, on a fresh Document,
returns PARSE_OK, the parser has made the calls of an event sequence `log`, and
the document is the value that `log` denotes: the scalar of a scalar event, the
array of the values of its elements in the order of the source, the object of
the members in the order of the source, the key of each member being the string
of the Key event before the events of its value.  The stack of the document is
empty. -/
theorem document_tree (mem : List Nat) (json : List Nat) (d : Document)
    (h : Document.parse mem json = .returned .PARSE_OK d) :
    ∃ log, Reader.parse mem Handler.accept json = .returned .PARSE_OK log ∧
      Denotes log d.root ∧ d.stack_ = [] := by
  unfold Document.parse at h
  cases hp : Reader.parse mem Handler.accept json with
  | returned err log =>
    rw [hp] at h
    dsimp only at h
    cases hr : Document.run Document.init log with
    | none => rw [hr] at h; cases h
    | some d1 =>
      rw [hr] at h
      simp only [Document.Outcome.returned.injEq] at h
      obtain ⟨h1, h2⟩ := h
      subst h1 h2
      refine ⟨log, rfl, ?_⟩
      obtain ⟨V, hk, hev⟩ := (wellNested_value log.length).1 log (Nat.le_refl _)
        (parse_ok_wellNested _ _ _ hp)
      subst hev
      obtain ⟨b1, b2⟩ := build_root V hk
      by_cases hd : V.distinctKeys
      · obtain ⟨k, e⟩ := b1 hd
        rw [e] at hr
        simp only [Option.some.injEq] at hr
        subst hr
        exact ⟨denotes_events V hk, rfl⟩
      · rw [b2 hd] at hr
        cases hr
  | aborted log => rw [hp] at h; cases h
  | outOfFuel => rw [hp] at h; cases h

set_option maxRecDepth 100000 in
/-- The parse of the text `{"a":[1,null],"b":{}}` into a fresh Document -/
theorem document_parse_example :
    Document.parse [] (bytes "\x7b\"a\":[1,null],\"b\":\x7b\x7d\x7d") =
      .returned .PARSE_OK
        { root := .Object [(.String [97], .Array [.Int32 1, .Null]), (.String [98], .Object [])],
          stack_ := [],
          key_ := .Null,
          seeValue_ := true } := by
  have hp : Reader.parse [] Handler.accept (bytes "\x7b\"a\":[1,null],\"b\":\x7b\x7d\x7d") =
      .returned .PARSE_OK [.StartObject, .Key [97], .StartArray, .Int32 1, .Null, .EndArray,
        .Key [98], .StartObject, .EndObject, .EndObject] := by decide
  simp only [Document.parse, hp]
  rfl

set_option maxRecDepth 100000 in
/-- An object with two members of the same key: the assertion of `addMember`
fails during the parse -/
theorem document_parse_duplicate (mem : List Nat) :
    Document.parse mem (bytes "\x7b\"a\":1,\"a\":2\x7d") = .aborted := by
  have hp : Reader.parse mem Handler.accept (bytes "\x7b\"a\":1,\"a\":2\x7d") =
      .returned .PARSE_OK [.StartObject, .Key [97], .Int32 1, .Key [97], .Int32 2,
        .EndObject] := rfl
  simp only [Document.parse, hp]
  rfl

/-- C23, witness: the document of the text `{"a":[1,null],"b":{}}` -/
theorem document_tree_witness :
    Document.parse [] (bytes "\x7b\"a\":[1,null],\"b\":\x7b\x7d\x7d") =
      .returned .PARSE_OK
        { root := .Object [(.String [97], .Array [.Int32 1, .Null]), (.String [98], .Object [])],
          stack_ := [],
          key_ := .Null,
          seeValue_ := true } ∧
    ∃ log, Reader.parse [] Handler.accept (bytes "\x7b\"a\":[1,null],\"b\":\x7b\x7d\x7d") =
        .returned .PARSE_OK log ∧
      Denotes log (.Object [(.String [97], .Array [.Int32 1, .Null]),
        (.String [98], .Object [])]) :=
  ⟨document_parse_example,
    (document_tree [] _ _ document_parse_example).imp fun _ h => ⟨h.1, h.2.1⟩⟩

/-- C24. For every value whose objects have pairwise distinct keys, all of them
strings as `addMember` asserts, `writeTo` with a fresh Document as the handler
returns true and leaves the document equal to the value, with an empty
stack. -/
theorem document_replay (V : Value) (hk : V.stringKeys) (hd : V.distinctKeys) :
    ∃ d, writeToDocument V Document.init = some (true, d) ∧ d.root = V ∧ d.stack_ = [] := by
  obtain ⟨k, e⟩ := (build_root V hk).1 hd
  refine ⟨{ root := V, stack_ := [], key_ := k, seeValue_ := true }, ?_, rfl, rfl⟩
  · have hw := writeTo_events V hk []
    simp only [List.nil_append] at hw
    simp only [writeToDocument, hw, e, Option.map_some']

/-- C24, witness: an object with an array and an empty object as the values of
the keys `a` and `b` -/
theorem document_replay_witness :
    ∃ d, writeToDocument
        (.Object [(.String [97], .Array [.Int32 1, .Null]), (.String [98], .Object [])])
        Document.init = some (true, d) ∧
      d.root = .Object [(.String [97], .Array [.Int32 1, .Null]), (.String [98], .Object [])] ∧
      d.stack_ = [] :=
  document_replay _
    (by simp [Value.stringKeys, Value.stringKeysObject, Value.stringKeysArray])
    (by simp [Value.distinctKeys, Value.distinctObject, Value.distinctArray])

/-! ## The infinite doubles and NaN -/

set_option maxRecDepth 100000 in
/-- C36. `Writer::Double` writes `Infinity` for the negative infinity as for the
positive one, and `NaN` for NaN; `Reader::parse` rejects `-Infinity` and `-NaN`
with PARSE_BAD_VALUE and without an event, whatever the handler; and the text that a fresh Writer
writes for the negative infinity is read back as the positive infinity. -/
theorem infinity_sign_lost (mem : List Nat) :
    Writer.doubleText (.inf true) = bytes "Infinity" ∧
    Writer.doubleText (.inf false) = bytes "Infinity" ∧
    Writer.doubleText .nan = bytes "NaN" ∧
    (∀ h : Handler, Reader.parse mem h (bytes "-Infinity") = .returned .PARSE_BAD_VALUE []) ∧
    (∀ h : Handler, Reader.parse mem h (bytes "-NaN") = .returned .PARSE_BAD_VALUE []) ∧
    (Writer.run Writer.init [.Double (.inf true)]).map Writer.os_ = some (bytes "Infinity") ∧
    Reader.parse mem Handler.accept (bytes "Infinity") =
      .returned .PARSE_OK [.Double (.inf false)] ∧
    Reader.parse mem Handler.accept (bytes "NaN") = .returned .PARSE_OK [.Double .nan] :=
  ⟨by decide, by decide, by decide, fun _ => rfl, fun _ => rfl, by decide, rfl, rfl⟩

/-! ## The code points that parseString encodes -/

namespace Reader

theorem parseHex4Loop_bound : ∀ (n u : Nat) (is : StringReadStream) {v : Nat}
    {is1 : StringReadStream}, parseHex4Loop n u is = .ok (v, is1) → v < (u + 1) * 16 ^ n
  | 0, u, is, v, is1, h => by
    simp only [parseHex4Loop, Except.ok.injEq, Prod.mk.injEq] at h
    omega
  | n + 1, u, is, v, is1, h => by
    rw [parseHex4Loop_step] at h
    cases hv : hexValue (next is) with
    | none => rw [hv] at h; cases h
    | some d =>
      rw [hv] at h
      have hd := hexValue_lt hv
      have ih := parseHex4Loop_bound n (u * 16 + d) (advance is) h
      have hp : 0 < 16 ^ n := by positivity
      calc v < (u * 16 + d + 1) * 16 ^ n := ih
        _ ≤ ((u + 1) * 16) * 16 ^ n := Nat.mul_le_mul_right _ (by omega)
        _ = (u + 1) * 16 ^ (n + 1) := by ring

/-- Reader.hpp:54-66: parseHex4 returns at most 0xFFFF -/
theorem parseHex4_le {is : StringReadStream} {u : Nat} {is1 : StringReadStream}
    (h : parseHex4 is = .ok (u, is1)) : u ≤ 0xFFFF := by
  have := parseHex4Loop_bound 4 0 is h
  omega

/-- Reader.hpp:261-277: the code point of an escape `\u` is at most 0x10FFFF -/
theorem parseUnicode_le {is : StringReadStream} {u : Nat} {is1 : StringReadStream}
    (h : parseUnicode is = .ok (u, is1)) : u ≤ 0x10FFFF := by
  unfold parseUnicode at h
  cases h1 : parseHex4 is with
  | error err => rw [h1] at h; cases h
  | ok p =>
    obtain ⟨hi, is2⟩ := p
    have hle := parseHex4_le h1
    rw [h1] at h
    simp only at h
    by_cases hr : 0xD800 ≤ hi ∧ hi ≤ 0xDBFF
    · rw [if_pos hr] at h
      by_cases n1 : next is2 ≠ 92
      · rw [if_pos n1] at h; cases h
      rw [if_neg n1] at h
      by_cases n2 : next (advance is2) ≠ 117
      · rw [if_pos n2] at h; cases h
      rw [if_neg n2] at h
      cases h2 : parseHex4 (advance (advance is2)) with
      | error err => rw [h2] at h; cases h
      | ok q =>
        obtain ⟨lo, is3⟩ := q
        rw [h2] at h
        simp only at h
        by_cases hl : 0xDC00 ≤ lo ∧ lo ≤ 0xDFFF
        · rw [if_pos hl] at h
          simp only [Except.ok.injEq, Prod.mk.injEq] at h
          omega
        · rw [if_neg hl] at h; cases h
    · rw [if_neg hr] at h
      simp only [Except.ok.injEq, Prod.mk.injEq] at h
      omega

theorem encodeUtf8_some (buffer : List Nat) {u : Nat} (hu : u ≤ 0x10FFFF) :
    ∃ b, encodeUtf8 buffer u = some b := by
  unfold encodeUtf8
  by_cases h1 : u ≤ 0x7F
  · exact ⟨_, if_pos h1⟩
  rw [if_neg h1]
  by_cases h2 : u ≤ 0x7FF
  · exact ⟨_, if_pos h2⟩
  rw [if_neg h2]
  by_cases h3 : u ≤ 0xFFFF
  · exact ⟨_, if_pos h3⟩
  rw [if_neg h3]
  exact ⟨_, if_pos hu⟩

/-- Reader.hpp:252-281: the switch on the character after a backslash fails no
assertion -/
theorem parseEscape_ne_abort (is : StringReadStream) (buffer : List Nat) :
    parseEscape is buffer ≠ .abort := by
  unfold parseEscape
  simp only
  split_ifs
  any_goals simp
  cases hu : parseUnicode (advance is) with
  | error err => simp
  | ok p =>
    obtain ⟨u, is1⟩ := p
    obtain ⟨b, hb⟩ := encodeUtf8_some buffer (parseUnicode_le hu)
    simp [hb]

theorem call_ne_abort (h : Handler) (ev : Event) (is : StringReadStream)
    (log log1 : List Event) : CALL h ev is log ≠ .abort log1 := by
  unfold CALL
  split_ifs <;> simp

/-- Reader.hpp:237-287: parseString fails no assertion -/
theorem parseStringLoop_ne_abort (h : Handler) (isKey : Bool) : ∀ (fuel : Nat)
    (is : StringReadStream) (buffer : List Nat) (log log1 : List Event),
    parseStringLoop h isKey fuel is buffer log ≠ .abort log1
  | 0, _, _, _, _ => by simp [parseStringLoop]
  | fuel + 1, is, buffer, log, log1 => by
    rw [parseStringLoop]
    by_cases hn : hasNext is = true
    · simp only [hn, Bool.not_true, Bool.false_eq_true, if_false]
      by_cases h34 : next is = 34
      · rw [if_pos h34]
        cases isKey
        · simpa using call_ne_abort h _ _ _ _
        · simpa using call_ne_abort h _ _ _ _
      rw [if_neg h34]
      by_cases hc : 1 ≤ next is ∧ next is ≤ 31
      · rw [if_pos hc]; simp
      rw [if_neg hc]
      by_cases h92 : next is = 92
      · rw [if_pos h92]
        have hne := parseEscape_ne_abort (advance is) buffer
        cases he : parseEscape (advance is) buffer with
        | next is2 buffer2 => exact parseStringLoop_ne_abort h isKey fuel _ _ _ _
        | throw err => simp
        | abort => exact absurd he hne
      · rw [if_neg h92]
        exact parseStringLoop_ne_abort h isKey fuel _ _ _ _
    · simp [hn]

end Reader

namespace Reader

/-- C33. The assertion of encodeUtf8 on the range of its argument does not fail
in a parse: parseHex4 returns at most 0xFFFF; the code point that an escape
`\u` passes to encodeUtf8, a single unit or a decoded surrogate pair, is at
most 0x10FFFF, so that encodeUtf8 encodes it; and neither the switch on the
character after a backslash nor parseString, on any input, with any handler,
ends in a failed assertion. -/
theorem encodeUtf8_in_range (h : Handler) (isKey : Bool) (fuel : Nat) (is : StringReadStream)
    (buffer : List Nat) (log : List Event) :
    (∀ u is1, parseHex4 is = .ok (u, is1) → u ≤ 0xFFFF) ∧
    (∀ u is1, parseUnicode is = .ok (u, is1) →
      u ≤ 0x10FFFF ∧ ∃ b, encodeUtf8 buffer u = some b) ∧
    parseEscape is buffer ≠ .abort ∧
    (∀ log1, parseStringLoop h isKey fuel is buffer log ≠ .abort log1) ∧
    (∀ log1, parseString h is log isKey ≠ .abort log1) :=
  ⟨fun _ _ hp => parseHex4_le hp,
    fun _ _ hp => ⟨parseUnicode_le hp, encodeUtf8_some buffer (parseUnicode_le hp)⟩,
    parseEscape_ne_abort is buffer,
    fun log1 => parseStringLoop_ne_abort h isKey fuel is buffer log log1,
    fun log1 => parseStringLoop_ne_abort h isKey is.length (advance is) [] log log1⟩

/-- C33, witness: the surrogate pair of the units DBFF and DFFF gives the
greatest code point, 0x10FFFF, and `FFFF` the greatest value of parseHex4 -/
theorem encodeUtf8_in_range_witness :
    parseHex4 (bytes "FFFF") = .ok (0xFFFF, []) ∧ (0xFFFF : Nat) ≤ 0xFFFF ∧
    parseUnicode ([68, 66, 70, 70, 92, 117, 68, 70, 70, 70]) = .ok (0x10FFFF, []) ∧
    ((0x10FFFF : Nat) ≤ 0x10FFFF ∧ ∃ b, encodeUtf8 [] 0x10FFFF = some b) :=
  ⟨rfl,
    (encodeUtf8_in_range Handler.accept false 0 (bytes "FFFF") [] []).1 0xFFFF [] rfl,
    rfl,
    (encodeUtf8_in_range Handler.accept false 0 ([68, 66, 70, 70, 92, 117, 68, 70, 70, 70]) [] []).2.1 0x10FFFF []
      rfl⟩

end Reader

/-! ## Lone surrogates and escapes cut off by the end of the input -/

namespace Reader

/-- The three bytes of encodeUtf8 for a code unit from 0x800 to 0xFFFF, in the
words of the source and in the words of the standard layout -/
theorem three_bytes (u : Nat) (h1 : 0x800 ≤ u) (h2 : u ≤ 0xFFFF) :
    [0xE0 ||| (u >>> 12), 0x80 ||| ((u >>> 6) &&& 0x3F), 0x80 ||| (u &&& 0x3F)] =
      specUtf8 u := by
  obtain ⟨o80, -, oE0, -⟩ := or_lead
  unfold specUtf8
  rw [if_neg (by omega), if_neg (by omega), if_pos h2]
  simp only [and_63, Nat.shiftRight_eq_div_pow]
  rw [oE0 _ (by omega), o80 _ (by omega), o80 _ (by omega)]

/-- C34. A low surrogate that no high surrogate precedes is accepted: for every
four hex digits of value `u` from 0xDC00 to 0xDFFF, the input of the quote, the
escape `\u` with the four digits and the quote is parsed with PARSE_OK and the
one event String of the three bytes 0xE0|(u>>12), 0x80|((u>>6)&0x3F),
0x80|(u&0x3F).  The first byte is 0xED, and the three bytes have the layout of
the code point `u`, a surrogate and so no Unicode scalar value. -/
theorem lone_low_surrogate (mem : List Nat) (a b c d u : Nat) (hu : hex4Value a b c d = some u)
    (hr : 0xDC00 ≤ u ∧ u ≤ 0xDFFF) :
    parse mem Handler.accept [34, 92, 117, a, b, c, d, 34] =
      .returned .PARSE_OK
        [.String [0xE0 ||| (u >>> 12), 0x80 ||| ((u >>> 6) &&& 0x3F), 0x80 ||| (u &&& 0x3F)]] ∧
    0xE0 ||| (u >>> 12) = 0xED ∧
    specUtf8Decode [0xE0 ||| (u >>> 12), 0x80 ||| ((u >>> 6) &&& 0x3F), 0x80 ||| (u &&& 0x3F)] =
      some u ∧
    ¬isScalarValue u := by
  have e := three_bytes u (by omega) (by omega)
  refine ⟨?_, ?_, ?_, fun hs => hs.2 (by omega)⟩
  · have := @parse_strBody mem _ _ (strBody_unicode hu (by omega) StrBody.nil)
    rw [e]
    simpa only [List.append_nil, List.cons_append, List.nil_append] using this
  · have hd : u >>> 12 = 13 := by
      rw [Nat.shiftRight_eq_div_pow]; omega
    rw [hd]
    rfl
  · rw [e]
    exact specUtf8_decode u (by omega)

/-- C34, witness: the input `"\uDC00"` -/
theorem lone_low_surrogate_witness :
    parse [] Handler.accept (bytes "\"\\uDC00\"") = .returned .PARSE_OK [.String [0xED, 0xB0, 0x80]] ∧
    specUtf8Decode [0xED, 0xB0, 0x80] = some 0xDC00 :=
  have h := lone_low_surrogate [] 68 67 48 48 0xDC00 (by decide) (by decide)
  ⟨h.1, h.2.2.1⟩

theorem hex4Value_short (ds : List Nat) (hl : ds.length < 4) :
    hex4Value (ds.getD 0 0) (ds.getD 1 0) (ds.getD 2 0) (ds.getD 3 0) = none := by
  have h3 : ds.getD 3 0 = 0 := by
    rcases ds with _ | ⟨a, _ | ⟨b, _ | ⟨c, _ | ⟨d, t⟩⟩⟩⟩
    · rfl
    · rfl
    · rfl
    · rfl
    · simp only [List.length_cons] at hl; omega
  rw [h3]
  unfold hex4Value
  have h0 : hexValue 0 = none := by decide
  rw [h0]
  cases hexValue (ds.getD 0 0) <;> cases hexValue (ds.getD 1 0) <;>
    cases hexValue (ds.getD 2 0) <;> rfl

/-- C35. After the quote and any valid string body, an escape that the end of
the input cuts off is not reported as a missing quotation mark: if the input
ends right after the backslash, parseString throws PARSE_BAD_STRING_ESCAPE; if
it ends after `\u` and fewer than four more bytes, PARSE_BAD_UNICODE_HEX; if it
ends right after the complete escape of a high surrogate,
PARSE_BAD_UNICODE_SURROGATE; no handler call is made, and `parse` returns the
same error. -/
theorem escape_cut_off (mem : List Nat) (t s : List Nat) (hb : StrBody t s) (h : Handler) (isKey : Bool)
    (log : List Event) :
    (parseString h (34 :: (t ++ [92])) log isKey = .throw .PARSE_BAD_STRING_ESCAPE log ∧
      parse mem h (34 :: (t ++ [92])) = .returned .PARSE_BAD_STRING_ESCAPE []) ∧
    (∀ ds : List Nat, ds.length < 4 →
      parseString h (34 :: (t ++ 92 :: 117 :: ds)) log isKey =
        .throw .PARSE_BAD_UNICODE_HEX log ∧
      parse mem h (34 :: (t ++ 92 :: 117 :: ds)) = .returned .PARSE_BAD_UNICODE_HEX []) ∧
    (∀ a b c d hi, hex4Value a b c d = some hi → 0xD800 ≤ hi ∧ hi ≤ 0xDBFF →
      parseString h (34 :: (t ++ [92, 117, a, b, c, d])) log isKey =
        .throw .PARSE_BAD_UNICODE_SURROGATE log ∧
      parse mem h (34 :: (t ++ [92, 117, a, b, c, d])) =
        .returned .PARSE_BAD_UNICODE_SURROGATE []) := by
  refine ⟨?_, fun ds hl => ?_, fun a b c d hi hhi hr => ?_⟩
  · have he : parseEscape [] s = .throw .PARSE_BAD_STRING_ESCAPE :=
      parseEscape_bad s (by decide)
    exact ⟨parseString_escape_throw h isKey hb [] log he, parse_escape_throw h hb [] he⟩
  · have he : parseEscape (117 :: ds) s = .throw .PARSE_BAD_UNICODE_HEX :=
      parseEscape_unicode_error s (parseUnicode_hex (hex4Value_short ds hl))
    exact ⟨parseString_escape_throw h isKey hb _ log he, parse_escape_throw h hb _ he⟩
  · have he : parseEscape (117 :: a :: b :: c :: d :: []) s =
        .throw .PARSE_BAD_UNICODE_SURROGATE :=
      parseEscape_unicode_error s (parseUnicode_lone hhi hr (Or.inl (by decide)))
    exact ⟨parseString_escape_throw h isKey hb _ log he, parse_escape_throw h hb _ he⟩

/-- C35, witness: the inputs `"a\`, `"a\u12` and `"a\uD83D` -/
theorem escape_cut_off_witness :
    parse [] Handler.accept (bytes "\"a\\") = .returned .PARSE_BAD_STRING_ESCAPE [] ∧
    parse [] Handler.accept (bytes "\"a\\u12") = .returned .PARSE_BAD_UNICODE_HEX [] ∧
    parse [] Handler.accept (bytes "\"a\\uD83D") = .returned .PARSE_BAD_UNICODE_SURROGATE [] :=
  have hb : StrBody [97] [97] :=
    StrBody.raw 97 _ _ (by decide) (by decide) (by decide) StrBody.nil
  have h := escape_cut_off [] [97] [97] hb Handler.accept false []
  ⟨h.1.2, (h.2.1 [49, 50] (by decide)).2, (h.2.2 68 56 51 68 0xD83D (by decide) (by decide)).2⟩

end Reader

/-! ## The events of a parse that fails -/

namespace Reader

theorem stopped_ok {is : StringReadStream} {log log1 : List Event} :
    ¬Stopped (.ok is log) log1 := by
  rintro (⟨err, h⟩ | h) <;> cases h

theorem stopped_outOfFuel {log1 : List Event} : ¬Stopped .outOfFuel log1 := by
  rintro (⟨err, h⟩ | h) <;> cases h

theorem stopped_throw {err : ParseError} {log log1 : List Event}
    (h : Stopped (.throw err log) log1) : log1 = log := by
  rcases h with ⟨e, h⟩ | h
  · cases h; rfl
  · cases h

theorem andThen_stopped {r : Res} {k : StringReadStream → List Event → Res}
    {log1 : List Event} (h : Stopped (r.andThen k) log1) :
    Stopped r log1 ∨ ∃ is log, r = .ok is log ∧ Stopped (k is log) log1 := by
  cases r with
  | ok is log => exact Or.inr ⟨is, log, rfl, h⟩
  | throw err log => exact Or.inl h
  | abort log => exact Or.inl h
  | outOfFuel => exact Or.inl h

/-- A parsing function that makes at most one handler call, as its last
action, on a handler that accepts every event: if it is left by an exception or
a failed assertion, the log is as it was -/
theorem leaf_stopped {P : Event → Prop} {n : Nat} {log log1 : List Event} {r : Res}
    (hl : Leaf P Handler.accept n log r) (hs : Stopped r log1) : log1 = log := by
  rcases hl with ⟨ev, is, -, -, rfl⟩ | ⟨err, -, rfl⟩ | rfl
  · rw [call_accept] at hs
    exact absurd hs stopped_ok
  · exact stopped_throw hs
  · rcases hs with ⟨e, h⟩ | h
    · cases h
    · cases h; rfl

/-- The events of a parsing function that is left by an exception or a failed
assertion, on a handler that accepts every event: those of a value that is not
finished -/
theorem open_parse (fuel : Nat) :
    (∀ is log log1, Stopped (parseValue mem Handler.accept fuel is log) log1 →
      ∃ v, log1 = log ++ v ∧ OpenValue v) ∧
    (∀ is log log1, hasNext is = true → Stopped (parseArray mem Handler.accept fuel is log) log1 →
      ∃ v, log1 = log ++ v ∧ OpenValue v) ∧
    (∀ is log log1, Stopped (parseArrayLoop mem Handler.accept fuel is log) log1 →
      ∃ es v, log1 = log ++ (es ++ v) ∧ Elements es ∧ OpenValue v) ∧
    (∀ is log log1, hasNext is = true → Stopped (parseObject mem Handler.accept fuel is log) log1 →
      ∃ v, log1 = log ++ v ∧ OpenValue v) ∧
    (∀ is log log1, Stopped (parseObjectLoop mem Handler.accept fuel is log) log1 →
      ∃ ms t, log1 = log ++ (ms ++ t) ∧ Members ms ∧
        (t = [] ∨ ∃ k v, t = .Key k :: v ∧ OpenValue v)) := by
  induction fuel with
  | zero =>
    refine ⟨?_, ?_, ?_, ?_, ?_⟩ <;> intros <;> simp only [parseValue, parseArray,
      parseArrayLoop, parseObject, parseObjectLoop] at * <;>
      exact absurd (by assumption) stopped_outOfFuel
  | succ fuel ih =>
    obtain ⟨ihV, ihA, ihAL, ihO, ihOL⟩ := ih
    have leaf : ∀ {P : Event → Prop} {n log r log1}, Leaf P Handler.accept n log r →
        Stopped r log1 → ∃ v, log1 = log ++ v ∧ OpenValue v := by
      intro P n log r log1 hl hs
      exact ⟨[], by rw [leaf_stopped hl hs, List.append_nil], OpenValue.nothing⟩
    refine ⟨?_, ?_, ?_, ?_, ?_⟩
    · intro is log log1 hp
      rw [parseValue] at hp
      by_cases hn : hasNext is = true
      · simp only [hn, Bool.not_true, Bool.false_eq_true, if_false] at hp
        split_ifs at hp
        · exact leaf (parseLiteral_leaf _ _ _ _ _ hn) hp
        · exact leaf (parseLiteral_leaf _ _ _ _ _ hn) hp
        · exact leaf (parseLiteral_leaf _ _ _ _ _ hn) hp
        · exact leaf (parseString_leaf _ _ _ _ hn) hp
        · exact ihA _ _ _ hn hp
        · exact ihO _ _ _ hn hp
        · exact leaf (parseNumber_leaf _ _ _ hn) hp
      · simp only [hn, Bool.not_false, if_true] at hp
        exact ⟨[], by rw [stopped_throw hp, List.append_nil], OpenValue.nothing⟩
    · intro is log log1 hn hp
      rw [parseArray, call_accept] at hp
      simp only [Res.andThen] at hp
      split_ifs at hp
      · rw [call_accept] at hp
        exact absurd hp stopped_ok
      · obtain ⟨es, v, rfl, hes, hv⟩ := ihAL _ _ _ hp
        exact ⟨.StartArray :: (es ++ v), by simp, OpenValue.array es v hes hv⟩
    · intro is log log1 hp
      rw [parseArrayLoop] at hp
      rcases andThen_stopped hp with hv | ⟨is2, log2, hv, hk⟩
      · obtain ⟨v, rfl, hov⟩ := ihV _ _ _ hv
        exact ⟨[], v, by simp, Elements.nil, hov⟩
      · obtain ⟨v, rfl, hwv⟩ := (wellNested_parse Handler.accept fuel).1 _ _ _ _ hv
        try simp only at hk
        split_ifs at hk
        · obtain ⟨es, v2, rfl, hes, hv2⟩ := ihAL _ _ _ hk
          exact ⟨v ++ es, v2, by simp, Elements.cons v es hwv hes, hv2⟩
        · rw [call_accept] at hk
          exact absurd hk stopped_ok
        · refine ⟨v ++ [], [], ?_, Elements.cons v [] hwv Elements.nil, OpenValue.nothing⟩
          rw [stopped_throw hk]
          simp
    · intro is log log1 hn hp
      rw [parseObject, call_accept] at hp
      simp only [Res.andThen] at hp
      split_ifs at hp
      · rw [call_accept] at hp
        exact absurd hp stopped_ok
      · obtain ⟨ms, t, rfl, hms, ht⟩ := ihOL _ _ _ hp
        rcases ht with rfl | ⟨k, v, rfl, hv⟩
        · exact ⟨.StartObject :: ms, by simp, OpenValue.object ms hms⟩
        · exact ⟨.StartObject :: (ms ++ .Key k :: v), by simp, OpenValue.member ms k v hms hv⟩
    · intro is log log1 hp
      rw [parseObjectLoop] at hp
      split_ifs at hp with hq
      · exact ⟨[], [], by rw [stopped_throw hp]; simp, Members.nil, Or.inl rfl⟩
      · have hn : hasNext is = true := hasNext_of_peek_ne (by
          intro h0; rw [h0] at hq; exact hq (by decide))
        have hleaf := parseString_leaf Handler.accept is log true hn
        rcases andThen_stopped hp with hs | ⟨is2, log2, hs, hk⟩
        · exact ⟨[], [], by rw [leaf_stopped hleaf hs]; simp, Members.nil, Or.inl rfl⟩
        · obtain ⟨ev, ⟨s, rfl⟩, rfl⟩ := leaf_eq_ok hleaf hs
          try simp only at hk
          split_ifs at hk
          · refine ⟨[], [.Key s], ?_, Members.nil, Or.inr ⟨s, [], rfl, OpenValue.nothing⟩⟩
            rw [stopped_throw hk]
            simp
          · rcases andThen_stopped hk with hv | ⟨is3, log3, hv, hk2⟩
            · obtain ⟨v, rfl, hov⟩ := ihV _ _ _ hv
              exact ⟨[], .Key s :: v, by simp, Members.nil, Or.inr ⟨s, v, rfl, hov⟩⟩
            · obtain ⟨v, rfl, hwv⟩ := (wellNested_parse Handler.accept fuel).1 _ _ _ _ hv
              try simp only at hk2
              split_ifs at hk2
              · obtain ⟨ms, t, rfl, hms, ht⟩ := ihOL _ _ _ hk2
                exact ⟨.Key s :: v ++ ms, t, by simp, Members.cons s v ms hwv hms, ht⟩
              · rw [call_accept] at hk2
                exact absurd hk2 stopped_ok
              · refine ⟨.Key s :: v ++ [], [], ?_, Members.cons s v [] hwv Members.nil,
                  Or.inl rfl⟩
                rw [stopped_throw hk2]
                simp

end Reader

/-! ## A Writer driven by the parser -/

/-- The events of a parse on a handler that accepts every event are those of
one value, or those of a value that is not finished -/
theorem parse_log_shape (is : StringReadStream) :
    WellNested (Reader.parse mem Handler.accept is).log ∨
      OpenValue (Reader.parse mem Handler.accept is).log := by
  unfold Reader.parse Reader.parseFuel
  cases hr : Reader.parseValue mem Handler.accept (3 * is.length + 1)
      (Reader.parseWhiteSpace is) [] with
  | ok is1 log1 =>
    obtain ⟨v, hv, hw⟩ := (Reader.wellNested_parse Handler.accept _).1 _ _ _ _ hr
    simp only [List.nil_append] at hv
    subst hv
    left
    simp only
    split <;> exact hw
  | throw err log1 =>
    obtain ⟨v, hv, hw⟩ := (Reader.open_parse _).1 _ _ log1 (by rw [hr]; exact Or.inl ⟨err, rfl⟩)
    simp only [List.nil_append] at hv
    subst hv
    exact Or.inr hw
  | abort log1 =>
    obtain ⟨v, hv, hw⟩ := (Reader.open_parse _).1 _ _ log1 (by rw [hr]; exact Or.inr rfl)
    simp only [List.nil_append] at hv
    subst hv
    exact Or.inr hw
  | outOfFuel => exact Or.inr OpenValue.nothing

/-- A parse on a handler that accepts every event does not return
PARSE_USER_STOPPED -/
theorem parse_accept_not_stopped (is : StringReadStream) (log : List Event) :
    Reader.parse mem Handler.accept is ≠ .returned .PARSE_USER_STOPPED log := by
  have hinv := (@Reader.inv_parse mem Handler.accept (3 * is.length + 1)).1
    (Reader.parseWhiteSpace is) []
  unfold Reader.parse Reader.parseFuel
  cases hr : Reader.parseValue mem Handler.accept (3 * is.length + 1)
      (Reader.parseWhiteSpace is) [] with
  | ok is1 log1 => simp only; split <;> simp
  | throw err log1 =>
    rw [hr] at hinv
    rcases hinv.2.2 with ⟨hne, -⟩ | ⟨-, l, ev, -, -, -, hf⟩
    · simp only [ne_eq, Reader.Outcome.returned.injEq, not_and]
      exact fun he => absurd he hne
    · simp [Handler.accept] at hf
  | abort log1 => simp
  | outOfFuel => simp

theorem elements_snoc (n : Nat) : ∀ es : List Event, es.length ≤ n → Elements es →
    ∀ x, WellNested x → Elements (es ++ x) := by
  induction n with
  | zero =>
    intro es hl _ x hx
    have e : es = [] := List.length_eq_zero.1 (by omega)
    subst e
    have := Elements.cons x [] hx Elements.nil
    simpa using this
  | succ n ih =>
    intro es hl hes x hx
    cases hes with
    | nil =>
      have := Elements.cons x [] hx Elements.nil
      simpa using this
    | cons v es2 hv hes2 =>
      have l1 := wellNested_ne_nil hv
      simp only [List.length_append] at hl
      rw [List.append_assoc]
      exact Elements.cons v _ hv (ih es2 (by omega) hes2 x hx)

theorem members_snoc (n : Nat) : ∀ ms : List Event, ms.length ≤ n → Members ms →
    ∀ k x, WellNested x → Members (ms ++ .Key k :: x) := by
  induction n with
  | zero =>
    intro ms hl _ k x hx
    have e : ms = [] := List.length_eq_zero.1 (by omega)
    subst e
    have := Members.cons k x [] hx Members.nil
    simpa using this
  | succ n ih =>
    intro ms hl hms k x hx
    cases hms with
    | nil =>
      have := Members.cons k x [] hx Members.nil
      simpa using this
    | cons k2 v ms2 hv hms2 =>
      simp only [List.length_cons, List.length_append] at hl
      have := Members.cons k2 v _ hv (ih ms2 (by omega) hms2 k x hx)
      simpa only [List.cons_append, List.append_assoc] using this

/-- The events of a value that is not finished are the first events of the
events of a value -/
theorem openValue_completion {v : List Event} (h : OpenValue v) :
    ∃ rest, WellNested (v ++ rest) := by
  induction h with
  | nothing => exact ⟨[.Null], WellNested.scalar .Null trivial⟩
  | array es v hes _ ih =>
    obtain ⟨rest, hr⟩ := ih
    refine ⟨rest ++ [.EndArray], ?_⟩
    have := WellNested.array _ (elements_snoc es.length es (Nat.le_refl _) hes _ hr)
    simpa only [List.cons_append, List.append_assoc] using this
  | object ms hms =>
    refine ⟨[.EndObject], ?_⟩
    have := WellNested.object ms hms
    simpa only [List.cons_append, List.append_assoc] using this
  | member ms k v hms _ ih =>
    obtain ⟨rest, hr⟩ := ih
    refine ⟨rest ++ [.EndObject], ?_⟩
    have := WellNested.object _ (members_snoc ms.length ms (Nat.le_refl _) hms k _ hr)
    simpa only [List.cons_append, List.append_assoc] using this

/-- The Writer on the events of one value, where a value may come -/
theorem writer_value {v : List Event} (hv : WellNested v) (w w1 : Writer)
    (hs : ∀ ty, Writer.separator w ty = some w1) :
    ∃ text, Writer.run w v = some (w1.put text) := by
  obtain ⟨text, ht⟩ := (wellNested_compact v.length).1 v (Nat.le_refl _) hv
  exact ⟨text, (writer_compact v.length).1 v text (Nat.le_refl _) ht w w1 hs⟩

/-- The Writer on the events of the elements of an array that is open -/
theorem writer_elements (n : Nat) : ∀ es : List Event, es.length ≤ n → Elements es →
    ∀ (st : List Level) (os : List Nat) (sv : Bool) (k : Nat),
      ∃ k1 os1 sv1, Writer.run
          { stack_ := { inArray := true, valueCount := k } :: st, os_ := os, seeValue_ := sv }
          es =
        some { stack_ := { inArray := true, valueCount := k1 } :: st, os_ := os1,
               seeValue_ := sv1 } := by
  induction n with
  | zero =>
    intro es hl _ st os sv k
    have e : es = [] := List.length_eq_zero.1 (by omega)
    subst e
    exact ⟨k, os, sv, rfl⟩
  | succ n ih =>
    intro es hl hes st os sv k
    cases hes with
    | nil => exact ⟨k, os, sv, rfl⟩
    | cons v es2 hv hes2 =>
      have l1 := wellNested_ne_nil hv
      simp only [List.length_append] at hl
      obtain ⟨text, ht⟩ := writer_value hv _ _ (separator_inArray k st os sv)
      obtain ⟨k1, os1, sv1, e⟩ := ih es2 (by omega) hes2 st
        (os ++ (if 0 < k then [44] else []) ++ text) true (k + 1)
      refine ⟨k1, os1, sv1, ?_⟩
      rw [writer_run_append, ht]
      exact e

/-- The Writer on the events of the members of an object that is open -/
theorem writer_members (n : Nat) : ∀ ms : List Event, ms.length ≤ n → Members ms →
    ∀ (st : List Level) (os : List Nat) (sv : Bool) (k : Nat), k % 2 = 0 →
      ∃ k1 os1 sv1, k1 % 2 = 0 ∧ Writer.run
          { stack_ := { inArray := false, valueCount := k } :: st, os_ := os, seeValue_ := sv }
          ms =
        some { stack_ := { inArray := false, valueCount := k1 } :: st, os_ := os1,
               seeValue_ := sv1 } := by
  induction n with
  | zero =>
    intro ms hl _ st os sv k hk
    have e : ms = [] := List.length_eq_zero.1 (by omega)
    subst e
    exact ⟨k, os, sv, hk, rfl⟩
  | succ n ih =>
    intro ms hl hms st os sv k hk
    cases hms with
    | nil => exact ⟨k, os, sv, hk, rfl⟩
    | cons key v ms2 hv hms2 =>
      simp only [List.length_cons, List.length_append] at hl
      obtain ⟨text, ht⟩ := writer_value hv _ _
        (separator_member (k + 1) (by omega) st
          (os ++ (if 0 < k then [44] else []) ++ Writer.token (.Key key)) true)
      obtain ⟨k1, os1, sv1, hk1, e⟩ := ih ms2 (by omega) hms2 st
        (os ++ (if 0 < k then [44] else []) ++ Writer.token (.Key key) ++ [58] ++ text) true
        (k + 1 + 1) (by omega)
      refine ⟨k1, os1, sv1, hk1, ?_⟩
      rw [List.cons_append, run_key st os sv k hk, writer_run_append, ht]
      exact e

/-- The Writer on the events of a value that is not finished, where a value
may come: no assertion fails -/
theorem writer_open {v : List Event} (hv : OpenValue v) :
    ∀ w w1 : Writer, (∀ ty, Writer.separator w ty = some w1) → ∃ w2, Writer.run w v = some w2 := by
  induction hv with
  | nothing => exact fun w _ _ => ⟨w, rfl⟩
  | array es v hes _ ih =>
    intro w w1 hs
    have hh : Writer.handle w .StartArray =
        some { stack_ := { inArray := true, valueCount := 0 } :: w1.stack_,
               os_ := w1.os_ ++ [91], seeValue_ := w1.seeValue_ } := by
      simp [Writer.handle, Writer.StartArray, hs, Writer.put]
    obtain ⟨k1, os1, sv1, e⟩ := writer_elements es.length es (Nat.le_refl _) hes w1.stack_
      (w1.os_ ++ [91]) w1.seeValue_ 0
    obtain ⟨w2, e2⟩ := ih _ _ (separator_inArray k1 w1.stack_ os1 sv1)
    exact ⟨w2, by rw [writer_run_cons hh, writer_run_append, e]; exact e2⟩
  | object ms hms =>
    intro w w1 hs
    have hh : Writer.handle w .StartObject =
        some { stack_ := { inArray := false, valueCount := 0 } :: w1.stack_,
               os_ := w1.os_ ++ [123], seeValue_ := w1.seeValue_ } := by
      simp [Writer.handle, Writer.StartObject, hs, Writer.put]
    obtain ⟨k1, os1, sv1, -, e⟩ := writer_members ms.length ms (Nat.le_refl _) hms w1.stack_
      (w1.os_ ++ [123]) w1.seeValue_ 0 rfl
    exact ⟨_, by rw [writer_run_cons hh, e]⟩
  | member ms k v hms _ ih =>
    intro w w1 hs
    have hh : Writer.handle w .StartObject =
        some { stack_ := { inArray := false, valueCount := 0 } :: w1.stack_,
               os_ := w1.os_ ++ [123], seeValue_ := w1.seeValue_ } := by
      simp [Writer.handle, Writer.StartObject, hs, Writer.put]
    obtain ⟨k1, os1, sv1, hk1, e⟩ := writer_members ms.length ms (Nat.le_refl _) hms w1.stack_
      (w1.os_ ++ [123]) w1.seeValue_ 0 rfl
    obtain ⟨w2, e2⟩ := ih _ _ (separator_member (k1 + 1) (by omega) w1.stack_
      (os1 ++ (if 0 < k1 then [44] else []) ++ Writer.token (.Key k)) true)
    exact ⟨w2, by
      rw [writer_run_cons hh, writer_run_append, e]
      simp only [Option.some_bind]
      rw [run_key w1.stack_ os1 sv1 k1 hk1]
      exact e2⟩

/-- C31. For every input, whatever the parse result, the calls that
`Reader::parse` makes on a handler whose methods all return true, as those of
Writer do, are the events of one value or the first events of the events of
one value, and a fresh Writer that receives them fails none of its assertions:
neither that of `prefix` on a second root value, nor that on the type at a key
position, nor those of EndArray and EndObject on the stack and its top. -/
theorem writer_never_aborts (mem : List Nat) (json : List Nat) :
    (∃ rest, WellNested ((Reader.parse mem Handler.accept json).log ++ rest)) ∧
    ∃ w, Writer.run Writer.init (Reader.parse mem Handler.accept json).log = some w := by
  rcases parse_log_shape json with h | h
  · refine ⟨⟨[], by rw [List.append_nil]; exact h⟩, ?_⟩
    obtain ⟨text, e⟩ := writer_value h Writer.init _ separator_root
    exact ⟨_, e⟩
  · exact ⟨openValue_completion h, writer_open h Writer.init _ separator_root⟩

/-! ## Event sequences without a repeated key -/

theorem scanKeys_scalar (st : List (List (List Nat))) {ev : Event} (hs : isScalar ev)
    (evs : List Event) : scanKeys st (ev :: evs) = scanKeys st evs := by
  cases ev with
  | Null => cases st <;> simp only [scanKeys]
  | Bool b => cases st <;> simp only [scanKeys]
  | Int32 i => cases st <;> simp only [scanKeys]
  | Int64 i => cases st <;> simp only [scanKeys]
  | Double d => cases st <;> simp only [scanKeys]
  | String s => cases st <;> simp only [scanKeys]
  | Key s => exact absurd hs (by simp only [isScalar, not_false_eq_true])
  | StartObject => exact absurd hs (by simp only [isScalar, not_false_eq_true])
  | EndObject => exact absurd hs (by simp only [isScalar, not_false_eq_true])
  | StartArray => exact absurd hs (by simp only [isScalar, not_false_eq_true])
  | EndArray => exact absurd hs (by simp only [isScalar, not_false_eq_true])

theorem stringKeysObject_mem : ∀ (o : List (Value × Value)), Value.stringKeysObject o →
    ∀ a ∈ o, ∃ s, a.1 = .String s
  | [], _, a, ha => absurd ha (List.not_mem_nil a)
  | (key, value) :: ms, hk, a, ha => by
    obtain ⟨h1, -, h3⟩ :
        (∃ s, key = .String s) ∧ value.stringKeys ∧ Value.stringKeysObject ms := by
      simpa only [Value.stringKeysObject] using hk
    rcases List.mem_cons.1 ha with h | h
    · rw [h]; exact h1
    · exact stringKeysObject_mem ms h3 a h

mutual

/-- The events of a value without a repeated key: the keys of every object of
the value are pairwise distinct -/
theorem scan_value : ∀ (V : Value), V.stringKeys → ∀ (st : List (List (List Nat)))
    (rest : List Event), scanKeys st (V.events ++ rest) = true →
    V.distinctKeys ∧ scanKeys st rest = true
  | .Null, _, st, rest, h => by
    simp only [Value.events, List.singleton_append,
      scanKeys_scalar st (show isScalar .Null from trivial)] at h
    exact ⟨by simp only [Value.distinctKeys], h⟩
  | .Bool b, _, st, rest, h => by
    simp only [Value.events, List.singleton_append,
      scanKeys_scalar st (show isScalar (.Bool b) from trivial)] at h
    exact ⟨by simp only [Value.distinctKeys], h⟩
  | .Int32 i, _, st, rest, h => by
    simp only [Value.events, List.singleton_append,
      scanKeys_scalar st (show isScalar (.Int32 i) from trivial)] at h
    exact ⟨by simp only [Value.distinctKeys], h⟩
  | .Int64 i, _, st, rest, h => by
    simp only [Value.events, List.singleton_append,
      scanKeys_scalar st (show isScalar (.Int64 i) from trivial)] at h
    exact ⟨by simp only [Value.distinctKeys], h⟩
  | .Double x, _, st, rest, h => by
    simp only [Value.events, List.singleton_append,
      scanKeys_scalar st (show isScalar (.Double x) from trivial)] at h
    exact ⟨by simp only [Value.distinctKeys], h⟩
  | .String s, _, st, rest, h => by
    simp only [Value.events, List.singleton_append,
      scanKeys_scalar st (show isScalar (.String s) from trivial)] at h
    exact ⟨by simp only [Value.distinctKeys], h⟩
  | .Array a, hk, st, rest, h => by
    simp only [Value.events, List.cons_append, List.append_assoc, List.singleton_append] at h
    simp only [scanKeys] at h
    obtain ⟨h1, h2⟩ := scan_array a (by simpa only [Value.stringKeys] using hk) _ _ h
    simp only [scanKeys, List.tail_cons] at h2
    exact ⟨by simpa only [Value.distinctKeys] using h1, h2⟩
  | .Object o, hk, st, rest, h => by
    simp only [Value.events, List.cons_append, List.append_assoc, List.singleton_append] at h
    simp only [scanKeys] at h
    obtain ⟨-, h1, ks1, h2, -, -⟩ :=
      scan_object o (by simpa only [Value.stringKeys] using hk) _ _ _ h
    simp only [scanKeys, List.tail_cons] at h2
    exact ⟨by simpa only [Value.distinctKeys] using h1, h2⟩

theorem scan_array : ∀ (xs : List Value), Value.stringKeysArray xs →
    ∀ (st : List (List (List Nat))) (rest : List Event),
    scanKeys st (Value.eventsArray xs ++ rest) = true →
    Value.distinctArray xs ∧ scanKeys st rest = true
  | [], _, st, rest, h => by
    simp only [Value.eventsArray, List.nil_append] at h
    exact ⟨by simp only [Value.distinctArray], h⟩
  | x :: xs, hk, st, rest, h => by
    obtain ⟨hkx, hkxs⟩ : x.stringKeys ∧ Value.stringKeysArray xs := by
      simpa only [Value.stringKeysArray] using hk
    simp only [Value.eventsArray, List.append_assoc] at h
    obtain ⟨h1, h2⟩ := scan_value x hkx _ _ h
    obtain ⟨h3, h4⟩ := scan_array xs hkxs _ _ h2
    exact ⟨by simp only [Value.distinctArray]; exact ⟨h1, h3⟩, h4⟩

theorem scan_object : ∀ (o : List (Value × Value)), Value.stringKeysObject o →
    ∀ (ks : List (List Nat)) (st : List (List (List Nat))) (rest : List Event),
    scanKeys (ks :: st) (Value.eventsObject o ++ rest) = true →
    (∀ m ∈ o, ∀ k ∈ ks, m.1 ≠ .String k) ∧ Value.distinctObject o ∧
      ∃ ks1, scanKeys (ks1 :: st) rest = true ∧
        (∀ m ∈ o, ∀ s, m.1 = .String s → s ∈ ks1) ∧ (∀ k ∈ ks, k ∈ ks1)
  | [], _, ks, st, rest, h => by
    simp only [Value.eventsObject, List.nil_append] at h
    exact ⟨fun m hm => absurd hm (List.not_mem_nil m), by simp only [Value.distinctObject],
      ks, h, fun m hm => absurd hm (List.not_mem_nil m), fun k hk => hk⟩
  | (key, value) :: ms, hk, ks, st, rest, h => by
    obtain ⟨⟨s, hs⟩, hkv, hkms⟩ :
        (∃ s, key = .String s) ∧ value.stringKeys ∧ Value.stringKeysObject ms := by
      simpa only [Value.stringKeysObject] using hk
    subst hs
    simp only [Value.eventsObject, Value.getStringView, Option.getD_some, List.cons_append,
      List.append_assoc] at h
    simp only [scanKeys, Bool.and_eq_true, decide_eq_true_eq] at h
    obtain ⟨hfresh, h⟩ := h
    obtain ⟨h1, h2⟩ := scan_value value hkv _ _ h
    obtain ⟨h3, h4, ks1, h5, h6, h7⟩ := scan_object ms hkms _ _ _ h2
    refine ⟨fun m hm k hkk => ?_, ?_, ks1, h5, fun m hm t ht => ?_, fun k hkk => ?_⟩
    · rcases List.mem_cons.1 hm with e | e
      · rw [e]
        intro he
        simp only [Value.String.injEq] at he
        exact hfresh (he ▸ hkk)
      · exact h3 m e k (List.mem_append_left _ hkk)
    · simp only [Value.distinctObject]
      exact ⟨fun m hm => h3 m hm s (List.mem_append_right _ (List.mem_singleton_self _)),
        h1, h4⟩
    · rcases List.mem_cons.1 hm with e | e
      · rw [e] at ht
        simp only [Value.String.injEq] at ht
        exact h7 t (ht ▸ List.mem_append_right _ (List.mem_singleton_self _))
      · exact h6 m e t ht
    · exact h7 k (List.mem_append_left _ hkk)

end

/-! ## A Document driven by the parser -/

/-- The events of the members of an object, in the object that the top of the
stack points to: the number of values that the object has received stays
even -/
theorem build_object_even : ∀ (ms : List (Value × Value)), Value.stringKeysObject ms →
    ∀ (d : Document) (m c : Nat) (st : List Document.Level) (acc : List (Value × Value)),
    d.seeValue_ = true →
    d.stack_ = { value := { inKey := false, depth := m }, valueCount := c } :: st →
    c % 2 = 0 → Value.nodeAt m d.root = some (.Object acc) →
    (∀ a ∈ acc, ∃ s, a.1 = .String s) →
    (∀ a ∈ acc, ∀ x ∈ ms, a.1 ≠ x.1) ∧ Value.distinctObject ms →
    ∃ d1 c1, Document.run d (Value.eventsObject ms) = some d1 ∧
      Document.Filled d d1 m
        ({ value := { inKey := false, depth := m }, valueCount := c1 } :: st)
        (.Object (acc ++ ms)) ∧ c1 % 2 = 0
  | [], _, d, m, c, st, acc, h1, h2, hc, h3, _, _ => by
    refine ⟨d, c, rfl, ⟨d.root, d.key_, ?_, ?_⟩, hc⟩
    · rw [List.append_nil]; exact putAt_self m h3
    · obtain ⟨root, stack, key, see⟩ := d
      simp only at h1 h2
      subst h1 h2
      rfl
  | (key, value) :: ms, hk, d, m, c, st, acc, h1, h2, hc, h3, hacc, hd => by
    obtain ⟨⟨s, hs⟩, hkv, hkms⟩ :
        (∃ s, key = .String s) ∧ value.stringKeys ∧ Value.stringKeysObject ms := by
      simpa only [Value.stringKeysObject] using hk
    subst hs
    have hslot := @slot_member
      { root := d.root,
        stack_ := { value := { inKey := false, depth := m }, valueCount := c + 1 } :: st,
        key_ := .String s,
        seeValue_ := true } m (c + 1) st acc s rfl rfl (by omega) h3 hacc rfl
    obtain ⟨v1, -⟩ := build_value value hkv _ m (c + 1) st _ _ hslot
    obtain ⟨hcond, hrest⟩ := (distinct_step acc ms (.String s) value).1 hd
    obtain ⟨d1, e1, r1, k1, e2, e3⟩ := v1 hcond
    subst e3
    obtain ⟨d2, c2, f1, ⟨r2, k2, f2, f3⟩, f4⟩ := build_object_even ms hkms
      { root := r1,
        stack_ := { value := { inKey := false, depth := m }, valueCount := c + 1 + 1 } :: st,
        key_ := k1,
        seeValue_ := true } m (c + 1 + 1) st (acc ++ [(.String s, value)]) rfl rfl
      (by omega) (nodeAt_putAt m e2) (by
        intro a ha
        rcases List.mem_append.1 ha with h | h
        · exact hacc a h
        · simp only [List.mem_singleton] at h
          exact ⟨s, by rw [h]⟩) hrest
    refine ⟨d2, c2, ?_, ⟨r2, k2, ?_, f3⟩, f4⟩
    · simp only [Value.eventsObject, Value.getStringView, Option.getD_some, Document.run,
        key_step s h1 h2 hc h3, Option.some_bind, document_run_append, e1]
      exact f1
    · simp only [putAt_putAt m e2, List.append_assoc, List.singleton_append] at f2
      exact f2

/-- The call of StartArray or StartObject where a container accepts a value -/
theorem slot_open {d : Document} {n c : Nat} {below : List Document.Level} {ok : Prop}
    {ins : Value → Value} (hs : Document.Slot d n c below ok ins) (hok : ok) (E : Value)
    (open_ : Event) (hopen : ∀ d, Document.handle d open_ = d.start E) :
    ∃ r1 kf, Value.nodeAt (n + 1) r1 = some E ∧
      ∀ rest, Document.run d (open_ :: rest) =
        Document.run
          { root := r1,
            stack_ := { value := { inKey := false, depth := n + 1 }, valueCount := 0 } ::
              { value := { inKey := false, depth := n }, valueCount := c + 1 } :: below,
            key_ := kf,
            seeValue_ := true } rest := by
  obtain ⟨s1, s2, ⟨c0, s3⟩, s4, s5, s6, s7⟩ := hs
  obtain ⟨kf, hadd⟩ := s6 hok
  obtain ⟨r1, hr1⟩ := putAt_some n s3 (ins E)
  refine ⟨r1, kf, ?_, fun rest => ?_⟩
  · simp only [Value.nodeAt, nodeAt_putAt n hr1, Option.some_bind, s4]
  · simp only [Document.run, hopen, Document.start, hadd, hr1, Option.map_some',
      Option.some_bind]

/-- What is shown of the events `v` of a value that is not finished: where a
container accepts a value, unless `v` is empty, no assertion fails -/
theorem open_elements (d1 : Document) (m c : Nat) (st : List Document.Level)
    (h1 : d1.seeValue_ = true)
    (h2 : d1.stack_ = { value := { inKey := false, depth := m }, valueCount := c } :: st)
    (h3 : Value.nodeAt m d1.root = some (.Array [])) {es v : List Event} (hes : Elements es)
    (fr : List (List (List Nat))) (hscan : scanKeys fr (es ++ v) = true)
    (hv : ∀ fr, scanKeys fr v = true → ∀ (d : Document) (n c : Nat)
      (below : List Document.Level) (ok : Prop) (ins : Value → Value),
      Document.Slot d n c below ok ins → (v ≠ [] → ok) → ∃ d2, Document.run d v = some d2) :
    ∃ d2, Document.run d1 (es ++ v) = some d2 := by
  obtain ⟨xs, hk, rfl⟩ := (wellNested_value es.length).2.1 es (Nat.le_refl _) hes
  obtain ⟨hd, hscan2⟩ := scan_array xs hk _ _ hscan
  obtain ⟨d2, c2, e1, r, k, e2, e3⟩ := (build_array xs hk d1 m c st [] h1 h2 h3).1 hd
  subst e3
  obtain ⟨d3, e4⟩ := hv fr hscan2 _ m c2 st True _
    (@slot_array
      { root := r,
        stack_ := { value := { inKey := false, depth := m }, valueCount := c2 } :: st,
        key_ := k,
        seeValue_ := true } m c2 st _ rfl rfl (nodeAt_putAt m e2)) (fun _ => trivial)
  exact ⟨d3, by rw [document_run_append, e1]; exact e4⟩

theorem open_members (d1 : Document) (m : Nat) (st : List Document.Level)
    (h1 : d1.seeValue_ = true)
    (h2 : d1.stack_ = { value := { inKey := false, depth := m }, valueCount := 0 } :: st)
    (h3 : Value.nodeAt m d1.root = some (.Object [])) {ms : List Event} (hms : Members ms)
    (fr : List (List (List Nat))) :
    (scanKeys ([] :: fr) ms = true → ∃ d2, Document.run d1 ms = some d2) ∧
    (∀ (k : List Nat) (v : List Event), scanKeys ([] :: fr) (ms ++ .Key k :: v) = true →
      (∀ fr, scanKeys fr v = true → ∀ (d : Document) (n c : Nat)
        (below : List Document.Level) (ok : Prop) (ins : Value → Value),
        Document.Slot d n c below ok ins → (v ≠ [] → ok) →
        ∃ d2, Document.run d v = some d2) →
      ∃ d2, Document.run d1 (ms ++ .Key k :: v) = some d2) := by
  obtain ⟨o, hk, rfl⟩ := (wellNested_value ms.length).2.2 ms (Nat.le_refl _) hms
  have hbuild : Value.distinctObject o → ∃ d2 c2, Document.run d1 (Value.eventsObject o) =
      some d2 ∧ Document.Filled d1 d2 m
        ({ value := { inKey := false, depth := m }, valueCount := c2 } :: st) (.Object o) ∧
      c2 % 2 = 0 := by
    intro hd
    have := build_object_even o hk d1 m 0 st [] h1 h2 rfl h3
      (fun a ha => absurd ha (List.not_mem_nil a))
      ⟨fun a ha => absurd ha (List.not_mem_nil a), hd⟩
    simpa only [List.nil_append] using this
  constructor
  · intro hscan
    have hscan2 : scanKeys ([] :: fr) (Value.eventsObject o ++ []) = true := by
      rw [List.append_nil]; exact hscan
    obtain ⟨-, hd, -⟩ := scan_object o hk _ _ _ hscan2
    obtain ⟨d2, c2, e1, -, -⟩ := hbuild hd
    exact ⟨d2, e1⟩
  · intro k v hscan hv
    obtain ⟨-, hd, ks1, hscan2, hkeys, -⟩ := scan_object o hk _ _ _ hscan
    simp only [scanKeys, Bool.and_eq_true, decide_eq_true_eq] at hscan2
    obtain ⟨hfresh, hscan3⟩ := hscan2
    obtain ⟨d2, c2, e1, ⟨r, k2, e2, e3⟩, hc2⟩ := hbuild hd
    subst e3
    have hn := nodeAt_putAt m e2
    have hkey := @key_step
      { root := r,
        stack_ := { value := { inKey := false, depth := m }, valueCount := c2 } :: st,
        key_ := k2,
        seeValue_ := true } m c2 st o k rfl rfl hc2 hn
    have hslot := @slot_member
      { root := r,
        stack_ := { value := { inKey := false, depth := m }, valueCount := c2 + 1 } :: st,
        key_ := .String k,
        seeValue_ := true } m (c2 + 1) st o k rfl rfl (by omega) hn
      (stringKeysObject_mem o hk) rfl
    obtain ⟨d3, e4⟩ := hv _ hscan3 _ m (c2 + 1) st _ _ hslot
      (fun _ a ha hak => hfresh (hkeys a ha k hak))
    refine ⟨d3, ?_⟩
    rw [document_run_append, e1]
    simp only [Option.some_bind, Document.run, hkey]
    exact e4

/-- The events of a value that is not finished, without a repeated key, where a
container accepts a value: no assertion of the Document fails -/
theorem build_open {v : List Event} (hv : OpenValue v) :
    ∀ fr, scanKeys fr v = true → ∀ (d : Document) (n c : Nat)
      (below : List Document.Level) (ok : Prop) (ins : Value → Value),
      Document.Slot d n c below ok ins → (v ≠ [] → ok) →
      ∃ d2, Document.run d v = some d2 := by
  induction hv with
  | nothing => exact fun _ _ d _ _ _ _ _ _ _ => ⟨d, rfl⟩
  | array es v hes _ ih =>
    intro fr hscan d n c below ok ins hs hok
    obtain ⟨r1, kf, hn, hrun⟩ := slot_open hs (hok (by simp)) (.Array []) .StartArray
      (fun _ => rfl)
    simp only [scanKeys] at hscan
    obtain ⟨d2, e⟩ := open_elements
      { root := r1,
        stack_ := { value := { inKey := false, depth := n + 1 }, valueCount := 0 } ::
          { value := { inKey := false, depth := n }, valueCount := c + 1 } :: below,
        key_ := kf,
        seeValue_ := true } (n + 1) 0 _ rfl rfl hn hes _ hscan ih
    exact ⟨d2, by rw [hrun]; exact e⟩
  | object ms hms =>
    intro fr hscan d n c below ok ins hs hok
    obtain ⟨r1, kf, hn, hrun⟩ := slot_open hs (hok (by simp)) (.Object []) .StartObject
      (fun _ => rfl)
    simp only [scanKeys] at hscan
    obtain ⟨d2, e⟩ := (open_members
      { root := r1,
        stack_ := { value := { inKey := false, depth := n + 1 }, valueCount := 0 } ::
          { value := { inKey := false, depth := n }, valueCount := c + 1 } :: below,
        key_ := kf,
        seeValue_ := true } (n + 1) _ rfl rfl hn hms fr).1 hscan
    exact ⟨d2, by rw [hrun]; exact e⟩
  | member ms k v hms _ ih =>
    intro fr hscan d n c below ok ins hs hok
    obtain ⟨r1, kf, hn, hrun⟩ := slot_open hs (hok (by simp)) (.Object []) .StartObject
      (fun _ => rfl)
    simp only [scanKeys] at hscan
    obtain ⟨d2, e⟩ := (open_members
      { root := r1,
        stack_ := { value := { inKey := false, depth := n + 1 }, valueCount := 0 } ::
          { value := { inKey := false, depth := n }, valueCount := c + 1 } :: below,
        key_ := kf,
        seeValue_ := true } (n + 1) _ rfl rfl hn hms fr).2 k v hscan ih
    exact ⟨d2, by rw [hrun]; exact e⟩

/-- The events of a value that is not finished, without a repeated key, on a
fresh Document: no assertion fails -/
theorem build_open_root {v : List Event} (hv : OpenValue v)
    (hscan : noDuplicateKeys v = true) : ∃ d2, Document.run Document.init v = some d2 := by
  unfold noDuplicateKeys at hscan
  cases hv with
  | nothing => exact ⟨_, rfl⟩
  | array es v hes hv2 =>
    simp only [scanKeys] at hscan
    exact open_elements
      { root := .Array [],
        stack_ := [{ value := { inKey := false, depth := 0 }, valueCount := 0 }],
        key_ := .Null,
        seeValue_ := true } 0 0 [] rfl rfl rfl hes _ hscan (build_open hv2)
  | object ms hms =>
    simp only [scanKeys] at hscan
    exact (open_members
      { root := .Object [],
        stack_ := [{ value := { inKey := false, depth := 0 }, valueCount := 0 }],
        key_ := .Null,
        seeValue_ := true } 0 [] rfl rfl rfl hms []).1 hscan
  | member ms k v hms hv2 =>
    simp only [scanKeys] at hscan
    exact (open_members
      { root := .Object [],
        stack_ := [{ value := { inKey := false, depth := 0 }, valueCount := 0 }],
        key_ := .Null,
        seeValue_ := true } 0 [] rfl rfl rfl hms []).2 k v hscan (build_open hv2)

/-- The events of one value without a repeated key, on a fresh Document: the
document becomes a value whose keys are strings, and its stack is empty -/
theorem build_wellNested {log : List Event} (hw : WellNested log)
    (hscan : noDuplicateKeys log = true) :
    ∃ d, Document.run Document.init log = some d ∧ d.stack_ = [] ∧ d.root.stringKeys := by
  obtain ⟨V, hk, rfl⟩ := (wellNested_value log.length).1 log (Nat.le_refl _) hw
  have hscan2 : scanKeys [] (V.events ++ []) = true := by
    rw [List.append_nil]; exact hscan
  obtain ⟨k, e⟩ := (build_root V hk).1 (scan_value V hk _ _ hscan2).1
  exact ⟨_, e, rfl, hk⟩

set_option maxRecDepth 100000 in
/-- C32. For every input whose events, those that `Reader::parse` emits, repeat
no key inside one object: the Document that receives them fails none of its
assertions, whatever the parse result; the parse does not return
PARSE_USER_STOPPED; and when it returns PARSE_OK, the stack of the document is
empty and every key in the document is a string.  For the input
`{"a":1,"a":2}`, which repeats a key, the events up to the second Key are
received, and the call of Int32 that follows fails the assertion of addMember
on the key, so that `Document::parse` does not return. -/
theorem document_never_aborts (mem : List Nat) (json : List Nat) :
    (noDuplicateKeys (Reader.parse mem Handler.accept json).log = true →
      (∃ d, Document.run Document.init (Reader.parse mem Handler.accept json).log = some d) ∧
      (∀ err log, Reader.parse mem Handler.accept json = .returned err log →
        err ≠ .PARSE_USER_STOPPED ∧
        ∃ d, Document.parse mem json = .returned err d ∧
          (err = .PARSE_OK → d.stack_ = [] ∧ d.root.stringKeys))) ∧
    (noDuplicateKeys (Reader.parse mem Handler.accept (bytes "\x7b\"a\":1,\"a\":2\x7d")).log = false ∧
      (Document.run Document.init [.StartObject, .Key [97], .Int32 1, .Key [97]]).isSome = true ∧
      (Document.run Document.init [.StartObject, .Key [97], .Int32 1, .Key [97], .Int32 2]).isSome
        = false ∧
      (Value.Object [(.String [97], .Int32 1)]).addMember (.String [97]) (.Int32 2) = none ∧
      Document.parse mem (bytes "\x7b\"a\":1,\"a\":2\x7d") = .aborted) := by
  refine ⟨fun hd => ?_, rfl, rfl, rfl, rfl, document_parse_duplicate mem⟩
  have hrun : ∃ d, Document.run Document.init (Reader.parse mem Handler.accept json).log =
      some d := by
    rcases parse_log_shape json with h | h
    · obtain ⟨d, e, -⟩ := build_wellNested h hd
      exact ⟨d, e⟩
    · exact build_open_root h hd
  refine ⟨hrun, fun err log hp => ⟨fun he => ?_, ?_⟩⟩
  · rw [he] at hp
    exact parse_accept_not_stopped json log hp
  · rw [hp] at hd hrun
    simp only [Reader.Outcome.log] at hd hrun
    by_cases hok : err = .PARSE_OK
    · subst hok
      obtain ⟨d, e, h1, h2⟩ := build_wellNested (parse_ok_wellNested _ _ _ hp) hd
      exact ⟨d, by simp only [Document.parse, hp, e], fun _ => ⟨h1, h2⟩⟩
    · obtain ⟨d, e⟩ := hrun
      exact ⟨d, by simp only [Document.parse, hp, e], fun h => absurd h hok⟩

set_option maxRecDepth 100000 in
/-- C32, witness: the input `{"a":1,"b":[2,`, which ends in an array that is
open, and the input `{"a":1,"b":2}` -/
theorem document_never_aborts_witness :
    (Reader.parse [] Handler.accept (bytes "\x7b\"a\":1,\"b\":[2,") =
        .returned .PARSE_EXPECT_VALUE [.StartObject, .Key [97], .Int32 1, .Key [98],
          .StartArray, .Int32 2] ∧
      ∃ d, Document.run Document.init
        (Reader.parse [] Handler.accept (bytes "\x7b\"a\":1,\"b\":[2,")).log = some d) ∧
    (∃ d, Document.parse [] (bytes "\x7b\"a\":1,\"b\":2\x7d") = .returned .PARSE_OK d ∧
      d.stack_ = [] ∧ d.root.stringKeys) :=
  ⟨⟨by decide, ((document_never_aborts [] (bytes "\x7b\"a\":1,\"b\":[2,")).1 (by decide)).1⟩,
    ((((document_never_aborts [] (bytes "\x7b\"a\":1,\"b\":2\x7d")).1 (by decide)).2 .PARSE_OK
      [.StartObject, .Key [97], .Int32 1, .Key [98], .Int32 2, .EndObject] (by decide)).2).imp
      fun _ h => ⟨h.1, h.2 rfl⟩⟩
/-! ## The C library's conversions of doubles, as rational numbers -/

theorem decLengthFuel_spec (fuel n : Nat) (h : n ≤ fuel) (hn : 0 < n) :
    10 ^ (decLengthFuel fuel n - 1) ≤ n ∧ n < 10 ^ decLengthFuel fuel n ∧
      1 ≤ decLengthFuel fuel n := by
  induction fuel generalizing n with
  | zero => omega
  | succ fuel ih =>
    have hn0 : n ≠ 0 := by omega
    simp only [decLengthFuel, if_neg hn0]
    by_cases h1 : n / 10 = 0
    · have : n < 10 := by omega
      have e : decLengthFuel fuel (n / 10) = 0 := by
        rw [h1]
        cases fuel <;> simp [decLengthFuel]
      rw [e]
      simp
      omega
    · obtain ⟨a, b, c⟩ := ih (n / 10) (by omega) (by omega)
      have e : decLengthFuel fuel (n / 10) + 1 - 1 = (decLengthFuel fuel (n / 10) - 1) + 1 := by
        omega
      rw [e, pow_succ, pow_succ]
      omega

theorem decLength_spec (n : Nat) (hn : 0 < n) :
    10 ^ (decLength n - 1) ≤ n ∧ n < 10 ^ decLength n ∧ 1 ≤ decLength n :=
  decLengthFuel_spec n n (Nat.le_refl n) hn

/-- The pair that scaleBy gives is the fraction divided by the power -/
theorem scaleBy_val (b num den : Nat) (e : Int) (hb : 0 < b) (hden : 0 < den) :
    0 < (scaleBy b num den e).2 ∧
    ((scaleBy b num den e).1 : ℚ) / ((scaleBy b num den e).2 : ℚ) =
      (num : ℚ) / (den : ℚ) / (b : ℚ) ^ e := by
  have hbq : (b : ℚ) ≠ 0 := by positivity
  have hdq : (den : ℚ) ≠ 0 := by positivity
  unfold scaleBy
  by_cases he : 0 ≤ e
  · rw [if_pos he]
    obtain ⟨k, rfl⟩ := Int.eq_ofNat_of_zero_le he
    refine ⟨by positivity, ?_⟩
    simp only [Int.toNat_ofNat, Nat.cast_mul, Nat.cast_pow, zpow_natCast]
    field_simp
  · rw [if_neg he]
    obtain ⟨k, hk⟩ := Int.exists_eq_neg_ofNat (by omega : e ≤ 0)
    subst hk
    refine ⟨hden, ?_⟩
    simp only [neg_neg, Int.toNat_ofNat, Nat.cast_mul, Nat.cast_pow, zpow_neg, zpow_natCast]
    field_simp

/-- The estimate of a logarithm from the numbers of digits, corrected by one
comparison, is the floor of the logarithm of the fraction -/
theorem floorLog_core (B num den a b : Nat) (hB : 1 < B)
    (hn : B ^ (a - 1) ≤ num ∧ num < B ^ a ∧ 1 ≤ a)
    (hd : B ^ (b - 1) ≤ den ∧ den < B ^ b ∧ 1 ≤ b) :
    (B : ℚ) ^ (if (scaleBy B num den ((a : Int) - (b : Int))).1 <
          (scaleBy B num den ((a : Int) - (b : Int))).2
        then (a : Int) - (b : Int) - 1 else (a : Int) - (b : Int)) ≤ (num : ℚ) / (den : ℚ) ∧
    (num : ℚ) / (den : ℚ) <
      (B : ℚ) ^ ((if (scaleBy B num den ((a : Int) - (b : Int))).1 <
          (scaleBy B num den ((a : Int) - (b : Int))).2
        then (a : Int) - (b : Int) - 1 else (a : Int) - (b : Int)) + 1) := by
  obtain ⟨n1, n2, n3⟩ := hn
  obtain ⟨d1, d2, d3⟩ := hd
  have hBq : (0 : ℚ) < (B : ℚ) := by positivity
  have hB0 : (B : ℚ) ≠ 0 := ne_of_gt hBq
  have hden : 0 < den := lt_of_lt_of_le (by positivity) d1
  have hdenq : (0 : ℚ) < (den : ℚ) := by exact_mod_cast hden
  have n1q : (B : ℚ) ^ (a - 1) ≤ (num : ℚ) := by exact_mod_cast n1
  have n2q : (num : ℚ) < (B : ℚ) ^ a := by exact_mod_cast n2
  have d1q : (B : ℚ) ^ (b - 1) ≤ (den : ℚ) := by exact_mod_cast d1
  have d2q : (den : ℚ) < (B : ℚ) ^ b := by exact_mod_cast d2
  have ea : (B : ℚ) ^ a = (B : ℚ) ^ (a - 1) * B := by
    rw [← pow_succ]; congr 1; omega
  have eb : (B : ℚ) ^ b = (B : ℚ) ^ (b - 1) * B := by
    rw [← pow_succ]; congr 1; omega
  have hk : (B : ℚ) ^ ((a : Int) - (b : Int)) = (B : ℚ) ^ a / (B : ℚ) ^ b := by
    rw [zpow_sub₀ hB0, zpow_natCast, zpow_natCast]
  have hk1 : (B : ℚ) ^ ((a : Int) - (b : Int) - 1) = (B : ℚ) ^ a / (B : ℚ) ^ b / B := by
    rw [zpow_sub₀ hB0, hk, zpow_one]
  have hk2 : (B : ℚ) ^ ((a : Int) - (b : Int) + 1) = (B : ℚ) ^ a / (B : ℚ) ^ b * B := by
    rw [zpow_add₀ hB0, hk, zpow_one]
  have hpa : (0 : ℚ) < (B : ℚ) ^ (a - 1) := by positivity
  have hpb : (0 : ℚ) < (B : ℚ) ^ (b - 1) := by positivity
  obtain ⟨s2, sv⟩ := scaleBy_val B num den ((a : Int) - (b : Int)) (by omega) hden
  have s2q : (0 : ℚ) < ((scaleBy B num den ((a : Int) - (b : Int))).2 : ℚ) := by
    exact_mod_cast s2
  have hlt : (scaleBy B num den ((a : Int) - (b : Int))).1 <
      (scaleBy B num den ((a : Int) - (b : Int))).2 ↔
      (num : ℚ) / (den : ℚ) < (B : ℚ) ^ ((a : Int) - (b : Int)) := by
    have hpk : (0 : ℚ) < (B : ℚ) ^ ((a : Int) - (b : Int)) := by positivity
    rw [← Nat.cast_lt (α := ℚ), ← div_lt_one s2q, sv, div_lt_one hpk]
  -- the fraction lies between the two powers around the estimate
  have lo : (B : ℚ) ^ a / (B : ℚ) ^ b / B ≤ (num : ℚ) / (den : ℚ) := by
    rw [ea, eb]
    generalize (B : ℚ) ^ (a - 1) = P at *
    generalize (B : ℚ) ^ (b - 1) = Q at *
    have e1 : P * B / (Q * B) / B = P / (Q * B) := by
      field_simp
      ring
    rw [e1, div_le_div_iff₀ (by positivity) hdenq]
    have h1 : P * den ≤ P * (Q * B) := by
      apply mul_le_mul_of_nonneg_left (le_of_lt (by linarith)) (le_of_lt hpa)
    have h2 : P * (Q * B) ≤ num * (Q * B) := by
      apply mul_le_mul_of_nonneg_right n1q (by positivity)
    linarith
  have hi : (num : ℚ) / (den : ℚ) < (B : ℚ) ^ a / (B : ℚ) ^ b * B := by
    rw [ea, eb]
    generalize (B : ℚ) ^ (a - 1) = P at *
    generalize (B : ℚ) ^ (b - 1) = Q at *
    have e1 : P * B / (Q * B) * B = P * B / Q := by
      field_simp
      ring
    rw [e1, div_lt_div_iff₀ hdenq hpb]
    have h1 : (num : ℚ) * Q < P * B * Q := by
      apply mul_lt_mul_of_pos_right (by linarith) hpb
    have h2 : P * B * Q ≤ P * B * den := by
      apply mul_le_mul_of_nonneg_left d1q (by positivity)
    linarith
  by_cases hc : (scaleBy B num den ((a : Int) - (b : Int))).1 <
      (scaleBy B num den ((a : Int) - (b : Int))).2
  · rw [if_pos hc, hk1]
    have := hlt.1 hc
    refine ⟨lo, ?_⟩
    rw [sub_add_cancel]
    exact this
  · rw [if_neg hc, hk2]
    have := fun h => hc (hlt.2 h)
    exact ⟨not_lt.1 this, hi⟩

theorem floorLog2_spec (num den : Nat) (hnum : 0 < num) (hden : 0 < den) :
    (2 : ℚ) ^ (floorLog2 num den) ≤ (num : ℚ) / (den : ℚ) ∧
    (num : ℚ) / (den : ℚ) < (2 : ℚ) ^ (floorLog2 num den + 1) := by
  have := floorLog_core 2 num den (bitLength num) (bitLength den) (by omega)
    (bitLength_spec num hnum) (bitLength_spec den hden)
  simpa only [floorLog2, Nat.cast_ofNat] using this

theorem floorLog10_spec (num den : Nat) (hnum : 0 < num) (hden : 0 < den) :
    (10 : ℚ) ^ (floorLog10 num den) ≤ (num : ℚ) / (den : ℚ) ∧
    (num : ℚ) / (den : ℚ) < (10 : ℚ) ^ (floorLog10 num den + 1) := by
  have := floorLog_core 10 num den (decLength num) (decLength den) (by omega)
    (decLength_spec num hnum) (decLength_spec den hden)
  simpa only [floorLog10, Nat.cast_ofNat] using this

/-- The rounded quotient is within one half of the fraction -/
theorem roundHalfEven_near (num den : Nat) (hden : 0 < den) :
    |(roundHalfEven num den : ℚ) - (num : ℚ) / (den : ℚ)| ≤ 1 / 2 := by
  have hdq : (0 : ℚ) < (den : ℚ) := by exact_mod_cast hden
  have hsplit : (num : ℚ) / (den : ℚ) = ((num / den : Nat) : ℚ) + ((num % den : Nat) : ℚ) / den := by
    have := Nat.div_add_mod num den
    have e : (num : ℚ) = (den : ℚ) * ((num / den : Nat) : ℚ) + ((num % den : Nat) : ℚ) := by
      exact_mod_cast this.symm
    rw [e]
    field_simp
    ring
  have hr : (num % den : Nat) < den := Nat.mod_lt _ hden
  have hrq : ((num % den : Nat) : ℚ) < (den : ℚ) := by exact_mod_cast hr
  have hr0 : (0 : ℚ) ≤ ((num % den : Nat) : ℚ) := by positivity
  unfold roundHalfEven
  simp only
  rw [hsplit]
  by_cases h1 : 2 * (num % den) < den
  · rw [if_pos h1]
    have h1q : 2 * ((num % den : Nat) : ℚ) < (den : ℚ) := by exact_mod_cast h1
    rw [abs_le]
    constructor
    · have : ((num % den : Nat) : ℚ) / den ≤ 1 / 2 := by
        rw [div_le_iff₀ hdq]; linarith
      linarith
    · have : 0 ≤ ((num % den : Nat) : ℚ) / den := by positivity
      linarith
  · rw [if_neg h1]
    by_cases h2 : den < 2 * (num % den)
    · rw [if_pos h2]
      have h2q : (den : ℚ) < 2 * ((num % den : Nat) : ℚ) := by exact_mod_cast h2
      have a : 1 / 2 ≤ ((num % den : Nat) : ℚ) / den := by
        rw [le_div_iff₀ hdq]; linarith
      have b : ((num % den : Nat) : ℚ) / den ≤ 1 := by
        rw [div_le_iff₀ hdq]; linarith
      push_cast
      rw [abs_le]
      constructor <;> linarith
    · rw [if_neg h2]
      have e : 2 * (num % den) = den := by omega
      have eq : 2 * ((num % den : Nat) : ℚ) = (den : ℚ) := by exact_mod_cast e
      have a : ((num % den : Nat) : ℚ) / den = 1 / 2 := by
        rw [div_eq_iff (ne_of_gt hdq)]; linarith
      rw [a]
      by_cases h3 : num / den % 2 = 0
      · rw [if_pos h3, abs_le]
        constructor <;> linarith
      · rw [if_neg h3]
        push_cast
        rw [abs_le]
        constructor <;> linarith

/-- The natural number within less than one half of the fraction is the
rounded quotient -/
theorem roundHalfEven_eq (num den k : Nat) (hden : 0 < den)
    (h : |(k : ℚ) - (num : ℚ) / (den : ℚ)| < 1 / 2) : roundHalfEven num den = k := by
  have h1 := roundHalfEven_near num den hden
  have h2 : |(roundHalfEven num den : ℚ) - (k : ℚ)| < 1 := by
    have e : (roundHalfEven num den : ℚ) - (k : ℚ) =
        ((roundHalfEven num den : ℚ) - (num : ℚ) / (den : ℚ)) -
          ((k : ℚ) - (num : ℚ) / (den : ℚ)) := by ring
    rw [e]
    calc |((roundHalfEven num den : ℚ) - (num : ℚ) / (den : ℚ)) -
          ((k : ℚ) - (num : ℚ) / (den : ℚ))|
        ≤ |(roundHalfEven num den : ℚ) - (num : ℚ) / (den : ℚ)| +
          |(k : ℚ) - (num : ℚ) / (den : ℚ)| := abs_sub _ _
      _ < 1 := by linarith
  rw [abs_lt] at h2
  have a : ((roundHalfEven num den : Int) : ℚ) - ((k : Int) : ℚ) < 1 := by
    push_cast; exact h2.2
  have b : -1 < ((roundHalfEven num den : Int) : ℚ) - ((k : Int) : ℚ) := by
    push_cast; exact h2.1
  have a' : (roundHalfEven num den : Int) - (k : Int) < 1 := by exact_mod_cast a
  have b' : -1 < (roundHalfEven num den : Int) - (k : Int) := by exact_mod_cast b
  omega
/-! ## Rounding to the nearest double -/

/-- The floor of the logarithm is the one exponent whose power and the next
enclose the fraction -/
theorem floorLog2_eq (num den : Nat) (hnum : 0 < num) (hden : 0 < den) (f : Int)
    (h1 : (2 : ℚ) ^ f ≤ (num : ℚ) / (den : ℚ)) (h2 : (num : ℚ) / (den : ℚ) < (2 : ℚ) ^ (f + 1)) :
    floorLog2 num den = f := by
  obtain ⟨a, b⟩ := floorLog2_spec num den hnum hden
  by_contra hne
  rcases lt_or_gt_of_ne hne with h | h
  · have : (2 : ℚ) ^ (floorLog2 num den + 1) ≤ (2 : ℚ) ^ f :=
      zpow_le_zpow_right₀ (by norm_num) (by omega)
    linarith
  · have : (2 : ℚ) ^ (f + 1) ≤ (2 : ℚ) ^ (floorLog2 num den) :=
      zpow_le_zpow_right₀ (by norm_num) (by omega)
    linarith

theorem floorLog10_eq (num den : Nat) (hnum : 0 < num) (hden : 0 < den) (f : Int)
    (h1 : (10 : ℚ) ^ f ≤ (num : ℚ) / (den : ℚ))
    (h2 : (num : ℚ) / (den : ℚ) < (10 : ℚ) ^ (f + 1)) :
    floorLog10 num den = f := by
  obtain ⟨a, b⟩ := floorLog10_spec num den hnum hden
  by_contra hne
  rcases lt_or_gt_of_ne hne with h | h
  · have : (10 : ℚ) ^ (floorLog10 num den + 1) ≤ (10 : ℚ) ^ f :=
      zpow_le_zpow_right₀ (by norm_num) (by omega)
    linarith
  · have : (10 : ℚ) ^ (f + 1) ≤ (10 : ℚ) ^ (floorLog10 num den) :=
      zpow_le_zpow_right₀ (by norm_num) (by omega)
    linarith

theorem roundToDouble_eq (neg : Bool) (num den : Nat) (hnum : num ≠ 0) :
    Libc.roundToDouble neg num den =
      if 971 < (if roundHalfEven (scaleBy 2 num den (floorLog2 num den - 52)).1
            (scaleBy 2 num den (floorLog2 num den - 52)).2 = 2 ^ 53
          then floorLog2 num den - 52 + 1 else floorLog2 num den - 52) then none
      else if -1074 ≤ (if roundHalfEven (scaleBy 2 num den (floorLog2 num den - 52)).1
            (scaleBy 2 num den (floorLog2 num den - 52)).2 = 2 ^ 53
          then floorLog2 num den - 52 + 1 else floorLog2 num den - 52) then
        some (.fin neg
          (if roundHalfEven (scaleBy 2 num den (floorLog2 num den - 52)).1
            (scaleBy 2 num den (floorLog2 num den - 52)).2 = 2 ^ 53
          then 2 ^ 52 else roundHalfEven (scaleBy 2 num den (floorLog2 num den - 52)).1
            (scaleBy 2 num den (floorLog2 num den - 52)).2)
          (if roundHalfEven (scaleBy 2 num den (floorLog2 num den - 52)).1
            (scaleBy 2 num den (floorLog2 num den - 52)).2 = 2 ^ 53
          then floorLog2 num den - 52 + 1 else floorLog2 num den - 52))
      else
        if (scaleBy 2 num den (-1074)).1 % (scaleBy 2 num den (-1074)).2 = 0 then
          some (.fin neg ((scaleBy 2 num den (-1074)).1 / (scaleBy 2 num den (-1074)).2) (-1074))
        else none := by
  unfold Libc.roundToDouble
  rw [if_neg hnum]

/-- A fraction within the relative distance `10^-16 / 2` of a normal double is
rounded to that double: the spacing of the doubles around it is more than
`2^-53` of its value, and `2^53 < 10^16`. -/
theorem roundToDouble_near (neg : Bool) (num den m : Nat) (e : Int) (hden : 0 < den)
    (hm1 : 2 ^ 52 ≤ m) (hm2 : m < 2 ^ 53) (he1 : -1074 ≤ e) (he2 : e ≤ 971)
    (hclose : 2 * 10 ^ 16 * |(num : ℚ) / (den : ℚ) - (m : ℚ) * (2 : ℚ) ^ e| ≤
      (m : ℚ) * (2 : ℚ) ^ e) :
    Libc.roundToDouble neg num den = some (.fin neg m e) := by
  have hP : (0 : ℚ) < (2 : ℚ) ^ e := by positivity
  have hm1n : 4503599627370496 ≤ m := by omega
  have hm2n : m + 1 ≤ 9007199254740992 := by omega
  have hm1q : (4503599627370496 : ℚ) ≤ (m : ℚ) := by exact_mod_cast hm1n
  have hm2q : (m : ℚ) + 1 ≤ (9007199254740992 : ℚ) := by exact_mod_cast hm2n
  have hdq : (0 : ℚ) < (den : ℚ) := by exact_mod_cast hden
  obtain ⟨w, hw⟩ : ∃ w : ℚ, (num : ℚ) / (den : ℚ) = w * (2 : ℚ) ^ e :=
    ⟨(num : ℚ) / (den : ℚ) / (2 : ℚ) ^ e, by field_simp; ring⟩
  have hval : ∀ k : Int, (num : ℚ) / (den : ℚ) / (2 : ℚ) ^ k = w * (2 : ℚ) ^ (e - k) := by
    intro k
    rw [hw, zpow_sub₀ (by norm_num : (2 : ℚ) ≠ 0)]
    field_simp
  rw [hw] at hclose
  have e1 : w * (2 : ℚ) ^ e - (m : ℚ) * (2 : ℚ) ^ e = (w - m) * (2 : ℚ) ^ e := by ring
  rw [e1, abs_mul, abs_of_pos hP, ← mul_assoc] at hclose
  have hc : 2 * 10 ^ 16 * |w - (m : ℚ)| ≤ (m : ℚ) := le_of_mul_le_mul_right hclose hP
  have hc1 : 2 * 10 ^ 16 * (w - (m : ℚ)) ≤ (m : ℚ) :=
    le_trans (mul_le_mul_of_nonneg_left (le_abs_self _) (by norm_num)) hc
  have hc2 : 2 * 10 ^ 16 * ((m : ℚ) - w) ≤ (m : ℚ) := by
    have := le_trans (mul_le_mul_of_nonneg_left (neg_le_abs (w - (m : ℚ))) (by norm_num)) hc
    linarith
  norm_num at hc1 hc2
  have hwpos : 0 < w := by linarith
  have hnumq : (0 : ℚ) < (num : ℚ) / (den : ℚ) := by rw [hw]; positivity
  have hnum : 0 < num := by
    rcases Nat.eq_zero_or_pos num with h | h
    · rw [h] at hnumq; simp at hnumq
    · exact h
  rw [roundToDouble_eq neg num den (by omega)]
  by_cases hA : (2 : ℚ) ^ 52 ≤ w
  · -- the fraction is in the binade of the double
    have hfl : floorLog2 num den = e + 52 := by
      apply floorLog2_eq num den hnum hden
      · rw [hw, zpow_add₀ (by norm_num : (2 : ℚ) ≠ 0), mul_comm]
        exact mul_le_mul_of_nonneg_right (by exact_mod_cast hA) (le_of_lt hP)
      · rw [hw, show e + 52 + 1 = e + 53 by ring, zpow_add₀ (by norm_num : (2 : ℚ) ≠ 0),
          mul_comm ((2 : ℚ) ^ e)]
        apply mul_lt_mul_of_pos_right _ hP
        norm_num
        norm_num at hA
        linarith
    obtain ⟨s2, sv⟩ := scaleBy_val 2 num den e (by decide) hden
    have hr : roundHalfEven (scaleBy 2 num den e).1 (scaleBy 2 num den e).2 = m := by
      apply roundHalfEven_eq _ _ _ s2
      rw [sv]
      have := hval e
      rw [Nat.cast_ofNat, this, sub_self, zpow_zero, mul_one, abs_lt]
      constructor <;> linarith
    rw [hfl, show e + 52 - 52 = e by ring, hr]
    have h53 : m ≠ 2 ^ 53 := by omega
    rw [if_neg h53, if_neg h53, if_neg (by omega), if_pos he1]
  · -- the fraction is just below the least double of the binade
    norm_num at hA
    have hm : m = 2 ^ 52 := by
      have : (m : ℚ) < (4503599627370497 : ℚ) := by linarith
      have : m < 4503599627370497 := by exact_mod_cast this
      omega
    have hmq : (m : ℚ) = 4503599627370496 := by rw [hm]; norm_num
    rw [hmq] at hc1 hc2
    have hfl : floorLog2 num den = e + 51 := by
      apply floorLog2_eq num den hnum hden
      · rw [hw, zpow_add₀ (by norm_num : (2 : ℚ) ≠ 0), mul_comm]
        apply mul_le_mul_of_nonneg_right _ (le_of_lt hP)
        norm_num
        linarith
      · rw [hw, show e + 51 + 1 = e + 52 by ring, zpow_add₀ (by norm_num : (2 : ℚ) ≠ 0),
          mul_comm ((2 : ℚ) ^ e)]
        apply mul_lt_mul_of_pos_right _ hP
        norm_num
        linarith
    obtain ⟨s2, sv⟩ := scaleBy_val 2 num den (e - 1) (by decide) hden
    have hr : roundHalfEven (scaleBy 2 num den (e - 1)).1 (scaleBy 2 num den (e - 1)).2 =
        2 ^ 53 := by
      apply roundHalfEven_eq _ _ _ s2
      rw [sv]
      have := hval (e - 1)
      rw [Nat.cast_ofNat, this, show e - (e - 1) = 1 by ring, zpow_one, abs_lt]
      norm_num
      constructor <;> linarith
    rw [hfl, show e + 51 - 52 = e - 1 by ring, hr, if_pos rfl, if_pos rfl,
      show e - 1 + 1 = e by ring, if_neg (by omega), if_pos he1, hm]
/-! ## The seventeen digits of `%.17g` -/

/-- The text of `%.17g` for a positive mantissa, from its seventeen digits `d`
and its decimal exponent `x`: the number printed, `d * 10 ^ (x - 16)`, is
within the relative distance `10^-16 / 2` of the double. -/
theorem sprintf17g_digits (neg : Bool) (m : Nat) (e : Int) (hm : 0 < m) :
    ∃ (d : Nat) (x : Int), 10 ^ 16 ≤ d ∧ d < 10 ^ 17 ∧
      2 * 10 ^ 16 * |(d : ℚ) * (10 : ℚ) ^ (x - 16) - (m : ℚ) * (2 : ℚ) ^ e| ≤
        (m : ℚ) * (2 : ℚ) ^ e ∧
      Libc.sprintf17g neg m e =
        if x < -4 ∨ 17 ≤ x then
          signText neg ++ (decDigits 17 d).take 1 ++ Libc.fraction ((decDigits 17 d).drop 1) ++
            [101] ++ (if x < 0 then [45] else [43]) ++
            decDigits (max 2 (decLength x.natAbs)) x.natAbs
        else if 0 ≤ x then
          signText neg ++ (decDigits 17 d).take (x.toNat + 1) ++
            Libc.fraction ((decDigits 17 d).drop (x.toNat + 1))
        else
          signText neg ++ [48] ++
            Libc.fraction (List.replicate ((-x).toNat - 1) 48 ++ decDigits 17 d) := by
  have hm0 : m ≠ 0 := by omega
  have hmq : (0 : ℚ) < (m : ℚ) := by exact_mod_cast hm
  have hV : (0 : ℚ) < (m : ℚ) * (2 : ℚ) ^ e := by positivity
  obtain ⟨v2, vv⟩ := scaleBy_val 2 m 1 (-e) (by decide) (by decide)
  have vv2 : ((scaleBy 2 m 1 (-e)).1 : ℚ) / ((scaleBy 2 m 1 (-e)).2 : ℚ) =
      (m : ℚ) * (2 : ℚ) ^ e := by
    rw [vv, zpow_neg]
    simp
  have v1 : 0 < (scaleBy 2 m 1 (-e)).1 := by
    rcases Nat.eq_zero_or_pos (scaleBy 2 m 1 (-e)).1 with h | h
    · rw [h, Nat.cast_zero, zero_div] at vv2
      linarith
    · exact h
  obtain ⟨l1, l2⟩ := floorLog10_spec _ _ v1 v2
  rw [vv2] at l1 l2
  obtain ⟨s2, sv⟩ := scaleBy_val 10 (scaleBy 2 m 1 (-e)).1 (scaleBy 2 m 1 (-e)).2
    (floorLog10 (scaleBy 2 m 1 (-e)).1 (scaleBy 2 m 1 (-e)).2 - 16) (by decide) v2
  rw [vv2] at sv
  have hn := roundHalfEven_near
    (scaleBy 10 (scaleBy 2 m 1 (-e)).1 (scaleBy 2 m 1 (-e)).2
      (floorLog10 (scaleBy 2 m 1 (-e)).1 (scaleBy 2 m 1 (-e)).2 - 16)).1
    (scaleBy 10 (scaleBy 2 m 1 (-e)).1 (scaleBy 2 m 1 (-e)).2
      (floorLog10 (scaleBy 2 m 1 (-e)).1 (scaleBy 2 m 1 (-e)).2 - 16)).2 s2
  rw [sv] at hn
  refine ⟨if roundHalfEven
      (scaleBy 10 (scaleBy 2 m 1 (-e)).1 (scaleBy 2 m 1 (-e)).2
        (floorLog10 (scaleBy 2 m 1 (-e)).1 (scaleBy 2 m 1 (-e)).2 - 16)).1
      (scaleBy 10 (scaleBy 2 m 1 (-e)).1 (scaleBy 2 m 1 (-e)).2
        (floorLog10 (scaleBy 2 m 1 (-e)).1 (scaleBy 2 m 1 (-e)).2 - 16)).2 = 10 ^ 17
      then 10 ^ 16 else roundHalfEven
      (scaleBy 10 (scaleBy 2 m 1 (-e)).1 (scaleBy 2 m 1 (-e)).2
        (floorLog10 (scaleBy 2 m 1 (-e)).1 (scaleBy 2 m 1 (-e)).2 - 16)).1
      (scaleBy 10 (scaleBy 2 m 1 (-e)).1 (scaleBy 2 m 1 (-e)).2
        (floorLog10 (scaleBy 2 m 1 (-e)).1 (scaleBy 2 m 1 (-e)).2 - 16)).2,
    if roundHalfEven
      (scaleBy 10 (scaleBy 2 m 1 (-e)).1 (scaleBy 2 m 1 (-e)).2
        (floorLog10 (scaleBy 2 m 1 (-e)).1 (scaleBy 2 m 1 (-e)).2 - 16)).1
      (scaleBy 10 (scaleBy 2 m 1 (-e)).1 (scaleBy 2 m 1 (-e)).2
        (floorLog10 (scaleBy 2 m 1 (-e)).1 (scaleBy 2 m 1 (-e)).2 - 16)).2 = 10 ^ 17
      then floorLog10 (scaleBy 2 m 1 (-e)).1 (scaleBy 2 m 1 (-e)).2 + 1
      else floorLog10 (scaleBy 2 m 1 (-e)).1 (scaleBy 2 m 1 (-e)).2, ?_, ?_, ?_, ?_⟩
  rotate_left 3
  · unfold Libc.sprintf17g
    rw [if_neg hm0]
    rfl
  all_goals
    generalize roundHalfEven
      (scaleBy 10 (scaleBy 2 m 1 (-e)).1 (scaleBy 2 m 1 (-e)).2
        (floorLog10 (scaleBy 2 m 1 (-e)).1 (scaleBy 2 m 1 (-e)).2 - 16)).1
      (scaleBy 10 (scaleBy 2 m 1 (-e)).1 (scaleBy 2 m 1 (-e)).2
        (floorLog10 (scaleBy 2 m 1 (-e)).1 (scaleBy 2 m 1 (-e)).2 - 16)).2 = d1 at hn ⊢
  all_goals
    generalize floorLog10 (scaleBy 2 m 1 (-e)).1 (scaleBy 2 m 1 (-e)).2 = x1 at hn l1 l2 ⊢
    generalize hVe : (m : ℚ) * (2 : ℚ) ^ e = V at hn l1 l2 hV ⊢
    have hT : (0 : ℚ) < (10 : ℚ) ^ (x1 - 16) := by positivity
    have e1 : (10 : ℚ) ^ x1 = 10 ^ 16 * (10 : ℚ) ^ (x1 - 16) := by
      rw [zpow_sub₀ (by norm_num : (10 : ℚ) ≠ 0)]
      field_simp
      ring
    have e2 : (10 : ℚ) ^ (x1 + 1) = 10 ^ 17 * (10 : ℚ) ^ (x1 - 16) := by
      rw [zpow_sub₀ (by norm_num : (10 : ℚ) ≠ 0), zpow_add₀ (by norm_num : (10 : ℚ) ≠ 0)]
      field_simp
      ring
    have e3 : (10 : ℚ) ^ (x1 + 1 - 16) = 10 * (10 : ℚ) ^ (x1 - 16) := by
      rw [show x1 + 1 - 16 = (x1 - 16) + 1 by ring, zpow_add₀ (by norm_num : (10 : ℚ) ≠ 0)]
      ring
    rw [e1] at l1
    rw [e2] at l2
    generalize hTe : (10 : ℚ) ^ (x1 - 16) = T at *
    obtain ⟨S, hS⟩ : ∃ S : ℚ, V = S * T := ⟨V / T, by field_simp⟩
    have hVT : V / T = S := by rw [hS]; field_simp
    rw [hVT] at hn
    rw [hS] at l1 l2
    have s1 : (10 : ℚ) ^ 16 ≤ S := le_of_mul_le_mul_right l1 hT
    have s2 : S < (10 : ℚ) ^ 17 := lt_of_mul_lt_mul_right l2 (le_of_lt hT)
    rw [abs_le] at hn
    have d1lo : ((9999999999999999 : Nat) : ℚ) < (d1 : ℚ) := by push_cast; linarith
    have d1hi : (d1 : ℚ) < ((100000000000000001 : Nat) : ℚ) := by push_cast; linarith
    have d1lo' : 9999999999999999 < d1 := by exact_mod_cast d1lo
    have d1hi' : d1 < 100000000000000001 := by exact_mod_cast d1hi
  · by_cases h : d1 = 10 ^ 17
    · rw [if_pos h]
    · rw [if_neg h]; omega
  · by_cases h : d1 = 10 ^ 17
    · rw [if_pos h]; norm_num
    · rw [if_neg h]; omega
  · have key : (if d1 = 10 ^ 17 then ((10 ^ 16 : Nat) : ℚ) else (d1 : ℚ)) *
        (if d1 = 10 ^ 17 then 10 * T else T) = (d1 : ℚ) * T := by
      by_cases h : d1 = 10 ^ 17
      · rw [if_pos h, if_pos h, h]
        push_cast
        ring
      · rw [if_neg h, if_neg h]
    have key2 : ((if d1 = 10 ^ 17 then 10 ^ 16 else d1 : Nat) : ℚ) *
        (10 : ℚ) ^ ((if d1 = 10 ^ 17 then x1 + 1 else x1) - 16) = (d1 : ℚ) * T := by
      rw [← key]
      by_cases h : d1 = 10 ^ 17
      · simp only [if_pos h, e3]
      · simp only [if_neg h, hTe]
    rw [key2, hS]
    have e4 : (d1 : ℚ) * T - S * T = ((d1 : ℚ) - S) * T := by ring
    rw [e4, abs_mul, abs_of_pos hT]
    have h1 : |(d1 : ℚ) - S| * T ≤ 1 / 2 * T :=
      mul_le_mul_of_nonneg_right (abs_le.2 hn) (le_of_lt hT)
    linarith
/-! ## Digit strings with and without their trailing zeros -/

theorem allDigits_append {a b : List Nat} :
    allDigits (a ++ b) = true ↔ allDigits a = true ∧ allDigits b = true := by
  simp [allDigits, List.all_append]

theorem allDigits_replicate (k : Nat) : allDigits (List.replicate k 48) = true := by
  induction k with
  | zero => rfl
  | succ k ih =>
    rw [List.replicate_succ, Reader.allDigits_cons]
    exact ⟨by decide, ih⟩

theorem allDigits_decDigits (w : Nat) : ∀ n : Nat, allDigits (decDigits w n) = true := by
  induction w with
  | zero => intro n; rfl
  | succ w ih =>
    intro n
    rw [decDigits, allDigits_append]
    refine ⟨ih _, ?_⟩
    rw [Reader.allDigits_cons, Reader.isDigit_iff]
    exact ⟨by omega, rfl⟩

theorem allDigits_take {l : List Nat} (h : allDigits l = true) (k : Nat) :
    allDigits (l.take k) = true := by
  have := List.take_append_drop k l
  rw [← this, allDigits_append] at h
  exact h.1

theorem allDigits_drop {l : List Nat} (h : allDigits l = true) (k : Nat) :
    allDigits (l.drop k) = true := by
  have := List.take_append_drop k l
  rw [← this, allDigits_append] at h
  exact h.2

/-- A digit string is its stripped form followed by zeros -/
theorem stripZeros_spec (ds : List Nat) :
    ∃ k, ds = Libc.stripZeros ds ++ List.replicate k 48 := by
  have h := List.takeWhile_append_dropWhile (fun c : Nat => decide (c = 48)) ds.reverse
  have h2 : ds = (ds.reverse.dropWhile (fun c : Nat => decide (c = 48))).reverse ++
      (ds.reverse.takeWhile (fun c : Nat => decide (c = 48))).reverse := by
    rw [← List.reverse_append, h, List.reverse_reverse]
  have h3 : ∀ l : List Nat, ∃ k, l.takeWhile (fun c : Nat => decide (c = 48)) =
      List.replicate k 48 := by
    intro l
    induction l with
    | nil => exact ⟨0, rfl⟩
    | cons c cs ih =>
      by_cases hc : c = 48
      · obtain ⟨k, hk⟩ := ih
        refine ⟨k + 1, ?_⟩
        rw [List.takeWhile_cons, if_pos (by simpa using hc), hk, hc]
        rfl
      · refine ⟨0, ?_⟩
        rw [List.takeWhile_cons, if_neg (by simpa using hc)]
        rfl
  obtain ⟨k, hk⟩ := h3 ds.reverse
  refine ⟨k, ?_⟩
  rw [hk, List.reverse_replicate] at h2
  exact h2

theorem decimalValue_zeros (l : List Nat) (k : Nat) :
    decimalValue (l ++ List.replicate k 48) = decimalValue l * 10 ^ k := by
  induction k with
  | zero => simp
  | succ k ih =>
    have e : l ++ List.replicate (k + 1) 48 = (l ++ List.replicate k 48) ++ [48] := by
      rw [List.replicate_succ', List.append_assoc]
    rw [e, decimalValue_append, ih, pow_succ]
    ring

theorem decimalValue_leading (k : Nat) (l : List Nat) :
    decimalValue (List.replicate k 48 ++ l) = decimalValue l := by
  induction k with
  | zero => rfl
  | succ k ih =>
    rw [List.replicate_succ, List.cons_append]
    have : decimalValue (48 :: (List.replicate k 48 ++ l)) =
        decimalValue (List.replicate k 48 ++ l) := by
      simp [decimalValue]
    rw [this, ih]

/-- The number that digits before and after a point denote does not change
when the trailing zeros of the fraction are removed -/
theorem decimal_stripped (a b : List Nat) (X : Int) :
    (decimalValue (a ++ Libc.stripZeros b) : ℚ) *
        (10 : ℚ) ^ (X - ((Libc.stripZeros b).length : Int)) =
      (decimalValue (a ++ b) : ℚ) * (10 : ℚ) ^ (X - (b.length : Int)) := by
  obtain ⟨k, hk⟩ := stripZeros_spec b
  have h1 : decimalValue (a ++ b) = decimalValue (a ++ Libc.stripZeros b) * 10 ^ k := by
    conv_lhs => rw [hk, ← List.append_assoc, decimalValue_zeros]
  have h2 : (b.length : Int) = ((Libc.stripZeros b).length : Int) + (k : Int) := by
    conv_lhs => rw [hk, List.length_append, List.length_replicate]
    push_cast
    rfl
  have h3 : (10 : ℚ) ^ (X - ((Libc.stripZeros b).length : Int)) =
      (10 : ℚ) ^ k * (10 : ℚ) ^ (X - (((Libc.stripZeros b).length : Int) + (k : Int))) := by
    rw [← zpow_natCast, ← zpow_add₀ (by norm_num : (10 : ℚ) ≠ 0)]
    congr 1
    ring
  rw [h1, h2, h3]
  push_cast
  ring

/-- A digit string that is stripped to nothing has zeros only -/
theorem stripZeros_nil {ds : List Nat} (h : Libc.stripZeros ds = []) :
    ∀ c ∈ ds, c = 48 := by
  obtain ⟨k, hk⟩ := stripZeros_spec ds
  rw [h, List.nil_append] at hk
  intro c hc
  rw [hk] at hc
  exact (List.mem_replicate.1 hc).2

theorem stripZeros_allDigits {ds : List Nat} (h : allDigits ds = true) :
    allDigits (Libc.stripZeros ds) = true := by
  obtain ⟨k, hk⟩ := stripZeros_spec ds
  rw [hk, allDigits_append] at h
  exact h.1

/-- The seventeen digits of a number of seventeen digits: the first is not a
zero, and they denote the number -/
theorem decDigits_seventeen (d : Nat) (h1 : 10 ^ 16 ≤ d) (h2 : d < 10 ^ 17) :
    ∃ c cs, decDigits 17 d = c :: cs ∧ 49 ≤ c ∧ c ≤ 57 ∧ allDigits cs = true ∧
      cs.length = 16 ∧ decimalValue (c :: cs) = d := by
  obtain ⟨cs, e, hcs⟩ := decDigits_head 16 d h2
  have hl := decDigits_length 17 d
  have hv := decimalValue_decDigits 17 d h2
  rw [e] at hl hv
  refine ⟨_, cs, e, ?_, ?_, hcs, by simpa using hl, hv⟩
  · have : 1 ≤ d / 10 ^ 16 := by
      rw [Nat.le_div_iff_mul_le (by positivity)]
      omega
    omega
  · have : d / 10 ^ 16 < 10 := by
      rw [Nat.div_lt_iff_lt_mul (by positivity)]
      omega
    omega

/-- No digit is a point -/
theorem allDigits_noPoint {l : List Nat} (h : allDigits l = true) :
    l.all (fun c => decide (c ≠ 46)) = true := by
  rw [List.all_eq_true]
  intro c hc
  have := (List.all_eq_true.1 h) c hc
  rw [Reader.isDigit_iff] at this
  simp only [ne_eq, decide_not, Bool.not_eq_true', decide_eq_false_iff_not]
  omega

theorem signText_noPoint (neg : Bool) :
    (signText neg).all (fun c => decide (c ≠ 46)) = true := by
  cases neg <;> rfl
/-! ## The text of a double is converted back to the double -/

/-- `strtod` on digits that denote a number within the relative distance
`10^-16 / 2` of a normal double gives that double -/
theorem strtodOf_near (neg : Bool) {ip fd : List Nat} (X : Int) (m : Nat) (e : Int)
    (hip : allDigits ip = true) (hfd : allDigits fd = true) (hne : ip ≠ [])
    (hm1 : 2 ^ 52 ≤ m) (hm2 : m < 2 ^ 53) (he1 : -1074 ≤ e) (he2 : e ≤ 971)
    (hclose : 2 * 10 ^ 16 *
      |(decimalValue (ip ++ fd) : ℚ) * (10 : ℚ) ^ (X - (fd.length : Int)) -
        (m : ℚ) * (2 : ℚ) ^ e| ≤ (m : ℚ) * (2 : ℚ) ^ e) :
    strtodOf neg ip fd X = .value (.fin neg m e) := by
  have hn : Libc.digitsValue 0 (ip ++ fd) = decimalValue (ip ++ fd) := by
    have := @Reader.digitsValue_digits (ip ++ fd) (allDigits_append.2 ⟨hip, hfd⟩) [] rfl
    simpa using this
  obtain ⟨q2, qv⟩ := scaleBy_val 10 (decimalValue (ip ++ fd)) 1 (-(X - (fd.length : Int)))
    (by decide) (by decide)
  have hq : ((scaleBy 10 (decimalValue (ip ++ fd)) 1 (-(X - (fd.length : Int)))).1 : ℚ) /
      ((scaleBy 10 (decimalValue (ip ++ fd)) 1 (-(X - (fd.length : Int)))).2 : ℚ) =
      (decimalValue (ip ++ fd) : ℚ) * (10 : ℚ) ^ (X - (fd.length : Int)) := by
    rw [qv, zpow_neg]
    simp
  have := roundToDouble_near neg _ _ m e q2 hm1 hm2 he1 he2 (by rw [hq]; exact hclose)
  unfold strtodOf
  rw [if_neg (fun h => hne h.1)]
  simp only [hn, this]

/-- The value of an exponent with a sign -/
theorem exponentValue_signed (sg : Nat) (hsg : sg = 45 ∨ sg = 43) {ed : List Nat}
    (hed : allDigits ed = true) (hne : ed ≠ []) :
    Libc.exponentValue (101 :: sg :: ed) =
      if sg = 45 then -(decimalValue ed : Int) else (decimalValue ed : Int) := by
  obtain ⟨d, ds, rfl⟩ := List.exists_cons_of_ne_nil hne
  have hd := (Reader.isDigit_iff d).1 (Reader.allDigits_cons.1 hed).1
  have hv : Libc.digitsValue 0 (d :: ds) = decimalValue (d :: ds) := by
    have := @Reader.digitsValue_digits (d :: ds) hed [] rfl
    simpa using this
  have nd : ¬(d = 45 ∨ d = 43) := by omega
  unfold Libc.exponentValue
  rcases hsg with rfl | rfl
  · simp only [Reader.peek_cons, Reader.advance_cons, true_or, or_true, if_true, if_pos hd,
      decide_True, hv]
  · simp only [Reader.peek_cons, Reader.advance_cons, true_or, or_true, if_true, if_pos hd,
      show ¬((43 : Nat) = 45) by decide, decide_False, Bool.false_eq_true, if_false, hv]

/-- A number token with a fraction is a text of the grammar that denotes the
double to which `strtod` converts it -/
theorem valueText_double (neg : Bool) {ip fd es ed : List Nat} (hip : isIntPart ip = true)
    (hfd : allDigits fd = true) (hfdne : fd ≠ []) (hep : isExpPart es ed = true) (d : Dbl)
    (hd : strtodOf neg ip fd (Libc.exponentValue (es ++ ed)) = .value d) :
    ValueText true (signText neg ++ ip ++ 46 :: (fd ++ (es ++ ed))) [.Double d] := by
  obtain ⟨hall, hne⟩ := Reader.isIntPart_allDigits hip
  have hW : Reader.isDigit (peek (es ++ ed)) = false := by
    rcases Reader.isExpPart_cases hep with ⟨rfl, rfl⟩ | ⟨c, sg, d, ds, rfl, rfl, hc, -⟩
    · rfl
    · rw [List.cons_append, Reader.peek_cons, Reader.isDigit_false_iff]
      omega
  have hs := (Reader.strtod_constant neg hall hne hfd hW).1.1
  have hfp : isFracPart (46 :: fd) = true := by
    obtain ⟨a, t, rfl⟩ := List.exists_cons_of_ne_nil hfdne
    simp only [isFracPart, beq_self_eq_true, List.isEmpty_cons, Bool.not_false, Bool.true_and]
    exact hfd
  have he : numberEvent neg ip (46 :: fd) es ed [] = some (.Double d) := by
    unfold numberEvent
    rw [if_pos (Or.inl (by simp))]
    have e1 : signText neg ++ ip ++ (46 :: fd ++ (es ++ ed)) =
        signText neg ++ ip ++ 46 :: (fd ++ (es ++ ed)) := rfl
    rw [e1, hs, hd]
  have := @ValueText.number true neg ip (46 :: fd) es ed [] hip hfp hep rfl (fun _ => rfl)
    (by rw [he]; intro _; rfl)
  rw [he] at this
  simpa using this
/-! ## The text that `Writer::Double` writes for a regular double -/

theorem exponent_digits (x : Int) (hx : x ≠ 0) :
    allDigits (decDigits (max 2 (decLength x.natAbs)) x.natAbs) = true ∧
    decDigits (max 2 (decLength x.natAbs)) x.natAbs ≠ [] ∧
    decimalValue (decDigits (max 2 (decLength x.natAbs)) x.natAbs) = x.natAbs := by
  refine ⟨allDigits_decDigits _ _, ?_, ?_⟩
  · intro h
    have := decDigits_length (max 2 (decLength x.natAbs)) x.natAbs
    rw [h] at this
    have h2 : 2 ≤ max 2 (decLength x.natAbs) := le_max_left _ _
    simp only [List.length_nil] at this
    omega
  · apply decimalValue_decDigits
    obtain ⟨-, h2, -⟩ := decLength_spec x.natAbs (by omega)
    exact lt_of_lt_of_le h2 (Nat.pow_le_pow_right (by decide) (le_max_right _ _))

/-- The text that `Writer::Double` writes for a normal double is a number of
the grammar that denotes the double, unless it is the exponent form without a
decimal point: the seventeen digits of `%.17g` are within the relative distance
`10^-16 / 2` of the double, and `strtod` rounds them back to it. -/
theorem normal_reads_back (neg : Bool) (m : Nat) (e : Int) (hm1 : 2 ^ 52 ≤ m)
    (hm2 : m < 2 ^ 53) (he1 : -1074 ≤ e) (he2 : e ≤ 971)
    (hpt : exponentOnly (Libc.sprintf17g neg m e) = false) :
    ValueText true (Writer.doubleText (.fin neg m e)) [.Double (.fin neg m e)] := by
  have hm : 0 < m := lt_of_lt_of_le (by decide) hm1
  obtain ⟨d, x, hd1, hd2, hclose, htext⟩ := sprintf17g_digits neg m e hm
  obtain ⟨c, cs, hds, hc1, hc2, hcs, hlen, hval⟩ := decDigits_seventeen d hd1 hd2
  rw [hds] at htext
  have hc : Reader.isDigit c = true := by rw [Reader.isDigit_iff]; omega
  have hc19 : Reader.isDigit19 c = true := by rw [Reader.isDigit19_iff]; omega
  have hc46 : c ≠ 46 := by omega
  have hc48 : c ≠ 48 := by omega
  have hall : allDigits (c :: cs) = true := Reader.allDigits_cons.2 ⟨hc, hcs⟩
  -- the conversion of digits that denote the number printed
  have key : ∀ (ip fd : List Nat) (X : Int), allDigits ip = true → allDigits fd = true →
      ip ≠ [] →
      (decimalValue (ip ++ fd) : ℚ) * (10 : ℚ) ^ (X - (fd.length : Int)) =
        (d : ℚ) * (10 : ℚ) ^ (x - 16) →
      strtodOf neg ip fd X = .value (.fin neg m e) := by
    intro ip fd X h1 h2 h3 h4
    exact strtodOf_near neg X m e h1 h2 h3 hm1 hm2 he1 he2 (by rw [h4]; exact hclose)
  have hdt : Writer.doubleText (.fin neg m e) =
      if (Libc.sprintf17g neg m e).all (fun c => decide (c ≠ 46)) = true
      then Libc.sprintf17g neg m e ++ bytes ".0" else Libc.sprintf17g neg m e := rfl
  rw [hdt]
  by_cases hS : x < -4 ∨ 17 ≤ x
  · -- the exponent form
    rw [if_pos hS] at htext
    obtain ⟨hed, hedne, hedv⟩ := exponent_digits x (by omega)
    obtain ⟨sg, hsg, hsgl, hsgv⟩ : ∃ sg : Nat, (sg = 45 ∨ sg = 43) ∧
        (if x < 0 then [45] else [43]) = [sg] ∧
        (if sg = 45 then -((x.natAbs : Nat) : Int) else ((x.natAbs : Nat) : Int)) = x := by
      by_cases hx : x < 0
      · exact ⟨45, Or.inl rfl, by rw [if_pos hx], by rw [if_pos rfl]; omega⟩
      · exact ⟨43, Or.inr rfl, by rw [if_neg hx], by rw [if_neg (by decide)]; omega⟩
    rw [hsgl] at htext
    simp only [List.take_succ_cons, List.take_zero, List.drop_succ_cons, List.drop_zero]
      at htext
    have hsg46 : sg ≠ 46 := by omega
    by_cases hz : Libc.stripZeros cs = []
    · exfalso
      have hf : Libc.fraction cs = [] := by unfold Libc.fraction; rw [if_pos hz]
      rw [htext, hf] at hpt
      have a1 : ∀ y ∈ signText neg, ¬y = 46 := by cases neg <;> simp [signText]
      have a2 : 46 ∉ decDigits (max 2 (decLength x.natAbs)) x.natAbs := by
        intro h
        have := List.all_eq_true.1 hed 46 h
        simp [Reader.isDigit] at this
      simp [exponentOnly, List.all_append, List.any_append, *] at hpt
      exact a1 46 hpt rfl
    · have hf : Libc.fraction cs = 46 :: Libc.stripZeros cs := by
        unfold Libc.fraction; rw [if_neg hz]
      rw [hf] at htext
      have hno : (Libc.sprintf17g neg m e).all (fun c => decide (c ≠ 46)) = false := by
        rw [htext]
        simp [List.all_append]
      rw [hno, if_neg (by decide), htext]
      have e1 : signText neg ++ [c] ++ 46 :: Libc.stripZeros cs ++ [101] ++ [sg] ++
          decDigits (max 2 (decLength x.natAbs)) x.natAbs =
          signText neg ++ [c] ++ 46 :: (Libc.stripZeros cs ++
            ([101, sg] ++ decDigits (max 2 (decLength x.natAbs)) x.natAbs)) := by
        simp [List.append_assoc]
      rw [e1]
      apply valueText_double neg (by simp [isIntPart, hc19, allDigits])
        (stripZeros_allDigits hcs) hz
      · simp only [isExpPart, beq_self_eq_true, Bool.true_or, Bool.true_and, Bool.and_eq_true,
          Bool.not_eq_true', List.isEmpty_eq_false, ne_eq]
        refine ⟨⟨?_, hedne⟩, hed⟩
        rcases hsg with rfl | rfl <;> decide
      · rw [show [101, sg] ++ decDigits (max 2 (decLength x.natAbs)) x.natAbs =
          101 :: sg :: decDigits (max 2 (decLength x.natAbs)) x.natAbs from rfl,
          exponentValue_signed sg hsg hed hedne, hedv, hsgv]
        apply key _ _ _ (by simp [allDigits, hc]) (stripZeros_allDigits hcs) (by simp)
        rw [decimal_stripped [c] cs x, hlen]
        have : [c] ++ cs = c :: cs := rfl
        rw [this, hval]
        rfl
  · rw [if_neg hS] at htext
    by_cases h0 : 0 ≤ x
    · -- the fixed form of a number that is at least 1
      rw [if_pos h0] at htext
      obtain ⟨k, hk⟩ : ∃ k : Nat, x = (k : Int) := ⟨x.toNat, by omega⟩
      have hk16 : k ≤ 16 := by omega
      have hkn : x.toNat = k := by omega
      rw [hkn] at htext
      simp only [List.take_succ_cons, List.drop_succ_cons] at htext
      have htk : allDigits (cs.take k) = true := allDigits_take hcs k
      have hip : isIntPart (c :: cs.take k) = true := by
        simp only [isIntPart, Bool.or_eq_true, Bool.and_eq_true, beq_iff_eq]
        exact Or.inr ⟨hc19, htk⟩
      have hipd : allDigits (c :: cs.take k) = true := Reader.allDigits_cons.2 ⟨hc, htk⟩
      have hdl : ((cs.drop k).length : Int) = 16 - (k : Int) := by
        rw [List.length_drop, hlen]
        omega
      have hv0 := decimal_stripped (c :: cs.take k) (cs.drop k) 0
      have e0 : (c :: cs.take k) ++ cs.drop k = c :: cs := by
        rw [List.cons_append, List.take_append_drop]
      rw [e0, hval, hdl, show (0 : Int) - (16 - (k : Int)) = x - 16 by omega] at hv0
      by_cases hz : Libc.stripZeros (cs.drop k) = []
      · have hf : Libc.fraction (cs.drop k) = [] := by unfold Libc.fraction; rw [if_pos hz]
        rw [hf, List.append_nil] at htext
        have hno : (Libc.sprintf17g neg m e).all (fun c => decide (c ≠ 46)) = true := by
          rw [htext, List.all_append, signText_noPoint, allDigits_noPoint hipd]
          rfl
        rw [hno, if_pos rfl, htext]
        have e1 : signText neg ++ c :: cs.take k ++ bytes ".0" =
            signText neg ++ (c :: cs.take k) ++ 46 :: ([48] ++ ([] ++ [])) := by
          simp [bytes, List.append_assoc]
        rw [e1]
        apply valueText_double neg hip (by decide) (by simp) (by decide)
        apply key _ _ _ hipd (by decide) (by simp)
        have hv1 := decimal_stripped (c :: cs.take k) [48] 0
        have hs48 : Libc.stripZeros [48] = [] := by decide
        rw [hs48] at hv1
        rw [hz] at hv0
        rw [show Libc.exponentValue ([] ++ []) = 0 from rfl, ← hv1, hv0]
      · have hf : Libc.fraction (cs.drop k) = 46 :: Libc.stripZeros (cs.drop k) := by
          unfold Libc.fraction; rw [if_neg hz]
        rw [hf] at htext
        have hno : (Libc.sprintf17g neg m e).all (fun c => decide (c ≠ 46)) = false := by
          rw [htext]
          simp [List.all_append]
        rw [hno, if_neg (by decide), htext]
        have e1 : signText neg ++ c :: cs.take k ++ 46 :: Libc.stripZeros (cs.drop k) =
            signText neg ++ (c :: cs.take k) ++
              46 :: (Libc.stripZeros (cs.drop k) ++ ([] ++ [])) := by
          simp [List.append_assoc]
        rw [e1]
        apply valueText_double neg hip (stripZeros_allDigits (allDigits_drop hcs k)) hz
          (by decide)
        apply key _ _ _ hipd (stripZeros_allDigits (allDigits_drop hcs k)) (by simp)
        rw [show Libc.exponentValue ([] ++ []) = 0 from rfl, hv0]
    · -- the fixed form of a number below 1
      rw [if_neg h0] at htext
      obtain ⟨j, hj⟩ : ∃ j : Nat, (-x).toNat - 1 = j := ⟨_, rfl⟩
      rw [hj] at htext
      have hbd : allDigits (List.replicate j 48 ++ c :: cs) = true :=
        allDigits_append.2 ⟨allDigits_replicate j, hall⟩
      have hz : Libc.stripZeros (List.replicate j 48 ++ c :: cs) ≠ [] := by
        intro h
        exact hc48 (stripZeros_nil h c (by simp))
      have hf : Libc.fraction (List.replicate j 48 ++ c :: cs) =
          46 :: Libc.stripZeros (List.replicate j 48 ++ c :: cs) := by
        unfold Libc.fraction; rw [if_neg hz]
      rw [hf] at htext
      have hno : (Libc.sprintf17g neg m e).all (fun c => decide (c ≠ 46)) = false := by
        rw [htext]
        simp [List.all_append]
      rw [hno, if_neg (by decide), htext]
      have e1 : signText neg ++ [48] ++ 46 :: Libc.stripZeros (List.replicate j 48 ++ c :: cs) =
          signText neg ++ [48] ++
            46 :: (Libc.stripZeros (List.replicate j 48 ++ c :: cs) ++ ([] ++ [])) := by
        simp [List.append_assoc]
      rw [e1]
      apply valueText_double neg (by decide) (stripZeros_allDigits hbd) hz (by decide)
      apply key _ _ _ (by decide) (stripZeros_allDigits hbd) (by simp)
      rw [show Libc.exponentValue ([] ++ []) = 0 from rfl,
        decimal_stripped [48] (List.replicate j 48 ++ c :: cs) 0]
      have e2 : [48] ++ (List.replicate j 48 ++ c :: cs) =
          List.replicate (j + 1) 48 ++ c :: cs := by
        rw [List.replicate_succ]
        rfl
      rw [e2, decimalValue_leading, hval, List.length_append, List.length_replicate,
        List.length_cons, hlen]
      have e3 : (0 : Int) - ((j + (16 + 1) : Nat) : Int) = x - 16 := by
        push_cast
        omega
      rw [e3]

/-- The text that `Writer::Double` writes for a regular double is a text of
the grammar; it denotes the double, the positive infinity for an infinity. -/
theorem double_reads_back (d : Dbl) (h : d.regular) :
    ValueText true (Writer.doubleText d) [narrow (.Double d)] := by
  match d, h with
  | .nan, _ => exact ValueText.litNaN
  | .inf _, _ => exact ValueText.litInfinity
  | .fin neg m e, h =>
    have hn : narrow (.Double (.fin neg m e)) = .Double (.fin neg m e) := rfl
    rw [hn]
    rcases h with ⟨rfl, rfl⟩ | ⟨h1, h2, h3, h4, h5⟩
    · have ht : Writer.doubleText (.fin neg 0 (-1074)) =
          signText neg ++ [48] ++ 46 :: ([48] ++ ([] ++ [])) := by
        cases neg <;> decide
      rw [ht]
      apply valueText_double neg (by decide) (by decide) (by simp) (by decide)
      cases neg <;> decide
    · exact normal_reads_back neg m e h1 h2 h3 h4 h5
mutual

/-- For a plain value: the events of writeTo, the text that the Writer makes of
them, and the value of the grammar that this text is -/
theorem value_rt : ∀ (V : Value), V.plain → ∃ evs text,
    (∀ log, V.writeTo Handler.accept log = .returned true (log ++ evs)) ∧
    (∀ w w1, Writer.separator w V.getType = some w1 →
      Writer.run w evs = some (w1.put text)) ∧
    ValueText true text (evs.map narrow)
  | .Null, _ =>
    writeTo_scalar .Null .Null Reader.lit_null (fun _ => rfl) (fun _ => rfl) ValueText.litNull
  | .Bool true, _ =>
    writeTo_scalar (.Bool true) (.Bool true) Reader.lit_true (fun _ => rfl) (fun _ => rfl)
      ValueText.litTrue
  | .Bool false, _ =>
    writeTo_scalar (.Bool false) (.Bool false) Reader.lit_false (fun _ => rfl) (fun _ => rfl)
      ValueText.litFalse
  | .Int32 i32, h => by
    have h32 : fitsInt32 i32 := by simpa only [Value.plain] using h
    obtain ⟨ip, i1, i2, i3⟩ := itoa32_text i32 h32
    refine writeTo_scalar (.Int32 i32) (.Int32 i32) (signText (decide (i32 < 0)) ++ ip)
      (fun _ => rfl) (fun w => ?_) ?_
    · simp only [Writer.handle, Writer.Int32, i3, Value.getType]
    · have := valueText_int _ ip i32 i1 i2 (fitsInt64_of_fitsInt32 h32)
      simpa only [narrow, if_pos h32] using this
  | .Int64 i64, h => by
    have h64 : fitsInt64 i64 := by simpa only [Value.plain] using h
    obtain ⟨ip, i1, i2, i3⟩ := itoa64_text i64 h64
    refine writeTo_scalar (.Int64 i64) (.Int64 i64) (signText (decide (i64 < 0)) ++ ip)
      (fun _ => rfl) (fun w => ?_) (valueText_int _ ip i64 i1 i2 h64)
    simp only [Writer.handle, Writer.Int64, i3, Value.getType]
  | .Double d, h => by
    have hd := double_reads_back d (by simpa only [Value.plain] using h)
    exact writeTo_scalar (.Double d) (.Double d) (Writer.doubleText d) (fun _ => rfl)
      (fun _ => rfl) hd
  | .String s, _ => by
    refine writeTo_scalar (.String s) (.String s) (34 :: (s.flatMap Writer.escape ++ [34]))
      (fun _ => rfl) (fun w => ?_) (ValueText.string _ s (strBody_escape s))
    simp only [Writer.handle, Writer.String, Value.getType, Writer.put, List.append_assoc,
      List.singleton_append, List.cons_append, List.nil_append]
  | .Array a, h => by
    have hp : Value.plainArray a := by simpa only [Value.plain] using h
    by_cases ha : a = []
    · subst ha
      refine ⟨[.StartArray, .EndArray], [91, 93], fun log => ?_, fun w w1 hs => ?_,
        ValueText.emptyArray [] rfl⟩
      · simp [Value.writeTo, Value.writeArray, Value.CALL, Handler.accept]
      · simp only [Value.getType] at hs
        simp [Writer.run, Writer.handle, Writer.StartArray, hs, Writer.EndArray, Writer.put]
    · obtain ⟨evs, body, e1, e2, e3⟩ := array_rt a hp ha
      refine ⟨.StartArray :: (evs ++ [.EndArray]), 91 :: body, fun log => ?_,
        fun w w1 hs => ?_, ?_⟩
      · simp [Value.writeTo, e1, Value.CALL, Handler.accept]
      · have hsv := separator_seeValue hs
        simp only [Value.getType] at hs
        have hh : Writer.handle w .StartArray =
            some { stack_ := { inArray := true, valueCount := 0 } :: w1.stack_,
                   os_ := w1.os_ ++ [91], seeValue_ := w1.seeValue_ } := by
          simp [Writer.handle, Writer.StartArray, hs, Writer.put]
        rw [writer_run_cons hh, e2]
        simp [Writer.put, hsv]
      · have := ValueText.array [] body _ rfl e3
        simpa [narrow] using this
  | .Object o, h => by
    have hp : Value.plainObject o := by simpa only [Value.plain] using h
    by_cases ho : o = []
    · subst ho
      refine ⟨[.StartObject, .EndObject], [123, 125], fun log => ?_, fun w w1 hs => ?_,
        ValueText.emptyObject [] rfl⟩
      · simp [Value.writeTo, Value.writeObject, Value.CALL, Handler.accept]
      · simp only [Value.getType] at hs
        simp [Writer.run, Writer.handle, Writer.StartObject, hs, Writer.EndObject, Writer.put]
    · obtain ⟨evs, body, e1, e2, e3⟩ := object_rt o hp ho
      refine ⟨.StartObject :: (evs ++ [.EndObject]), 123 :: body, fun log => ?_,
        fun w w1 hs => ?_, ?_⟩
      · simp [Value.writeTo, e1, Value.CALL, Handler.accept]
      · have hsv := separator_seeValue hs
        simp only [Value.getType] at hs
        have hh : Writer.handle w .StartObject =
            some { stack_ := { inArray := false, valueCount := 0 } :: w1.stack_,
                   os_ := w1.os_ ++ [123], seeValue_ := w1.seeValue_ } := by
          simp [Writer.handle, Writer.StartObject, hs, Writer.put]
        rw [writer_run_cons hh, e2 _ _ _ 0 rfl]
        simp [Writer.put, hsv]
      · have := ValueText.object [] body _ rfl e3
        simpa [narrow] using this

/-- The elements of an array that is not empty, up to the closing bracket -/
theorem array_rt : ∀ (a : List Value), Value.plainArray a → a ≠ [] → ∃ evs body,
    (∀ log, Value.writeArray Handler.accept a log = .returned true (log ++ evs)) ∧
    (∀ (st : List Level) (os : List Nat) (sv : Bool) (k : Nat),
      Writer.run { stack_ := { inArray := true, valueCount := k } :: st, os_ := os,
                   seeValue_ := sv } (evs ++ [.EndArray]) =
        some { stack_ := st, os_ := os ++ (if 0 < k then [44] else []) ++ body,
               seeValue_ := true }) ∧
    ElementsText true body (evs.map narrow ++ [.EndArray])
  | [], _, hne => absurd rfl hne
  | v :: vs, h, _ => by
    have hp : Value.plain v ∧ Value.plainArray vs := by simpa only [Value.plainArray] using h
    obtain ⟨evs1, t1, a1, a2, a3⟩ := value_rt v hp.1
    by_cases hn : vs = []
    · subst hn
      refine ⟨evs1, t1 ++ [93], fun log => ?_, fun st os sv k => ?_, ?_⟩
      · simp only [Value.writeArray, a1]
      · rw [writer_run_append, a2 _ _ (separator_inArray k st os sv _)]
        simp [Writer.run, Writer.handle, Writer.EndArray, Writer.put]
      · have := ElementsText.last t1 [] (evs1.map narrow) a3 rfl
        simpa using this
    · obtain ⟨evs2, body, b1, b2, b3⟩ := array_rt vs hp.2 hn
      refine ⟨evs1 ++ evs2, t1 ++ 44 :: body, fun log => ?_, fun st os sv k => ?_, ?_⟩
      · simp only [Value.writeArray, a1, b1, List.append_assoc]
      · rw [List.append_assoc, writer_run_append, a2 _ _ (separator_inArray k st os sv _)]
        simp only [Option.some_bind, Writer.put]
        rw [b2]
        simp
      · have := ElementsText.more t1 [] [] body (evs1.map narrow) (evs2.map narrow ++ [.EndArray])
          a3 rfl rfl b3
        simpa using this

/-- The members of an object that is not empty, up to the closing bracket -/
theorem object_rt : ∀ (o : List (Value × Value)), Value.plainObject o → o ≠ [] → ∃ evs body,
    (∀ log, Value.writeObject Handler.accept o log = .returned true (log ++ evs)) ∧
    (∀ (st : List Level) (os : List Nat) (sv : Bool) (k : Nat), k % 2 = 0 →
      Writer.run { stack_ := { inArray := false, valueCount := k } :: st, os_ := os,
                   seeValue_ := sv } (evs ++ [.EndObject]) =
        some { stack_ := st, os_ := os ++ (if 0 < k then [44] else []) ++ body,
               seeValue_ := true }) ∧
    MembersText true body (evs.map narrow ++ [.EndObject])
  | [], _, hne => absurd rfl hne
  | (key, value) :: ms, h, _ => by
    have hp : (∃ s, key = .String s ∧ plainKey s) ∧ Value.plain value ∧ Value.plainObject ms := by
      simpa only [Value.plainObject] using h
    obtain ⟨⟨s, hkey, hs⟩, hv, hms⟩ := hp
    obtain ⟨evs1, t1, a1, a2, a3⟩ := value_rt value hv
    have hk : ∀ (st : List Level) (os : List Nat) (sv : Bool) (k : Nat) (evs : List Event),
        k % 2 = 0 →
        Writer.run
          { stack_ := { inArray := false, valueCount := k } :: st, os_ := os, seeValue_ := sv }
          (.Key s :: (evs1 ++ evs)) =
        Writer.run
          { stack_ := { inArray := false, valueCount := k + 2 } :: st,
            os_ := os ++ (if 0 < k then [44] else []) ++ 34 :: (s ++ 34 :: 58 :: t1),
            seeValue_ := true } evs := by
      intro st os sv k evs hk
      have hh : Writer.handle
          { stack_ := { inArray := false, valueCount := k } :: st, os_ := os, seeValue_ := sv }
          (.Key s) =
          some { stack_ := { inArray := false, valueCount := k + 1 } :: st,
                 os_ := os ++ (if 0 < k then [44] else []) ++ 34 :: (s ++ [34]),
                 seeValue_ := true } := by
        simp [Writer.handle, Writer.Key, separator_key k hk, Writer.put]
      rw [writer_run_cons hh, writer_run_append,
        a2 _ _ (separator_member (k + 1) (by omega) st _ true _)]
      simp [Writer.put]
    by_cases hn : ms = []
    · subst hn
      refine ⟨.Key s :: evs1, 34 :: (s ++ 34 :: 58 :: (t1 ++ [125])), fun log => ?_,
        fun st os sv k hk2 => ?_, ?_⟩
      · simp [Value.writeObject, hkey, Value.getStringView, a1]
      · have := hk st os sv k [.EndObject] hk2
        rw [List.cons_append, this]
        simp [Writer.run, Writer.handle, Writer.EndObject, Writer.put]
      · have := MembersText.last s s [] [] t1 [] (evs1.map narrow) (strBody_plainKey s hs) rfl rfl
          a3 rfl
        simpa [narrow] using this
    · obtain ⟨evs2, body, b1, b2, b3⟩ := object_rt ms hms hn
      refine ⟨.Key s :: (evs1 ++ evs2), 34 :: (s ++ 34 :: 58 :: (t1 ++ 44 :: body)),
        fun log => ?_, fun st os sv k hk2 => ?_, ?_⟩
      · simp [Value.writeObject, hkey, Value.getStringView, a1, b1]
      · have := hk st os sv k (evs2 ++ [.EndObject]) hk2
        rw [List.cons_append, List.append_assoc, this, b2 _ _ _ _ (by omega)]
        simp
      · have := MembersText.more s s [] [] t1 [] [] body (evs1.map narrow)
          (evs2.map narrow ++ [.EndObject]) (strBody_plainKey s hs) rfl rfl a3 rfl rfl b3
        simpa [narrow] using this

end

/-! ## The events of a value and the events of its text -/

/-- C2, amended.  For every value of the types of the code (integers within
their declared widths, doubles of the type `double`, keys that are strings)
whose keys have no quote, no backslash and no byte from 0x01 to 0x1F, and whose
doubles are neither subnormal nor written by `%.17g` in exponent form without
a decimal point: writeTo into a Writer over a buffer returns true without a
failed assertion, and the parser on the text written returns PARSE_OK and
emits the events that writeTo emitted, event for event, except that an Int64
event whose value fits 32 bits comes back as the Int32 event of the same value
and the Double event of the negative infinity as that of the positive one.
When the text starts as a number does, and so is a number alone, this holds
in a memory where a byte that is none of a digit, `e` and `E` follows the
buffer. -/
theorem event_idempotence (mem : List Nat) (V : Value) (hV : V.plain) :
    ∃ evs w, V.writeTo Handler.accept [] = .returned true evs ∧
      Writer.run Writer.init evs = some w ∧
      ((startsNumber w.os_ → endsConversion mem) →
        Reader.parse mem Handler.accept w.os_ = .returned .PARSE_OK (evs.map narrow)) := by
  obtain ⟨evs, text, a1, a2, a3⟩ := value_rt V hV
  refine ⟨evs, _, by simpa using a1 [], a2 _ _ (separator_root _), fun hm => ?_⟩
  have := @Reader.parse_valueText mem [] text _ (show allWs [] = true from rfl) a3 []
    fun hs => Reader.endsNumber_nil (hm (by simpa [Writer.put] using hs))
  simpa [Reader.finish, Writer.put, Reader.parseWhiteSpace, hasNext] using this

set_option exponentiation.threshold 2000 in
set_option maxRecDepth 100000 in
/-- C2, the claim as stated fails.  writeTo of the value Int64(42) emits the
event Int64(42), the Writer writes `42`, and the parser on `42` emits
Int32(42).  writeTo of the negative infinity emits Double(-Infinity), the
Writer writes `Infinity`, and the parser emits Double(+Infinity).  writeTo of
the least subnormal double, `2 ^ -1074`, emits its Double event, the Writer
writes `4.9406564584124654e-324`, on which `strtod` reports a range error, and
the parser returns PARSE_NUMBER_TOO_BIG without an event. -/
theorem event_idempotence_counterexample :
    ((Value.Int64 42).writeTo Handler.accept [] = .returned true [.Int64 42] ∧
      (Writer.run Writer.init [.Int64 42]).map (fun w => w.os_) = some (bytes "42") ∧
      Reader.parse [] Handler.accept (bytes "42") = .returned .PARSE_OK [.Int32 42]) ∧
    ((Value.Double (.inf true)).writeTo Handler.accept [] =
        .returned true [.Double (.inf true)] ∧
      (Writer.run Writer.init [.Double (.inf true)]).map (fun w => w.os_) =
        some (bytes "Infinity") ∧
      Reader.parse [] Handler.accept (bytes "Infinity") =
        .returned .PARSE_OK [.Double (.inf false)]) ∧
    ((Value.Double (.fin false 1 (-1074))).writeTo Handler.accept [] =
        .returned true [.Double (.fin false 1 (-1074))] ∧
      (Writer.run Writer.init [.Double (.fin false 1 (-1074))]).map (fun w => w.os_) =
        some (bytes "4.9406564584124654e-324") ∧
      Reader.parse [] Handler.accept (bytes "4.9406564584124654e-324") =
        .returned .PARSE_NUMBER_TOO_BIG []) :=
  ⟨⟨by decide, by decide, by decide⟩, ⟨by decide, by decide, by decide⟩,
    by decide, by decide, by decide⟩

set_option maxRecDepth 100000 in
/-- C2, witness: the value `{"k":[42,-7,"\"\na",NaN,1.5,-Infinity,null,true,{}]}`
with 42 held as an Int64, in a buffer that a NUL follows -/
theorem event_idempotence_witness :
    (Value.Object [(.String [107], .Array [.Int64 42, .Int32 (-7), .String [34, 10, 97],
      .Double .nan, .Double (.fin false 6755399441055744 (-52)), .Double (.inf true), .Null,
      .Bool true, .Object []])]).plain ∧
    ∃ evs w,
      (Value.Object [(.String [107], .Array [.Int64 42, .Int32 (-7), .String [34, 10, 97],
        .Double .nan, .Double (.fin false 6755399441055744 (-52)), .Double (.inf true), .Null,
        .Bool true, .Object []])]).writeTo Handler.accept [] = .returned true evs ∧
      Writer.run Writer.init evs = some w ∧
      ((startsNumber w.os_ → endsConversion []) →
        Reader.parse [] Handler.accept w.os_ = .returned .PARSE_OK (evs.map narrow)) :=
  have h : (Value.Object [(.String [107], .Array [.Int64 42, .Int32 (-7),
      .String [34, 10, 97], .Double .nan, .Double (.fin false 6755399441055744 (-52)),
      .Double (.inf true), .Null, .Bool true, .Object []])]).plain := by
    simp only [Value.plain, Value.plainArray, Value.plainObject, Dbl.regular]
    exact ⟨⟨[107], rfl, by unfold plainKey; decide⟩,
      ⟨by decide, by decide, trivial, trivial,
        Or.inr ⟨by decide, by decide, by decide, by decide, by decide⟩, trivial, trivial,
        trivial, trivial, trivial⟩, trivial⟩
  ⟨h, event_idempotence [] _ h⟩

end goa.json
